import Mathlib

/-!
# A shallow embedding of the streaming JSON parser `stream`

The development follows the Go sources file by file:

* `tokenizer.go`  : `Token`, `Tokenizer`, `Tokenizer.Consume`, `Tokenizer.Close`
* `path.go`       : `PathSegment`, `buildPathFromSegments`, `CompilePattern`,
                    `Parser.updateCachedSegments`
* `dispatcher.go` : `Subscription`, `matchSegments` (Go `match`)
* `event.go`, `value.go`, `state.go`, `errors.go` : the data model
* `parser.go`     : `Parser` and its methods

Conventions.

* A Go `string` is a `List Char` (the sequence of runes that `range` yields);
  byte lengths (`strings.Builder.Len`) are computed by `byteLen`.
* Methods that mutate their receiver return the new receiver.
* The tokenizer hands its tokens to the parser through a callback; here
  `Tokenizer.Consume` returns the tokens it emitted, in order, and the parser
  folds `Parser.OnToken` over them.  The tokenizer never reads parser state,
  so the two formulations agree.
* Handlers are Go closures.  A handler is represented by an identifier and a
  call `sub.Handler(ev)` is recorded in the ghost field `Parser.calls`; every
  call of `Parser.emit` is recorded in the ghost field `Parser.trace`.
* The debug logger is `nil` in a parser built by `NewParser`, so every
  `debugLog*` call is a no-op and is left out.
* `unicode.IsLetter` belongs to the Go standard library; the tokenizer takes
  it as the parameter `isLetter`.
-/

namespace Stream

/-- A Go string, as the sequence of its runes. -/
abbrev Str := List Char

/-- Length in bytes of the UTF-8 encoding, as `len(s)` and `Builder.Len()` report it. -/
def byteLen (s : Str) : Nat := (s.map Char.utf8Size).sum

/-! ## errors.go -/

/-- The sentinel errors of `errors.go`. -/
inductive Error where
  | ErrUnexpectedToken
  | ErrInvalidState
  | ErrInvalidPattern
  | ErrUnclosedString
  | ErrUnclosedNumber
  | ErrMismatchedBrace
  | ErrMismatchedBracket
  | ErrUnexpectedCharacter
  deriving DecidableEq, Repr

/-! ## tokenizer.go -/

/-- The token types of `tokenizer.go`. -/
inductive TokenType where
  | TokenLBrace
  | TokenRBrace
  | TokenLBracket
  | TokenRBracket
  | TokenColon
  | TokenComma
  | TokenStringChunk
  | TokenStringEnd
  | TokenNumberChunk
  | TokenNumberEnd
  | TokenBool
  | TokenNull
  deriving DecidableEq, Repr

/-- A token: Go `Token{Type, Value, Bool}` (zero values by default). -/
structure Token where
  Typ : TokenType
  Value : Str := []
  BoolV : Bool := false
  deriving DecidableEq, Repr

/-- The tokenizer states. -/
inductive tokenizerState where
  | tIdle
  | tString
  | tStringEscape
  | tNumber
  | tKeyword
  deriving DecidableEq, Repr

/-- The tokenizer: its state and the keyword scratch buffer. -/
structure Tokenizer where
  state : tokenizerState := .tIdle
  buf : List Char := []
  deriving DecidableEq, Repr

/-- Go `NewTokenizer`. -/
def NewTokenizer : Tokenizer := { state := .tIdle, buf := [] }

namespace Tokenizer

/-- Go `isDigit`: `r >= '0' && r <= '9'`. -/
def isDigit (r : Char) : Bool := decide ('0' ≤ r) && decide (r ≤ '9')

/-- Go `isKeywordStart`. -/
def isKeywordStart (r : Char) : Bool := r == 't' || r == 'f' || r == 'n'

/-- Go `isNumberChar`. -/
def isNumberChar (r : Char) : Bool :=
  isDigit r || r == '.' || r == 'e' || r == 'E' || r == '+' || r == '-'

/-- Go `consumeIdle`. -/
def consumeIdle (t : Tokenizer) (r : Char) : Tokenizer × List Token :=
  if r = '{' then (t, [{ Typ := .TokenLBrace }])
  else if r = '}' then (t, [{ Typ := .TokenRBrace }])
  else if r = '[' then (t, [{ Typ := .TokenLBracket }])
  else if r = ']' then (t, [{ Typ := .TokenRBracket }])
  else if r = ':' then (t, [{ Typ := .TokenColon }])
  else if r = ',' then (t, [{ Typ := .TokenComma }])
  else if r = '"' then ({ t with state := .tString, buf := [] }, [])
  else if r = ' ' ∨ r = '\n' ∨ r = '\r' ∨ r = '\t' then (t, [])
  else if isDigit r || r == '-' then
    ({ t with state := .tNumber, buf := [r] }, [{ Typ := .TokenNumberChunk, Value := [r] }])
  else if isKeywordStart r then
    ({ t with state := .tKeyword, buf := [r] }, [])
  else (t, [])

/-- Go `consumeString`. -/
def consumeString (t : Tokenizer) (r : Char) : Tokenizer × List Token :=
  if r = '\\' then ({ t with state := .tStringEscape }, [])
  else if r = '"' then ({ t with state := .tIdle }, [{ Typ := .TokenStringEnd }])
  else (t, [{ Typ := .TokenStringChunk, Value := [r] }])

/-- Go `consumeStringEscape`. -/
def consumeStringEscape (t : Tokenizer) (r : Char) : Tokenizer × List Token :=
  ({ t with state := .tString }, [{ Typ := .TokenStringChunk, Value := [r] }])

/-- Go `consumeNumber`: a non-number character ends the number and is fed again
through `consumeIdle`. -/
def consumeNumber (t : Tokenizer) (r : Char) : Tokenizer × List Token :=
  if isNumberChar r then (t, [{ Typ := .TokenNumberChunk, Value := [r] }])
  else
    let res := consumeIdle { t with state := .tIdle } r
    (res.1, { Typ := .TokenNumberEnd } :: res.2)

/-- Go `consumeKeyword`; `isLetter` stands for `unicode.IsLetter`. -/
def consumeKeyword (isLetter : Char → Bool) (t : Tokenizer) (r : Char) :
    Tokenizer × List Token :=
  if !isLetter r then consumeIdle { t with state := .tIdle } r
  else
    let buf := t.buf ++ [r]
    let t1 : Tokenizer := { t with buf := buf }
    let bufLen := buf.length
    if bufLen = 1 ∨ bufLen = 2 ∨ bufLen = 3 then (t1, [])
    else if bufLen = 4 then
      if buf.head? = some 't' then
        if buf = ['t', 'r', 'u', 'e'] then
          ({ t1 with state := .tIdle, buf := [] }, [{ Typ := .TokenBool, BoolV := true }])
        else (t1, [])
      else if buf.head? = some 'n' then
        if buf = ['n', 'u', 'l', 'l'] then
          ({ t1 with state := .tIdle, buf := [] }, [{ Typ := .TokenNull }])
        else (t1, [])
      else (t1, [])
    else if bufLen = 5 then
      if buf.head? = some 'f' then
        if buf = ['f', 'a', 'l', 's', 'e'] then
          ({ t1 with state := .tIdle, buf := [] }, [{ Typ := .TokenBool, BoolV := false }])
        else (t1, [])
      else consumeIdle { t1 with state := .tIdle, buf := [] } r
    else consumeIdle { t1 with state := .tIdle, buf := [] } r

/-- Go `Consume`: one rune in, zero or more tokens out. -/
def Consume (isLetter : Char → Bool) (t : Tokenizer) (r : Char) : Tokenizer × List Token :=
  match t.state with
  | .tIdle => consumeIdle t r
  | .tString => consumeString t r
  | .tStringEscape => consumeStringEscape t r
  | .tNumber => consumeNumber t r
  | .tKeyword => consumeKeyword isLetter t r

/-- Go `Tokenizer.Close`. -/
def Close (t : Tokenizer) : Tokenizer × List Token :=
  match t.state with
  | .tString => ({ t with state := .tIdle }, [{ Typ := .TokenStringEnd }])
  | .tNumber => ({ t with state := .tIdle }, [{ Typ := .TokenNumberEnd }])
  | _ => ({ t with state := .tIdle }, [])

end Tokenizer

/-! ## path.go (data) and dispatcher.go -/

/-- Go `pathOptions`. -/
structure pathOptions where
  excludeTop : Bool := false
  excludeTopIndex : Bool := false
  deriving DecidableEq, Repr

/-- Go `SegmentKind`. -/
inductive SegmentKind where
  | SegField
  | SegIndex
  | SegWildcard
  deriving DecidableEq, Repr

/-- Go `PathSegment`. -/
structure PathSegment where
  Kind : SegmentKind := .SegField
  Value : Str := []
  deriving DecidableEq, Repr

/-- Go `PathPattern`. -/
structure PathPattern where
  Segments : List PathSegment := []
  deriving DecidableEq, Repr

/-- The loop of `buildPathFromSegments`: `segs` are the segments at positions
`i, i+1, ...` below `stop`, and `n` is `len(segments)`. -/
def buildPathLoop (opt : pathOptions) (n : Nat) : Nat → Nat → List PathSegment → Str
  | _, _, [] => []
  | i, stop, seg :: segs =>
    if i < stop then
      (match seg.Kind with
        | .SegField => '.' :: seg.Value
        | .SegIndex =>
          if !(opt.excludeTopIndex && i == n - 1) then ['['] ++ seg.Value ++ [']'] else []
        | .SegWildcard => [])
      ++ buildPathLoop opt n (i + 1) stop segs
    else []

/-- Go `buildPathFromSegments`. -/
def buildPathFromSegments (segments : List PathSegment) (opt : pathOptions) : Str :=
  if segments.length = 0 then ['$']
  else if opt.excludeTop then
    if segments.length = 1 then ['$']
    else '$' :: buildPathLoop opt segments.length 0 (segments.length - 1) segments
  else '$' :: buildPathLoop opt segments.length 0 segments.length segments

/-- The loop of Go `match`, entered with lists of equal length. -/
def matchLoop : List PathSegment → List PathSegment → Bool
  | p :: ps, s :: ss =>
    match p.Kind with
    | .SegWildcard => matchLoop ps ss
    | .SegField =>
      if s.Kind ≠ .SegField ∨ p.Value ≠ s.Value then false else matchLoop ps ss
    | .SegIndex =>
      if s.Kind ≠ .SegIndex ∨ p.Value ≠ s.Value then false else matchLoop ps ss
  | _, _ => true

/-- Go `match` of `dispatcher.go`. -/
def matchSegments (pattern : List PathSegment) (path : List PathSegment) : Bool :=
  if pattern.length ≠ path.length then false else matchLoop pattern path

/-! ## value.go, event.go, state.go -/

/-- Go `ValueKind`. -/
inductive ValueKind where
  | ValueString
  | ValueNumber
  | ValueBool
  | ValueNull
  | ValueObject
  | ValueArray
  deriving DecidableEq, Repr

/-- The dynamic values the parser stores in `PartialValue.Value` (Go `any`):
`nil`, a string, or a bool. -/
inductive AnyVal where
  | nil
  | str (s : Str)
  | bool (b : Bool)
  deriving DecidableEq, Repr

/-- Go `PartialValue`. -/
structure PartialValue where
  Kind : ValueKind := .ValueString
  Value : AnyVal := .nil
  Append : Bool := false
  Complete : Bool := false
  Aborted : Bool := false
  deriving DecidableEq, Repr

/-- Go `EventType`.  `event.go` declares the first seven constants. -/
inductive EventType where
  | EventObjectStart
  | EventObjectEnd
  | EventArrayStart
  | EventArrayEnd
  | EventFieldValue
  | EventArrayItem
  | EventStreamEnd
  /-- Modelled from the spec: `EventStreamAbort` is used by `Parser.Close` but its
  declaration is not among the sources; the spec lists `StreamAbort` as the
  second terminal event type, distinct from `StreamEnd`. -/
  | EventStreamAbort
  deriving DecidableEq, Repr

/-- Go `Event`. -/
structure Event where
  Typ : EventType
  Value : Option PartialValue := none
  pathSegments : List PathSegment := []
  pathOpts : pathOptions := {}
  pathCache : Str := []
  deriving DecidableEq, Repr

/-- Go `Event.Path`: the cached string, computed from the segments when the
cache is empty and there is at least one segment. -/
def Event.Path (ev : Event) : Str :=
  if ev.pathCache = [] ∧ ev.pathSegments.length > 0 then
    buildPathFromSegments ev.pathSegments ev.pathOpts
  else ev.pathCache

/-- Go `frameKind`. -/
inductive frameKind where
  | frameObject
  | frameArray
  deriving DecidableEq, Repr

/-- Go `frame`.  `index` is a Go `int`; it counts array items and is kept as a
natural number. -/
structure frame where
  kind : frameKind
  key : Str := []
  index : Nat := 0
  deriving DecidableEq, Repr

/-- Go `parserState`. -/
inductive parserState where
  | pIdle
  | pObjExpectKey
  | pObjAfterKey
  | pObjExpectValue
  | pObjAfterValue
  | pArrExpectValue
  | pArrAfterValue
  deriving DecidableEq, Repr

/-- Go `valueKind` of `parser.go`. -/
inductive valueKind where
  | valNone
  | valString
  | valNumber
  deriving DecidableEq, Repr

/-- A handler is identified by a number; its invocations are logged. -/
abbrev Handler := Nat

/-- Go `Subscription`. -/
structure Subscription where
  Pattern : PathPattern
  Handler : Handler
  deriving DecidableEq, Repr

/-! ## path.go: `CompilePattern` -/

/-- Go `unicode.IsSpace` (the Unicode White_Space property), which
`strings.TrimSpace` uses. -/
def unicodeIsSpace (r : Char) : Bool :=
  let n := r.toNat
  (0x09 ≤ n && n ≤ 0x0D) || n == 0x20 || n == 0x85 || n == 0xA0 || n == 0x1680 ||
  (0x2000 ≤ n && n ≤ 0x200A) || n == 0x2028 || n == 0x2029 || n == 0x202F ||
  n == 0x205F || n == 0x3000

/-- Go `strings.TrimSpace`. -/
def TrimSpace (s : Str) : Str :=
  ((s.dropWhile unicodeIsSpace).reverse.dropWhile unicodeIsSpace).reverse

/-- The number a string of decimal digits denotes. -/
def digitsValue (s : Str) : Nat := s.foldl (fun a c => 10 * a + (c.toNat - '0'.toNat)) 0

/-- Whether Go `strconv.Atoi` succeeds (64-bit `int`): an optional sign, at
least one decimal digit, and a value that fits. -/
def strconvAtoiOk (s : Str) : Bool :=
  let neg := s.head? = some '-'
  let digits := if s.head? = some '-' ∨ s.head? = some '+' then s.drop 1 else s
  !digits.isEmpty && digits.all Tokenizer.isDigit &&
    (if neg then decide (digitsValue digits ≤ 2 ^ 63) else decide (digitsValue digits < 2 ^ 63))

/-- Go `parseFieldSegment`; `remaining` starts with `.`. -/
def parseFieldSegment (remaining : Str) : Except Error (PathSegment × Str) :=
  let remaining := remaining.drop 1
  let fieldName := remaining.takeWhile (fun r => !(r == '.' || r == '['))
  if fieldName.length = 0 then .error .ErrInvalidPattern
  else .ok ({ Kind := .SegField, Value := fieldName },
            remaining.dropWhile (fun r => !(r == '.' || r == '[')))

/-- Go `parseArraySegment`; `remaining` starts with `[`. -/
def parseArraySegment (remaining : Str) : Except Error (PathSegment × Str) :=
  let remaining := remaining.drop 1
  if !remaining.contains ']' then .error .ErrInvalidPattern
  else
    let indexStr := remaining.takeWhile (fun r => !(r == ']'))
    let remaining := (remaining.dropWhile (fun r => !(r == ']'))).drop 1
    if indexStr = ['*'] then .ok ({ Kind := .SegWildcard }, remaining)
    else if !strconvAtoiOk indexStr then .error .ErrInvalidPattern
    else .ok ({ Kind := .SegIndex, Value := indexStr }, remaining)

/-- The `for len(remaining) > 0` loop of `CompilePattern`.  Every iteration
that continues removes at least one character, so `remaining.length + 1`
rounds of fuel are enough. -/
def compileLoop : Nat → Str → List PathSegment → Except Error PathPattern
  | 0, _, _ => .error .ErrInvalidState
  | fuel + 1, remaining, segments =>
    if remaining.length > 0 then
      let remaining := TrimSpace remaining
      if remaining.head? = some '.' then
        match parseFieldSegment remaining with
        | .error e => .error e
        | .ok (seg, rest) => compileLoop fuel rest (segments ++ [seg])
      else if remaining.head? = some '[' then
        match parseArraySegment remaining with
        | .error e => .error e
        | .ok (seg, rest) => compileLoop fuel rest (segments ++ [seg])
      else .error .ErrInvalidPattern
    else .ok { Segments := segments }

/-- Go `CompilePattern`.  Every error it returns wraps `ErrInvalidPattern`. -/
def CompilePattern (expr : Str) : Except Error PathPattern :=
  let expr := TrimSpace expr
  if expr = [] then .error .ErrInvalidPattern
  else if expr.head? ≠ some '$' then .error .ErrInvalidPattern
  else if expr = ['$'] then .ok { Segments := [] }
  else compileLoop ((expr.drop 1).length + 1) (expr.drop 1) []

/-! ## parser.go -/

/-- Go `strconv.Itoa` on a non-negative integer. -/
def Itoa (n : Nat) : Str := Nat.toDigits 10 n

/-- The segments `updateCachedSegments` computes from a stack, bottom frame first. -/
def stackSegments : List frame → List PathSegment
  | [] => []
  | f :: fs =>
    (match f.kind with
      | .frameObject => if f.key ≠ [] then [{ Kind := .SegField, Value := f.key }] else []
      | .frameArray => [{ Kind := .SegIndex, Value := Itoa f.index }])
    ++ stackSegments fs

/-- Go `Parser`.  `trace` and `calls` are ghost fields: the events passed to
`emit`, and the handler invocations `emit` made, oldest first. -/
structure Parser where
  state : parserState := .pIdle
  stack : List frame := []
  curValueKind : valueKind := .valNone
  curString : Str := []
  curNumber : Str := []
  closing : Bool := false
  chunkBuffer : Str := []
  subs : List Subscription := []
  tokenizer : Option Tokenizer := none
  err : Option Error := none
  cachedSegments : List PathSegment := []
  segmentsDirty : Bool := false
  lastValueKind : ValueKind := .ValueString
  trace : List Event := []
  calls : List (Handler × Event) := []
  deriving Repr

/-- Go `NewParser`. -/
def NewParser : Parser := { state := .pIdle, subs := [], stack := [], tokenizer := some NewTokenizer }

namespace Parser

/-- Go `On`: `none` stands for the panic on an invalid pattern. -/
def On (p : Parser) (expr : Str) (h : Handler) : Option Parser :=
  match CompilePattern expr with
  | .error _ => none
  | .ok pat => some { p with subs := p.subs ++ [{ Pattern := pat, Handler := h }] }

/-- Go `updateCachedSegments`. -/
def updateCachedSegments (p : Parser) : Parser :=
  { p with cachedSegments := stackSegments p.stack }

/-- Go `emit`: refresh the segment cache when it is marked dirty or its length
differs from the stack depth, attach the segments to the event, and call the
handler of every matching subscription in order. -/
def emit (p : Parser) (ev : Event) : Parser :=
  let p := if p.segmentsDirty || p.cachedSegments.length != p.stack.length then
      { updateCachedSegments p with segmentsDirty := false }
    else p
  let segments := p.cachedSegments
  let ev := { ev with pathSegments := segments }
  { p with
    trace := p.trace ++ [ev]
    calls := p.calls ++
      (p.subs.filter (fun sub => matchSegments sub.Pattern.Segments segments)).map
        (fun sub => (sub.Handler, ev)) }

/-- Go `topFrame`. -/
def topFrame (p : Parser) : Option frame :=
  if p.stack.length = 0 then none else p.stack.getLast?

/-- Go `parentFrame`. -/
def parentFrame (p : Parser) : Option frame :=
  if p.stack.length < 2 then none else p.stack.get? (p.stack.length - 2)

/-- Assignment through the pointer `topFrame` returned: replace the top frame. -/
def setTop (p : Parser) (f : frame) : Parser :=
  { p with stack := p.stack.dropLast ++ [f] }

/-- Go `p.stack = p.stack[:len(p.stack)-1]`. -/
def pop (p : Parser) : Parser := { p with stack := p.stack.dropLast }

/-- Go `onObjectStart`. -/
def onObjectStart (p : Parser) : Parser :=
  let p := { p with stack := p.stack ++ [{ kind := .frameObject }], segmentsDirty := true,
                    state := .pObjExpectKey }
  emit p { Typ := .EventObjectStart, pathOpts := {} }

/-- Go `onObjectEnd`. -/
def onObjectEnd (p : Parser) : Parser :=
  match topFrame p with
  | none => { p with err := some .ErrMismatchedBrace }
  | some top =>
    if top.kind ≠ .frameObject then { p with err := some .ErrMismatchedBrace }
    else
      let p := emit p { Typ := .EventObjectEnd, pathOpts := { excludeTop := true } }
      let parentFrame := parentFrame p
      let p := { pop p with segmentsDirty := true }
      match topFrame p with
      | none => { p with state := .pIdle }
      | some topAfterPop =>
        if parentFrame.isSome ∧ parentFrame.map (·.kind) = some .frameArray then
          let p := emit p { Typ := .EventArrayItem, pathOpts := {},
                            Value := some { Kind := .ValueObject, Complete := true } }
          let p := setTop p { topAfterPop with index := topAfterPop.index + 1 }
          { p with segmentsDirty := true, state := .pArrAfterValue }
        else
          match topAfterPop.kind with
          | .frameArray => { p with state := .pArrAfterValue }
          | .frameObject => { p with state := .pObjAfterValue }

/-- Go `onArrayStart`. -/
def onArrayStart (p : Parser) : Parser :=
  let p := { p with stack := p.stack ++ [{ kind := .frameArray }], segmentsDirty := true,
                    state := .pArrExpectValue }
  emit p { Typ := .EventArrayStart, pathOpts := { excludeTopIndex := true } }

/-- Go `onArrayEnd`. -/
def onArrayEnd (p : Parser) : Parser :=
  match topFrame p with
  | none => { p with err := some .ErrMismatchedBracket }
  | some top =>
    if top.kind ≠ .frameArray then { p with err := some .ErrMismatchedBracket }
    else
      let p := emit p { Typ := .EventArrayEnd, pathOpts := { excludeTop := true } }
      let parentFrame := parentFrame p
      let p := { pop p with segmentsDirty := true }
      match topFrame p with
      | none => { p with state := .pIdle }
      | some topAfterPop =>
        if parentFrame.isSome ∧ parentFrame.map (·.kind) = some .frameArray then
          let p := emit p { Typ := .EventArrayItem, pathOpts := {},
                            Value := some { Kind := .ValueArray, Complete := true } }
          let p := setTop p { topAfterPop with index := topAfterPop.index + 1 }
          { p with segmentsDirty := true, state := .pArrAfterValue }
        else
          match topAfterPop.kind with
          | .frameArray => { p with state := .pArrAfterValue }
          | .frameObject => { p with state := .pObjAfterValue }

/-- Go `onStringChunk`. -/
def onStringChunk (p : Parser) (s : Str) : Parser :=
  let p := { p with curString := p.curString ++ s }
  if p.state ≠ .pObjExpectKey then
    { p with curValueKind := .valString, chunkBuffer := p.chunkBuffer ++ s }
  else p

/-- Go `flushStringChunk`. -/
def flushStringChunk (p : Parser) : Parser :=
  if p.curValueKind ≠ .valString then p
  else if p.chunkBuffer = [] then p
  else
    let chunk := p.chunkBuffer
    let p := emit p { Typ := .EventFieldValue, pathOpts := {},
                      Value := some { Kind := .ValueString, Value := .str chunk, Append := true } }
    { p with chunkBuffer := [] }

/-- Go `advanceAfterValue`. -/
def advanceAfterValue (p : Parser) : Parser :=
  match topFrame p with
  | none => { p with state := .pIdle }
  | some top =>
    match top.kind with
    | .frameObject => { p with state := .pObjAfterValue }
    | .frameArray =>
      let p := emit p { Typ := .EventArrayItem, pathOpts := {},
                        Value := some { Kind := p.lastValueKind, Complete := true } }
      let p := setTop p { top with index := top.index + 1 }
      { p with segmentsDirty := true, state := .pArrAfterValue }

/-- The value branch of `onStringEnd`, first part: the last append chunk is
flushed when the chunk buffer is non-empty and shorter than the whole string. -/
def onStringEndFlush (p : Parser) : Parser :=
  if byteLen p.chunkBuffer > 0 then
    (if byteLen p.curString > byteLen p.chunkBuffer then flushStringChunk p else p)
  else p

/-- The value branch of `onStringEnd`, second part: the final FieldValue of the
string, the resets, and `advanceAfterValue` unless the parser is closing. -/
def onStringEndEmit (p : Parser) : Parser :=
  if p.closing ∧ byteLen p.curString = 0 then p
  else
    let complete := !p.closing
    let aborted := p.closing
    let p := emit p { Typ := .EventFieldValue, pathOpts := {},
                      Value := some { Kind := .ValueString, Value := .str p.curString,
                                      Complete := complete, Aborted := aborted } }
    let p := { p with curString := [], chunkBuffer := [], curValueKind := .valNone,
                      lastValueKind := .ValueString }
    if !p.closing then advanceAfterValue p else p

/-- The value branch of `onStringEnd` (states `pObjExpectValue`, `pArrExpectValue`). -/
def onStringEndValue (p : Parser) : Parser := onStringEndEmit (onStringEndFlush p)

/-- The key branch of `onStringEnd` (state `pObjExpectKey`). -/
def onStringEndKey (p : Parser) : Parser :=
  match topFrame p with
  | none => { p with err := some .ErrUnexpectedToken }
  | some top =>
    let p := setTop p { top with key := p.curString }
    { p with segmentsDirty := true, curString := [], state := .pObjAfterKey }

/-- Go `onStringEnd`. -/
def onStringEnd (p : Parser) : Parser :=
  match p.state with
  | .pObjExpectKey => onStringEndKey p
  | .pObjExpectValue => onStringEndValue p
  | .pArrExpectValue => onStringEndValue p
  | _ => p

/-- Go `onNumberChunk`. -/
def onNumberChunk (p : Parser) (s : Str) : Parser :=
  { p with curValueKind := .valNumber, curNumber := p.curNumber ++ s }

/-- Go `onNumberEnd`. -/
def onNumberEnd (p : Parser) : Parser :=
  if p.closing ∧ byteLen p.curNumber = 0 then p
  else
    let val := p.curNumber
    let p := { p with curNumber := [], curValueKind := .valNone, lastValueKind := .ValueNumber }
    let complete := !p.closing
    let aborted := p.closing
    let p := emit p { Typ := .EventFieldValue, pathOpts := {},
                      Value := some { Kind := .ValueNumber, Value := .str val,
                                      Complete := complete, Aborted := aborted } }
    if !p.closing then advanceAfterValue p else p

/-- Go `onPrimitive`: `v` is `tok.Bool` for a `TokenBool` and `nil` for a `TokenNull`. -/
def onPrimitive (p : Parser) (v : AnyVal) : Parser :=
  let kind := if v = .nil then ValueKind.ValueNull else ValueKind.ValueBool
  let p := { p with lastValueKind := kind }
  let p := emit p { Typ := .EventFieldValue, pathOpts := {},
                    Value := some { Kind := kind, Value := v, Complete := true } }
  advanceAfterValue p

/-- Go `onColon`. -/
def onColon (p : Parser) : Parser := { p with state := .pObjExpectValue }

/-- Go `onComma`. -/
def onComma (p : Parser) : Parser :=
  match topFrame p with
  | none => { p with err := some .ErrUnexpectedToken }
  | some top =>
    match top.kind with
    | .frameObject => { p with state := .pObjExpectKey }
    | .frameArray => { p with state := .pArrExpectValue }

/-- Go `OnToken`. -/
def OnToken (p : Parser) (tok : Token) : Parser :=
  match tok.Typ with
  | .TokenLBrace => onObjectStart p
  | .TokenRBrace => onObjectEnd p
  | .TokenLBracket => onArrayStart p
  | .TokenRBracket => onArrayEnd p
  | .TokenStringChunk => onStringChunk p tok.Value
  | .TokenStringEnd => onStringEnd p
  | .TokenNumberChunk => onNumberChunk p tok.Value
  | .TokenNumberEnd => onNumberEnd p
  | .TokenBool => onPrimitive p (.bool tok.BoolV)
  | .TokenNull => onPrimitive p .nil
  | .TokenColon => onColon p
  | .TokenComma => onComma p

/-- The second half of `flushIncompleteValue`: an unfinished string or number
with content is emitted with `Aborted`, and `curValueKind` is reset. -/
def flushIncompleteAbort (p : Parser) : Parser :=
  if p.curValueKind = .valNone then p
  else
    let p := match p.curValueKind with
      | .valString =>
        if byteLen p.curString > 0 then
          let value : PartialValue :=
            { Kind := .ValueString, Value := .str p.curString, Aborted := true }
          emit { p with curString := [], chunkBuffer := [] }
            { Typ := .EventFieldValue, pathOpts := {}, Value := some value }
        else p
      | .valNumber =>
        if byteLen p.curNumber > 0 then
          let value : PartialValue :=
            { Kind := .ValueNumber, Value := .str p.curNumber, Aborted := true }
          emit { p with curNumber := [] }
            { Typ := .EventFieldValue, pathOpts := {}, Value := some value }
        else p
      | .valNone => p
    { p with curValueKind := .valNone }

/-- Go `flushIncompleteValue`. -/
def flushIncompleteValue (p : Parser) : Parser :=
  flushIncompleteAbort (if p.curValueKind = .valString then flushStringChunk p else p)

/-- One round of the loop of `closeUnfinishedFrames`, repeated at most `fuel` times. -/
def closeFramesLoop : Nat → Parser → Parser
  | 0, p => p
  | fuel + 1, p =>
    match topFrame p with
    | none => p
    | some top =>
      let p := match top.kind with
        | .frameObject => emit p { Typ := .EventObjectEnd, pathOpts := { excludeTop := true } }
        | .frameArray => emit p { Typ := .EventArrayEnd, pathOpts := { excludeTop := true } }
      closeFramesLoop fuel (pop p)

/-- Go `closeUnfinishedFrames`: every round pops one frame, so the stack depth
bounds the number of rounds. -/
def closeUnfinishedFrames (p : Parser) : Parser := closeFramesLoop p.stack.length p

/-- The tokens of one tokenizer call, handed to `OnToken` in order, with the
tokenizer's new state stored. -/
def deliver (p : Parser) (res : Tokenizer × List Token) : Parser :=
  res.2.foldl OnToken { p with tokenizer := some res.1 }

/-- The first statement of `Close`: `if p.tokenizer != nil { p.tokenizer.Close() }`. -/
def closeTokenizer (p : Parser) : Parser :=
  match p.tokenizer with
  | none => p
  | some t => deliver p t.Close

/-- Go `Close`.  It always returns `nil`, so only the parser is returned. -/
def Close (p : Parser) (normal : Bool) : Parser :=
  let p := closeTokenizer p
  let p := { p with closing := true }
  let p := flushIncompleteValue p
  let p := closeUnfinishedFrames p
  if normal then emit p { Typ := .EventStreamEnd, pathOpts := {} }
  else emit p { Typ := .EventStreamAbort, pathOpts := {} }

/-- Go `checkState`. -/
def checkState (p : Parser) : Option Error :=
  match p.tokenizer with
  | none => some .ErrInvalidState
  | some _ => p.err

/-- The call `p.tokenizer.Consume(r)` inside `FeedString`. -/
def consumeRune (isLetter : Char → Bool) (p : Parser) (r : Char) : Parser :=
  match p.tokenizer with
  | none => p
  | some t => deliver p (t.Consume isLetter r)

/-- The `for _, r := range s` loop of `FeedString`: `some e` is the early
`return p.err`, `none` means the loop ran to its end. -/
def feedLoop (isLetter : Char → Bool) : List Char → Parser → Parser × Option Error
  | [], p => (p, none)
  | r :: rs, p =>
    let p := consumeRune isLetter p r
    match p.err with
    | some e => (p, some e)
    | none => feedLoop isLetter rs p

/-- Go `FeedString` (and `Feed`, which converts its bytes and calls it):
returns the parser afterwards and the returned error. -/
def FeedString (isLetter : Char → Bool) (p : Parser) (s : Str) : Parser × Option Error :=
  match checkState p with
  | some e => (p, some e)
  | none =>
    match feedLoop isLetter s p with
    | (p, some e) => (p, some e)
    | (p, none) => (flushStringChunk p, none)

/-- Go `Err`. -/
def Err (p : Parser) : Option Error := p.err

end Parser

/-! ## Specification vocabulary -/

/-- The segments the next call of `emit` attaches to its event. -/
def Parser.emitSegments (p : Parser) : List PathSegment :=
  if p.segmentsDirty || p.cachedSegments.length != p.stack.length then stackSegments p.stack
  else p.cachedSegments

/-- A terminal event: `StreamEnd` or `StreamAbort`. -/
def Event.isTerminal (e : Event) : Bool :=
  e.Typ == .EventStreamEnd || e.Typ == .EventStreamAbort

/-- A call a client makes on a parser. -/
inductive Op where
  | feed (s : Str)
  | close (normal : Bool)
  deriving DecidableEq, Repr

/-- Whether the call is a `Close`. -/
def Op.isClose : Op → Bool
  | .feed _ => false
  | .close _ => true

/-- The parser after one client call. -/
def runOp (isLetter : Char → Bool) (p : Parser) : Op → Parser
  | .feed s => (Parser.FeedString isLetter p s).1
  | .close normal => Parser.Close p normal

/-- The parser after a sequence of client calls. -/
def runOps (isLetter : Char → Bool) (p : Parser) (ops : List Op) : Parser :=
  ops.foldl (runOp isLetter) p

/-- Feeding never meets the tokenizer's keyword state: from tokenizer `t`, no
character of `s` is consumed in state `tKeyword`. -/
def keywordFree : Tokenizer → List Char → Bool
  | _, [] => true
  | t, r :: rs =>
    t.state != .tKeyword && keywordFree (Tokenizer.Consume (fun _ => false) t r).1 rs

/-- The close event `closeUnfinishedFrames` and the `}` / `]` handlers emit for a frame. -/
def frameKind.closeType : frameKind → EventType
  | .frameObject => .EventObjectEnd
  | .frameArray => .EventArrayEnd

/-- A value event: a FieldValue or an ArrayItem. -/
def Event.isValueEvent (e : Event) : Bool :=
  e.Typ == .EventFieldValue || e.Typ == .EventArrayItem

/-- The kinds of the frames of a stack, bottom first. -/
def kinds (stack : List frame) : List frameKind := stack.map (·.kind)

/-- The parser `q` extends the trace of `p` by value events only and has frames
of the same kinds. -/
def Parser.ValueStep (p q : Parser) : Prop :=
  ∃ evs, q.trace = p.trace ++ evs ∧ (∀ e ∈ evs, e.isValueEvent = true) ∧
    kinds q.stack = kinds p.stack

/-- Replaying one event on the list of open containers, innermost last: a
Start event opens a container, an End event must close the innermost open
container, which must be of its kind (otherwise the replay fails with `none`),
and every other event leaves the list alone. -/
def replayStep (st : Option (List frameKind)) (e : Event) : Option (List frameKind) :=
  match st with
  | none => none
  | some s =>
    match e.Typ with
    | .EventObjectStart => some (s ++ [.frameObject])
    | .EventArrayStart => some (s ++ [.frameArray])
    | .EventObjectEnd => if s.getLast? = some .frameObject then some s.dropLast else none
    | .EventArrayEnd => if s.getLast? = some .frameArray then some s.dropLast else none
    | _ => some s

/-- The containers a trace leaves open, outermost first; `none` when some End
event of the trace did not close the innermost open container of its kind. -/
def openContainers (tr : List Event) : Option (List frameKind) := tr.foldl replayStep (some [])

/-- The number of events of a given type in a trace. -/
def countType (t : EventType) (tr : List Event) : Nat := tr.countP (fun e => e.Typ == t)

/-- The parser after feeding the chunks one `FeedString` call each, in order. -/
def feedAll (isLetter : Char → Bool) (p : Parser) (chunks : List Str) : Parser :=
  chunks.foldl (fun p c => (Parser.FeedString isLetter p c).1) p

/-- The frame stack is what replaying the trace leaves open. -/
def Parser.Balanced (p : Parser) : Prop := openContainers p.trace = some (kinds p.stack)

/-- An append event: a FieldValue whose PartialValue has `Append` set. -/
def Event.isAppend (e : Event) : Bool :=
  match e.Value with
  | some v => v.Append
  | none => false

/-- A trace with its append events removed. -/
def visible (tr : List Event) : List Event := tr.filter (fun e => !e.isAppend)

/-- The segment cache is usable: it is marked dirty or it holds the segments of
the current stack. -/
def Parser.CacheOK (p : Parser) : Prop :=
  p.segmentsDirty = false → p.cachedSegments = stackSegments p.stack

/-- The part of the parser state that chunking cannot influence: the chunk
buffer is emptied, the cache refreshed, and the ghost logs dropped. -/
def Parser.core (p : Parser) : Parser :=
  { p with chunkBuffer := [], cachedSegments := stackSegments p.stack, segmentsDirty := false,
           trace := [], calls := [] }

/-- A step is insensitive to chunking: on a parser with a usable cache, the core
of the result and the events other than append chunks are determined by the
core of the parser, and the cache stays usable. -/
def Parser.Stable (step : Parser → Parser) : Prop :=
  ∀ p : Parser, p.CacheOK →
    (step p).core = (step p.core).core ∧
    visible (step p).trace = visible p.trace ++ visible (step p.core).trace ∧
    (step p).CacheOK

/-- The end of `FeedString` after its loop: an early return keeps the parser,
a completed loop is followed by `flushStringChunk`. -/
def Parser.finishFeed (r : Parser × Option Error) : Parser × Option Error :=
  match r with
  | (p, some e) => (p, some e)
  | (p, none) => (Parser.flushStringChunk p, none)

/-- Continuing the feed loop with more characters, unless it has already returned. -/
def Parser.contLoop (f : Char → Bool) (r : Parser × Option Error) (s : List Char) :
    Parser × Option Error :=
  match r.2 with
  | some _ => r
  | none => Parser.feedLoop f s r.1

/-- Feeding the chunks one `FeedString` call each, in order: the parser
afterwards and the error the last call returned (none when there is no call). -/
def feedChunks (isLetter : Char → Bool) (p : Parser) (chunks : List Str) :
    Parser × Option Error :=
  chunks.foldl (fun acc c => Parser.FeedString isLetter acc.1 c) (p, none)

/-- Two parsers that differ by chunking only: usable caches, the same core, and
the same events once append chunks are removed. -/
def Parser.Rel (p q : Parser) : Prop :=
  p.CacheOK ∧ q.CacheOK ∧ p.core = q.core ∧ visible p.trace = visible q.trace

/-- The observable content of an event: its type and its value. -/
def Event.payload (e : Event) : EventType × Option PartialValue := (e.Typ, e.Value)

/-- The payload of the append event for a chunk. -/
def appendPayload (c : Str) : EventType × Option PartialValue :=
  (.EventFieldValue, some { Kind := .ValueString, Value := .str c, Append := true })

/-- The payload of the completing event of a string. -/
def completePayload (v : Str) : EventType × Option PartialValue :=
  (.EventFieldValue, some { Kind := .ValueString, Value := .str v, Complete := true })

/-- The tokenizer state inside a string: after a backslash or not. -/
def strState (esc : Bool) : tokenizerState := if esc then .tStringEscape else .tString

/-- The parser is inside a string value that started when the trace was `T`:
`A` are the append chunks delivered so far, `cur` the content read so far and
`buf` the content not yet delivered. -/
def Parser.InString (T : List Event) (A : List Str) (cur buf : Str) (esc : Bool)
    (p : Parser) : Prop :=
  p.tokenizer.map (·.state) = some (strState esc) ∧ p.err = none ∧
  (p.state = .pObjExpectValue ∨ p.state = .pArrExpectValue) ∧ p.closing = false ∧
  (buf ≠ [] → p.curValueKind = .valString) ∧
  p.trace.map Event.payload = T.map Event.payload ++ A.map appendPayload ∧
  p.curString = cur ∧ p.chunkBuffer = buf ∧ A.flatten ++ buf = cur ∧ (∀ c ∈ A, c ≠ [])

/-- The string value that started when the trace was `T` has been completed with
value `v` after the append chunks `A`. -/
def Parser.StringDone (T : List Event) (A : List Str) (v : Str) (q : Parser) : Prop :=
  ∃ tail, q.trace.map Event.payload =
      T.map Event.payload ++ A.map appendPayload ++ [completePayload v] ++ tail ∧
    (∀ x ∈ tail, x.1 = EventType.EventArrayItem) ∧
    q.err = none ∧ q.curValueKind = .valNone ∧ q.tokenizer.isSome

/-- Reading `s` inside a string without reaching its closing quote: whether the
last character was an unanswered backslash, and the content read. -/
def strOpenAfter : Bool → List Char → Option (Bool × Str)
  | esc, [] => some (esc, [])
  | true, c :: cs => (strOpenAfter false cs).map (fun r => (r.1, c :: r.2))
  | false, c :: cs =>
    if c = '"' then none
    else if c = '\\' then strOpenAfter true cs
    else (strOpenAfter false cs).map (fun r => (r.1, c :: r.2))

/-- Reading `s` inside a string whose closing quote is the last character of
`s`: the content read. -/
def strCloseContent : Bool → List Char → Option Str
  | _, [] => none
  | true, c :: cs => (strCloseContent false cs).map (fun r => c :: r)
  | false, c :: cs =>
    if c = '"' then (if cs = [] then some [] else none)
    else if c = '\\' then strCloseContent true cs
    else (strCloseContent false cs).map (fun r => c :: r)

/-- A parser about to read a value, with empty accumulators. -/
def Parser.ValueStart (p : Parser) : Prop :=
  p.tokenizer.map (·.state) = some .tIdle ∧ p.err = none ∧
  (p.state = .pObjExpectValue ∨ p.state = .pArrExpectValue) ∧ p.closing = false ∧
  p.curString = [] ∧ p.chunkBuffer = []

/-- A string body without quote and backslash. -/
def plainChars (s : Str) : Prop := ∀ c ∈ s, c ≠ '"' ∧ c ≠ '\\'

/-- The compiled pattern `$.items[*].id`. -/
def itemsIdPattern : PathPattern :=
  { Segments := [{ Kind := .SegField, Value := "items".toList }, { Kind := .SegWildcard },
                 { Kind := .SegField, Value := "id".toList }] }

/-- The frame stack inside the array `items` after `i` completed elements. -/
def itemsStack (i : Nat) : List frame :=
  [{ kind := .frameObject, key := "items".toList }, { kind := .frameArray, index := i }]

/-- The segment vector of the field `id` of element `i` of `items`. -/
def itemIdSegments (i : Nat) : List PathSegment :=
  [{ Kind := .SegField, Value := "items".toList }, { Kind := .SegIndex, Value := Itoa i },
   { Kind := .SegField, Value := "id".toList }]

/-- The FieldValue event of the number `v` at `$.items[i].id`. -/
def itemIdValue (i : Nat) (v : Str) : Event :=
  { Typ := .EventFieldValue, pathSegments := itemIdSegments i,
    Value := some { Kind := .ValueNumber, Value := .str v, Complete := true } }

/-- The ObjectEnd event of element `i` of `items`, emitted before its frame is popped. -/
def itemEnd (i : Nat) : Event :=
  { Typ := .EventObjectEnd, pathSegments := itemIdSegments i, pathOpts := { excludeTop := true } }

/-- The text of a number as the tokenizer reads it: a digit or `-`, then number characters. -/
def numberText (v : Str) : Prop :=
  ∃ c cs, v = c :: cs ∧ (Tokenizer.isDigit c = true ∨ c = '-') ∧
    ∀ x ∈ cs, Tokenizer.isNumberChar x = true

/-- The parser is inside the array `items` with `i` completed elements, between
two elements; `C` are the handler calls made so far. -/
def Parser.BetweenItems (h : Handler) (i : Nat) (C : List (Handler × Event)) (p : Parser) :
    Prop :=
  p.stack = itemsStack i ∧ p.tokenizer.map (·.state) = some .tIdle ∧ p.err = none ∧
  p.closing = false ∧ p.curString = [] ∧ p.curNumber = [] ∧ p.chunkBuffer = [] ∧
  p.subs = [{ Pattern := itemsIdPattern, Handler := h }] ∧ p.calls = C

/-- The parser has read `{"id":` of element `i`. -/
def Parser.InItem (h : Handler) (i : Nat) (C : List (Handler × Event)) (p : Parser) : Prop :=
  p.stack = itemsStack i ++ [{ kind := .frameObject, key := "id".toList }] ∧
  p.state = .pObjExpectValue ∧
  p.tokenizer.map (·.state) = some .tIdle ∧ p.err = none ∧
  p.closing = false ∧ p.curString = [] ∧ p.curNumber = [] ∧ p.chunkBuffer = [] ∧
  p.subs = [{ Pattern := itemsIdPattern, Handler := h }] ∧ p.calls = C ∧
  p.segmentsDirty = true

/-- The text `{"id":v}` of one element. -/
def itemText (v : Str) : Str := "\x7b\"id\":".toList ++ v ++ ['}']

/-- What follows an element: the further elements, each after a comma, and `]}`. -/
def itemsRest : List Str → Str
  | [] => "]\x7d".toList
  | v :: vs => ',' :: (itemText v ++ itemsRest vs)

/-- The input `{"items":[{"id":v0},...,{"id":v(n-1)}]}`. -/
def itemsInput : List Str → Str
  | [] => "\x7b\"items\":[".toList ++ "]\x7d".toList
  | v :: vs => "\x7b\"items\":[".toList ++ (itemText v ++ itemsRest vs)

/-- The handler calls for the elements from index `i` on: per element the
FieldValue of its `id` and then its ObjectEnd. -/
def itemCalls (h : Handler) : Nat → List Str → List (Handler × Event)
  | _, [] => []
  | i, v :: vs => (h, itemIdValue i v) :: (h, itemEnd i) :: itemCalls h (i + 1) vs

/-- The FieldValue calls for the elements from index `i` on. -/
def itemValueCalls (h : Handler) : Nat → List Str → List (Handler × Event)
  | _, [] => []
  | i, v :: vs => (h, itemIdValue i v) :: itemValueCalls h (i + 1) vs

/-- The parser is reading the number of element `i`: `v` is the text read so far. -/
def Parser.InNumber (h : Handler) (i : Nat) (C : List (Handler × Event)) (v : Str)
    (p : Parser) : Prop :=
  p.stack = itemsStack i ++ [{ kind := .frameObject, key := "id".toList }] ∧
  p.state = .pObjExpectValue ∧
  p.tokenizer.map (·.state) = some .tNumber ∧ p.err = none ∧
  p.closing = false ∧ p.curString = [] ∧ p.curNumber = v ∧ p.chunkBuffer = [] ∧
  p.subs = [{ Pattern := itemsIdPattern, Handler := h }] ∧ p.calls = C ∧
  p.segmentsDirty = true

/-- The value kind of a container frame. -/
def frameKind.valueKind : frameKind → ValueKind
  | .frameObject => .ValueObject
  | .frameArray => .ValueArray

/-- The token that closes a container frame. -/
def frameKind.closeToken : frameKind → Token
  | .frameObject => { Typ := .TokenRBrace }
  | .frameArray => { Typ := .TokenRBracket }

/-- Replaying one event on the item counters of the open containers, innermost
last: a Start event opens a container with counter 0, an End event closes the
innermost one, an ArrayItem event adds one to the innermost counter. -/
def itemCountStep (st : Option (List Nat)) (e : Event) : Option (List Nat) :=
  match st with
  | none => none
  | some s =>
    match e.Typ with
    | .EventObjectStart => some (s ++ [0])
    | .EventArrayStart => some (s ++ [0])
    | .EventObjectEnd => if s = [] then none else some s.dropLast
    | .EventArrayEnd => if s = [] then none else some s.dropLast
    | .EventArrayItem =>
      match s.getLast? with
      | none => none
      | some k => some (s.dropLast ++ [k + 1])
    | _ => some s

/-- For every open container, the number of ArrayItem events emitted for it so far. -/
def itemCounts (tr : List Event) : Option (List Nat) := tr.foldl itemCountStep (some [])

/-- The index of every frame is the number of ArrayItem events emitted for it. -/
def Parser.Counted (p : Parser) : Prop := itemCounts p.trace = some (p.stack.map (·.index))

/-- A step of the parser: a token handed over by the tokenizer, the flush of the
chunk buffer that ends a feed, or a subscription made with `On`. -/
inductive ParserStep where
  | token (tok : Token)
  | flush
  | subscribe (expr : Str) (h : Handler)
  deriving DecidableEq, Repr

/-- The parser after one step; a subscription with an invalid pattern, on which
`On` panics, leaves the parser as it was. -/
def Parser.step (p : Parser) : ParserStep → Parser
  | .token tok => Parser.OnToken p tok
  | .flush => Parser.flushStringChunk p
  | .subscribe expr h => (Parser.On p expr h).getD p

/-- The parser after a sequence of steps. -/
def Parser.steps (p : Parser) (l : List ParserStep) : Parser := l.foldl Parser.step p

/-- The ArrayItem event that folds a closed container of kind `k` into the
enclosing array `arr`, whose frame lies on top of the frames `rest`. -/
def foldedItem (rest : List frame) (arr : frame) (k : frameKind) : Event :=
  { Typ := .EventArrayItem,
    Value := some { Kind := k.valueKind, Value := .nil, Append := false, Complete := true,
                    Aborted := false },
    pathSegments := stackSegments rest ++ [{ Kind := .SegIndex, Value := Itoa arr.index }] }

/-- A scalar JSON value as it is written in the input: a string by the text
between its quotes, a number by its text, `true` / `false`, or `null`. -/
inductive Scalar where
  | str (raw : Str)
  | num (text : Str)
  | bool (b : Bool)
  | null
  deriving DecidableEq, Repr

/-- The input text of a scalar. -/
def Scalar.text : Scalar → Str
  | .str raw => '"' :: raw ++ ['"']
  | .num t => t
  | .bool true => "true".toList
  | .bool false => "false".toList
  | .null => "null".toList

/-- The kind the events of a scalar carry. -/
def Scalar.kind : Scalar → ValueKind
  | .str _ => .ValueString
  | .num _ => .ValueNumber
  | .bool _ => .ValueBool
  | .null => .ValueNull

/-- The value the FieldValue event of a scalar carries: the content of a string
(the character after a backslash is kept as it is), the text of a number, the
bool, or nil. -/
def Scalar.value : Scalar → AnyVal
  | .str raw => .str ((strOpenAfter false raw).getD (false, [])).2
  | .num t => .str t
  | .bool b => .bool b
  | .null => .nil

/-- The text is one the tokenizer reads as this scalar: a string body has no
unescaped quote and does not end in an unanswered backslash, a number is a
digit or `-` followed by number characters. -/
def Scalar.wellFormed : Scalar → Prop
  | .str raw => ∃ v, strOpenAfter false raw = some (false, v)
  | .num t => numberText t
  | _ => True

/-- The FieldValue event of a complete value of kind `k` at the given segments. -/
def completeValue (segs : List PathSegment) (k : ValueKind) (v : AnyVal) : Event :=
  { Typ := .EventFieldValue, pathSegments := segs,
    Value := some { Kind := k, Value := v, Complete := true } }

/-- The ArrayItem event of a complete item of kind `k` at the given segments. -/
def completeItem (segs : List PathSegment) (k : ValueKind) : Event :=
  { Typ := .EventArrayItem, pathSegments := segs, Value := some { Kind := k, Complete := true } }

/-- The segments of item `i` of an array whose frame lies on frames with segments `pre`. -/
def itemSegments (pre : List PathSegment) (i : Nat) : List PathSegment :=
  pre ++ [{ Kind := .SegIndex, Value := Itoa i }]

/-- The events of the scalar items from index `i` on: per item its complete
FieldValue and then its ArrayItem, both at the segments of the item. -/
def scalarItemEvents (pre : List PathSegment) : Nat → List Scalar → List Event
  | _, [] => []
  | i, v :: vs =>
    completeValue (itemSegments pre i) v.kind v.value :: completeItem (itemSegments pre i) v.kind ::
      scalarItemEvents pre (i + 1) vs

/-- The whitespace the idle tokenizer skips. -/
def jsonSpace (c : Char) : Prop := c = ' ' ∨ c = '\n' ∨ c = '\r' ∨ c = '\t'

/-- An item of an array of scalars as it is written: whitespace, the scalar, whitespace. -/
structure SpacedScalar where
  lead : Str := []
  value : Scalar
  trail : Str := []
  deriving DecidableEq, Repr

/-- The input text of an item. -/
def SpacedScalar.text (x : SpacedScalar) : Str := x.lead ++ x.value.text ++ x.trail

/-- The scalar is well formed and surrounded by whitespace only. -/
def SpacedScalar.wellFormed (x : SpacedScalar) : Prop :=
  (∀ c ∈ x.lead, jsonSpace c) ∧ x.value.wellFormed ∧ ∀ c ∈ x.trail, jsonSpace c

/-- What follows an item of an array of scalars: the further items, each after
a comma, and the closing bracket. -/
def scalarsRest : List SpacedScalar → Str
  | [] => [']']
  | x :: xs => ',' :: (x.text ++ scalarsRest xs)

/-- The items of an array of scalars with its closing bracket, without the
opening bracket. -/
def scalarsText : List SpacedScalar → Str
  | [] => [']']
  | x :: xs => x.text ++ scalarsRest xs

/-- The parser is inside an array whose frame `arr` lies on the frames `rest`:
the tokenizer is in state `ts`, the parser in state `st`, `cur` is the string
read so far and `num` the number text read so far, the trace is `T`. -/
def Parser.ArrayFrame (rest : List frame) (arr : frame) (T : List Event)
    (ts : tokenizerState) (st : parserState) (cur num : Str) (p : Parser) : Prop :=
  p.stack = rest ++ [arr] ∧ arr.kind = .frameArray ∧
  p.tokenizer.map (·.state) = some ts ∧ p.state = st ∧ p.err = none ∧ p.closing = false ∧
  p.curString = cur ∧ p.chunkBuffer = cur ∧ p.curNumber = num ∧ p.CacheOK ∧ p.trace = T

/-- The function `isLetter` accepts the letters of `true`, `false` and `null`,
as `unicode.IsLetter` does. -/
def keywordLetters (isLetter : Char → Bool) : Prop :=
  ∀ c ∈ "truefalsn".toList, isLetter c = true

/-- A parser between two tokens with empty accumulators, no error, not closing. -/
def Parser.Clean (p : Parser) : Prop :=
  p.tokenizer.map (·.state) = some .tIdle ∧ p.err = none ∧ p.closing = false ∧
  p.curString = [] ∧ p.chunkBuffer = [] ∧ p.curNumber = []

/-- The ArrayStart event of an array opened on frames with segments `pre`. -/
def arrayStartEvent (pre : List PathSegment) : Event :=
  { Typ := .EventArrayStart, pathOpts := { excludeTopIndex := true },
    pathSegments := itemSegments pre 0 }

/-- The ArrayEnd event of a root-level array with `n` items. -/
def rootArrayEnd (n : Nat) : Event :=
  { Typ := .EventArrayEnd, pathOpts := { excludeTop := true }, pathSegments := itemSegments [] n }

/-- The events of a root-level array of scalars. -/
def scalarArrayEvents (vs : List Scalar) : List Event :=
  arrayStartEvent [] :: scalarItemEvents [] 0 vs ++ [rootArrayEnd vs.length]

/-- A pattern segment matches a path segment at the same position: the
pattern segment is a Wildcard, or both are Field with equal values, or both
are Index with equal values. -/
def segmentMatches (p s : PathSegment) : Prop :=
  p.Kind = .SegWildcard ∨
  (p.Kind = .SegField ∧ s.Kind = .SegField ∧ p.Value = s.Value) ∨
  (p.Kind = .SegIndex ∧ s.Kind = .SegIndex ∧ p.Value = s.Value)

/-- Every character is white space for `strings.TrimSpace`. -/
def allSpace (s : Str) : Prop := ∀ c ∈ s, unicodeIsSpace c = true

/-- The string does not start with white space. -/
def NoLead (s : Str) : Prop := ∀ c, s.head? = some c → unicodeIsSpace c = false

/-- The string does not end in white space. -/
def NoTrail (s : Str) : Prop := ∀ c, s.getLast? = some c → unicodeIsSpace c = false

/-- The text of a pattern segment: `.name`, `[index]` or `[*]`. -/
def segText (seg : PathSegment) : Str :=
  match seg.Kind with
  | .SegField => '.' :: seg.Value
  | .SegIndex => '[' :: seg.Value ++ [']']
  | .SegWildcard => ['[', '*', ']']

/-- A segment `CompilePattern` can produce: a Field with a non-empty name
without `.` and `[`, an Index whose text `strconv.Atoi` accepts, or a Wildcard
(with the empty value). -/
def segOK (seg : PathSegment) : Prop :=
  match seg.Kind with
  | .SegField => seg.Value ≠ [] ∧ ∀ c ∈ seg.Value, c ≠ '.' ∧ c ≠ '['
  | .SegIndex => strconvAtoiOk seg.Value = true
  | .SegWildcard => seg.Value = []

/-- The segment texts of a pattern expression after the `$`, each preceded by
its gap. -/
def spacedPattern : List (Str × PathSegment) → Str
  | [] => []
  | (gap, seg) :: rest => gap ++ segText seg ++ spacedPattern rest

/-- The gaps are white space, and the gap after a Field segment is empty (white
space there would belong to the field name). -/
def gapsOK : Bool → List (Str × PathSegment) → Prop
  | _, [] => True
  | afterField, (gap, seg) :: rest =>
    allSpace gap ∧ (afterField = true → gap = []) ∧ gapsOK (seg.Kind == .SegField) rest

/-- A decimal integer as `strconv.Atoi` reads it: an optional sign followed by
at least one decimal digit. -/
def decimalInteger (s : Str) : Prop :=
  ∃ sign digits, s = sign ++ digits ∧ (sign = [] ∨ sign = ['-'] ∨ sign = ['+']) ∧
    digits ≠ [] ∧ ∀ c ∈ digits, Tokenizer.isDigit c = true

/-- What the loop of `CompilePattern` accepts at a `.` or a `[`: the `.` is
followed by a character of a field name; the `[` is closed by a later `]`, the
text up to the first `]` is `*` or accepted by `strconv.Atoi`, and what comes
directly after that `]` is `.`, `[` or white space. -/
def headOK (s : Str) : Prop :=
  (∀ post, s = '.' :: post → ∃ c rest, post = c :: rest ∧ c ≠ '.' ∧ c ≠ '[') ∧
  (∀ post, s = '[' :: post → ∃ content rest, post = content ++ ']' :: rest ∧
    (∀ c ∈ content, c ≠ ']') ∧ (content = ['*'] ∨ strconvAtoiOk content = true) ∧
    ∀ c, rest.head? = some c → c = '.' ∨ c = '[' ∨ unicodeIsSpace c = true)

/-- Every `.` and every `[` of the text is acceptable. -/
def cleanText (r : Str) : Prop := ∀ s, s <:+ r → headOK s

/-- The text is empty or starts with `.`, `[` or white space. -/
def startOK (r : Str) : Prop :=
  ∀ c, r.head? = some c → c = '.' ∨ c = '[' ∨ unicodeIsSpace c = true

/-- The malformed expressions (after trimming): empty; not starting with `$`;
a `.` directly followed by `.`, `[` or the end (an empty field name); `[]`; a
`[` with no later `]`; a `[` whose text up to the next `]` is neither `*` nor a
decimal integer; a character directly after the leading `$`, or directly after
the `]` that closes a `[`, that is not `.`, `[` or white space. -/
def Malformed (t : Str) : Prop :=
  t = [] ∨ t.head? ≠ some '$' ∨
  (∃ pre post, t = pre ++ '.' :: post ∧
    (post = [] ∨ post.head? = some '.' ∨ post.head? = some '[')) ∨
  (∃ pre post, t = pre ++ '[' :: ']' :: post) ∨
  (∃ pre post, t = pre ++ '[' :: post ∧ ']' ∉ post) ∨
  (∃ pre content post, t = pre ++ '[' :: (content ++ ']' :: post) ∧ ']' ∉ content ∧
    content ≠ ['*'] ∧ ¬ decimalInteger content) ∨
  (∃ c rest, t = '$' :: c :: rest ∧ c ≠ '.' ∧ c ≠ '[' ∧ unicodeIsSpace c = false) ∨
  (∃ pre content c rest, t = pre ++ '[' :: (content ++ ']' :: c :: rest) ∧ ']' ∉ content ∧
    c ≠ '.' ∧ c ≠ '[' ∧ unicodeIsSpace c = false)

/-- A segment that `buildPathFromSegments` renders and `CompilePattern` reads
back: a Field whose name is non-empty and has no `.`, `[` or white space, or an
Index whose value is a non-empty string of decimal digits denoting a number
below `2^63`. -/
def renderable (seg : PathSegment) : Prop :=
  match seg.Kind with
  | .SegField =>
    seg.Value ≠ [] ∧ ∀ c ∈ seg.Value, c ≠ '.' ∧ c ≠ '[' ∧ unicodeIsSpace c = false
  | .SegIndex =>
    seg.Value ≠ [] ∧ (∀ c ∈ seg.Value, Tokenizer.isDigit c = true) ∧
      digitsValue seg.Value < 2 ^ 63
  | .SegWildcard => False

/-- The handler invocations an event causes for a subscription list: one per
subscription whose pattern matches the segment vector of the event, in the
order of the list. -/
def dispatch (subs : List Subscription) (ev : Event) : List (Handler × Event) :=
  (subs.filter (fun sub => matchSegments sub.Pattern.Segments ev.pathSegments)).map
    (fun sub => (sub.Handler, ev))

/-- From `p` to `q` the subscription list is unchanged, and the handler
invocations added are exactly those of the events added, event by event. -/
def Parser.Dispatches (p q : Parser) : Prop :=
  q.subs = p.subs ∧
  ∃ evs, q.trace = p.trace ++ evs ∧ q.calls = p.calls ++ evs.flatMap (dispatch p.subs)

/-! ### Well-formed event values -/

/-- The path options every emit site attaches to an event of the given type:
`excludeTop` for ObjectEnd and ArrayEnd, `excludeTopIndex` for ArrayStart, none
for the other types. -/
def EventType.pathOpts : EventType → pathOptions
  | .EventObjectEnd => { excludeTop := true }
  | .EventArrayEnd => { excludeTop := true }
  | .EventArrayStart => { excludeTopIndex := true }
  | _ => {}

/-- What every event the parser builds satisfies: no cached path string, the
path options of its type, and a value that is not both complete and aborted and
that, when it is an append chunk, belongs to a FieldValue, is a non-empty
string, and is neither complete nor aborted. -/
def Event.regular (e : Event) : Prop :=
  e.pathCache = [] ∧ e.pathOpts = e.Typ.pathOpts ∧
  ∀ v, e.Value = some v →
    (v.Complete = false ∨ v.Aborted = false) ∧
    (v.Append = true →
      e.Typ = .EventFieldValue ∧ v.Kind = .ValueString ∧ (∃ s, v.Value = .str s ∧ s ≠ []) ∧
      v.Complete = false ∧ v.Aborted = false)

/-- From `p` to `q` the trace grows by regular events only. -/
def Parser.Regular (p q : Parser) : Prop :=
  ∃ evs, q.trace = p.trace ++ evs ∧ ∀ e ∈ evs, e.regular

/-- From `p` to `q` the trace grows by events other than FieldValue, and the
kind of the value under construction is unchanged. -/
def Parser.Quiet (p q : Parser) : Prop :=
  q.curValueKind = p.curValueKind ∧ q.tokenizer = p.tokenizer ∧
  ∃ evs, q.trace = p.trace ++ evs ∧ ∀ e ∈ evs, e.Typ ≠ .EventFieldValue

/-- The token types of the six structural characters. -/
def TokenType.structural (ty : TokenType) : Bool :=
  ty == .TokenLBrace || ty == .TokenRBrace || ty == .TokenLBracket || ty == .TokenRBracket ||
  ty == .TokenColon || ty == .TokenComma

/-- The top frame is missing or is not of the given kind. -/
def Parser.topIsNot (p : Parser) (k : frameKind) : Prop :=
  ∀ top, Parser.topFrame p = some top → top.kind ≠ k

/-! ### Runs of the tokenizer -/

/-- The tokenizer after `Consume` has been called on the characters in order,
with the tokens emitted, oldest first. -/
def Tokenizer.run (isLetter : Char → Bool) : Tokenizer → List Char → Tokenizer × List Token
  | t, [] => (t, [])
  | t, r :: rs =>
    ((Tokenizer.run isLetter (Tokenizer.Consume isLetter t r).1 rs).1,
     (Tokenizer.Consume isLetter t r).2 ++
       (Tokenizer.run isLetter (Tokenizer.Consume isLetter t r).1 rs).2)

/-- The character stream cut into pieces that are consumed one after the other:
the tokenizer afterwards and all tokens emitted. -/
def Tokenizer.runChunks (isLetter : Char → Bool) (t : Tokenizer) (chunks : List Str) :
    Tokenizer × List Token :=
  chunks.foldl
    (fun acc c => ((Tokenizer.run isLetter acc.1 c).1, acc.2 ++ (Tokenizer.run isLetter acc.1 c).2))
    (t, [])

/-- Two tokenizers that no later input can tell apart: the same state, and the
same scratch buffer where the state reads it (the keyword state). -/
def Tokenizer.alike (t u : Tokenizer) : Prop :=
  t.state = u.state ∧ (t.state = .tKeyword → t.buf = u.buf)

/-- One StringChunk token per character. -/
def stringChunkTokens (s : Str) : List Token :=
  s.map (fun c => { Typ := .TokenStringChunk, Value := [c] })

/-- One NumberChunk token per character. -/
def numberChunkTokens (s : Str) : List Token :=
  s.map (fun c => { Typ := .TokenNumberChunk, Value := [c] })

/-- The function `isLetter` rejects the characters the idle tokenizer reacts to
other than keyword starts, as `unicode.IsLetter` does: the structural
characters, the quote, the minus sign and the digits. -/
def lettersInert (isLetter : Char → Bool) : Prop :=
  ∀ c, isLetter c = true →
    c ∉ ['\x7b', '\x7d', '[', ']', ':', ',', '"', '-'] ∧ Tokenizer.isDigit c = false

/-- None of `true`, `false`, `null` occurs in the word as a run of consecutive characters. -/
def keywordAbsent (w : Str) : Prop :=
  ¬ "true".toList <:+: w ∧ ¬ "false".toList <:+: w ∧ ¬ "null".toList <:+: w

/-- A Bool or Null token. -/
def Token.isKeyword (tok : Token) : Bool :=
  tok.Typ == .TokenBool || tok.Typ == .TokenNull

/-! ### Rendered paths -/

/-- The text of a segment sequence after the `$`: `.v` for a Field segment with
value `v`, `[v]` for an Index segment with value `v`, in order (a Wildcard
segment, which no runtime path contains, adds nothing). -/
def renderSegments : List PathSegment → Str
  | [] => []
  | seg :: rest =>
    (match seg.Kind with
      | .SegField => '.' :: seg.Value
      | .SegIndex => ['['] ++ seg.Value ++ [']']
      | .SegWildcard => []) ++ renderSegments rest

/-- In the state that expects a key, the top frame is an Object. -/
def Parser.KeyOK (p : Parser) : Prop :=
  p.state = .pObjExpectKey → ∃ top, Parser.topFrame p = some top ∧ top.kind = .frameObject

/-! ## value.go -/

/-- Go `strconv.ParseInt(s, 10, 64)`, which is also `strconv.Atoi` where `int`
has 64 bits: an optional sign, at least one decimal digit and nothing else, and
a value that fits in 64 bits; `none` stands for the error. -/
def strconvParseInt (s : Str) : Option Int :=
  let neg := s.head? = some '-'
  let digits := if s.head? = some '-' ∨ s.head? = some '+' then s.drop 1 else s
  if !digits.isEmpty && digits.all Tokenizer.isDigit then
    if neg then
      (if digitsValue digits ≤ 2 ^ 63 then some (-(digitsValue digits : Int)) else none)
    else (if digitsValue digits < 2 ^ 63 then some (digitsValue digits : Int) else none)
  else none

/-- Go `strconv.ParseBool`: it accepts `1`, `t`, `T`, `TRUE`, `true`, `True` as
true and `0`, `f`, `F`, `FALSE`, `false`, `False` as false; `none` stands for
the error. -/
def strconvParseBool (s : Str) : Option Bool :=
  if s ∈ ["1".toList, "t".toList, "T".toList, "TRUE".toList, "true".toList, "True".toList] then
    some true
  else if s ∈ ["0".toList, "f".toList, "F".toList, "FALSE".toList, "false".toList,
      "False".toList] then
    some false
  else none

/-- Go `strconv.FormatInt(n, 10)`: the decimal text of an integer. -/
def FormatInt (n : Int) : Str :=
  if n < 0 then '-' :: Nat.toDigits 10 n.natAbs else Nat.toDigits 10 n.toNat

/-- Go `int64(v)` for an integer `v` of another integer type: the value modulo
2^64, read as a signed number. -/
def wrapInt64 (n : Int) : Int := (n + 2 ^ 63) % 2 ^ 64 - 2 ^ 63

/-- The floating-point side of value.go, taken as parameters: the type of
`float64` values, `strconv.ParseFloat(s, 64)` (`none` for the error), the
conversion `int64(f)`, and the test `f != 0.0`. -/
structure FloatOps (F : Type) where
  ParseFloat : Str → Option F
  toInt64 : F → Int
  nonZero : F → Bool

/-- Floating-point parameters under which no string parses as a float, for
evaluating coercions that are decided before `ParseFloat` is consulted. -/
def FloatOps.rejecting : FloatOps Unit :=
  { ParseFloat := fun _ => none, toInt64 := fun _ => 0, nonZero := fun _ => false }

/-- A Go value held in an `any`, by the dynamic types the type switches of
value.go tell apart; an integer is given by its value, `other` is any other
type.  A `*PartialValue` receiver is read through its `Value` field only, so it
is given as `Option (GoValue F)`: `none` is the nil pointer. -/
inductive GoValue (F : Type) where
  | nil
  | int64 (n : Int)
  | int (n : Int)
  | int8 (n : Int)
  | int16 (n : Int)
  | int32 (n : Int)
  | uint (n : Nat)
  | uint8 (n : Nat)
  | uint16 (n : Nat)
  | uint32 (n : Nat)
  | uint64 (n : Nat)
  | float32 (x : F)
  | float64 (x : F)
  | string (s : Str)
  | bool (b : Bool)
  | other

/-- The values the parser stores in `PartialValue.Value`, as Go values. -/
def AnyVal.toGo {F : Type} : AnyVal → GoValue F
  | .nil => .nil
  | .str s => .string s
  | .bool b => .bool b

/-- Go `convertToInt64`; `none` stands for the result `(0, false)`. -/
def PartialValue.convertToInt64 {F : Type} (ops : FloatOps F) : GoValue F → Option Int
  | .int64 n => some n
  | .int n => some n
  | .int8 n => some n
  | .int16 n => some n
  | .int32 n => some n
  | .uint n => some (wrapInt64 n)
  | .uint8 n => some n
  | .uint16 n => some n
  | .uint32 n => some n
  | .uint64 n => some (wrapInt64 n)
  | .float32 x => some (ops.toInt64 x)
  | .float64 x => some (ops.toInt64 x)
  | .string s =>
    match strconvParseInt s with
    | some i => some i
    | none =>
      match ops.ParseFloat s with
      | some f => some (ops.toInt64 f)
      | none => none
  | _ => none

/-- Go `convertToFloat64` on the two floating-point types, the only cases `Bool`
reaches it with; `none` stands for the other cases. -/
def PartialValue.floatValue {F : Type} : GoValue F → Option F
  | .float32 x => some x
  | .float64 x => some x
  | _ => none

/-- Go `Int64`. -/
def PartialValue.Int64 {F : Type} (ops : FloatOps F) (pv : Option (GoValue F)) : Int :=
  match pv with
  | none => 0
  | some .nil => 0
  | some v =>
    match PartialValue.convertToInt64 ops v with
    | some i64 => i64
    | none => 0

/-- Go `Int`, where `int` has 64 bits. -/
def PartialValue.Int {F : Type} (ops : FloatOps F) (pv : Option (GoValue F)) : Int :=
  match pv with
  | none => 0
  | some .nil => 0
  | some v =>
    match PartialValue.convertToInt64 ops v with
    | some i64 => i64
    | none => 0

/-- Go `Bool`. -/
def PartialValue.Bool {F : Type} (ops : FloatOps F) (pv : Option (GoValue F)) : Bool :=
  match pv with
  | none => false
  | some .nil => false
  | some (.bool v) => v
  | some (.string v) =>
    match strconvParseBool v with
    | some b => b
    | none =>
      if v = "true".toList ∨ v = "True".toList ∨ v = "TRUE".toList then true
      else if v = "false".toList ∨ v = "False".toList ∨ v = "FALSE".toList then false
      else
        match strconvParseInt v with
        | some i => i != 0
        | none =>
          match ops.ParseFloat v with
          | some f => ops.nonZero f
          | none => false
  | some (.float32 x) => ops.nonZero x
  | some (.float64 x) => ops.nonZero x
  | some .other => false
  | some v => PartialValue.Int ops (some v) != 0

/-! ## Basic facts about `emit` and the token handlers -/

namespace Parser

@[simp] theorem topFrame_eq (p : Parser) : topFrame p = p.stack.getLast? := by
  unfold topFrame
  split
  · rename_i h
    rw [List.length_eq_zero.mp h]; rfl
  · rfl

@[simp] theorem emit_stack (p : Parser) (ev : Event) : (emit p ev).stack = p.stack := by
  unfold emit updateCachedSegments; split <;> rfl

@[simp] theorem emit_state (p : Parser) (ev : Event) : (emit p ev).state = p.state := by
  unfold emit updateCachedSegments; split <;> rfl

@[simp] theorem emit_curValueKind (p : Parser) (ev : Event) :
    (emit p ev).curValueKind = p.curValueKind := by
  unfold emit updateCachedSegments; split <;> rfl

@[simp] theorem emit_curString (p : Parser) (ev : Event) :
    (emit p ev).curString = p.curString := by
  unfold emit updateCachedSegments; split <;> rfl

@[simp] theorem emit_curNumber (p : Parser) (ev : Event) :
    (emit p ev).curNumber = p.curNumber := by
  unfold emit updateCachedSegments; split <;> rfl

@[simp] theorem emit_closing (p : Parser) (ev : Event) : (emit p ev).closing = p.closing := by
  unfold emit updateCachedSegments; split <;> rfl

@[simp] theorem emit_chunkBuffer (p : Parser) (ev : Event) :
    (emit p ev).chunkBuffer = p.chunkBuffer := by
  unfold emit updateCachedSegments; split <;> rfl

@[simp] theorem emit_subs (p : Parser) (ev : Event) : (emit p ev).subs = p.subs := by
  unfold emit updateCachedSegments; split <;> rfl

@[simp] theorem emit_tokenizer (p : Parser) (ev : Event) :
    (emit p ev).tokenizer = p.tokenizer := by
  unfold emit updateCachedSegments; split <;> rfl

@[simp] theorem emit_err (p : Parser) (ev : Event) : (emit p ev).err = p.err := by
  unfold emit updateCachedSegments; split <;> rfl

@[simp] theorem emit_lastValueKind (p : Parser) (ev : Event) :
    (emit p ev).lastValueKind = p.lastValueKind := by
  unfold emit updateCachedSegments; split <;> rfl

@[simp] theorem emit_cachedSegments (p : Parser) (ev : Event) :
    (emit p ev).cachedSegments = emitSegments p := by
  unfold emit updateCachedSegments emitSegments; split <;> rfl

@[simp] theorem emit_segmentsDirty (p : Parser) (ev : Event) :
    (emit p ev).segmentsDirty = false := by
  unfold emit updateCachedSegments
  split
  · rfl
  · rename_i h
    simp only [Bool.or_eq_true, not_or, Bool.not_eq_true] at h
    exact h.1

@[simp] theorem emit_trace (p : Parser) (ev : Event) :
    (emit p ev).trace = p.trace ++ [{ ev with pathSegments := emitSegments p }] := by
  unfold emit updateCachedSegments emitSegments; split <;> rfl

@[simp] theorem emit_calls (p : Parser) (ev : Event) :
    (emit p ev).calls = p.calls ++
      (p.subs.filter (fun sub => matchSegments sub.Pattern.Segments (emitSegments p))).map
        (fun sub => (sub.Handler, { ev with pathSegments := emitSegments p })) := by
  unfold emit updateCachedSegments emitSegments; split <;> rfl

/-! ### The tokenizer field and the `isLetter` parameter -/

theorem advanceAfterValue_tokenizer (p : Parser) :
    (advanceAfterValue p).tokenizer = p.tokenizer := by
  unfold advanceAfterValue
  repeat' split
  all_goals simp [setTop]

theorem flushStringChunk_tokenizer (p : Parser) :
    (flushStringChunk p).tokenizer = p.tokenizer := by
  unfold flushStringChunk
  repeat' split
  all_goals simp

theorem OnToken_tokenizer (p : Parser) (tok : Token) :
    (OnToken p tok).tokenizer = p.tokenizer := by
  unfold OnToken
  split
  all_goals simp only [onObjectStart, onObjectEnd, onArrayStart, onArrayEnd, onStringChunk,
    onStringEnd, onStringEndKey, onStringEndValue, onStringEndFlush, onStringEndEmit, onNumberChunk,
    onNumberEnd,
    onPrimitive, onColon, onComma]
  all_goals repeat' split
  all_goals simp [setTop, pop, advanceAfterValue_tokenizer, flushStringChunk_tokenizer]

theorem foldl_OnToken_tokenizer (toks : List Token) (p : Parser) :
    (toks.foldl OnToken p).tokenizer = p.tokenizer := by
  induction toks generalizing p with
  | nil => rfl
  | cons tok toks ih => simp [List.foldl, ih, OnToken_tokenizer]

theorem deliver_tokenizer (p : Parser) (res : Tokenizer × List Token) :
    (deliver p res).tokenizer = some res.1 := by
  unfold deliver
  rw [foldl_OnToken_tokenizer]

/-- Outside the keyword state the tokenizer never consults `isLetter`. -/
theorem Consume_indep (f g : Char → Bool) (t : Tokenizer) (r : Char)
    (h : t.state ≠ .tKeyword) : Tokenizer.Consume f t r = Tokenizer.Consume g t r := by
  unfold Tokenizer.Consume
  split <;> first | rfl | exact absurd ‹_› h

theorem feedLoop_indep (f g : Char → Bool) :
    ∀ (s : List Char) (p : Parser) (t : Tokenizer), p.tokenizer = some t →
      keywordFree t s = true → feedLoop f s p = feedLoop g s p := by
  intro s
  induction s with
  | nil => intro p t _ _; rfl
  | cons r rs ih =>
    intro p t ht hk
    simp only [keywordFree, Bool.and_eq_true, bne_iff_ne, ne_eq] at hk
    have hf : Tokenizer.Consume f t r = Tokenizer.Consume (fun _ => false) t r :=
      Consume_indep _ _ t r hk.1
    have hg : Tokenizer.Consume g t r = Tokenizer.Consume (fun _ => false) t r :=
      Consume_indep _ _ t r hk.1
    have hc : consumeRune f p r = consumeRune g p r := by
      simp only [consumeRune, ht, hf, hg]
    have htok : (consumeRune g p r).tokenizer =
        some (Tokenizer.Consume (fun _ => false) t r).1 := by
      simp only [consumeRune, ht, hg, deliver_tokenizer]
    simp only [feedLoop, hc]
    split
    · rfl
    · exact ih _ _ htok hk.2

/-- A feed that never meets the keyword state does not depend on `isLetter`. -/
theorem FeedString_indep (f g : Char → Bool) (p : Parser) (t : Tokenizer) (s : Str)
    (ht : p.tokenizer = some t) (hk : keywordFree t s = true) :
    FeedString f p s = FeedString g p s := by
  simp only [FeedString, feedLoop_indep f g s p t ht hk]

/-! ### Terminal events -/

theorem flushStringChunk_terminals (p : Parser) :
    (flushStringChunk p).trace.countP Event.isTerminal = p.trace.countP Event.isTerminal := by
  unfold flushStringChunk
  repeat' split
  all_goals simp [Event.isTerminal, List.countP_cons]

theorem OnToken_terminals (p : Parser) (tok : Token) :
    (OnToken p tok).trace.countP Event.isTerminal = p.trace.countP Event.isTerminal := by
  unfold OnToken
  split
  all_goals simp only [onObjectStart, onObjectEnd, onArrayStart, onArrayEnd, onStringChunk,
    onStringEnd, onStringEndKey, onStringEndValue, onStringEndFlush, onStringEndEmit, onNumberChunk,
    onNumberEnd,
    onPrimitive, onColon, onComma, advanceAfterValue, flushStringChunk]
  all_goals repeat' split
  all_goals simp [setTop, pop, Event.isTerminal, List.countP_cons]

theorem foldl_OnToken_terminals (toks : List Token) (p : Parser) :
    (toks.foldl OnToken p).trace.countP Event.isTerminal = p.trace.countP Event.isTerminal := by
  induction toks generalizing p with
  | nil => rfl
  | cons tok toks ih => simp [List.foldl, ih, OnToken_terminals]

theorem deliver_terminals (p : Parser) (res : Tokenizer × List Token) :
    (deliver p res).trace.countP Event.isTerminal = p.trace.countP Event.isTerminal := by
  unfold deliver
  rw [foldl_OnToken_terminals]

theorem consumeRune_terminals (f : Char → Bool) (p : Parser) (r : Char) :
    (consumeRune f p r).trace.countP Event.isTerminal = p.trace.countP Event.isTerminal := by
  unfold consumeRune
  split
  · rfl
  · exact deliver_terminals _ _

theorem feedLoop_terminals (f : Char → Bool) (s : List Char) (p : Parser) :
    (feedLoop f s p).1.trace.countP Event.isTerminal = p.trace.countP Event.isTerminal := by
  induction s generalizing p with
  | nil => rfl
  | cons r rs ih =>
    simp only [feedLoop]
    split
    · exact consumeRune_terminals f p r
    · rw [ih, consumeRune_terminals]

theorem FeedString_terminals (f : Char → Bool) (p : Parser) (s : Str) :
    (FeedString f p s).1.trace.countP Event.isTerminal = p.trace.countP Event.isTerminal := by
  unfold FeedString
  split
  · rfl
  · split
    · rename_i h
      have := feedLoop_terminals f s p
      rw [h] at this
      exact this
    · rename_i h
      have := feedLoop_terminals f s p
      rw [h] at this
      rw [flushStringChunk_terminals]
      exact this

theorem flushIncompleteValue_terminals (p : Parser) :
    (flushIncompleteValue p).trace.countP Event.isTerminal =
      p.trace.countP Event.isTerminal := by
  unfold flushIncompleteValue flushIncompleteAbort flushStringChunk
  repeat' split
  all_goals simp_all [Event.isTerminal, List.countP_cons]

theorem closeFramesLoop_terminals (n : Nat) (p : Parser) :
    (closeFramesLoop n p).trace.countP Event.isTerminal = p.trace.countP Event.isTerminal := by
  induction n generalizing p with
  | zero => rfl
  | succ n ih =>
    unfold closeFramesLoop
    repeat' split
    all_goals first | rfl | (rw [ih]; simp [pop, Event.isTerminal, List.countP_cons])

theorem Close_terminals (p : Parser) (normal : Bool) :
    (Close p normal).trace.countP Event.isTerminal = p.trace.countP Event.isTerminal + 1 := by
  unfold Close closeUnfinishedFrames closeTokenizer
  repeat' split
  all_goals simp [Event.isTerminal, List.countP_cons, closeFramesLoop_terminals,
    flushIncompleteValue_terminals, deliver_terminals]

end Parser

theorem runOps_terminals (f : Char → Bool) (ops : List Op) (p : Parser) :
    (runOps f p ops).trace.countP Event.isTerminal =
      p.trace.countP Event.isTerminal + ops.countP Op.isClose := by
  induction ops generalizing p with
  | nil => simp [runOps]
  | cons op ops ih =>
    have h := ih (runOp f p op)
    simp only [runOps, List.foldl] at h ⊢
    rw [h]
    cases op with
    | feed s => simp [runOp, Parser.FeedString_terminals, Op.isClose, List.countP_cons]
    | close n =>
      simp [runOp, Parser.Close_terminals, Op.isClose, List.countP_cons]
      omega

/-! ## Truncation at `Close` (C1, C2) -/

/-- C1, the code as it stands: after `FeedString("{\"text\":\"hel")`, `Close(false)`
first lets the tokenizer end the string while `closing` is still false, so the
string is reported by a FieldValue with Complete=true and Aborted=false; the
events are ObjectStart, the append chunk "hel", the complete value "hel",
ObjectEnd, StreamAbort, and no event carries Aborted=true. -/
theorem close_inside_string_reports_complete (isLetter : Char → Bool) :
    ((Parser.FeedString isLetter NewParser "\x7b\"text\":\"hel".toList).1.Close false).trace.map
        (fun e => (e.Typ, e.Value)) =
      [(.EventObjectStart, none),
       (.EventFieldValue,
        some { Kind := .ValueString, Value := .str "hel".toList, Append := true }),
       (.EventFieldValue,
        some { Kind := .ValueString, Value := .str "hel".toList, Complete := true }),
       (.EventObjectEnd, none),
       (.EventStreamAbort, none)] := by
  rw [Parser.FeedString_indep isLetter (fun _ => false) NewParser NewTokenizer _ rfl (by decide)]
  decide

/-- C2, the code as it stands: after `FeedString("{\"n\":12")`, `Close(false)` lets the
tokenizer end the number while `closing` is still false, so the number is
reported by a FieldValue with Complete=true and Aborted=false; the events are
ObjectStart, the complete number "12", ObjectEnd, StreamAbort, and no event
carries Aborted=true. -/
theorem close_inside_number_reports_complete (isLetter : Char → Bool) :
    ((Parser.FeedString isLetter NewParser "\x7b\"n\":12".toList).1.Close false).trace.map
        (fun e => (e.Typ, e.Value)) =
      [(.EventObjectStart, none),
       (.EventFieldValue,
        some { Kind := .ValueNumber, Value := .str "12".toList, Complete := true }),
       (.EventObjectEnd, none),
       (.EventStreamAbort, none)] := by
  rw [Parser.FeedString_indep isLetter (fun _ => false) NewParser NewTokenizer _ rfl (by decide)]
  decide

/-! ## Terminal events (C3) -/

/-- C3 as stated fails: `Close` has no guard, so closing a fresh parser twice
emits two terminal events, and the second `Close` does emit a further event. -/
theorem second_close_emits_again :
    ((NewParser.Close true).Close true).trace.countP Event.isTerminal = 2 ∧
    ((NewParser.Close true).Close true).trace ≠ (NewParser.Close true).trace := by
  decide

/-- C3 amended: for every sequence of Feed and Close calls on a fresh parser
the emitted events contain exactly one terminal event (StreamEnd or
StreamAbort) per Close call, and Feed calls emit none; so there is exactly one
terminal event precisely when Close is called exactly once. -/
theorem terminal_events_count_closes (isLetter : Char → Bool) (ops : List Op) :
    (runOps isLetter NewParser ops).trace.countP Event.isTerminal = ops.countP Op.isClose := by
  have h := runOps_terminals isLetter ops NewParser
  simpa [NewParser] using h

/-! ## Teardown at `Close` (C4) -/

namespace Parser

theorem eq_dropLast_append_of_getLast? {α : Type} (l : List α) (a : α)
    (h : l.getLast? = some a) : l = l.dropLast ++ [a] := by
  rcases List.eq_nil_or_concat l with h0 | ⟨l', b, rfl⟩
  · subst h0; simp at h
  · simp at h; subst h; simp

theorem kinds_replace_top (l : List frame) (top f : frame) (h : l.getLast? = some top)
    (hk : f.kind = top.kind) : kinds (l.dropLast ++ [f]) = kinds l := by
  conv_rhs => rw [eq_dropLast_append_of_getLast? l top h]
  simp [kinds, hk]

theorem ValueStep.refl (p : Parser) : ValueStep p p := ⟨[], by simp, by simp, rfl⟩

theorem ValueStep.set {p q r : Parser} (h : ValueStep p q) (ht : r.trace = q.trace)
    (hs : kinds r.stack = kinds q.stack) : ValueStep p r := by
  obtain ⟨a, ha, hva, hka⟩ := h
  exact ⟨a, ht.trans ha, hva, hs.trans hka⟩

theorem ValueStep.trans {p q r : Parser} (h1 : ValueStep p q) (h2 : ValueStep q r) :
    ValueStep p r := by
  obtain ⟨a, ha, hva, hka⟩ := h1
  obtain ⟨b, hb, hvb, hkb⟩ := h2
  refine ⟨a ++ b, by rw [hb, ha, List.append_assoc], ?_, hkb.trans hka⟩
  intro e he
  rcases List.mem_append.mp he with h | h
  · exact hva e h
  · exact hvb e h

theorem ValueStep.emit {p q : Parser} (h : ValueStep p q) (ev : Event)
    (hev : ev.Typ = .EventFieldValue ∨ ev.Typ = .EventArrayItem) :
    ValueStep p (emit q ev) := by
  refine h.trans ⟨[_], emit_trace q ev, ?_, by simp⟩
  rcases hev with h | h <;> simp [Event.isValueEvent, h]

theorem ValueStep.advance {p q : Parser} (h : ValueStep p q) :
    ValueStep p (advanceAfterValue q) := by
  unfold advanceAfterValue
  split
  · exact h.set rfl rfl
  · rename_i top htop
    split
    · exact h.set rfl rfl
    · refine (h.emit _ (Or.inr rfl)).set rfl ?_
      simp only [setTop, emit_stack]
      exact kinds_replace_top _ top _ (by simpa using htop) rfl

theorem ValueStep.flush {p q : Parser} (h : ValueStep p q) :
    ValueStep p (flushStringChunk q) := by
  unfold flushStringChunk
  split
  · exact h
  · split
    · exact h
    · exact (h.emit _ (Or.inl rfl)).set rfl rfl

theorem valueStep_onStringEndValue {p q : Parser} (h : ValueStep p q) :
    ValueStep p (onStringEndValue q) := by
  have h1 : ValueStep p (onStringEndFlush q) := by
    unfold onStringEndFlush
    split
    · split
      · exact h.flush
      · exact h
    · exact h
  unfold onStringEndValue onStringEndEmit
  split
  · exact h1
  · simp only
    split
    · apply ValueStep.advance
      refine ValueStep.set ?_ rfl rfl
      exact h1.emit _ (Or.inl rfl)
    · refine ValueStep.set ?_ rfl rfl
      exact h1.emit _ (Or.inl rfl)

theorem valueStep_onStringEnd {p q : Parser} (h : ValueStep p q) :
    ValueStep p (onStringEnd q) := by
  unfold onStringEnd
  split
  · unfold onStringEndKey
    split
    · exact h.set rfl rfl
    · rename_i top htop
      refine h.set rfl ?_
      simp only [setTop]
      exact kinds_replace_top _ top _ (by simpa using htop) rfl
  · exact valueStep_onStringEndValue h
  · exact valueStep_onStringEndValue h
  · exact h

theorem valueStep_onNumberEnd {p q : Parser} (h : ValueStep p q) :
    ValueStep p (onNumberEnd q) := by
  unfold onNumberEnd
  split
  · exact h
  · simp only
    split
    · apply ValueStep.advance
      apply ValueStep.emit _ _ (Or.inl rfl)
      exact h.set rfl rfl
    · apply ValueStep.emit _ _ (Or.inl rfl)
      exact h.set rfl rfl

theorem valueStep_flushIncompleteAbort {p q : Parser} (h : ValueStep p q) :
    ValueStep p (flushIncompleteAbort q) := by
  unfold flushIncompleteAbort
  split
  · exact h
  · simp only
    refine ValueStep.set ?_ rfl rfl
    split
    · split
      · apply ValueStep.emit _ _ (Or.inl rfl)
        exact h.set rfl rfl
      · exact h
    · split
      · apply ValueStep.emit _ _ (Or.inl rfl)
        exact h.set rfl rfl
      · exact h
    · exact h

theorem valueStep_flushIncompleteValue {p q : Parser} (h : ValueStep p q) :
    ValueStep p (flushIncompleteValue q) := by
  unfold flushIncompleteValue
  apply valueStep_flushIncompleteAbort
  split
  · exact h.flush
  · exact h

theorem valueStep_closeTokens {p q : Parser} (h : ValueStep p q) (t : Tokenizer) :
    ValueStep p (deliver q t.Close) := by
  unfold deliver Tokenizer.Close
  split
  · exact valueStep_onStringEnd (h.set rfl rfl)
  · exact valueStep_onNumberEnd (h.set rfl rfl)
  · exact h.set rfl rfl

/-- The close loop emits one close event per frame, top first, and empties the stack. -/
theorem closeFramesLoop_spec (n : Nat) : ∀ p : Parser, p.stack.length ≤ n →
    ∃ closes, (closeFramesLoop n p).trace = p.trace ++ closes ∧
      closes.map (·.Typ) = (kinds p.stack).reverse.map frameKind.closeType ∧
      (closeFramesLoop n p).stack = [] := by
  induction n with
  | zero =>
    intro p hp
    have : p.stack = [] := List.length_eq_zero.mp (Nat.le_zero.mp hp)
    exact ⟨[], by simp [closeFramesLoop], by simp [this, kinds], by simp [closeFramesLoop, this]⟩
  | succ n ih =>
    intro p hp
    unfold closeFramesLoop
    split
    · rename_i h0
      have : p.stack = [] := by simpa using h0
      exact ⟨[], by simp, by simp [this, kinds], this⟩
    · rename_i top htop
      have hl := eq_dropLast_append_of_getLast? p.stack top (by simpa using htop)
      have hlen : p.stack.dropLast.length ≤ n := by
        rw [List.length_dropLast]; omega
      split
      · rename_i hk
        obtain ⟨cl, h1, h2, h3⟩ := ih (pop (emit p
          { Typ := .EventObjectEnd, pathOpts := { excludeTop := true } }))
          (by simpa [pop] using hlen)
        refine ⟨{ Typ := .EventObjectEnd, pathOpts := { excludeTop := true },
                  pathSegments := emitSegments p } :: cl, ?_, ?_, h3⟩
        · simp only [h1]; simp [pop]
        · rw [hl]
          simp only [pop, emit_stack] at h2
          simp [kinds, hk, frameKind.closeType, h2]
      · rename_i hk
        obtain ⟨cl, h1, h2, h3⟩ := ih (pop (emit p
          { Typ := .EventArrayEnd, pathOpts := { excludeTop := true } }))
          (by simpa [pop] using hlen)
        refine ⟨{ Typ := .EventArrayEnd, pathOpts := { excludeTop := true },
                  pathSegments := emitSegments p } :: cl, ?_, ?_, h3⟩
        · simp only [h1]; simp [pop]
        · rw [hl]
          simp only [pop, emit_stack] at h2
          simp [kinds, hk, frameKind.closeType, h2]

theorem valueStep_closeTokenizer (p : Parser) : ValueStep p (closeTokenizer p) := by
  unfold closeTokenizer
  split
  · exact ValueStep.refl p
  · exact valueStep_closeTokens (ValueStep.refl p) _

/-- The shape of the events `Close` appends: value events, one close event per
frame, and the terminal event. -/
theorem Close_trace (p : Parser) (normal : Bool) :
    ∃ pending closes last,
      (Close p normal).trace = p.trace ++ pending ++ closes ++ [last] ∧
      (∀ e ∈ pending, e.isValueEvent = true) ∧
      closes.map (·.Typ) = (kinds p.stack).reverse.map frameKind.closeType ∧
      last.Typ = (if normal then EventType.EventStreamEnd else EventType.EventStreamAbort) ∧
      (Close p normal).stack = [] := by
  have h0 := valueStep_closeTokenizer p
  unfold Close closeUnfinishedFrames
  simp only
  generalize closeTokenizer p = q0 at h0 ⊢
  have h1 : ValueStep p (flushIncompleteValue { q0 with closing := true }) :=
    valueStep_flushIncompleteValue (h0.set rfl rfl)
  generalize flushIncompleteValue { q0 with closing := true } = q1 at h1 ⊢
  obtain ⟨pending, hp1, hp2, hp3⟩ := h1
  obtain ⟨closes, hc1, hc2, hc3⟩ := closeFramesLoop_spec _ q1 (Nat.le_refl _)
  rw [hp3] at hc2
  rw [hp1] at hc1
  cases normal
  · let last : Event := { Typ := .EventStreamAbort,
                          pathSegments := (closeFramesLoop q1.stack.length q1).emitSegments }
    refine ⟨pending, closes, last, ?_, hp2, hc2, rfl, ?_⟩
    · simp only [Bool.false_eq_true, if_false, emit_trace, hc1, last]
    · simp only [Bool.false_eq_true, if_false, emit_stack, hc3]
  · let last : Event := { Typ := .EventStreamEnd,
                          pathSegments := (closeFramesLoop q1.stack.length q1).emitSegments }
    refine ⟨pending, closes, last, ?_, hp2, hc2, rfl, ?_⟩
    · simp only [if_true, emit_trace, hc1, last]
    · simp only [if_true, emit_stack, hc3]

/-- C4: for every parser state, `Close(normal)` appends to the trace first the
pending value events (FieldValue and ArrayItem events only), then exactly one
close event per frame of the stack, top frame first (ObjectEnd for an Object
frame, ArrayEnd for an Array frame), and last the terminal event, StreamEnd if
`normal` and StreamAbort otherwise; it leaves the stack empty. -/
theorem Close_teardown (p : Parser) (normal : Bool) :
    ∃ pending closes last,
      (Close p normal).trace = p.trace ++ pending ++ closes ++ [last] ∧
      (∀ e ∈ pending, e.isValueEvent = true) ∧
      closes.map (·.Typ) = (kinds p.stack).reverse.map frameKind.closeType ∧
      last.Typ = (if normal then EventType.EventStreamEnd else EventType.EventStreamAbort) ∧
      (Close p normal).stack = [] :=
  Close_trace p normal

end Parser

/-! ## Balanced containers (C5) -/

namespace Parser

theorem replay_value_events (evs : List Event) (st : Option (List frameKind))
    (h : ∀ e ∈ evs, e.isValueEvent = true) : evs.foldl replayStep st = st := by
  induction evs generalizing st with
  | nil => rfl
  | cons e evs ih =>
    have he : replayStep st e = st := by
      have := h e (List.mem_cons_self _ _)
      simp only [Event.isValueEvent, Bool.or_eq_true, beq_iff_eq] at this
      cases st with
      | none => rfl
      | some s => rcases this with h | h <;> simp [replayStep, h]
    simp only [List.foldl, he]
    exact ih st (fun e' he' => h e' (List.mem_cons_of_mem _ he'))

theorem ValueStep.balanced {p q : Parser} (h : ValueStep p q) (hp : Balanced p) :
    Balanced q := by
  obtain ⟨evs, ht, hv, hk⟩ := h
  unfold Balanced openContainers at hp ⊢
  rw [ht, List.foldl_append, hp, replay_value_events _ _ hv, hk]

theorem openContainers_concat (tr : List Event) (e : Event) :
    openContainers (tr ++ [e]) = replayStep (openContainers tr) e := by
  simp [openContainers, List.foldl_append]

theorem kinds_concat (l : List frame) (f : frame) : kinds (l ++ [f]) = kinds l ++ [f.kind] := by
  simp [kinds]

theorem kinds_dropLast (l : List frame) : kinds l.dropLast = (kinds l).dropLast := by
  simp [kinds, List.map_dropLast]

theorem kinds_getLast? (l : List frame) : (kinds l).getLast? = l.getLast?.map (·.kind) := by
  simp [kinds, List.getLast?_map]

theorem onObjectStart_balanced (p : Parser) (hp : Balanced p) : Balanced (onObjectStart p) := by
  unfold Balanced at hp ⊢
  simp [onObjectStart, openContainers_concat, hp, replayStep, kinds_concat]

theorem onArrayStart_balanced (p : Parser) (hp : Balanced p) : Balanced (onArrayStart p) := by
  unfold Balanced at hp ⊢
  simp [onArrayStart, openContainers_concat, hp, replayStep, kinds_concat]

theorem onObjectEnd_balanced (p : Parser) (hp : Balanced p) : Balanced (onObjectEnd p) := by
  unfold Balanced at hp ⊢
  unfold onObjectEnd
  split
  · exact hp
  · rename_i top htop
    split
    · exact hp
    · rename_i hk
      have hk' : top.kind = .frameObject := by simpa using hk
      have hlast : (kinds p.stack).getLast? = some .frameObject := by
        rw [kinds_getLast?]; simp at htop; simp [htop, hk']
      simp only
      split
      · simp [pop, ← List.append_assoc, openContainers_concat, hp, replayStep, hlast, kinds_dropLast]
      · rename_i top2 htop2
        have h2 : (p.stack.dropLast).getLast? = some top2 := by simpa [pop] using htop2
        split
        · simp [pop, setTop, ← List.append_assoc, openContainers_concat, hp, replayStep, hlast,
            kinds_dropLast]
          rw [← kinds_dropLast]
          exact (kinds_replace_top _ top2 { top2 with index := top2.index + 1 } h2 rfl).symm
        · split <;>
          simp [pop, ← List.append_assoc, openContainers_concat, hp, replayStep, hlast, kinds_dropLast]


theorem onArrayEnd_balanced (p : Parser) (hp : Balanced p) : Balanced (onArrayEnd p) := by
  unfold Balanced at hp ⊢
  unfold onArrayEnd
  split
  · exact hp
  · rename_i top htop
    split
    · exact hp
    · rename_i hk
      have hk' : top.kind = .frameArray := by simpa using hk
      have hlast : (kinds p.stack).getLast? = some .frameArray := by
        rw [kinds_getLast?]; simp at htop; simp [htop, hk']
      simp only
      split
      · simp [pop, ← List.append_assoc, openContainers_concat, hp, replayStep, hlast, kinds_dropLast]
      · rename_i top2 htop2
        have h2 : (p.stack.dropLast).getLast? = some top2 := by simpa [pop] using htop2
        split
        · simp [pop, setTop, ← List.append_assoc, openContainers_concat, hp, replayStep, hlast,
            kinds_dropLast]
          rw [← kinds_dropLast]
          exact (kinds_replace_top _ top2 { top2 with index := top2.index + 1 } h2 rfl).symm
        · split <;>
          simp [pop, ← List.append_assoc, openContainers_concat, hp, replayStep, hlast, kinds_dropLast]

theorem valueStep_onPrimitive {p q : Parser} (h : ValueStep p q) (v : AnyVal) :
    ValueStep p (onPrimitive q v) := by
  unfold onPrimitive
  apply ValueStep.advance
  apply ValueStep.emit _ _ (Or.inl rfl)
  exact h.set rfl rfl

theorem valueStep_onComma {p q : Parser} (h : ValueStep p q) : ValueStep p (onComma q) := by
  unfold onComma
  repeat' split
  all_goals exact h.set rfl rfl

theorem valueStep_onStringChunk {p q : Parser} (h : ValueStep p q) (s : Str) :
    ValueStep p (onStringChunk q s) := by
  unfold onStringChunk
  simp only
  split <;> exact h.set rfl rfl

theorem OnToken_balanced (p : Parser) (tok : Token) (hp : Balanced p) :
    Balanced (OnToken p tok) := by
  unfold OnToken
  split
  · exact onObjectStart_balanced p hp
  · exact onObjectEnd_balanced p hp
  · exact onArrayStart_balanced p hp
  · exact onArrayEnd_balanced p hp
  · exact (valueStep_onStringChunk (ValueStep.refl p) _).balanced hp
  · exact (valueStep_onStringEnd (ValueStep.refl p)).balanced hp
  · exact ((ValueStep.refl p).set (r := onNumberChunk p _) rfl rfl).balanced hp
  · exact (valueStep_onNumberEnd (ValueStep.refl p)).balanced hp
  · exact (valueStep_onPrimitive (ValueStep.refl p) _).balanced hp
  · exact (valueStep_onPrimitive (ValueStep.refl p) _).balanced hp
  · exact ((ValueStep.refl p).set (r := onColon p) rfl rfl).balanced hp
  · exact (valueStep_onComma (ValueStep.refl p)).balanced hp

theorem deliver_balanced (p : Parser) (res : Tokenizer × List Token) (hp : Balanced p) :
    Balanced (deliver p res) := by
  unfold deliver
  have h0 : Balanced { p with tokenizer := some res.1 } := hp
  generalize ({ p with tokenizer := some res.1 } : Parser) = q at h0
  generalize res.2 = toks
  induction toks generalizing q with
  | nil => exact h0
  | cons tok toks ih => exact ih _ (OnToken_balanced q tok h0)

theorem consumeRune_balanced (f : Char → Bool) (p : Parser) (r : Char) (hp : Balanced p) :
    Balanced (consumeRune f p r) := by
  unfold consumeRune
  split
  · exact hp
  · exact deliver_balanced _ _ hp

theorem feedLoop_balanced (f : Char → Bool) (s : List Char) (p : Parser) (hp : Balanced p) :
    Balanced (feedLoop f s p).1 := by
  induction s generalizing p with
  | nil => exact hp
  | cons r rs ih =>
    simp only [feedLoop]
    split
    · exact consumeRune_balanced f p r hp
    · exact ih _ (consumeRune_balanced f p r hp)

theorem FeedString_balanced (f : Char → Bool) (p : Parser) (s : Str) (hp : Balanced p) :
    Balanced (FeedString f p s).1 := by
  unfold FeedString
  split
  · exact hp
  · have h := feedLoop_balanced f s p hp
    split
    · rename_i h'
      rw [h'] at h
      exact h
    · rename_i h'
      rw [h'] at h
      exact ((ValueStep.refl _).flush).balanced h

theorem feedAll_balanced (f : Char → Bool) (chunks : List Str) (p : Parser) (hp : Balanced p) :
    Balanced (feedAll f p chunks) := by
  induction chunks generalizing p with
  | nil => exact hp
  | cons c cs ih => exact ih _ (FeedString_balanced f p c hp)

/-- Replaying close events for the frames of a stack, top first, empties it. -/
theorem replay_closes (ks : List frameKind) (closes : List Event)
    (h : closes.map (·.Typ) = ks.reverse.map frameKind.closeType) :
    closes.foldl replayStep (some ks) = some [] := by
  induction closes generalizing ks with
  | nil =>
    simp at h
    simp [h]
  | cons e es ih =>
    rcases List.eq_nil_or_concat ks with h0 | ⟨ks', k, rfl⟩
    · subst h0; simp at h
    · simp only [List.concat_eq_append, List.reverse_append, List.reverse_cons, List.reverse_nil,
        List.nil_append, List.singleton_append, List.map_cons, List.cons.injEq] at h
      have hstep : replayStep (some (ks' ++ [k])) e = some ks' := by
        cases k <;> simp [replayStep, h.1, frameKind.closeType]
      simp only [List.concat_eq_append, List.foldl, hstep]
      exact ih ks' h.2

theorem Close_balanced (p : Parser) (normal : Bool) (hp : Balanced p) :
    openContainers (Close p normal).trace = some [] := by
  obtain ⟨pending, closes, last, ht, hv, hc, hl, _⟩ := Close_trace p normal
  unfold Balanced openContainers at *
  rw [ht, List.foldl_append, List.foldl_append, List.foldl_append, hp,
    replay_value_events _ _ hv, replay_closes _ _ hc]
  cases normal <;> simp [replayStep, hl]


theorem replay_none (evs : List Event) : evs.foldl replayStep none = none := by
  induction evs with
  | nil => rfl
  | cons e es ih => simpa [List.foldl, replayStep] using ih

theorem count_kinds_length (s : List frameKind) :
    s.count .frameObject + s.count .frameArray = s.length := by
  induction s with
  | nil => rfl
  | cons k ks ih => cases k <;> simp [List.count_cons] <;> omega

theorem replay_counts (evs : List Event) : ∀ s s' : List frameKind,
    evs.foldl replayStep (some s) = some s' →
    s.count .frameObject + countType .EventObjectStart evs =
      s'.count .frameObject + countType .EventObjectEnd evs ∧
    s.count .frameArray + countType .EventArrayStart evs =
      s'.count .frameArray + countType .EventArrayEnd evs := by
  induction evs with
  | nil =>
    intro s s' h
    simp only [List.foldl, Option.some.injEq] at h
    subst h
    simp [countType]
  | cons e es ih =>
    intro s s' h
    simp only [List.foldl] at h
    cases hst : replayStep (some s) e with
    | none => rw [hst, replay_none] at h; cases h
    | some s1 =>
      rw [hst] at h
      have := ih s1 s' h
      obtain ⟨typ, v, segs, opts, cache⟩ := e
      cases typ
      all_goals simp only [replayStep] at hst
      all_goals simp only [countType, List.countP_cons] at this ⊢
      all_goals try split at hst
      all_goals simp only [Option.some.injEq, reduceCtorEq] at hst
      all_goals try subst hst
      all_goals try simp only [List.count_append, List.count_cons, List.count_nil] at this
      all_goals simp at this ⊢
      all_goals try omega
      · rename_i hl
        have := eq_dropLast_append_of_getLast? s _ hl
        have h1 : s.count .frameObject = s.dropLast.count .frameObject + 1 := by
          conv_lhs => rw [this]
          simp
        have h2 : s.count .frameArray = s.dropLast.count .frameArray := by
          conv_lhs => rw [this]
          simp
        omega
      · rename_i hl
        have := eq_dropLast_append_of_getLast? s _ hl
        have h1 : s.count .frameArray = s.dropLast.count .frameArray + 1 := by
          conv_lhs => rw [this]
          simp
        have h2 : s.count .frameObject = s.dropLast.count .frameObject := by
          conv_lhs => rw [this]
          simp
        omega

end Parser

/-- C5: for every input, fed in any number of calls to a fresh parser (parse
errors included): after the feeds the frame stack holds exactly the containers
the emitted Start and End events leave open, every End event having closed the
innermost open container, of its own kind, so the stack depth plus the number
of End events equals the number of Start events; and after one `Close` no
container is left open, the number of ObjectStart events equals the number of
ObjectEnd events and the number of ArrayStart events equals the number of
ArrayEnd events. -/
theorem balanced_containers (isLetter : Char → Bool) (chunks : List Str) (normal : Bool) :
    openContainers (feedAll isLetter NewParser chunks).trace =
      some (kinds (feedAll isLetter NewParser chunks).stack) ∧
    (feedAll isLetter NewParser chunks).stack.length +
        (countType .EventObjectEnd (feedAll isLetter NewParser chunks).trace +
         countType .EventArrayEnd (feedAll isLetter NewParser chunks).trace) =
      countType .EventObjectStart (feedAll isLetter NewParser chunks).trace +
        countType .EventArrayStart (feedAll isLetter NewParser chunks).trace ∧
    openContainers ((feedAll isLetter NewParser chunks).Close normal).trace = some [] ∧
    countType .EventObjectStart ((feedAll isLetter NewParser chunks).Close normal).trace =
      countType .EventObjectEnd ((feedAll isLetter NewParser chunks).Close normal).trace ∧
    countType .EventArrayStart ((feedAll isLetter NewParser chunks).Close normal).trace =
      countType .EventArrayEnd ((feedAll isLetter NewParser chunks).Close normal).trace := by
  have hb : Parser.Balanced (feedAll isLetter NewParser chunks) :=
    Parser.feedAll_balanced isLetter chunks NewParser rfl
  have hc := Parser.Close_balanced _ normal hb
  have h1 := Parser.replay_counts _ [] _ hb
  have h2 := Parser.replay_counts _ [] _ hc
  have hlen := Parser.count_kinds_length (kinds (feedAll isLetter NewParser chunks).stack)
  simp only [kinds, List.length_map] at hlen
  simp only [List.count_nil, Nat.zero_add, kinds] at h1 h2
  refine ⟨hb, ?_, hc, h2.1, h2.2⟩
  omega

/-! ## Chunking independence (C6) -/

namespace Parser

theorem emitSegments_of_cacheOK (p : Parser) (h : CacheOK p) :
    emitSegments p = stackSegments p.stack := by
  unfold emitSegments
  split
  · rfl
  · rename_i hc
    simp only [Bool.or_eq_true, not_or, Bool.not_eq_true] at hc
    exact h hc.1

@[simp] theorem visible_append (a b : List Event) : visible (a ++ b) = visible a ++ visible b := by
  simp [visible]

@[simp] theorem visible_nil : visible [] = [] := rfl

theorem stable_onObjectStart : Stable (fun p => onObjectStart p) := by
  intro p h
  obtain ⟨st, stk, cvk, cs, cn, cl, cb, subs, tk, err, cached, dirty, lvk, tr, calls⟩ := p
  simp only [CacheOK] at h
  cases dirty
  · simp only [true_implies] at h
    subst h
    unfold onObjectStart
    simp only [topFrame_eq, core]
    repeat' split
    all_goals simp_all [core, CacheOK, emitSegments, visible, Event.isAppend, setTop, pop, parentFrame, byteLen]
  · unfold onObjectStart
    simp only [topFrame_eq, core]
    repeat' split
    all_goals simp_all [core, CacheOK, emitSegments, visible, Event.isAppend, setTop, pop, parentFrame, byteLen]

theorem stable_onArrayStart : Stable (fun p => onArrayStart p) := by
  intro p h
  obtain ⟨st, stk, cvk, cs, cn, cl, cb, subs, tk, err, cached, dirty, lvk, tr, calls⟩ := p
  simp only [CacheOK] at h
  cases dirty
  · simp only [true_implies] at h
    subst h
    unfold onArrayStart
    simp only [topFrame_eq, core]
    repeat' split
    all_goals simp_all [core, CacheOK, emitSegments, visible, Event.isAppend, setTop, pop, parentFrame, byteLen]
  · unfold onArrayStart
    simp only [topFrame_eq, core]
    repeat' split
    all_goals simp_all [core, CacheOK, emitSegments, visible, Event.isAppend, setTop, pop, parentFrame, byteLen]

theorem stable_advanceAfterValue : Stable (fun p => advanceAfterValue p) := by
  intro p h
  obtain ⟨st, stk, cvk, cs, cn, cl, cb, subs, tk, err, cached, dirty, lvk, tr, calls⟩ := p
  simp only [CacheOK] at h
  cases dirty
  · simp only [true_implies] at h
    subst h
    unfold advanceAfterValue
    simp only [topFrame_eq, core]
    repeat' split
    all_goals simp_all [core, CacheOK, emitSegments, visible, Event.isAppend, setTop, pop, parentFrame, byteLen]
  · unfold advanceAfterValue
    simp only [topFrame_eq, core]
    repeat' split
    all_goals simp_all [core, CacheOK, emitSegments, visible, Event.isAppend, setTop, pop, parentFrame, byteLen]

theorem stable_flushStringChunk : Stable (fun p => flushStringChunk p) := by
  intro p h
  obtain ⟨st, stk, cvk, cs, cn, cl, cb, subs, tk, err, cached, dirty, lvk, tr, calls⟩ := p
  simp only [CacheOK] at h
  cases dirty
  · simp only [true_implies] at h
    subst h
    unfold flushStringChunk
    simp only [topFrame_eq, core]
    repeat' split
    all_goals simp_all [core, CacheOK, emitSegments, visible, Event.isAppend, setTop, pop, parentFrame, byteLen]
  · unfold flushStringChunk
    simp only [topFrame_eq, core]
    repeat' split
    all_goals simp_all [core, CacheOK, emitSegments, visible, Event.isAppend, setTop, pop, parentFrame, byteLen]

theorem stable_onStringChunk (s : Str) : Stable (fun p => onStringChunk p s) := by
  intro p h
  obtain ⟨st, stk, cvk, cs, cn, cl, cb, subs, tk, err, cached, dirty, lvk, tr, calls⟩ := p
  simp only [CacheOK] at h
  cases dirty
  · simp only [true_implies] at h
    subst h
    unfold onStringChunk
    simp only [topFrame_eq, core]
    repeat' split
    all_goals simp_all [core, CacheOK, emitSegments, visible, Event.isAppend, setTop, pop, parentFrame, byteLen]
  · unfold onStringChunk
    simp only [topFrame_eq, core]
    repeat' split
    all_goals simp_all [core, CacheOK, emitSegments, visible, Event.isAppend, setTop, pop, parentFrame, byteLen]

theorem stable_onNumberChunk (s : Str) : Stable (fun p => onNumberChunk p s) := by
  intro p h
  obtain ⟨st, stk, cvk, cs, cn, cl, cb, subs, tk, err, cached, dirty, lvk, tr, calls⟩ := p
  simp only [CacheOK] at h
  cases dirty
  · simp only [true_implies] at h
    subst h
    unfold onNumberChunk
    simp only [topFrame_eq, core]
    repeat' split
    all_goals simp_all [core, CacheOK, emitSegments, visible, Event.isAppend, setTop, pop, parentFrame, byteLen]
  · unfold onNumberChunk
    simp only [topFrame_eq, core]
    repeat' split
    all_goals simp_all [core, CacheOK, emitSegments, visible, Event.isAppend, setTop, pop, parentFrame, byteLen]

theorem stable_onColon : Stable (fun p => onColon p) := by
  intro p h
  obtain ⟨st, stk, cvk, cs, cn, cl, cb, subs, tk, err, cached, dirty, lvk, tr, calls⟩ := p
  simp only [CacheOK] at h
  cases dirty
  · simp only [true_implies] at h
    subst h
    unfold onColon
    simp only [topFrame_eq, core]
    repeat' split
    all_goals simp_all [core, CacheOK, emitSegments, visible, Event.isAppend, setTop, pop, parentFrame, byteLen]
  · unfold onColon
    simp only [topFrame_eq, core]
    repeat' split
    all_goals simp_all [core, CacheOK, emitSegments, visible, Event.isAppend, setTop, pop, parentFrame, byteLen]

theorem stable_onComma : Stable (fun p => onComma p) := by
  intro p h
  obtain ⟨st, stk, cvk, cs, cn, cl, cb, subs, tk, err, cached, dirty, lvk, tr, calls⟩ := p
  simp only [CacheOK] at h
  cases dirty
  · simp only [true_implies] at h
    subst h
    unfold onComma
    simp only [topFrame_eq, core]
    repeat' split
    all_goals simp_all [core, CacheOK, emitSegments, visible, Event.isAppend, setTop, pop, parentFrame, byteLen]
  · unfold onComma
    simp only [topFrame_eq, core]
    repeat' split
    all_goals simp_all [core, CacheOK, emitSegments, visible, Event.isAppend, setTop, pop, parentFrame, byteLen]

theorem stable_onPrimitive (v : AnyVal) : Stable (fun p => onPrimitive p v) := by
  intro p h
  obtain ⟨st, stk, cvk, cs, cn, cl, cb, subs, tk, err, cached, dirty, lvk, tr, calls⟩ := p
  simp only [CacheOK] at h
  cases dirty
  · simp only [true_implies] at h
    subst h
    unfold onPrimitive advanceAfterValue
    simp only [topFrame_eq, core]
    repeat' split
    all_goals simp_all [core, CacheOK, emitSegments, visible, Event.isAppend, setTop, pop, parentFrame, byteLen]
  · unfold onPrimitive advanceAfterValue
    simp only [topFrame_eq, core]
    repeat' split
    all_goals simp_all [core, CacheOK, emitSegments, visible, Event.isAppend, setTop, pop, parentFrame, byteLen]

theorem stable_onNumberEnd : Stable (fun p => onNumberEnd p) := by
  intro p h
  obtain ⟨st, stk, cvk, cs, cn, cl, cb, subs, tk, err, cached, dirty, lvk, tr, calls⟩ := p
  simp only [CacheOK] at h
  cases dirty
  · simp only [true_implies] at h
    subst h
    unfold onNumberEnd advanceAfterValue
    simp only [topFrame_eq, core]
    repeat' split
    all_goals simp_all [core, CacheOK, emitSegments, visible, Event.isAppend, setTop, pop, parentFrame, byteLen]
  · unfold onNumberEnd advanceAfterValue
    simp only [topFrame_eq, core]
    repeat' split
    all_goals simp_all [core, CacheOK, emitSegments, visible, Event.isAppend, setTop, pop, parentFrame, byteLen]

theorem stable_onStringEndFlush : Stable (fun p => onStringEndFlush p) := by
  intro p h
  obtain ⟨st, stk, cvk, cs, cn, cl, cb, subs, tk, err, cached, dirty, lvk, tr, calls⟩ := p
  simp only [CacheOK] at h
  cases dirty
  · simp only [true_implies] at h
    subst h
    unfold onStringEndFlush flushStringChunk
    simp only [topFrame_eq, core]
    repeat' split
    all_goals simp_all [core, CacheOK, emitSegments, visible, Event.isAppend, setTop, pop, parentFrame, byteLen]
  · unfold onStringEndFlush flushStringChunk
    simp only [topFrame_eq, core]
    repeat' split
    all_goals simp_all [core, CacheOK, emitSegments, visible, Event.isAppend, setTop, pop, parentFrame, byteLen]

theorem stable_onStringEndEmit : Stable (fun p => onStringEndEmit p) := by
  intro p h
  obtain ⟨st, stk, cvk, cs, cn, cl, cb, subs, tk, err, cached, dirty, lvk, tr, calls⟩ := p
  simp only [CacheOK] at h
  cases dirty
  · simp only [true_implies] at h
    subst h
    unfold onStringEndEmit advanceAfterValue
    simp only [topFrame_eq, core]
    repeat' split
    all_goals simp_all [core, CacheOK, emitSegments, visible, Event.isAppend, setTop, pop, parentFrame, byteLen]
  · unfold onStringEndEmit advanceAfterValue
    simp only [topFrame_eq, core]
    repeat' split
    all_goals simp_all [core, CacheOK, emitSegments, visible, Event.isAppend, setTop, pop, parentFrame, byteLen]

theorem parentFrame_eq (p : Parser) : parentFrame p = p.stack.dropLast.getLast? := by
  unfold parentFrame
  rcases List.eq_nil_or_concat p.stack with h0 | ⟨l, a, h1⟩
  · simp [h0]
  · rcases List.eq_nil_or_concat l with h2 | ⟨l2, b, h3⟩
    · subst h2; simp [h1]
    · subst h3
      simp only [h1, List.concat_eq_append, List.length_append, List.length_singleton,
        List.dropLast_concat]
      have : ¬ (l2.length + 1 + 1 < 2) := by omega
      simp only [this, if_false, List.getLast?_append, List.getLast?_singleton]
      have h4 : l2.length + 1 + 1 - 2 = l2.length := by omega
      rw [h4, List.append_assoc, List.get?_eq_getElem?, List.getElem?_append_right (Nat.le_refl _)]
      simp

set_option maxHeartbeats 1000000 in
theorem stable_onObjectEnd : Stable (fun p => onObjectEnd p) := by
  intro p h
  obtain ⟨st, stk, cvk, cs, cn, cl, cb, subs, tk, err, cached, dirty, lvk, tr, calls⟩ := p
  simp only [CacheOK] at h
  rcases List.eq_nil_or_concat stk with h0 | ⟨l, top, h1⟩
  · subst h0
    simp [onObjectEnd, core, CacheOK, visible]
    exact h
  · subst h1
    rcases List.eq_nil_or_concat l with h2 | ⟨l2, par, h3⟩
    · subst h2
      cases dirty
      · simp only [true_implies] at h
        subst h
        simp only [onObjectEnd, topFrame_eq, parentFrame_eq, core]
        repeat' split
        all_goals simp_all [core, CacheOK, emitSegments, visible, Event.isAppend, setTop, pop, stackSegments]
      · simp only [onObjectEnd, topFrame_eq, parentFrame_eq, core]
        repeat' split
        all_goals simp_all [core, CacheOK, emitSegments, visible, Event.isAppend, setTop, pop, stackSegments]
    · subst h3
      cases dirty
      · simp only [true_implies] at h
        subst h
        simp only [onObjectEnd, topFrame_eq, parentFrame_eq, core]
        repeat' split
        all_goals simp_all [core, CacheOK, emitSegments, visible, Event.isAppend, setTop, pop]
      · simp only [onObjectEnd, topFrame_eq, parentFrame_eq, core]
        repeat' split
        all_goals simp_all [core, CacheOK, emitSegments, visible, Event.isAppend, setTop, pop]

set_option maxHeartbeats 1000000 in
theorem stable_onArrayEnd : Stable (fun p => onArrayEnd p) := by
  intro p h
  obtain ⟨st, stk, cvk, cs, cn, cl, cb, subs, tk, err, cached, dirty, lvk, tr, calls⟩ := p
  simp only [CacheOK] at h
  rcases List.eq_nil_or_concat stk with h0 | ⟨l, top, h1⟩
  · subst h0
    simp [onArrayEnd, core, CacheOK, visible]
    exact h
  · subst h1
    rcases List.eq_nil_or_concat l with h2 | ⟨l2, par, h3⟩
    · subst h2
      cases dirty
      · simp only [true_implies] at h
        subst h
        simp only [onArrayEnd, topFrame_eq, parentFrame_eq, core]
        repeat' split
        all_goals simp_all [core, CacheOK, emitSegments, visible, Event.isAppend, setTop, pop, stackSegments]
      · simp only [onArrayEnd, topFrame_eq, parentFrame_eq, core]
        repeat' split
        all_goals simp_all [core, CacheOK, emitSegments, visible, Event.isAppend, setTop, pop, stackSegments]
    · subst h3
      cases dirty
      · simp only [true_implies] at h
        subst h
        simp only [onArrayEnd, topFrame_eq, parentFrame_eq, core]
        repeat' split
        all_goals simp_all [core, CacheOK, emitSegments, visible, Event.isAppend, setTop, pop]
      · simp only [onArrayEnd, topFrame_eq, parentFrame_eq, core]
        repeat' split
        all_goals simp_all [core, CacheOK, emitSegments, visible, Event.isAppend, setTop, pop]

end Parser

namespace Parser

theorem core_core (p : Parser) : core (core p) = core p := by
  simp [core]

theorem cacheOK_core (p : Parser) : CacheOK (core p) := by
  simp [core, CacheOK]

theorem core_trace (p : Parser) : (core p).trace = [] := rfl

theorem Stable.comp {f g : Parser → Parser} (hf : Stable f) (hg : Stable g) :
    Stable (fun p => g (f p)) := by
  intro p h
  obtain ⟨f1, f2, f3⟩ := hf p h
  obtain ⟨c1, c2, c3⟩ := hf (core p) (cacheOK_core p)
  obtain ⟨g1, g2, g3⟩ := hg (f p) f3
  obtain ⟨k1, k2, k3⟩ := hg (f (core p)) c3
  simp only [core_core, core_trace, visible_nil, List.nil_append] at c1 c2
  refine ⟨?_, ?_, g3⟩
  · show core (g (f p)) = core (g (f (core (core p))))
    rw [core_core, g1, k1, f1]
  · show visible (g (f p)).trace = visible p.trace ++ visible (g (f (core p))).trace
    rw [g2, k2, f2, f1, List.append_assoc]

theorem Rel.step {f : Parser → Parser} (hf : Stable f) {p q : Parser} (h : Rel p q) :
    Rel (f p) (f q) := by
  obtain ⟨hp, hq, hc, hv⟩ := h
  obtain ⟨p1, p2, p3⟩ := hf p hp
  obtain ⟨q1, q2, q3⟩ := hf q hq
  exact ⟨p3, q3, by rw [p1, q1, hc], by rw [p2, q2, hc, hv]⟩

theorem stable_id : Stable (fun p => p) := by
  intro p h
  simp [core_core, core_trace, h]

theorem stable_setTokenizer (t : Option Tokenizer) :
    Stable (fun p => { p with tokenizer := t }) := by
  intro p h
  simp only [CacheOK] at h
  simp [core, CacheOK, h]
  exact h

theorem stable_onStringEndValue : Stable (fun p => onStringEndValue p) :=
  Stable.comp (f := onStringEndFlush) (g := onStringEndEmit) stable_onStringEndFlush
    stable_onStringEndEmit

theorem stable_onStringEndKey : Stable (fun p => onStringEndKey p) := by
  intro p h
  obtain ⟨st, stk, cvk, cs, cn, cl, cb, subs, tk, err, cached, dirty, lvk, tr, calls⟩ := p
  simp only [CacheOK] at h
  simp only [onStringEndKey, topFrame_eq, core]
  repeat' split
  all_goals simp_all [core, CacheOK, setTop]

theorem stable_onStringEnd : Stable (fun p => onStringEnd p) := by
  intro p h
  have hs : (core p).state = p.state := rfl
  cases hst : p.state
  all_goals simp only [onStringEnd, hs, hst]
  case pObjExpectKey => exact stable_onStringEndKey p h
  case pObjExpectValue => exact stable_onStringEndValue p h
  case pArrExpectValue => exact stable_onStringEndValue p h
  all_goals exact stable_id p h

theorem stable_OnToken (tok : Token) : Stable (fun p => OnToken p tok) := by
  obtain ⟨typ, v, b⟩ := tok
  cases typ
  all_goals simp only [OnToken]
  · exact stable_onObjectStart
  · exact stable_onObjectEnd
  · exact stable_onArrayStart
  · exact stable_onArrayEnd
  · exact stable_onColon
  · exact stable_onComma
  · exact stable_onStringChunk v
  · exact stable_onStringEnd
  · exact stable_onNumberChunk v
  · exact stable_onNumberEnd
  · exact stable_onPrimitive _
  · exact stable_onPrimitive _

theorem stable_foldl (toks : List Token) : Stable (fun p => toks.foldl OnToken p) := by
  induction toks with
  | nil => exact stable_id
  | cons tok toks ih =>
    exact Stable.comp (f := fun p => OnToken p tok) (g := fun p => toks.foldl OnToken p)
      (stable_OnToken tok) ih

theorem stable_consumeRune (f : Char → Bool) (r : Char) :
    Stable (fun p => consumeRune f p r) := by
  intro p h
  have ht : (core p).tokenizer = p.tokenizer := rfl
  cases hp : p.tokenizer with
  | none =>
    simp only [consumeRune, ht, hp]
    exact stable_id p h
  | some t =>
    simp only [consumeRune, ht, hp, deliver]
    exact Stable.comp (f := fun p => { p with tokenizer := some (t.Consume f r).1 })
      (g := fun p => (t.Consume f r).2.foldl OnToken p)
      (stable_setTokenizer (some (t.Consume f r).1)) (stable_foldl (t.Consume f r).2) p h


theorem core_err {p q : Parser} (h : core p = core q) : p.err = q.err := by
  have := congrArg Parser.err h
  exact this

theorem core_tokenizer {p q : Parser} (h : core p = core q) : p.tokenizer = q.tokenizer := by
  have := congrArg Parser.tokenizer h
  exact this

/-- Related parsers run the feed loop in lockstep. -/
theorem feedLoop_rel (f : Char → Bool) (s : List Char) : ∀ p q : Parser, Rel p q →
    Rel (feedLoop f s p).1 (feedLoop f s q).1 ∧ (feedLoop f s p).2 = (feedLoop f s q).2 := by
  induction s with
  | nil => intro p q h; exact ⟨h, rfl⟩
  | cons r rs ih =>
    intro p q h
    have h1 := Rel.step (stable_consumeRune f r) h
    have he : (consumeRune f p r).err = (consumeRune f q r).err := core_err h1.2.2.1
    simp only [feedLoop]
    cases hp : (consumeRune f p r).err with
    | some e =>
      rw [← he, hp]
      exact ⟨h1, rfl⟩
    | none =>
      rw [← he, hp]
      exact ih _ _ h1

theorem feedLoop_append (f : Char → Bool) (a b : List Char) (p : Parser) :
    feedLoop f (a ++ b) p = contLoop f (feedLoop f a p) b := by
  induction a generalizing p with
  | nil => rfl
  | cons r rs ih =>
    simp only [List.cons_append, feedLoop]
    cases (consumeRune f p r).err with
    | some e => rfl
    | none => exact ih _

theorem feedLoop_err_some (f : Char → Bool) (s : List Char) (p : Parser) (e : Error)
    (h : (feedLoop f s p).2 = some e) : (feedLoop f s p).1.err = some e := by
  induction s generalizing p with
  | nil => cases h
  | cons r rs ih =>
    simp only [feedLoop] at h ⊢
    cases hp : (consumeRune f p r).err with
    | some e' =>
      rw [hp] at h
      simp only [Option.some.injEq] at h
      simp [hp, h]
    | none =>
      rw [hp] at h
      simp only
      exact ih _ h

theorem feedLoop_err_none (f : Char → Bool) (s : List Char) (p : Parser) (hp : p.err = none)
    (h : (feedLoop f s p).2 = none) : (feedLoop f s p).1.err = none := by
  induction s generalizing p with
  | nil => exact hp
  | cons r rs ih =>
    simp only [feedLoop] at h ⊢
    cases hc : (consumeRune f p r).err with
    | some e' =>
      rw [hc] at h
      cases h
    | none =>
      rw [hc] at h
      simp only
      exact ih _ hc h

theorem consumeRune_tokenizer_isSome (f : Char → Bool) (p : Parser) (r : Char)
    (h : p.tokenizer.isSome) : (consumeRune f p r).tokenizer.isSome := by
  unfold consumeRune
  split
  · exact h
  · rw [deliver_tokenizer]; rfl

theorem feedLoop_tokenizer_isSome (f : Char → Bool) (s : List Char) (p : Parser)
    (h : p.tokenizer.isSome) : (feedLoop f s p).1.tokenizer.isSome := by
  induction s generalizing p with
  | nil => exact h
  | cons r rs ih =>
    simp only [feedLoop]
    split
    · exact consumeRune_tokenizer_isSome f p r h
    · exact ih _ (consumeRune_tokenizer_isSome f p r h)

theorem flushStringChunk_err (p : Parser) : (flushStringChunk p).err = p.err := by
  unfold flushStringChunk
  repeat' split
  all_goals simp

theorem flushStringChunk_core (p : Parser) : core (flushStringChunk p) = core p := by
  obtain ⟨st, stk, cvk, cs, cn, cl, cb, subs, tk, err, cached, dirty, lvk, tr, calls⟩ := p
  unfold flushStringChunk
  repeat' split
  all_goals simp [core]

theorem flushStringChunk_visible (p : Parser) :
    visible (flushStringChunk p).trace = visible p.trace := by
  unfold flushStringChunk
  repeat' split
  all_goals simp [visible, Event.isAppend]

theorem Rel.flush_left {p q : Parser} (h : Rel p q) : Rel (flushStringChunk p) q :=
  ⟨(stable_flushStringChunk p h.1).2.2, h.2.1, by rw [flushStringChunk_core]; exact h.2.2.1,
    by rw [flushStringChunk_visible]; exact h.2.2.2⟩

theorem checkState_of_isSome (p : Parser) (h : p.tokenizer.isSome) : checkState p = p.err := by
  unfold checkState
  split
  · rename_i h0; rw [h0] at h; cases h
  · rfl

theorem FeedString_eq (f : Char → Bool) (p : Parser) (s : Str) (h : p.tokenizer.isSome)
    (he : p.err = none) : FeedString f p s = finishFeed (feedLoop f s p) := by
  unfold FeedString finishFeed
  rw [checkState_of_isSome p h, he]
  all_goals rfl

theorem FeedString_errored (f : Char → Bool) (p : Parser) (s : Str) (e : Error)
    (h : p.tokenizer.isSome) (he : p.err = some e) : FeedString f p s = (p, some e) := by
  unfold FeedString
  rw [checkState_of_isSome p h, he]

theorem feedChunks_errored (f : Char → Bool) (chunks : List Str) (p : Parser) (e : Error)
    (h : p.tokenizer.isSome) (he : p.err = some e) :
    chunks.foldl (fun acc c => FeedString f acc.1 c) (p, some e) = (p, some e) := by
  induction chunks with
  | nil => rfl
  | cons c cs ih =>
    simp only [List.foldl, FeedString_errored f p c e h he]
    exact ih

/-- Feeding chunk by chunk and feeding the concatenation in one loop stay related. -/
theorem feedChunks_rel (f : Char → Bool) (chunks : List Str) : ∀ p q : Parser, Rel p q →
    p.tokenizer.isSome → p.err = none →
    visible (chunks.foldl (fun acc c => FeedString f acc.1 c) (p, none)).1.trace =
      visible (finishFeed (feedLoop f chunks.flatten q)).1.trace ∧
    (chunks.foldl (fun acc c => FeedString f acc.1 c) (p, none)).2 =
      (finishFeed (feedLoop f chunks.flatten q)).2 := by
  induction chunks with
  | nil =>
    intro p q h _ _
    refine ⟨?_, rfl⟩
    simp only [List.foldl, List.flatten_nil, feedLoop, finishFeed, flushStringChunk_visible]
    exact h.2.2.2
  | cons c cs ih =>
    intro p q h ht he
    obtain ⟨hrel, herr⟩ := feedLoop_rel f c p q h
    simp only [List.foldl, List.flatten_cons, feedLoop_append, FeedString_eq f p c ht he]
    cases hr : (feedLoop f c p).2 with
    | some e =>
      have hq : (feedLoop f c q).2 = some e := by rw [← herr, hr]
      have hpe := feedLoop_err_some f c p e hr
      have hfin : finishFeed (feedLoop f c p) = ((feedLoop f c p).1, some e) := by
        rw [← hr]; unfold finishFeed; split <;> simp_all
      have hcont : contLoop f (feedLoop f c q) cs.flatten = ((feedLoop f c q).1, some e) := by
        unfold contLoop; rw [hq]; simp only; rw [← hq]
      rw [hfin, hcont, feedChunks_errored f cs _ e (feedLoop_tokenizer_isSome f c p ht) hpe]
      simp only [finishFeed]
      exact ⟨hrel.2.2.2, trivial⟩
    | none =>
      have hq : (feedLoop f c q).2 = none := by rw [← herr, hr]
      have hpe := feedLoop_err_none f c p he hr
      have hfin : finishFeed (feedLoop f c p) = (flushStringChunk (feedLoop f c p).1, none) := by
        rw [← hr]; unfold finishFeed; split <;> simp_all
      have hcont : contLoop f (feedLoop f c q) cs.flatten = feedLoop f cs.flatten (feedLoop f c q).1 := by
        unfold contLoop; rw [hq]
      rw [hfin, hcont]
      exact ih _ _ hrel.flush_left
        (by rw [flushStringChunk_tokenizer]; exact feedLoop_tokenizer_isSome f c p ht)
        (by rw [flushStringChunk_err]; exact hpe)

end Parser

/-- C6: for every input and every split of it into chunks, feeding the chunks
in order to a fresh parser emits the same events (type, path segments and
value, compared as whole events) as feeding the concatenation in one call, once
the events whose PartialValue has Append=true are removed from both sequences,
and the last call returns the same error as the single call. -/
theorem chunking_independence (isLetter : Char → Bool) (chunks : List Str) :
    visible (feedChunks isLetter NewParser chunks).1.trace =
      visible (Parser.FeedString isLetter NewParser chunks.flatten).1.trace ∧
    (feedChunks isLetter NewParser chunks).2 =
      (Parser.FeedString isLetter NewParser chunks.flatten).2 := by
  have hrel : Parser.Rel NewParser NewParser :=
    ⟨fun _ => rfl, fun _ => rfl, rfl, rfl⟩
  rw [Parser.FeedString_eq isLetter NewParser chunks.flatten rfl rfl]
  exact Parser.feedChunks_rel isLetter chunks NewParser NewParser hrel rfl rfl

/-! ## String values across feeds (C7, C8) -/

namespace Parser

theorem InString.plain {T A cur buf p} (f : Char → Bool) (h : InString T A cur buf false p)
    (c : Char) (hq : c ≠ '"') (hb : c ≠ '\\') :
    InString T A (cur ++ [c]) (buf ++ [c]) false (consumeRune f p c) := by
  obtain ⟨ht, he, hs, hcl, hv, htr, hcur, hbuf, hcat, hne⟩ := h
  obtain ⟨st, stk, cvk, cs, cn, cl, cb, subs, tk, err, cached, dirty, lvk, tr, calls⟩ := p
  cases tk with
  | none => simp at ht
  | some t =>
    simp only [Option.map_some', Option.some.injEq, strState] at ht
    simp only at he hs hcl hv htr hcur hbuf
    have hk : st ≠ .pObjExpectKey := by rcases hs with h | h <;> simp [h]
    subst hcur hbuf
    simp [consumeRune, deliver, Tokenizer.Consume, ht, Tokenizer.consumeString, hq, hb, OnToken,
      onStringChunk, hk, InString, strState, he, hs, hcl, htr, ← hcat, hne]
    exact hne

theorem InString.backslash {T A cur buf p} (f : Char → Bool)
    (h : InString T A cur buf false p) :
    InString T A cur buf true (consumeRune f p '\\') := by
  obtain ⟨ht, he, hs, hcl, hv, htr, hcur, hbuf, hcat, hne⟩ := h
  obtain ⟨st, stk, cvk, cs, cn, cl, cb, subs, tk, err, cached, dirty, lvk, tr, calls⟩ := p
  cases tk with
  | none => simp at ht
  | some t =>
    simp only [Option.map_some', Option.some.injEq, strState] at ht
    simp only at he hs hcl hv htr hcur hbuf
    subst hcur hbuf
    simp [consumeRune, deliver, Tokenizer.Consume, ht, Tokenizer.consumeString,
      InString, strState, he, hs, hcl, htr, ← hcat, hne]
    exact ⟨hv, hne⟩

theorem InString.escaped {T A cur buf p} (f : Char → Bool) (h : InString T A cur buf true p)
    (c : Char) : InString T A (cur ++ [c]) (buf ++ [c]) false (consumeRune f p c) := by
  obtain ⟨ht, he, hs, hcl, hv, htr, hcur, hbuf, hcat, hne⟩ := h
  obtain ⟨st, stk, cvk, cs, cn, cl, cb, subs, tk, err, cached, dirty, lvk, tr, calls⟩ := p
  cases tk with
  | none => simp at ht
  | some t =>
    simp only [Option.map_some', Option.some.injEq, strState] at ht
    simp only at he hs hcl hv htr hcur hbuf
    have hk : st ≠ .pObjExpectKey := by rcases hs with h | h <;> simp [h]
    subst hcur hbuf
    simp [consumeRune, deliver, Tokenizer.Consume, ht, Tokenizer.consumeStringEscape, OnToken,
      onStringChunk, hk, InString, strState, he, hs, hcl, htr, ← hcat, hne]
    exact hne

theorem InString.flushed {T A cur buf esc p} (h : InString T A cur buf esc p) :
    InString T (if buf = [] then A else A ++ [buf]) cur [] esc (flushStringChunk p) := by
  obtain ⟨ht, he, hs, hcl, hv, htr, hcur, hbuf, hcat, hne⟩ := h
  obtain ⟨st, stk, cvk, cs, cn, cl, cb, subs, tk, err, cached, dirty, lvk, tr, calls⟩ := p
  simp only at ht he hs hcl hv htr hcur hbuf
  subst hcur hbuf
  by_cases hb : cb = []
  · subst hb
    simp [flushStringChunk, InString, ht, he, hs, hcl, htr, ← hcat, hne]
    exact hne
  · have hv' := hv hb
    subst hv'
    simp [flushStringChunk, hb, InString, ht, he, hs, hcl, htr, ← hcat, hne, Event.payload,
      appendPayload]
    intro c hc
    rcases hc with hc | hc
    · exact hne c hc
    · subst hc; exact hb


theorem byteLen_append (a b : Str) : byteLen (a ++ b) = byteLen a + byteLen b := by
  simp [byteLen]

theorem byteLen_pos (a : Str) (h : a ≠ []) : 0 < byteLen a := by
  cases a with
  | nil => exact absurd rfl h
  | cons c cs =>
    have := Char.utf8Size_pos c
    simp only [byteLen, List.map_cons, List.sum_cons]
    omega

theorem flatten_eq_nil_of_nonempty (A : List Str) (hne : ∀ c ∈ A, c ≠ [])
    (h : A.flatten = []) : A = [] := by
  cases A with
  | nil => rfl
  | cons a as =>
    simp only [List.flatten_cons, List.append_eq_nil] at h
    exact absurd h.1 (hne a (List.mem_cons_self _ _))

/-- What `advanceAfterValue` adds to the trace: nothing or one ArrayItem. -/
theorem advanceAfterValue_tail (q : Parser) :
    ∃ tail, (advanceAfterValue q).trace = q.trace ++ tail ∧
      (∀ e ∈ tail, e.Typ = .EventArrayItem) ∧ (advanceAfterValue q).err = q.err ∧
      (advanceAfterValue q).curValueKind = q.curValueKind ∧
      (advanceAfterValue q).tokenizer = q.tokenizer := by
  unfold advanceAfterValue
  split
  · exact ⟨[], by simp, by simp, rfl, rfl, rfl⟩
  · split
    · exact ⟨[], by simp, by simp, rfl, rfl, rfl⟩
    · refine ⟨[{ Typ := .EventArrayItem, pathOpts := {},
                 Value := some { Kind := q.lastValueKind, Complete := true },
                 pathSegments := emitSegments q }], ?_, ?_, ?_, ?_, ?_⟩
      all_goals simp [setTop]

theorem stringDone_advance (T : List Event) (A : List Str) (v : Str) (X : Parser)
    (htr : X.trace.map Event.payload =
      T.map Event.payload ++ A.map appendPayload ++ [completePayload v])
    (he : X.err = none) (hc : X.curValueKind = .valNone) (hk : X.tokenizer.isSome) :
    StringDone T A v (advanceAfterValue X) := by
  obtain ⟨tail, h1, h2, h3, h4, h5⟩ := advanceAfterValue_tail X
  refine ⟨tail.map Event.payload, ?_, ?_, ?_, ?_, ?_⟩
  · rw [h1, List.map_append, htr]
  · intro x hx
    obtain ⟨e, hem, rfl⟩ := List.mem_map.mp hx
    exact h2 e hem
  · rw [h3]; exact he
  · rw [h4]; exact hc
  · rw [h5]; exact hk

/-- The final FieldValue of a string and what follows it. -/
theorem onStringEndEmit_done (T : List Event) (A : List Str) (q : Parser)
    (hcl : q.closing = false) (he : q.err = none) (hk : q.tokenizer.isSome)
    (htr : q.trace.map Event.payload = T.map Event.payload ++ A.map appendPayload) :
    StringDone T A q.curString (onStringEndEmit q) := by
  unfold onStringEndEmit
  simp only [hcl, Bool.false_eq_true, false_and, if_false, Bool.not_false, if_true,
    emit_closing]
  apply stringDone_advance
  · simp [htr, Event.payload, completePayload]
  · simpa using he
  · rfl
  · simpa using hk

theorem onStringEndFlush_spec (q : Parser) :
    (onStringEndFlush q).closing = q.closing ∧ (onStringEndFlush q).err = q.err ∧
    (onStringEndFlush q).tokenizer = q.tokenizer ∧
    (onStringEndFlush q).curString = q.curString ∧
    (onStringEndFlush q).trace.map Event.payload = q.trace.map Event.payload ++
      (if q.curValueKind = .valString ∧ q.chunkBuffer ≠ [] ∧
          byteLen q.curString > byteLen q.chunkBuffer
        then [appendPayload q.chunkBuffer] else []) := by
  unfold onStringEndFlush flushStringChunk
  by_cases hb : q.chunkBuffer = []
  · simp [hb, byteLen]
  · have hpos := byteLen_pos _ hb
    by_cases hlen : byteLen q.curString > byteLen q.chunkBuffer
    · by_cases hv : q.curValueKind = .valString
      · simp [hb, hpos, hlen, hv, Event.payload, appendPayload]
      · simp [hb, hpos, hlen, hv]
    · simp [hb, hpos, hlen]

theorem InString.close {T A cur buf p} (f : Char → Bool) (h : InString T A cur buf false p) :
    StringDone T (if buf ≠ [] ∧ A ≠ [] then A ++ [buf] else A) cur (consumeRune f p '"') := by
  obtain ⟨ht, he, hs, hcl, hv, htr, hcur, hbuf, hcat, hne⟩ := h
  obtain ⟨st, stk, cvk, cs, cn, cl, cb, subs, tk, err, cached, dirty, lvk, tr, calls⟩ := p
  cases tk with
  | none => simp at ht
  | some t =>
    simp only [Option.map_some', Option.some.injEq, strState] at ht
    simp only at he hs hcl hv htr hcur hbuf
    subst hcur hbuf
    have hstep : consumeRune f
        { state := st, stack := stk, curValueKind := cvk, curString := cs, curNumber := cn,
          closing := cl, chunkBuffer := cb, subs := subs, tokenizer := some t, err := err,
          cachedSegments := cached, segmentsDirty := dirty, lastValueKind := lvk, trace := tr,
          calls := calls } '"' =
        onStringEndEmit (onStringEndFlush
          { state := st, stack := stk, curValueKind := cvk, curString := cs, curNumber := cn,
            closing := cl, chunkBuffer := cb, subs := subs,
            tokenizer := some { t with state := .tIdle }, err := err,
            cachedSegments := cached, segmentsDirty := dirty, lastValueKind := lvk, trace := tr,
            calls := calls }) := by
      rcases hs with h | h <;> subst h <;>
      simp [consumeRune, deliver, Tokenizer.Consume, ht, Tokenizer.consumeString, OnToken,
        onStringEnd, onStringEndValue]
    rw [hstep]
    obtain ⟨f1, f2, f3, f4, f5⟩ := onStringEndFlush_spec
      { state := st, stack := stk, curValueKind := cvk, curString := cs, curNumber := cn,
        closing := cl, chunkBuffer := cb, subs := subs,
        tokenizer := some { t with state := .tIdle }, err := err,
        cachedSegments := cached, segmentsDirty := dirty, lastValueKind := lvk, trace := tr,
        calls := calls }
    simp only at f1 f2 f3 f4 f5
    have key := fun A' h5 => onStringEndEmit_done T A' _ (f1.trans hcl) (f2.trans he)
      (by rw [f3]; rfl) h5
    rw [f4] at key
    apply key
    rw [f5, htr]
    by_cases hb : cb = []
    · simp [hb]
    · have hcv := hv hb
      by_cases hA : A = []
      · subst hA
        simp only [List.flatten_nil, List.nil_append] at hcat
        subst hcat
        simp
      · have hlen : byteLen cs > byteLen cb := by
          rw [← hcat, byteLen_append]
          have : A.flatten ≠ [] := fun h0 => hA (flatten_eq_nil_of_nonempty A hne h0)
          have := byteLen_pos _ this
          omega
        simp [hb, hA, hcv, hlen]


theorem InString.err {T A cur buf esc p} (h : InString T A cur buf esc p) : p.err = none :=
  h.2.1

theorem InString.tokenizer_isSome {T A cur buf esc p} (h : InString T A cur buf esc p) :
    p.tokenizer.isSome := by
  have := h.1
  cases ht : p.tokenizer with
  | none => rw [ht] at this; simp at this
  | some t => rfl

theorem InString.rune {T A cur buf p} (f : Char → Bool) {esc : Bool}
    (h : InString T A cur buf esc p) (c : Char) (hc : ¬ (esc = false ∧ c = '"')) :
    InString T A (if esc = false ∧ c = '\\' then cur else cur ++ [c])
      (if esc = false ∧ c = '\\' then buf else buf ++ [c])
      (if esc = false ∧ c = '\\' then true else false) (consumeRune f p c) := by
  cases esc with
  | true => simpa using h.escaped f c
  | false =>
    by_cases hb : c = '\\'
    · subst hb; simpa using h.backslash f
    · have hq : c ≠ '"' := fun h0 => hc ⟨rfl, h0⟩
      simpa [hb] using h.plain f c hq hb

theorem feedLoop_open (f : Char → Bool) (T : List Event) (A : List Str) (s : List Char) :
    ∀ (esc : Bool) (p : Parser) (cur buf : Str) (esc' : Bool) (added : Str),
    strOpenAfter esc s = some (esc', added) → InString T A cur buf esc p →
    (feedLoop f s p).2 = none ∧
      InString T A (cur ++ added) (buf ++ added) esc' (feedLoop f s p).1 := by
  induction s with
  | nil =>
    intro esc p cur buf esc' added h hin
    simp only [strOpenAfter, Option.some.injEq, Prod.mk.injEq] at h
    obtain ⟨rfl, rfl⟩ := h
    simpa [feedLoop] using hin
  | cons c cs ih =>
    intro esc p cur buf esc' added h hin
    cases esc with
    | true =>
      simp only [strOpenAfter, Option.map_eq_some'] at h
      obtain ⟨⟨e1, a1⟩, h1, h2⟩ := h
      simp only [Prod.mk.injEq] at h2
      obtain ⟨rfl, rfl⟩ := h2
      have hn := hin.escaped f c
      have := ih false _ _ _ _ _ h1 hn
      simp only [feedLoop, hn.err]
      simpa using this
    | false =>
      simp only [strOpenAfter] at h
      by_cases hq : c = '"'
      · simp [hq] at h
      · by_cases hb : c = '\\'
        · subst hb
          simp only [hq, if_false, if_true] at h
          have hn := hin.backslash f
          have := ih true _ _ _ _ _ h hn
          simp only [feedLoop, hn.err]
          exact this
        · simp only [hq, hb, if_false, Option.map_eq_some'] at h
          obtain ⟨⟨e1, a1⟩, h1, h2⟩ := h
          simp only [Prod.mk.injEq] at h2
          obtain ⟨rfl, rfl⟩ := h2
          have hn := hin.plain f c hq hb
          have := ih false _ _ _ _ _ h1 hn
          simp only [feedLoop, hn.err]
          simpa using this

theorem StringDone.err_none {T A v q} (h : StringDone T A v q) : q.err = none := by
  obtain ⟨_, _, _, h3, _, _⟩ := h
  exact h3

theorem feedLoop_close (f : Char → Bool) (T : List Event) (A : List Str) (s : List Char) :
    ∀ (esc : Bool) (p : Parser) (cur buf : Str) (added : Str),
    strCloseContent esc s = some added → InString T A cur buf esc p →
    (feedLoop f s p).2 = none ∧
      StringDone T (if buf ++ added ≠ [] ∧ A ≠ [] then A ++ [buf ++ added] else A)
        (cur ++ added) (feedLoop f s p).1 := by
  induction s with
  | nil =>
    intro esc p cur buf added h hin
    simp [strCloseContent] at h
  | cons c cs ih =>
    intro esc p cur buf added h hin
    cases esc with
    | true =>
      simp only [strCloseContent, Option.map_eq_some'] at h
      obtain ⟨a1, h1, rfl⟩ := h
      have hn := hin.escaped f c
      have := ih false _ _ _ _ h1 hn
      simp only [feedLoop, hn.err]
      simpa using this
    | false =>
      simp only [strCloseContent] at h
      by_cases hq : c = '"'
      · subst hq
        simp only [if_true] at h
        by_cases hcs : cs = []
        · subst hcs
          simp only [if_true, Option.some.injEq] at h
          subst h
          have hd := hin.close f
          simp only [feedLoop, hd.err_none]
          simpa using hd
        · simp [hcs] at h
      · by_cases hb : c = '\\'
        · subst hb
          simp only [hq, if_false, if_true] at h
          have hn := hin.backslash f
          have := ih true _ _ _ _ h hn
          simp only [feedLoop, hn.err]
          exact this
        · simp only [hq, hb, if_false, Option.map_eq_some'] at h
          obtain ⟨a1, h1, rfl⟩ := h
          have hn := hin.plain f c hq hb
          have := ih false _ _ _ _ h1 hn
          simp only [feedLoop, hn.err]
          simpa using this

theorem strCloseContent_append (a : List Char) : ∀ (esc : Bool) (b : List Char) (v : Str),
    strCloseContent esc (a ++ b) = some v →
    (∃ esc' added v', strOpenAfter esc a = some (esc', added) ∧
        strCloseContent esc' b = some v' ∧ v = added ++ v') ∨
      (strCloseContent esc a = some v ∧ b = []) := by
  induction a with
  | nil =>
    intro esc b v h
    exact Or.inl ⟨esc, [], v, by simp [strOpenAfter], by simpa using h, rfl⟩
  | cons c cs ih =>
    intro esc b v h
    cases esc with
    | true =>
      simp only [List.cons_append, strCloseContent, Option.map_eq_some'] at h
      obtain ⟨v1, h1, rfl⟩ := h
      rcases ih false b v1 h1 with ⟨e', ad, v', h2, h3, rfl⟩ | ⟨h2, h3⟩
      · exact Or.inl ⟨e', c :: ad, v', by simp [strOpenAfter, h2], h3, rfl⟩
      · exact Or.inr ⟨by simp [strCloseContent, h2], h3⟩
    | false =>
      simp only [List.cons_append, strCloseContent] at h
      by_cases hq : c = '"'
      · subst hq
        simp only [if_true] at h
        by_cases hcs : cs ++ b = []
        · simp only [List.append_eq, hcs, if_true, Option.some.injEq] at h
          simp only [List.append_eq_nil] at hcs
          obtain ⟨rfl, rfl⟩ := hcs
          exact Or.inr ⟨by simp [strCloseContent, h], rfl⟩
        · simp only [List.append_eq, hcs, if_false] at h
          cases h
      · by_cases hb : c = '\\'
        · subst hb
          simp only [hq, if_false, if_true] at h
          rcases ih true b v h with ⟨e', ad, v', h2, h3, rfl⟩ | ⟨h2, h3⟩
          · exact Or.inl ⟨e', ad, v', by simp [strOpenAfter, h2], h3, rfl⟩
          · exact Or.inr ⟨by simp [strCloseContent, h2], h3⟩
        · simp only [hq, hb, if_false, Option.map_eq_some'] at h
          obtain ⟨v1, h1, rfl⟩ := h
          rcases ih false b v1 h1 with ⟨e', ad, v', h2, h3, rfl⟩ | ⟨h2, h3⟩
          · exact Or.inl ⟨e', c :: ad, v', by simp [strOpenAfter, h2, hq, hb], h3, rfl⟩
          · exact Or.inr ⟨by simp [strCloseContent, h2, hq, hb], h3⟩

end Parser

namespace Parser

theorem flushStringChunk_of_valNone (q : Parser) (h : q.curValueKind = .valNone) :
    flushStringChunk q = q := by
  simp [flushStringChunk, h]

theorem flushStringChunk_of_empty (q : Parser) (h : q.chunkBuffer = []) :
    flushStringChunk q = q := by
  unfold flushStringChunk
  split
  · rfl
  · simp [h]

theorem StringDone.feed_empty {T A v q} (f : Char → Bool) (h : StringDone T A v q) :
    FeedString f q [] = (q, none) := by
  obtain ⟨_, _, _, he, hc, hk⟩ := h
  rw [FeedString_eq f q [] hk he]
  simp [finishFeed, feedLoop, flushStringChunk_of_valNone q hc]

theorem StringDone.feed_empties {T A v q} (f : Char → Bool) (h : StringDone T A v q)
    (cs : List Str) (hcs : cs.flatten = []) :
    cs.foldl (fun acc c => FeedString f acc.1 c) (q, none) = (q, none) := by
  induction cs with
  | nil => rfl
  | cons c cs ih =>
    simp only [List.flatten_cons, List.append_eq_nil] at hcs
    obtain ⟨rfl, h2⟩ := hcs
    simp only [List.foldl, h.feed_empty f]
    exact ih h2

theorem ValueStart.openString {p : Parser} (f : Char → Bool) (h : ValueStart p) :
    InString p.trace [] [] [] false (consumeRune f p '"') := by
  obtain ⟨ht, he, hs, hcl, hcur, hbuf⟩ := h
  obtain ⟨st, stk, cvk, cs, cn, cl, cb, subs, tk, err, cached, dirty, lvk, tr, calls⟩ := p
  cases tk with
  | none => simp at ht
  | some t =>
    simp only [Option.map_some', Option.some.injEq] at ht
    simp only at he hs hcl hcur hbuf
    subst hcur hbuf
    simp [consumeRune, deliver, Tokenizer.Consume, ht, Tokenizer.consumeIdle, InString, strState,
      he, hs, hcl]

/-- The chunks of a string value, from a point inside the string up to its closing quote. -/
theorem string_chunks (f : Char → Bool) (T : List Event) : ∀ (cs : List Str) (c : Str)
    (esc : Bool) (p : Parser) (A : List Str) (cur buf v : Str),
    InString T A cur buf esc p → strCloseContent esc (c ++ cs.flatten) = some v →
    ∃ A', StringDone T A' (cur ++ v)
        (cs.foldl (fun acc c => FeedString f acc.1 c) (finishFeed (feedLoop f c p))).1 ∧
      (A' = [] ∨ A'.flatten = cur ++ v) ∧ (cs = [] → A = [] → A' = []) ∧
      (∀ x ∈ A', x ≠ []) := by
  have closing : ∀ (cs : List Str) (c : Str) (esc : Bool) (p : Parser) (A : List Str)
      (cur buf v : Str), InString T A cur buf esc p → strCloseContent esc c = some v →
      cs.flatten = [] →
      ∃ A', StringDone T A' (cur ++ v)
          (cs.foldl (fun acc c => FeedString f acc.1 c) (finishFeed (feedLoop f c p))).1 ∧
        (A' = [] ∨ A'.flatten = cur ++ v) ∧ (cs = [] → A = [] → A' = []) ∧
        (∀ x ∈ A', x ≠ []) := by
    intro cs c esc p A cur buf v hin hc hcs
    obtain ⟨h2, hd⟩ := feedLoop_close f T A c esc p cur buf v hc hin
    have hfin : finishFeed (feedLoop f c p) = ((feedLoop f c p).1, none) := by
      obtain ⟨_, _, _, _, hcv, _⟩ := hd
      rw [← flushStringChunk_of_valNone _ hcv]
      conv_lhs => rw [show feedLoop f c p = ((feedLoop f c p).1, (feedLoop f c p).2) from rfl, h2]
      simp [finishFeed, flushStringChunk_of_valNone _ hcv]
    rw [hfin, hd.feed_empties f cs hcs]
    obtain ⟨_, _, _, _, _, _, _, _, hcat, hne⟩ := hin
    refine ⟨_, hd, ?_, ?_, ?_⟩
    · by_cases hA : A = []
      · simp [hA]
      · by_cases hb : buf ++ v = []
        · simp only [List.append_eq_nil] at hb
          obtain ⟨rfl, rfl⟩ := hb
          right
          simpa using hcat
        · right
          simp [hA, hb, ← hcat]
    · intro _ hA
      simp [hA]
    · intro x hx
      split at hx
      · rename_i hc2
        rcases List.mem_append.mp hx with h | h
        · exact hne x h
        · simp only [List.mem_singleton] at h
          rw [h]; exact hc2.1
      · exact hne x hx
  intro cs
  induction cs with
  | nil =>
    intro c esc p A cur buf v hin hc
    exact closing [] c esc p A cur buf v hin (by simpa using hc) rfl
  | cons c2 cs ih =>
    intro c esc p A cur buf v hin hc
    rcases strCloseContent_append c esc _ v hc with ⟨esc', added, v', h1, h2, rfl⟩ | ⟨h1, h2⟩
    · obtain ⟨hl2, hin2⟩ := feedLoop_open f T A c esc p cur buf esc' added h1 hin
      have hin3 := hin2.flushed
      have hfin : finishFeed (feedLoop f c p) = (flushStringChunk (feedLoop f c p).1, none) := by
        conv_lhs => rw [show feedLoop f c p = ((feedLoop f c p).1, (feedLoop f c p).2) from rfl, hl2]
        rfl
      simp only [List.foldl, hfin,
        FeedString_eq f _ c2 hin3.tokenizer_isSome hin3.err]
      obtain ⟨A', hd, hA1, _, hA3⟩ := ih c2 esc' _ _ _ _ v' hin3 (by simpa using h2)
      refine ⟨A', by simpa [List.append_assoc] using hd, by simpa [List.append_assoc] using hA1,
        by simp, hA3⟩
    · exact closing (c2 :: cs) c esc p A cur buf v hin h1 h2

theorem feedLoop_cons_of_err_none (f : Char → Bool) (c : Char) (cs : List Char) (p : Parser)
    (h : (consumeRune f p c).err = none) :
    feedLoop f (c :: cs) p = feedLoop f cs (consumeRune f p c) := by
  simp only [feedLoop, h]

/-- The chunks of a whole string value, from its opening quote to its closing quote. -/
theorem string_value_chunks (f : Char → Bool) : ∀ (chunks : List Str) (p : Parser)
    (rem v : Str), ValueStart p → chunks.flatten = '"' :: rem →
    strCloseContent false rem = some v →
    ∃ A, StringDone p.trace A v (feedChunks f p chunks).1 ∧ (A = [] ∨ A.flatten = v) ∧
      (∀ s, chunks = [s] → A = []) ∧ (∀ x ∈ A, x ≠ []) := by
  intro chunks
  induction chunks with
  | nil => intro p rem v _ h _; simp at h
  | cons c cs ih =>
    intro p rem v hs hfl hv
    have hk : p.tokenizer.isSome := by
      have := hs.1
      cases ht : p.tokenizer with
      | none => rw [ht] at this; simp at this
      | some t => rfl
    cases c with
    | nil =>
      have h0 : FeedString f p [] = (p, none) := by
        rw [FeedString_eq f p [] hk hs.2.1]
        simp [finishFeed, feedLoop, flushStringChunk_of_empty p hs.2.2.2.2.2]
      obtain ⟨A, h1, h2, _, h4⟩ := ih p rem v hs (by simpa using hfl) hv
      refine ⟨A, ?_, h2, ?_, h4⟩
      · simpa [feedChunks, List.foldl, h0] using h1
      · intro s hs'
        simp only [List.cons.injEq] at hs'
        obtain ⟨_, rfl⟩ := hs'
        simp at hfl
    | cons ch c' =>
      simp only [List.flatten_cons, List.cons_append, List.cons.injEq] at hfl
      obtain ⟨rfl, hrem⟩ := hfl
      have hin := hs.openString f
      obtain ⟨A', hd, hA1, hA2, hA3⟩ := string_chunks f p.trace cs c' false _ [] [] [] v hin
        (by rw [hrem]; exact hv)
      refine ⟨A', ?_, by simpa using hA1, ?_, hA3⟩
      · simpa [feedChunks, List.foldl, FeedString_eq f p _ hk hs.2.1,
          feedLoop_cons_of_err_none f '"' c' p hin.err] using hd
      · intro s hs'
        simp only [List.cons.injEq] at hs'
        exact hA2 hs'.2 rfl

/-- A plain character inside a string value is appended to both accumulators. -/
theorem consumeRune_plain (f : Char → Bool) (p : Parser) (t : Tokenizer) (c : Char)
    (ht : p.tokenizer = some t) (hs : t.state = .tString) (hq : c ≠ '"') (hb : c ≠ '\\')
    (hk : p.state ≠ .pObjExpectKey) :
    consumeRune f p c =
      { p with curString := p.curString ++ [c], chunkBuffer := p.chunkBuffer ++ [c],
               curValueKind := .valString } := by
  obtain ⟨st, stk, cvk, cs, cn, cl, cb, subs, tk, err, cached, dirty, lvk, tr, calls⟩ := p
  simp only at ht hk
  subst ht
  simp [consumeRune, deliver, Tokenizer.Consume, hs, Tokenizer.consumeString, hq, hb, OnToken,
    onStringChunk, hk]

theorem feedLoop_plain (f : Char → Bool) (body : Str) : ∀ (p : Parser) (t : Tokenizer),
    p.tokenizer = some t → t.state = .tString → p.err = none → p.state ≠ .pObjExpectKey →
    plainChars body →
    feedLoop f body p =
      ({ p with curString := p.curString ++ body, chunkBuffer := p.chunkBuffer ++ body,
                curValueKind := if body = [] then p.curValueKind else .valString }, none) := by
  induction body with
  | nil =>
    intro p t _ _ _ _ _
    simp [feedLoop]
  | cons c cs ih =>
    intro p t ht hs he hk hp
    have hc := hp c (List.mem_cons_self _ _)
    have hstep := consumeRune_plain f p t c ht hs hc.1 hc.2 hk
    have key := ih { p with curString := p.curString ++ [c], chunkBuffer := p.chunkBuffer ++ [c],
                            curValueKind := .valString } t ht hs he hk
      (fun x hx => hp x (List.mem_cons_of_mem _ hx))
    simp only [feedLoop, hstep, he] at key ⊢
    rw [key]
    simp


theorem strOpenAfter_plain (a : Str) (h : plainChars a) :
    strOpenAfter false a = some (false, a) := by
  induction a with
  | nil => rfl
  | cons c cs ih =>
    have hc := h c (List.mem_cons_self _ _)
    simp [strOpenAfter, hc.1, hc.2, ih (fun x hx => h x (List.mem_cons_of_mem _ hx))]

theorem strCloseContent_plain (b : Str) (h : plainChars b) :
    strCloseContent false (b ++ ['"']) = some b := by
  induction b with
  | nil => simp [strCloseContent]
  | cons c cs ih =>
    have hc := h c (List.mem_cons_self _ _)
    simp [strCloseContent, hc.1, hc.2, ih (fun x hx => h x (List.mem_cons_of_mem _ hx))]

theorem finishFeed_of_none (r : Parser × Option Error) (h : r.2 = none) :
    finishFeed r = (flushStringChunk r.1, none) := by
  obtain ⟨q, e⟩ := r
  simp only at h
  subst h
  rfl

theorem InString.feed_open {T A cur buf esc p} (f : Char → Bool)
    (h : InString T A cur buf esc p) (c : Str) (esc' : Bool) (added : Str)
    (hc : strOpenAfter esc c = some (esc', added)) :
    (FeedString f p c).2 = none ∧
    InString T (if buf ++ added = [] then A else A ++ [buf ++ added]) (cur ++ added) [] esc'
      (FeedString f p c).1 := by
  obtain ⟨h1, h2⟩ := feedLoop_open f T A c esc p cur buf esc' added hc h
  rw [FeedString_eq f p c h.tokenizer_isSome h.err, finishFeed_of_none _ h1]
  exact ⟨rfl, h2.flushed⟩

theorem InString.feed_close {T A cur buf esc p} (f : Char → Bool)
    (h : InString T A cur buf esc p) (c : Str) (v : Str)
    (hc : strCloseContent esc c = some v) :
    (FeedString f p c).2 = none ∧
    StringDone T (if buf ++ v ≠ [] ∧ A ≠ [] then A ++ [buf ++ v] else A) (cur ++ v)
      (FeedString f p c).1 := by
  obtain ⟨h1, h2⟩ := feedLoop_close f T A c esc p cur buf v hc h
  rw [FeedString_eq f p c h.tokenizer_isSome h.err, finishFeed_of_none _ h1]
  obtain ⟨_, _, _, _, hcv, _⟩ := id h2
  rw [flushStringChunk_of_valNone _ hcv]
  exact ⟨rfl, h2⟩

theorem checkState_none (p : Parser) (h : checkState p = none) :
    p.tokenizer.isSome ∧ p.err = none := by
  unfold checkState at h
  split at h
  · cases h
  · rename_i t ht
    exact ⟨by rw [ht]; rfl, h⟩

end Parser

/-- C7 as stated fails: fed `{"status":"running","progress":42}` in one call, the
handler on `$.status` receives exactly one event, the complete value
"running"; no append event is emitted for it, so its append chunks do not
concatenate to "running" and the handler does not receive two String events. -/
theorem whole_string_in_one_feed_has_no_append :
    ((NewParser.On "$.status".toList 1).bind (fun p => p.On "$.progress".toList 2)).map
      (fun p =>
        ((Parser.FeedString Char.isAlpha p
            "\x7b\"status\":\"running\",\"progress\":42\x7d".toList).1.calls.filter
          (fun c => c.1 == 1)).map (fun c => c.2.payload)) =
      some [completePayload "running".toList] := by
  decide

/-! ## Wildcard subscription (C9) -/

namespace Parser

theorem consumeIdle_numberStart (t : Tokenizer) (c : Char)
    (h : Tokenizer.isDigit c = true ∨ c = '-') :
    Tokenizer.consumeIdle t c =
      ({ t with state := .tNumber, buf := [c] }, [{ Typ := .TokenNumberChunk, Value := [c] }]) := by
  have h1 : c ≠ '{' := by intro hc; subst hc; revert h; decide
  have h2 : c ≠ '}' := by intro hc; subst hc; revert h; decide
  have h3 : c ≠ '[' := by intro hc; subst hc; revert h; decide
  have h4 : c ≠ ']' := by intro hc; subst hc; revert h; decide
  have h5 : c ≠ ':' := by intro hc; subst hc; revert h; decide
  have h6 : c ≠ ',' := by intro hc; subst hc; revert h; decide
  have h7 : c ≠ '"' := by intro hc; subst hc; revert h; decide
  have h8 : c ≠ ' ' := by intro hc; subst hc; revert h; decide
  have h9 : c ≠ '\n' := by intro hc; subst hc; revert h; decide
  have h10 : c ≠ '\r' := by intro hc; subst hc; revert h; decide
  have h11 : c ≠ '\t' := by intro hc; subst hc; revert h; decide
  have h12 : (Tokenizer.isDigit c || c == '-') = true := by
    rcases h with h | h
    · simp [h]
    · simp [h]
  simp [Tokenizer.consumeIdle, h1, h2, h3, h4, h5, h6, h7, h8, h9, h10, h11, h12]

theorem InItem.first {h i C p} (f : Char → Bool) (hp : InItem h i C p) (c : Char)
    (hc : Tokenizer.isDigit c = true ∨ c = '-') :
    InNumber h i C [c] (consumeRune f p c) := by
  obtain ⟨h1, h0, h2, h3, h4, h5, h6, h7, h8, h9, h10⟩ := hp
  obtain ⟨st, stk, cvk, cs, cn, cl, cb, subs, tk, err, cached, dirty, lvk, tr, calls⟩ := p
  cases tk with
  | none => simp at h2
  | some t =>
    obtain ⟨ts, tb⟩ := t
    simp only [Option.map_some', Option.some.injEq] at h2
    simp only at h0 h1 h3 h4 h5 h6 h7 h8 h9 h10
    subst h0 h1 h2 h3 h4 h5 h6 h7 h8 h9 h10
    simp [consumeRune, deliver, Tokenizer.Consume, consumeIdle_numberStart _ c hc, OnToken,
      onNumberChunk, InNumber]

theorem InNumber.next {h i C v p} (f : Char → Bool) (hp : InNumber h i C v p) (c : Char)
    (hc : Tokenizer.isNumberChar c = true) :
    InNumber h i C (v ++ [c]) (consumeRune f p c) := by
  obtain ⟨h1, h0, h2, h3, h4, h5, h6, h7, h8, h9, h10⟩ := hp
  obtain ⟨st, stk, cvk, cs, cn, cl, cb, subs, tk, err, cached, dirty, lvk, tr, calls⟩ := p
  cases tk with
  | none => simp at h2
  | some t =>
    obtain ⟨ts, tb⟩ := t
    simp only [Option.map_some', Option.some.injEq] at h2
    simp only at h0 h1 h3 h4 h5 h6 h7 h8 h9 h10
    subst h0 h1 h2 h3 h4 h5 h6 h7 h8 h9 h10
    simp [consumeRune, deliver, Tokenizer.Consume, Tokenizer.consumeNumber, hc, OnToken,
      onNumberChunk, InNumber]

theorem InNumber.run {h i C} (f : Char → Bool) (cs : Str) : ∀ (v : Str) (p : Parser),
    InNumber h i C v p → (∀ x ∈ cs, Tokenizer.isNumberChar x = true) →
    (feedLoop f cs p).2 = none ∧ InNumber h i C (v ++ cs) (feedLoop f cs p).1 := by
  induction cs with
  | nil => intro v p hp _; simpa [feedLoop] using hp
  | cons c cs ih =>
    intro v p hp hcs
    have hn := hp.next f c (hcs c (List.mem_cons_self _ _))
    have := ih _ _ hn (fun x hx => hcs x (List.mem_cons_of_mem _ hx))
    simp only [feedLoop, hn.2.2.2.1]
    simpa using this

theorem InNumber.numberEnd {h i C v p} (f : Char → Bool) (hp : InNumber h i C v p) :
    BetweenItems h (i + 1) (C ++ [(h, itemIdValue i v), (h, itemEnd i)])
      (consumeRune f p '}') := by
  obtain ⟨h1, h0, h2, h3, h4, h5, h6, h7, h8, h9, h10⟩ := hp
  obtain ⟨st, stk, cvk, cs, cn, cl, cb, subs, tk, err, cached, dirty, lvk, tr, calls⟩ := p
  cases tk with
  | none => simp at h2
  | some t =>
    obtain ⟨ts, tb⟩ := t
    simp only [Option.map_some', Option.some.injEq] at h2
    simp only at h0 h1 h3 h4 h5 h6 h7 h8 h9 h10
    subst h0 h1 h2 h3 h4 h5 h6 h7 h8 h9 h10
    simp [consumeRune, deliver, Tokenizer.Consume, Tokenizer.consumeNumber, Tokenizer.isNumberChar,
      Tokenizer.isDigit, Tokenizer.consumeIdle, OnToken, onNumberEnd, onObjectEnd,
      advanceAfterValue, parentFrame, setTop, pop, byteLen, BetweenItems, itemsStack, emitSegments,
      stackSegments, matchSegments, matchLoop, itemsIdPattern, itemIdValue, itemEnd,
      itemIdSegments]

theorem BetweenItems.comma {h i C p} (f : Char → Bool) (hp : BetweenItems h i C p) :
    BetweenItems h i C (consumeRune f p ',') := by
  obtain ⟨h1, h2, h3, h4, h5, h6, h7, h8, h9⟩ := hp
  obtain ⟨st, stk, cvk, cs, cn, cl, cb, subs, tk, err, cached, dirty, lvk, tr, calls⟩ := p
  cases tk with
  | none => simp at h2
  | some t =>
    obtain ⟨ts, tb⟩ := t
    simp only [Option.map_some', Option.some.injEq] at h2
    simp only at h1 h3 h4 h5 h6 h7 h8 h9
    subst h1 h2 h3 h4 h5 h6 h7 h8 h9
    simp [consumeRune, deliver, Tokenizer.Consume, Tokenizer.consumeIdle, OnToken, onComma,
      BetweenItems, itemsStack]

theorem BetweenItems.finish {h i C p} (f : Char → Bool) (hp : BetweenItems h i C p) :
    (FeedString f p "]\x7d".toList).1.calls = C := by
  obtain ⟨h1, h2, h3, h4, h5, h6, h7, h8, h9⟩ := hp
  obtain ⟨st, stk, cvk, cs, cn, cl, cb, subs, tk, err, cached, dirty, lvk, tr, calls⟩ := p
  cases tk with
  | none => simp at h2
  | some t =>
    obtain ⟨ts, tb⟩ := t
    simp only [Option.map_some', Option.some.injEq] at h2
    simp only at h1 h3 h4 h5 h6 h7 h8 h9
    subst h1 h2 h3 h4 h5 h6 h7 h8 h9
    simp [FeedString, checkState, feedLoop, consumeRune, deliver, Tokenizer.Consume,
      Tokenizer.consumeIdle, OnToken, onArrayEnd, onObjectEnd, parentFrame, setTop, pop,
      flushStringChunk, itemsStack, emitSegments, stackSegments, matchSegments, itemsIdPattern]
    intro hlen
    exfalso
    split at hlen <;> simp_all

theorem BetweenItems.open {h i C p} (f : Char → Bool) (hp : BetweenItems h i C p) :
    (feedLoop f "\x7b\"id\":".toList p).2 = none ∧
    InItem h i C (feedLoop f "\x7b\"id\":".toList p).1 := by
  obtain ⟨h1, h2, h3, h4, h5, h6, h7, h8, h9⟩ := hp
  obtain ⟨st, stk, cvk, cs, cn, cl, cb, subs, tk, err, cached, dirty, lvk, tr, calls⟩ := p
  cases tk with
  | none => simp at h2
  | some t =>
    obtain ⟨ts, tb⟩ := t
    simp only [Option.map_some', Option.some.injEq] at h2
    simp only at h1 h3 h4 h5 h6 h7 h8 h9
    subst h1 h2 h3 h4 h5 h6 h7 h8 h9
    simp [feedLoop, consumeRune, deliver, Tokenizer.Consume, Tokenizer.consumeIdle,
      Tokenizer.consumeString, OnToken, onObjectStart, onStringChunk, onStringEnd, onStringEndKey,
      onColon, setTop, InItem, itemsStack, emitSegments, stackSegments, matchSegments,
      itemsIdPattern]


theorem feedLoop_append_none (f : Char → Bool) (a b : List Char) (p : Parser)
    (h : (feedLoop f a p).2 = none) :
    feedLoop f (a ++ b) p = feedLoop f b (feedLoop f a p).1 := by
  rw [feedLoop_append, contLoop, h]

theorem BetweenItems.item {h i C p} (f : Char → Bool) (hp : BetweenItems h i C p) (v : Str)
    (hv : numberText v) :
    (feedLoop f (itemText v) p).2 = none ∧
    BetweenItems h (i + 1) (C ++ [(h, itemIdValue i v), (h, itemEnd i)])
      (feedLoop f (itemText v) p).1 := by
  obtain ⟨c, cs, rfl, hc, hcs⟩ := hv
  obtain ⟨h1, h2⟩ := hp.open f
  have h3 := h2.first f c hc
  obtain ⟨h4, h5⟩ := InNumber.run f cs [c] _ h3 hcs
  have h6 := h5.numberEnd f
  have e1 : feedLoop f (c :: cs ++ ['}']) (feedLoop f "\x7b\"id\":".toList p).1 =
      feedLoop f ['}'] (feedLoop f cs
        (consumeRune f (feedLoop f "\x7b\"id\":".toList p).1 c)).1 := by
    rw [List.cons_append, feedLoop_cons_of_err_none f c _ _ h3.2.2.2.1,
      feedLoop_append_none f cs _ _ h4]
  simp only [itemText, List.append_assoc]
  rw [feedLoop_append_none f _ _ p h1, e1, feedLoop_cons_of_err_none f '}' [] _ h6.2.2.1]
  exact ⟨rfl, h6⟩


theorem BetweenItems.has_tokenizer {h i C p} (hp : BetweenItems h i C p) :
    p.tokenizer.isSome := by
  have := hp.2.1
  cases ht : p.tokenizer with
  | none => rw [ht] at this; simp at this
  | some t => rfl

theorem BetweenItems.rest {h} (f : Char → Bool) (vs : List Str) : ∀ (i : Nat)
    (C : List (Handler × Event)) (p : Parser), BetweenItems h i C p →
    (∀ v ∈ vs, numberText v) →
    (finishFeed (feedLoop f (itemsRest vs) p)).1.calls = C ++ itemCalls h i vs := by
  induction vs with
  | nil =>
    intro i C p hp _
    have := hp.finish f
    rw [FeedString_eq f p _ hp.has_tokenizer hp.2.2.1] at this
    simpa [itemsRest, itemCalls] using this
  | cons v vs ih =>
    intro i C p hp hv
    have h1 := hp.comma f
    obtain ⟨h2, h3⟩ := h1.item f v (hv v (List.mem_cons_self _ _))
    have := ih (i + 1) _ _ h3 (fun x hx => hv x (List.mem_cons_of_mem _ hx))
    rw [itemsRest, feedLoop_cons_of_err_none f ',' _ p h1.2.2.1, feedLoop_append_none f _ _ _ h2,
      this]
    simp [itemCalls]

theorem itemsStart (f : Char → Bool) (h : Handler) :
    (feedLoop f "\x7b\"items\":[".toList
      { NewParser with subs := [{ Pattern := itemsIdPattern, Handler := h }] }).2 = none ∧
    BetweenItems h 0 [] (feedLoop f "\x7b\"items\":[".toList
      { NewParser with subs := [{ Pattern := itemsIdPattern, Handler := h }] }).1 := by
  simp [NewParser, NewTokenizer, feedLoop, consumeRune, deliver, Tokenizer.Consume,
    Tokenizer.consumeIdle, Tokenizer.consumeString, OnToken, onObjectStart, onArrayStart,
    onStringChunk, onStringEnd, onStringEndKey, onColon, setTop, BetweenItems, itemsStack,
    emitSegments, stackSegments, matchSegments, itemsIdPattern]

theorem On_itemsId (h : Handler) :
    NewParser.On "$.items[*].id".toList h =
      some { NewParser with subs := [{ Pattern := itemsIdPattern, Handler := h }] } := by
  have hc : CompilePattern "$.items[*].id".toList = .ok itemsIdPattern := by rfl
  unfold On
  rw [hc]
  rfl

/-- All handler calls for the `items` input. -/
theorem itemsInput_calls (f : Char → Bool) (h : Handler) (vs : List Str)
    (hv : ∀ v ∈ vs, numberText v) :
    (FeedString f { NewParser with subs := [{ Pattern := itemsIdPattern, Handler := h }] }
      (itemsInput vs)).1.calls = itemCalls h 0 vs := by
  obtain ⟨h1, h2⟩ := itemsStart f h
  rw [FeedString_eq f { NewParser with subs := [{ Pattern := itemsIdPattern, Handler := h }] }
    _ rfl rfl]
  cases vs with
  | nil =>
    have := h2.finish f
    rw [FeedString_eq f _ _ h2.has_tokenizer h2.2.2.1] at this
    rw [itemsInput, feedLoop_append_none f _ _ _ h1, this]
    rfl
  | cons v vs =>
    obtain ⟨h3, h4⟩ := h2.item f v (hv v (List.mem_cons_self _ _))
    have := BetweenItems.rest f vs 1 _ _ h4 (fun x hx => hv x (List.mem_cons_of_mem _ hx))
    rw [itemsInput, feedLoop_append_none f _ _ _ h1, feedLoop_append_none f _ _ _ h3, this]
    simp [itemCalls]

theorem itemCalls_fieldValues (h : Handler) (vs : List Str) : ∀ i : Nat,
    (itemCalls h i vs).filter (fun c => c.2.Typ == .EventFieldValue) =
      itemValueCalls h i vs := by
  induction vs with
  | nil => intro i; rfl
  | cons v vs ih =>
    intro i
    simp [itemCalls, itemValueCalls, List.filter_cons, itemIdValue, itemEnd, ih]

end Parser

/-- C9 as stated fails: for `{"items":[{"id":1},{"id":2}]}` the handler subscribed
with `$.items[*].id` is invoked four times, not twice: the ObjectEnd of each
element is emitted before its frame is popped, with the segment vector
`$.items[i].id`, and is delivered too (its rendered path is `$.items[i]`). -/
theorem wildcard_handler_called_four_times :
    ((NewParser.On "$.items[*].id".toList 7).map (fun p =>
      (Parser.FeedString Char.isAlpha p
        "\x7b\"items\":[\x7b\"id\":1\x7d,\x7b\"id\":2\x7d]\x7d".toList).1.calls.map
          (fun c => (c.2.Typ, c.2.Path)))) =
      some [(.EventFieldValue, "$.items[0].id".toList), (.EventObjectEnd, "$.items[0]".toList),
            (.EventFieldValue, "$.items[1].id".toList), (.EventObjectEnd, "$.items[1]".toList)] := by
  decide

namespace Parser

theorem stackSegments_append (a b : List frame) :
    stackSegments (a ++ b) = stackSegments a ++ stackSegments b := by
  induction a with
  | nil => rfl
  | cons f fs ih => simp [stackSegments, ih]

/-- Closing a container that is a direct element of an array. -/
theorem close_in_array (p : Parser) (rest : List frame) (arr top : frame)
    (hs : p.stack = rest ++ [arr, top]) (ha : arr.kind = .frameArray) :
    (OnToken p top.kind.closeToken).trace = p.trace ++
      [{ Typ := top.kind.closeType, pathOpts := { excludeTop := true },
         pathSegments := p.emitSegments },
       { Typ := .EventArrayItem,
         Value := some { Kind := top.kind.valueKind, Value := .nil, Append := false,
                         Complete := true, Aborted := false },
         pathSegments := stackSegments rest ++ [{ Kind := .SegIndex, Value := Itoa arr.index }] }] ∧
    (OnToken p top.kind.closeToken).stack = rest ++ [{ arr with index := arr.index + 1 }] ∧
    (OnToken p top.kind.closeToken).state = .pArrAfterValue ∧
    (OnToken p top.kind.closeToken).err = p.err := by
  obtain ⟨st, stk, cvk, cs, cn, cl, cb, subs, tk, err, cached, dirty, lvk, tr, calls⟩ := p
  obtain ⟨ak, akey, aidx⟩ := arr
  obtain ⟨tkind, tkey, tidx⟩ := top
  simp only at hs ha
  subst hs ha
  have e1 : (rest ++ [({ kind := .frameArray, key := akey, index := aidx } : frame),
      { kind := tkind, key := tkey, index := tidx }]) =
      (rest ++ [({ kind := .frameArray, key := akey, index := aidx } : frame)]) ++
        [{ kind := tkind, key := tkey, index := tidx }] := by simp
  cases tkind
  all_goals
    simp only [frameKind.closeToken, OnToken, onObjectEnd, onArrayEnd, topFrame_eq,
      parentFrame_eq, frameKind.closeType, frameKind.valueKind]
    rw [e1]
    simp [pop, setTop, emitSegments, stackSegments_append, stackSegments]

theorem itemCounts_concat (tr : List Event) (e : Event) :
    itemCounts (tr ++ [e]) = itemCountStep (itemCounts tr) e := by
  simp [itemCounts, List.foldl_append]

theorem indices_getLast? (l : List frame) (top : frame) (h : l.getLast? = some top) :
    (l.map (·.index)).getLast? = some top.index := by
  simp [List.getLast?_map, h]

theorem indices_same_top (l : List frame) (top f : frame) (h : l.getLast? = some top)
    (hf : f.index = top.index) : (l.dropLast ++ [f]).map (·.index) = l.map (·.index) := by
  conv_rhs => rw [eq_dropLast_append_of_getLast? l top h]
  simp [hf]

theorem Counted.of_eq {q r : Parser} (h : Counted q) (ht : r.trace = q.trace)
    (hs : r.stack.map (·.index) = q.stack.map (·.index)) : Counted r := by
  unfold Counted at *
  rw [ht, hs, h]

theorem Counted.emitValue {q : Parser} (h : Counted q) (ev : Event)
    (hev : ev.Typ = .EventFieldValue) : Counted (emit q ev) := by
  unfold Counted at *
  simp [itemCounts_concat, h, itemCountStep, hev]

theorem Counted.afterValue {q : Parser} (h : Counted q) : Counted (advanceAfterValue q) := by
  unfold advanceAfterValue
  split
  · exact h.of_eq rfl rfl
  · rename_i top htop
    have htop' : q.stack.getLast? = some top := by simpa using htop
    split
    · exact h.of_eq rfl rfl
    · unfold Counted at *
      simp [setTop, itemCounts_concat, h, itemCountStep, indices_getLast? _ top htop',
        List.map_dropLast]

theorem Counted.flushChunk {q : Parser} (h : Counted q) : Counted (flushStringChunk q) := by
  unfold flushStringChunk
  split
  · exact h
  · split
    · exact h
    · exact (h.emitValue _ rfl).of_eq rfl rfl

theorem Counted.onStringEndValue {q : Parser} (h : Counted q) :
    Counted (Parser.onStringEndValue q) := by
  have h1 : Counted (onStringEndFlush q) := by
    unfold onStringEndFlush
    split
    · split
      · exact h.flushChunk
      · exact h
    · exact h
  unfold Parser.onStringEndValue onStringEndEmit
  split
  · exact h1
  · simp only
    split
    · apply Counted.afterValue
      exact (h1.emitValue _ rfl).of_eq rfl rfl
    · exact (h1.emitValue _ rfl).of_eq rfl rfl

theorem Counted.onStringEnd {q : Parser} (h : Counted q) : Counted (Parser.onStringEnd q) := by
  unfold Parser.onStringEnd
  split
  · unfold onStringEndKey
    split
    · exact h.of_eq rfl rfl
    · rename_i top htop
      refine h.of_eq rfl ?_
      simp only [setTop]
      exact indices_same_top _ top _ (by simpa using htop) rfl
  · exact h.onStringEndValue
  · exact h.onStringEndValue
  · exact h

theorem Counted.onNumberEnd {q : Parser} (h : Counted q) : Counted (Parser.onNumberEnd q) := by
  unfold Parser.onNumberEnd
  split
  · exact h
  · simp only
    split
    · apply Counted.afterValue
      apply Counted.emitValue _ _ rfl
      exact h.of_eq rfl rfl
    · apply Counted.emitValue _ _ rfl
      exact h.of_eq rfl rfl

theorem Counted.onPrimitive {q : Parser} (h : Counted q) (v : AnyVal) :
    Counted (Parser.onPrimitive q v) := by
  unfold Parser.onPrimitive
  apply Counted.afterValue
  apply Counted.emitValue _ _ rfl
  exact h.of_eq rfl rfl

theorem Counted.onComma {q : Parser} (h : Counted q) : Counted (Parser.onComma q) := by
  unfold Parser.onComma
  repeat' split
  all_goals exact h.of_eq rfl rfl

theorem Counted.onStringChunk {q : Parser} (h : Counted q) (s : Str) :
    Counted (Parser.onStringChunk q s) := by
  unfold Parser.onStringChunk
  simp only
  split <;> exact h.of_eq rfl rfl

theorem Counted.onObjectStart {q : Parser} (h : Counted q) : Counted (Parser.onObjectStart q) := by
  unfold Counted at *
  simp [Parser.onObjectStart, itemCounts_concat, h, itemCountStep]

theorem Counted.onArrayStart {q : Parser} (h : Counted q) : Counted (Parser.onArrayStart q) := by
  unfold Counted at *
  simp [Parser.onArrayStart, itemCounts_concat, h, itemCountStep]

theorem Counted.onObjectEnd {q : Parser} (h : Counted q) : Counted (Parser.onObjectEnd q) := by
  unfold Parser.onObjectEnd
  split
  · exact h.of_eq rfl rfl
  · rename_i top htop
    have htop' : q.stack.getLast? = some top := by simpa using htop
    have hne : q.stack ≠ [] := by intro h0; rw [h0] at htop'; simp at htop'
    split
    · exact h.of_eq rfl rfl
    · unfold Counted at h
      simp only
      split
      · unfold Counted
        simp [pop, itemCounts_concat, h, itemCountStep, hne, List.map_dropLast]
      · rename_i top2 htop2
        have h2 : (q.stack.dropLast).getLast? = some top2 := by simpa [pop] using htop2
        have h3 : ((q.stack.map (·.index)).dropLast).getLast? = some top2.index := by
          rw [← List.map_dropLast]
          exact indices_getLast? _ top2 h2
        split
        · unfold Counted
          simp [pop, setTop, ← List.append_assoc, itemCounts_concat, h, itemCountStep, hne,
            List.map_dropLast, h3]
        · unfold Counted
          split <;>
          simp [pop, itemCounts_concat, h, itemCountStep, hne, List.map_dropLast]

theorem Counted.onArrayEnd {q : Parser} (h : Counted q) : Counted (Parser.onArrayEnd q) := by
  unfold Parser.onArrayEnd
  split
  · exact h.of_eq rfl rfl
  · rename_i top htop
    have htop' : q.stack.getLast? = some top := by simpa using htop
    have hne : q.stack ≠ [] := by intro h0; rw [h0] at htop'; simp at htop'
    split
    · exact h.of_eq rfl rfl
    · unfold Counted at h
      simp only
      split
      · unfold Counted
        simp [pop, itemCounts_concat, h, itemCountStep, hne, List.map_dropLast]
      · rename_i top2 htop2
        have h2 : (q.stack.dropLast).getLast? = some top2 := by simpa [pop] using htop2
        have h3 : ((q.stack.map (·.index)).dropLast).getLast? = some top2.index := by
          rw [← List.map_dropLast]
          exact indices_getLast? _ top2 h2
        split
        · unfold Counted
          simp [pop, setTop, ← List.append_assoc, itemCounts_concat, h, itemCountStep, hne,
            List.map_dropLast, h3]
        · unfold Counted
          split <;>
          simp [pop, itemCounts_concat, h, itemCountStep, hne, List.map_dropLast]

theorem Counted.OnToken {q : Parser} (h : Counted q) (tok : Token) :
    Counted (Parser.OnToken q tok) := by
  unfold Parser.OnToken
  split
  · exact h.onObjectStart
  · exact h.onObjectEnd
  · exact h.onArrayStart
  · exact h.onArrayEnd
  · exact h.onStringChunk _
  · exact h.onStringEnd
  · exact h.of_eq (r := onNumberChunk q _) rfl rfl
  · exact h.onNumberEnd
  · exact h.onPrimitive _
  · exact h.onPrimitive _
  · exact h.of_eq (r := onColon q) rfl rfl
  · exact h.onComma

theorem Counted.deliver {q : Parser} (h : Counted q) (res : Tokenizer × List Token) :
    Counted (Parser.deliver q res) := by
  unfold Parser.deliver
  have h0 : Counted { q with tokenizer := some res.1 } := h
  generalize ({ q with tokenizer := some res.1 } : Parser) = q' at h0
  generalize res.2 = toks
  induction toks generalizing q' with
  | nil => exact h0
  | cons tok toks ih => exact ih _ (h0.OnToken tok)

theorem Counted.consumeRune {q : Parser} (h : Counted q) (f : Char → Bool) (r : Char) :
    Counted (Parser.consumeRune f q r) := by
  unfold Parser.consumeRune
  split
  · exact h
  · exact h.deliver _

theorem Counted.feedLoop {q : Parser} (h : Counted q) (f : Char → Bool) (s : List Char) :
    Counted (Parser.feedLoop f s q).1 := by
  induction s generalizing q with
  | nil => exact h
  | cons r rs ih =>
    simp only [Parser.feedLoop]
    split
    · exact h.consumeRune f r
    · exact ih (h.consumeRune f r)

theorem Counted.FeedString {q : Parser} (h : Counted q) (f : Char → Bool) (s : Str) :
    Counted (Parser.FeedString f q s).1 := by
  unfold Parser.FeedString
  split
  · exact h
  · have h' := h.feedLoop f s
    split
    · rename_i hr
      rw [hr] at h'
      exact h'
    · rename_i hr
      rw [hr] at h'
      exact h'.flushChunk

theorem Counted.feedAll {q : Parser} (h : Counted q) (f : Char → Bool) (chunks : List Str) :
    Counted (feedAll f q chunks) := by
  induction chunks generalizing q with
  | nil => exact h
  | cons c cs ih => exact ih (h.FeedString f c)

theorem Counted.steps {q : Parser} (h : Counted q) (l : List ParserStep) :
    Counted (q.steps l) := by
  unfold Parser.steps
  induction l generalizing q with
  | nil => exact h
  | cons s l ih =>
    apply ih
    cases s
    · exact h.OnToken _
    · exact h.flushChunk
    · simp only [Parser.step, On]
      split
      · exact h
      · exact h.of_eq rfl rfl

theorem buildPathLoop_index (opt : pathOptions) (n : Nat) (ho : opt.excludeTopIndex = false)
    (v : Str) (segs : List PathSegment) (i stop : Nat) (hi : i + segs.length < stop) :
    buildPathLoop opt n i stop (segs ++ [{ Kind := .SegIndex, Value := v }]) =
      buildPathLoop opt n i stop segs ++ (['['] ++ v ++ [']']) := by
  induction segs generalizing i with
  | nil =>
    have : i < stop := by simpa using hi
    simp [buildPathLoop, this, ho]
  | cons s ss ih =>
    have h1 : i < stop := by simp at hi; omega
    have h2 : i + 1 + ss.length < stop := by simp at hi; omega
    simp [buildPathLoop, h1, ih (i + 1) h2]

theorem foldedItem_path (rest : List frame) (arr : frame) (k : frameKind) :
    (['['] ++ Itoa arr.index ++ [']']) <:+ (foldedItem rest arr k).Path := by
  have hl : ((stackSegments rest ++
      [({ Kind := .SegIndex, Value := Itoa arr.index } : PathSegment)]).length = 0) = False := by
    simp
  simp only [foldedItem, Event.Path, buildPathFromSegments, hl, if_false]
  simp only [List.length_append, List.length_singleton, gt_iff_lt, Nat.lt_add_left_iff_pos,
    Nat.lt_one_iff, pos_of_gt, and_self, if_true, Bool.false_eq_true, if_false, true_and]
  rw [if_pos (by omega)]
  rw [buildPathLoop_index _ _ rfl _ _ _ _ (by omega)]
  exact (List.suffix_append _ _).trans (List.suffix_cons _ _)

end Parser

/-- C10: let `p` be any parser reached from a new parser by subscriptions,
tokens and chunk flushes, whose innermost open container `top` is a direct element of the array
frame `arr`.  Handling the token that closes `top` (`}` for an object, `]` for
an array) emits exactly two events: the ObjectEnd / ArrayEnd of `top`, and
right after it an ArrayItem with kind Object / Array, Complete set and no
value, whose path ends with `[i]` for `i = arr.index`; `i` is the number of
ArrayItem events emitted so far for the enclosing array, and the array frame
is left on top with index `i + 1`.  For `[{"a":1},{"a":2}]` the events are
ArrayStart, then twice ObjectStart, FieldValue, ObjectEnd, ArrayItem, then
ArrayEnd, and the ArrayItem paths are `$[0]` and `$[1]`. -/
theorem nested_container_folds_as_array_item (l : List ParserStep) (rest : List frame)
    (arr top : frame) (hs : (NewParser.steps l).stack = rest ++ [arr, top])
    (ha : arr.kind = .frameArray) :
    ((NewParser.steps l).OnToken top.kind.closeToken).trace =
        (NewParser.steps l).trace ++
          [{ Typ := top.kind.closeType, pathOpts := { excludeTop := true },
             pathSegments := (NewParser.steps l).emitSegments },
           foldedItem rest arr top.kind] ∧
      (foldedItem rest arr top.kind).Value =
        some { Kind := top.kind.valueKind, Value := .nil, Complete := true } ∧
      (['['] ++ Itoa arr.index ++ [']']) <:+ (foldedItem rest arr top.kind).Path ∧
      itemCounts (NewParser.steps l).trace =
        some (rest.map (·.index) ++ [arr.index, top.index]) ∧
      ((NewParser.steps l).OnToken top.kind.closeToken).stack =
        rest ++ [{ arr with index := arr.index + 1 }] ∧
      ((NewParser.steps l).OnToken top.kind.closeToken).state = .pArrAfterValue ∧
      (Parser.FeedString Char.isAlpha NewParser
          "[\x7b\"a\":1\x7d,\x7b\"a\":2\x7d]".toList).1.trace.map
            (fun e => (e.Typ, e.Value.map (·.Kind), e.Path)) =
        [(.EventArrayStart, none, "$".toList),
         (.EventObjectStart, none, "$[0]".toList),
         (.EventFieldValue, some .ValueNumber, "$[0].a".toList),
         (.EventObjectEnd, none, "$[0]".toList),
         (.EventArrayItem, some .ValueObject, "$[0]".toList),
         (.EventObjectStart, none, "$[1]".toList),
         (.EventFieldValue, some .ValueNumber, "$[1].a".toList),
         (.EventObjectEnd, none, "$[1]".toList),
         (.EventArrayItem, some .ValueObject, "$[1]".toList),
         (.EventArrayEnd, none, "$".toList)] := by
  have hc : Parser.Counted (NewParser.steps l) :=
    Parser.Counted.steps (by unfold Parser.Counted; rfl) l
  obtain ⟨h1, h2, h3, _⟩ := Parser.close_in_array _ rest arr top hs ha
  refine ⟨h1, rfl, Parser.foldedItem_path rest arr top.kind, ?_, h2, h3, by decide⟩
  unfold Parser.Counted at hc
  rw [hc, hs]
  simp

/-- Instance of the folding statement at the parser that has read `[` and `{`:
the `}` leaves the array frame on top with index 1. -/
theorem nested_container_folds_witness :
    (NewParser.steps [.token { Typ := .TokenLBracket }, .token { Typ := .TokenLBrace }]).stack =
        [] ++ [{ kind := .frameArray }, { kind := .frameObject }] ∧
      ((NewParser.steps [.token { Typ := .TokenLBracket },
          .token { Typ := .TokenLBrace }]).OnToken { Typ := .TokenRBrace }).stack =
        [{ kind := .frameArray, index := 1 }] :=
  ⟨by decide,
   (nested_container_folds_as_array_item
      [.token { Typ := .TokenLBracket }, .token { Typ := .TokenLBrace }] []
      { kind := .frameArray } { kind := .frameObject } (by decide) rfl).2.2.2.2.1⟩

namespace Parser

theorem feedLoop_single (f : Char → Bool) (c : Char) (p : Parser) :
    feedLoop f [c] p = (consumeRune f p c, (consumeRune f p c).err) := by
  simp only [feedLoop]
  cases h : (consumeRune f p c).err <;> rfl

theorem consumeRune_idle_quote (f : Char → Bool) (p : Parser) (t : Tokenizer)
    (ht : p.tokenizer = some t) (hs : t.state = .tIdle) :
    consumeRune f p '"' = { p with tokenizer := some { t with state := .tString, buf := [] } } := by
  obtain ⟨st, stk, cvk, cs, cn, cl, cb, subs, tk, err, cached, dirty, lvk, tr, calls⟩ := p
  simp only at ht
  subst ht
  simp [consumeRune, deliver, Tokenizer.Consume, hs, Tokenizer.consumeIdle]

theorem consumeRune_idle_comma (f : Char → Bool) (p : Parser) (t : Tokenizer)
    (ht : p.tokenizer = some t) (hs : t.state = .tIdle) :
    consumeRune f p ',' = OnToken p { Typ := .TokenComma } := by
  obtain ⟨st, stk, cvk, cs, cn, cl, cb, subs, tk, err, cached, dirty, lvk, tr, calls⟩ := p
  simp only at ht
  subst ht
  simp [consumeRune, deliver, Tokenizer.Consume, hs, Tokenizer.consumeIdle]

theorem consumeRune_idle_rbracket (f : Char → Bool) (p : Parser) (t : Tokenizer)
    (ht : p.tokenizer = some t) (hs : t.state = .tIdle) :
    consumeRune f p ']' = OnToken p { Typ := .TokenRBracket } := by
  obtain ⟨st, stk, cvk, cs, cn, cl, cb, subs, tk, err, cached, dirty, lvk, tr, calls⟩ := p
  simp only at ht
  subst ht
  simp [consumeRune, deliver, Tokenizer.Consume, hs, Tokenizer.consumeIdle]

theorem consumeRune_idle_lbracket (f : Char → Bool) (p : Parser) (t : Tokenizer)
    (ht : p.tokenizer = some t) (hs : t.state = .tIdle) :
    consumeRune f p '[' = OnToken p { Typ := .TokenLBracket } := by
  obtain ⟨st, stk, cvk, cs, cn, cl, cb, subs, tk, err, cached, dirty, lvk, tr, calls⟩ := p
  simp only at ht
  subst ht
  simp [consumeRune, deliver, Tokenizer.Consume, hs, Tokenizer.consumeIdle]

theorem consumeRune_string_quote (f : Char → Bool) (p : Parser) (t : Tokenizer)
    (ht : p.tokenizer = some t) (hs : t.state = .tString) :
    consumeRune f p '"' =
      OnToken { p with tokenizer := some { t with state := .tIdle } }
        { Typ := .TokenStringEnd } := by
  obtain ⟨st, stk, cvk, cs, cn, cl, cb, subs, tk, err, cached, dirty, lvk, tr, calls⟩ := p
  simp only at ht
  subst ht
  simp [consumeRune, deliver, Tokenizer.Consume, hs, Tokenizer.consumeString]

theorem consumeRune_string_backslash (f : Char → Bool) (p : Parser) (t : Tokenizer)
    (ht : p.tokenizer = some t) (hs : t.state = .tString) :
    consumeRune f p '\\' =
      { p with tokenizer := some { t with state := .tStringEscape } } := by
  obtain ⟨st, stk, cvk, cs, cn, cl, cb, subs, tk, err, cached, dirty, lvk, tr, calls⟩ := p
  simp only at ht
  subst ht
  simp [consumeRune, deliver, Tokenizer.Consume, hs, Tokenizer.consumeString]

theorem consumeRune_string_escaped (f : Char → Bool) (p : Parser) (t : Tokenizer) (c : Char)
    (ht : p.tokenizer = some t) (hs : t.state = .tStringEscape)
    (hk : p.state ≠ .pObjExpectKey) :
    consumeRune f p c =
      { p with tokenizer := some { t with state := .tString },
               curString := p.curString ++ [c], chunkBuffer := p.chunkBuffer ++ [c],
               curValueKind := .valString } := by
  obtain ⟨st, stk, cvk, cs, cn, cl, cb, subs, tk, err, cached, dirty, lvk, tr, calls⟩ := p
  simp only at ht hk
  subst ht
  simp [consumeRune, deliver, Tokenizer.Consume, hs, Tokenizer.consumeStringEscape, OnToken,
    onStringChunk, hk]

/-- Reading the body of a string value: the content is added to both
accumulators and no token but string chunks is produced. -/
theorem feedLoop_string_body (f : Char → Bool) (raw : Str) : ∀ (esc : Bool) (p : Parser)
    (t : Tokenizer) (esc' : Bool) (added : Str),
    p.tokenizer = some t → t.state = strState esc → p.err = none →
    p.state ≠ .pObjExpectKey → strOpenAfter esc raw = some (esc', added) →
    feedLoop f raw p =
      ({ p with tokenizer := some { t with state := strState esc' },
                curString := p.curString ++ added, chunkBuffer := p.chunkBuffer ++ added,
                curValueKind := if added = [] then p.curValueKind else .valString }, none) := by
  induction raw with
  | nil =>
    intro esc p t esc' added ht hs he hk h
    simp only [strOpenAfter, Option.some.injEq, Prod.mk.injEq] at h
    obtain ⟨rfl, rfl⟩ := h
    obtain ⟨ts, tb⟩ := t
    simp only at hs
    subst hs
    obtain ⟨st, stk, cvk, cs, cn, cl, cb, subs, tk, err, cached, dirty, lvk, tr, calls⟩ := p
    simp only at ht
    subst ht
    simp [feedLoop]
  | cons c cs ih =>
    intro esc p t esc' added ht hs he hk h
    cases esc with
    | true =>
      simp only [strOpenAfter, Option.map_eq_some'] at h
      obtain ⟨⟨e1, a1⟩, h1, h2⟩ := h
      simp only [Prod.mk.injEq] at h2
      obtain ⟨rfl, rfl⟩ := h2
      have hstep := consumeRune_string_escaped f p t c ht hs hk
      have key := ih false (consumeRune f p c) { t with state := .tString } e1 a1
        (by rw [hstep]) rfl (by rw [hstep]; exact he) (by rw [hstep]; exact hk) h1
      rw [feedLoop_cons_of_err_none f c cs p (by rw [hstep]; exact he), key, hstep]
      simp
    | false =>
      by_cases hq : c = '"'
      · simp [strOpenAfter, hq] at h
      · by_cases hb : c = '\\'
        · subst hb
          simp only [strOpenAfter, hq, if_false, if_true] at h
          have hstep := consumeRune_string_backslash f p t ht hs
          have key := ih true (consumeRune f p '\\') { t with state := .tStringEscape } esc' added
            (by rw [hstep]) rfl (by rw [hstep]; exact he) (by rw [hstep]; exact hk) h
          rw [feedLoop_cons_of_err_none f _ cs p (by rw [hstep]; exact he), key, hstep]
        · simp only [strOpenAfter, hq, hb, if_false, Option.map_eq_some'] at h
          obtain ⟨⟨e1, a1⟩, h1, h2⟩ := h
          simp only [Prod.mk.injEq] at h2
          obtain ⟨rfl, rfl⟩ := h2
          have hstep := consumeRune_plain f p t c ht hs hq hb hk
          have key := ih false (consumeRune f p c) t e1 a1
            (by rw [hstep]; exact ht) hs (by rw [hstep]; exact he) (by rw [hstep]; exact hk) h1
          rw [feedLoop_cons_of_err_none f c cs p (by rw [hstep]; exact he), key, hstep]
          simp

theorem consumeRune_number_char (f : Char → Bool) (p : Parser) (t : Tokenizer) (c : Char)
    (ht : p.tokenizer = some t) (hs : t.state = .tNumber)
    (hc : Tokenizer.isNumberChar c = true) :
    consumeRune f p c =
      { p with curValueKind := .valNumber, curNumber := p.curNumber ++ [c] } := by
  obtain ⟨st, stk, cvk, cs, cn, cl, cb, subs, tk, err, cached, dirty, lvk, tr, calls⟩ := p
  simp only at ht
  subst ht
  simp [consumeRune, deliver, Tokenizer.Consume, hs, Tokenizer.consumeNumber, hc, OnToken,
    onNumberChunk]

theorem feedLoop_number_chars (f : Char → Bool) (cs : Str) : ∀ (p : Parser) (t : Tokenizer),
    p.tokenizer = some t → t.state = .tNumber → p.err = none →
    (∀ x ∈ cs, Tokenizer.isNumberChar x = true) →
    feedLoop f cs p =
      ({ p with curNumber := p.curNumber ++ cs,
                curValueKind := if cs = [] then p.curValueKind else .valNumber }, none) := by
  induction cs with
  | nil => intro p t _ _ _ _; simp [feedLoop]
  | cons c cs ih =>
    intro p t ht hs he hcs
    have hstep := consumeRune_number_char f p t c ht hs (hcs c (List.mem_cons_self _ _))
    have key := ih (consumeRune f p c) t (by rw [hstep]; exact ht) hs (by rw [hstep]; exact he)
      (fun x hx => hcs x (List.mem_cons_of_mem _ hx))
    rw [feedLoop_cons_of_err_none f c cs p (by rw [hstep]; exact he), key, hstep]
    simp

theorem consumeRune_number_start (f : Char → Bool) (p : Parser) (t : Tokenizer) (c : Char)
    (ht : p.tokenizer = some t) (hs : t.state = .tIdle)
    (hc : Tokenizer.isDigit c = true ∨ c = '-') :
    consumeRune f p c =
      { p with tokenizer := some { t with state := .tNumber, buf := [c] },
               curValueKind := .valNumber, curNumber := p.curNumber ++ [c] } := by
  obtain ⟨st, stk, cvk, cs, cn, cl, cb, subs, tk, err, cached, dirty, lvk, tr, calls⟩ := p
  simp only at ht
  subst ht
  simp [consumeRune, deliver, Tokenizer.Consume, hs, consumeIdle_numberStart _ c hc, OnToken,
    onNumberChunk]

/-- Reading the text of a number from an idle tokenizer. -/
theorem feedLoop_number (f : Char → Bool) (v : Str) (hv : numberText v) (p : Parser)
    (t : Tokenizer) (ht : p.tokenizer = some t) (hs : t.state = .tIdle) (he : p.err = none) :
    ∃ b, feedLoop f v p =
      ({ p with tokenizer := some { state := .tNumber, buf := b },
                curValueKind := .valNumber, curNumber := p.curNumber ++ v }, none) := by
  obtain ⟨c, cs, rfl, hc, hcs⟩ := hv
  have hstep := consumeRune_number_start f p t c ht hs hc
  refine ⟨[c], ?_⟩
  have key := feedLoop_number_chars f cs (consumeRune f p c)
    { t with state := .tNumber, buf := [c] } (by rw [hstep]) rfl (by rw [hstep]; exact he) hcs
  rw [feedLoop_cons_of_err_none f c cs p (by rw [hstep]; exact he), key, hstep]
  simp

theorem consumeRune_number_comma (f : Char → Bool) (p : Parser) (t : Tokenizer)
    (ht : p.tokenizer = some t) (hs : t.state = .tNumber) :
    consumeRune f p ',' =
      OnToken (OnToken { p with tokenizer := some { t with state := .tIdle } }
        { Typ := .TokenNumberEnd }) { Typ := .TokenComma } := by
  obtain ⟨st, stk, cvk, cs, cn, cl, cb, subs, tk, err, cached, dirty, lvk, tr, calls⟩ := p
  simp only at ht
  subst ht
  have h1 : Tokenizer.isNumberChar ',' = false := by decide
  simp [consumeRune, deliver, Tokenizer.Consume, hs, Tokenizer.consumeNumber, h1,
    Tokenizer.consumeIdle]

theorem consumeRune_number_rbracket (f : Char → Bool) (p : Parser) (t : Tokenizer)
    (ht : p.tokenizer = some t) (hs : t.state = .tNumber) :
    consumeRune f p ']' =
      OnToken (OnToken { p with tokenizer := some { t with state := .tIdle } }
        { Typ := .TokenNumberEnd }) { Typ := .TokenRBracket } := by
  obtain ⟨st, stk, cvk, cs, cn, cl, cb, subs, tk, err, cached, dirty, lvk, tr, calls⟩ := p
  simp only at ht
  subst ht
  have h1 : Tokenizer.isNumberChar ']' = false := by decide
  simp [consumeRune, deliver, Tokenizer.Consume, hs, Tokenizer.consumeNumber, h1,
    Tokenizer.consumeIdle]

/-- Reading `true` from an idle tokenizer hands over one Bool token. -/
theorem feedLoop_true (f : Char → Bool) (hl : keywordLetters f) (p : Parser) (t : Tokenizer)
    (ht : p.tokenizer = some t) (hs : t.state = .tIdle) (he : p.err = none) :
    feedLoop f "true".toList p =
      (OnToken { p with tokenizer := some { state := .tIdle, buf := [] } }
          { Typ := .TokenBool, BoolV := true },
       (OnToken { p with tokenizer := some { state := .tIdle, buf := [] } }
          { Typ := .TokenBool, BoolV := true }).err) := by
  obtain ⟨st, stk, cvk, cs, cn, cl, cb, subs, tk, err, cached, dirty, lvk, tr, calls⟩ := p
  obtain ⟨ts, tb⟩ := t
  simp only at ht hs he
  subst ht hs he
  have h1 : f 'r' = true := hl 'r' (by decide)
  have h2 : f 'u' = true := hl 'u' (by decide)
  have h3 : f 'e' = true := hl 'e' (by decide)
  simp only [String.toList, feedLoop, consumeRune, deliver, Tokenizer.Consume,
    Tokenizer.consumeIdle, Tokenizer.consumeKeyword, h1, h2, h3]
  simp [Tokenizer.isDigit, Tokenizer.isKeywordStart]
  split <;> simp_all

end Parser

namespace Parser

/-- Reading `false` from an idle tokenizer hands over one Bool token. -/
theorem feedLoop_false (f : Char → Bool) (hl : keywordLetters f) (p : Parser) (t : Tokenizer)
    (ht : p.tokenizer = some t) (hs : t.state = .tIdle) (he : p.err = none) :
    feedLoop f "false".toList p =
      (OnToken { p with tokenizer := some { state := .tIdle, buf := [] } }
          { Typ := .TokenBool, BoolV := false },
       (OnToken { p with tokenizer := some { state := .tIdle, buf := [] } }
          { Typ := .TokenBool, BoolV := false }).err) := by
  obtain ⟨st, stk, cvk, cs, cn, cl, cb, subs, tk, err, cached, dirty, lvk, tr, calls⟩ := p
  obtain ⟨ts, tb⟩ := t
  simp only at ht hs he
  subst ht hs he
  have h1 : f 'a' = true := hl 'a' (by decide)
  have h2 : f 'l' = true := hl 'l' (by decide)
  have h3 : f 's' = true := hl 's' (by decide)
  have h4 : f 'e' = true := hl 'e' (by decide)
  simp only [String.toList, feedLoop, consumeRune, deliver, Tokenizer.Consume,
    Tokenizer.consumeIdle, Tokenizer.consumeKeyword, h1, h2, h3, h4]
  simp [Tokenizer.isDigit, Tokenizer.isKeywordStart]
  split <;> simp_all

/-- Reading `null` from an idle tokenizer hands over one Null token. -/
theorem feedLoop_null (f : Char → Bool) (hl : keywordLetters f) (p : Parser) (t : Tokenizer)
    (ht : p.tokenizer = some t) (hs : t.state = .tIdle) (he : p.err = none) :
    feedLoop f "null".toList p =
      (OnToken { p with tokenizer := some { state := .tIdle, buf := [] } }
          { Typ := .TokenNull },
       (OnToken { p with tokenizer := some { state := .tIdle, buf := [] } }
          { Typ := .TokenNull }).err) := by
  obtain ⟨st, stk, cvk, cs, cn, cl, cb, subs, tk, err, cached, dirty, lvk, tr, calls⟩ := p
  obtain ⟨ts, tb⟩ := t
  simp only at ht hs he
  subst ht hs he
  have h1 : f 'u' = true := hl 'u' (by decide)
  have h2 : f 'l' = true := hl 'l' (by decide)
  simp only [String.toList, feedLoop, consumeRune, deliver, Tokenizer.Consume,
    Tokenizer.consumeIdle, Tokenizer.consumeKeyword, h1, h2]
  simp [Tokenizer.isDigit, Tokenizer.isKeywordStart]
  split <;> simp_all

end Parser
namespace Parser

theorem cacheOK_emit (p : Parser) (ev : Event) (h : CacheOK p) : CacheOK (emit p ev) := by
  intro _
  simp [emitSegments_of_cacheOK p h]

theorem stackSegments_arrayTop (rest : List frame) (arr : frame) (ha : arr.kind = .frameArray) :
    stackSegments (rest ++ [arr]) = itemSegments (stackSegments rest) arr.index := by
  simp [stackSegments_append, stackSegments, ha, itemSegments]

theorem ArrayFrame.emitEvent {rest arr T ts st cur num q} (ev : Event)
    (h : ArrayFrame rest arr T ts st cur num q) :
    ArrayFrame rest arr
      (T ++ [{ ev with pathSegments := itemSegments (stackSegments rest) arr.index }])
      ts st cur num (emit q ev) := by
  obtain ⟨h1, h2, h3, h4, h5, h6, h7, h8, h9, h10, h11⟩ := h
  refine ⟨by simpa using h1, h2, by simpa using h3, by simpa using h4, by simpa using h5,
    by simpa using h6, by simpa using h7, by simpa using h8, by simpa using h9,
    cacheOK_emit q ev h10, ?_⟩
  simp [emitSegments_of_cacheOK q h10, h1, stackSegments_arrayTop rest arr h2, h11]

theorem ArrayFrame.advanceItem {rest arr T ts st cur num q} (k : ValueKind)
    (h : ArrayFrame rest arr T ts st cur num q) (hk : q.lastValueKind = k) :
    ArrayFrame rest { arr with index := arr.index + 1 }
      (T ++ [completeItem (itemSegments (stackSegments rest) arr.index) k])
      ts .pArrAfterValue cur num (advanceAfterValue q) := by
  obtain ⟨h1, h2, h3, h4, h5, h6, h7, h8, h9, h10, h11⟩ := h
  have htop : q.stack.getLast? = some arr := by simp [h1]
  unfold advanceAfterValue
  simp only [topFrame_eq, htop, h2]
  refine ⟨by simp [setTop, h1], by simp [h2], by simpa [setTop] using h3, rfl,
    by simpa [setTop] using h5, by simpa [setTop] using h6, by simpa [setTop] using h7,
    by simpa [setTop] using h8, by simpa [setTop] using h9, ?_, ?_⟩
  · intro hd
    simp at hd
  · simp [setTop, emitSegments_of_cacheOK q h10, h1, stackSegments_arrayTop rest arr h2, h11, hk,
      completeItem]

theorem ArrayFrame.setTokenizer {rest arr T ts st cur num q} (t : Tokenizer)
    (h : ArrayFrame rest arr T ts st cur num q) :
    ArrayFrame rest arr T t.state st cur num { q with tokenizer := some t } := by
  obtain ⟨h1, h2, h3, h4, h5, h6, h7, h8, h9, h10, h11⟩ := h
  exact ⟨h1, h2, rfl, h4, h5, h6, h7, h8, h9, h10, h11⟩

/-- A Bool or Null token inside an array: the FieldValue and the ArrayItem of the item. -/
theorem ArrayFrame.primitiveToken {rest arr T ts st cur num q} (v : AnyVal) (k : ValueKind)
    (hk : k = if v = .nil then .ValueNull else .ValueBool)
    (h : ArrayFrame rest arr T ts st cur num q) :
    ArrayFrame rest { arr with index := arr.index + 1 }
      (T ++ [completeValue (itemSegments (stackSegments rest) arr.index) k v,
             completeItem (itemSegments (stackSegments rest) arr.index) k])
      ts .pArrAfterValue cur num (onPrimitive q v) := by
  have h0 : ArrayFrame rest arr T ts st cur num { q with lastValueKind := k } := h
  have h1 := h0.emitEvent (completeValue [] k v)
  have h2 := h1.advanceItem k (by simp)
  subst hk
  simpa [onPrimitive, completeValue] using h2

/-- A NumberEnd token inside an array: the FieldValue and the ArrayItem of the item. -/
theorem ArrayFrame.numberToken {rest arr T ts st cur num q}
    (h : ArrayFrame rest arr T ts st cur num q) :
    ArrayFrame rest { arr with index := arr.index + 1 }
      (T ++ [completeValue (itemSegments (stackSegments rest) arr.index) .ValueNumber (.str num),
             completeItem (itemSegments (stackSegments rest) arr.index) .ValueNumber])
      ts .pArrAfterValue cur [] (onNumberEnd q) := by
  have hcl : q.closing = false := h.2.2.2.2.2.1
  have hn : q.curNumber = num := h.2.2.2.2.2.2.2.2.1
  have h0 : ArrayFrame rest arr T ts st cur []
      { q with curNumber := [], curValueKind := .valNone, lastValueKind := .ValueNumber } := by
    obtain ⟨h1, h2, h3, h4, h5, h6, h7, h8, h9, h10, h11⟩ := h
    exact ⟨h1, h2, h3, h4, h5, h6, h7, h8, rfl, h10, h11⟩
  have h1 := h0.emitEvent (completeValue [] .ValueNumber (.str num))
  have h2 := h1.advanceItem .ValueNumber (by simp)
  simpa [onNumberEnd, hcl, hn, completeValue] using h2

/-- A StringEnd token inside an array, in state `pArrExpectValue`, when the
whole string is still in the chunk buffer: the FieldValue and the ArrayItem of
the item, and no append chunk. -/
theorem ArrayFrame.stringToken {rest arr T ts cur num q}
    (h : ArrayFrame rest arr T ts .pArrExpectValue cur num q) :
    ArrayFrame rest { arr with index := arr.index + 1 }
      (T ++ [completeValue (itemSegments (stackSegments rest) arr.index) .ValueString (.str cur),
             completeItem (itemSegments (stackSegments rest) arr.index) .ValueString])
      ts .pArrAfterValue [] num (onStringEnd q) := by
  have hst : q.state = .pArrExpectValue := h.2.2.2.1
  have hcl : q.closing = false := h.2.2.2.2.2.1
  have hcs : q.curString = cur := h.2.2.2.2.2.2.1
  have hcb : q.chunkBuffer = cur := h.2.2.2.2.2.2.2.1
  have hfl : onStringEndFlush q = q := by
    unfold onStringEndFlush
    rw [hcs, hcb]
    simp
  have h1 := h.emitEvent (completeValue [] .ValueString (.str cur))
  have h0 : ArrayFrame rest arr
      (T ++ [completeValue (itemSegments (stackSegments rest) arr.index) .ValueString (.str cur)])
      ts .pArrExpectValue [] num
      { emit q (completeValue [] .ValueString (.str cur)) with
        curString := [], chunkBuffer := [], curValueKind := .valNone,
        lastValueKind := .ValueString } := by
    obtain ⟨h1, h2, h3, h4, h5, h6, h7, h8, h9, h10, h11⟩ := h1
    exact ⟨h1, h2, h3, h4, h5, h6, rfl, rfl, h9, h10, h11⟩
  have h2 := h0.advanceItem .ValueString rfl
  unfold onStringEnd
  rw [hst]
  simp only [onStringEndValue, hfl, onStringEndEmit, hcl, hcs]
  simpa [completeValue, hcl] using h2

/-- A Comma token inside an array. -/
theorem ArrayFrame.commaToken {rest arr T ts st cur num q}
    (h : ArrayFrame rest arr T ts st cur num q) :
    ArrayFrame rest arr T ts .pArrExpectValue cur num (onComma q) := by
  obtain ⟨h1, h2, h3, h4, h5, h6, h7, h8, h9, h10, h11⟩ := h
  have htop : q.stack.getLast? = some arr := by simp [h1]
  unfold onComma
  simp only [topFrame_eq, htop, h2]
  exact ⟨h1, h2, h3, rfl, h5, h6, h7, h8, h9, h10, h11⟩

end Parser
namespace Parser

theorem ArrayFrame.tokenizer_eq {rest arr T ts st cur num q}
    (h : ArrayFrame rest arr T ts st cur num q) : ∃ t, q.tokenizer = some t ∧ t.state = ts := by
  have h3 := h.2.2.1
  cases ht : q.tokenizer with
  | none => rw [ht] at h3; simp at h3
  | some t => rw [ht] at h3; exact ⟨t, rfl, by simpa using h3⟩

theorem ArrayFrame.no_error {rest arr T ts st cur num q}
    (h : ArrayFrame rest arr T ts st cur num q) : q.err = none := h.2.2.2.2.1

theorem ArrayFrame.delimiters {rest arr T st cur num q} (f : Char → Bool)
    (h : ArrayFrame rest arr T .tIdle st cur num q) :
    feedLoop f [','] q = (onComma q, none) ∧
    feedLoop f [']'] q = (onArrayEnd q, (onArrayEnd q).err) := by
  obtain ⟨t, ht, hs⟩ := h.tokenizer_eq
  have hc := h.commaToken
  refine ⟨?_, ?_⟩
  · rw [feedLoop_single, consumeRune_idle_comma f q t ht hs]
    simp only [OnToken]
    rw [hc.no_error]
  · rw [feedLoop_single, consumeRune_idle_rbracket f q t ht hs]
    simp only [OnToken]

theorem onNumberEnd_setTokenizer (p q : Parser) (x y : Option Tokenizer)
    (hq : q = onNumberEnd { p with tokenizer := x }) :
    { q with tokenizer := y } = onNumberEnd { p with tokenizer := y } := by
  subst hq
  unfold onNumberEnd advanceAfterValue emit updateCachedSegments setTop topFrame
  simp only
  repeat' split
  all_goals simp_all

theorem feedLoop_congr_first (f : Char → Bool) (p q : Parser) (d : Char) (tail : Str)
    (h : consumeRune f p d = consumeRune f q d) :
    feedLoop f (d :: tail) p = feedLoop f (d :: tail) q := by
  simp only [feedLoop, h]

theorem consumeRune_number_end (f : Char → Bool) (p : Parser) (t : Tokenizer) (d : Char)
    (ht : p.tokenizer = some t) (hs : t.state = .tNumber)
    (hd : Tokenizer.isNumberChar d = false) :
    consumeRune f p d =
      consumeRune f (onNumberEnd { p with tokenizer := some { t with state := .tIdle } }) d := by
  have e1 : (onNumberEnd { p with tokenizer := some { t with state := .tIdle } }).tokenizer =
      some { t with state := .tIdle } := by
    have := OnToken_tokenizer { p with tokenizer := some { t with state := .tIdle } }
      { Typ := .TokenNumberEnd }
    simpa [OnToken] using this
  obtain ⟨res, hres⟩ : ∃ res, res = Tokenizer.consumeIdle { t with state := .tIdle } d :=
    ⟨_, rfl⟩
  have hL : consumeRune f p d =
      res.2.foldl OnToken (onNumberEnd { p with tokenizer := some res.1 }) := by
    unfold consumeRune
    rw [ht, hres]
    simp [deliver, Tokenizer.Consume, hs, Tokenizer.consumeNumber, hd, OnToken]
  have hR : ∀ q : Parser, q.tokenizer = some { t with state := .tIdle } →
      consumeRune f q d = res.2.foldl OnToken { q with tokenizer := some res.1 } := by
    intro q hq
    unfold consumeRune
    rw [hq, hres]
    simp [deliver, Tokenizer.Consume]
  rw [hL, hR _ e1, onNumberEnd_setTokenizer p _ (some { t with state := .tIdle }) _ rfl]

theorem consumeRune_space (f : Char → Bool) (p : Parser) (t : Tokenizer) (c : Char)
    (ht : p.tokenizer = some t) (hs : t.state = .tIdle) (hc : jsonSpace c) :
    consumeRune f p c = p := by
  obtain ⟨st, stk, cvk, cs, cn, cl, cb, subs, tk, err, cached, dirty, lvk, tr, calls⟩ := p
  simp only at ht
  subst ht
  rcases hc with rfl | rfl | rfl | rfl <;>
    simp [consumeRune, deliver, Tokenizer.Consume, hs, Tokenizer.consumeIdle]

theorem feedLoop_spaces (f : Char → Bool) (p : Parser) (t : Tokenizer)
    (ht : p.tokenizer = some t) (hs : t.state = .tIdle) (he : p.err = none) (ws tail : Str)
    (hw : ∀ c ∈ ws, jsonSpace c) : feedLoop f (ws ++ tail) p = feedLoop f tail p := by
  induction ws with
  | nil => rfl
  | cons c cs ih =>
    have h1 := consumeRune_space f p t c ht hs (hw c (List.mem_cons_self _ _))
    rw [List.cons_append, feedLoop_cons_of_err_none f c _ p (by rw [h1]; exact he), h1]
    exact ih (fun x hx => hw x (List.mem_cons_of_mem _ hx))

theorem jsonSpace_not_numberChar (c : Char) (h : jsonSpace c) :
    Tokenizer.isNumberChar c = false := by
  rcases h with rfl | rfl | rfl | rfl <;> decide

/-- One scalar item: when the text of the scalar is followed by a character
that cannot continue a number, the parser reaches that character in a state
`q` in which the FieldValue and the ArrayItem of the item have been emitted and
the index of the frame advanced. -/
theorem ArrayFrame.scalarItem {rest arr T p} (f : Char → Bool) (hl : keywordLetters f)
    (v : Scalar) (hv : v.wellFormed)
    (h : ArrayFrame rest arr T .tIdle .pArrExpectValue [] [] p) :
    ∃ q, ArrayFrame rest { arr with index := arr.index + 1 }
        (T ++ [completeValue (itemSegments (stackSegments rest) arr.index) v.kind v.value,
               completeItem (itemSegments (stackSegments rest) arr.index) v.kind])
        .tIdle .pArrAfterValue [] [] q ∧
      ∀ (d : Char) (tail : Str), Tokenizer.isNumberChar d = false →
        feedLoop f (v.text ++ d :: tail) p = feedLoop f (d :: tail) q := by
  obtain ⟨t, ht, hs⟩ := h.tokenizer_eq
  have he := h.no_error
  cases v with
  | str raw =>
    obtain ⟨content, hraw⟩ := hv
    have h1 : consumeRune f p '"' =
        { p with tokenizer := some { t with state := .tString, buf := [] } } :=
      consumeRune_idle_quote f p t ht hs
    obtain ⟨p1, hp1⟩ : ∃ p1, p1 = consumeRune f p '"' := ⟨_, rfl⟩
    have hf1 : ArrayFrame rest arr T .tString .pArrExpectValue [] [] p1 := by
      rw [hp1, h1]
      exact h.setTokenizer { t with state := .tString, buf := [] }
    have h2 := feedLoop_string_body f raw false p1 { t with state := .tString, buf := [] }
      false content (by rw [hp1, h1]) rfl hf1.no_error
      (by rw [hf1.2.2.2.1]; decide) hraw
    obtain ⟨p2, hp2⟩ : ∃ p2, p2 = (feedLoop f raw p1).1 := ⟨_, rfl⟩
    have hf2 : ArrayFrame rest arr T .tString .pArrExpectValue content [] p2 := by
      rw [hp2, h2]
      obtain ⟨a1, a2, a3, a4, a5, a6, a7, a8, a9, a10, a11⟩ := hf1
      exact ⟨a1, a2, rfl, a4, a5, a6, by simp [a7], by simp [a8], a9, a10, a11⟩
    have hn2 : (feedLoop f raw p1).2 = none := by rw [h2]
    obtain ⟨t2, ht2, hs2⟩ := hf2.tokenizer_eq
    have h3 := consumeRune_string_quote f p2 t2 ht2 hs2
    have hf3 := (hf2.setTokenizer { t2 with state := .tIdle }).stringToken
    obtain ⟨q, hq⟩ : ∃ q, q = consumeRune f p2 '"' := ⟨_, rfl⟩
    have hfq : ArrayFrame rest { arr with index := arr.index + 1 }
        (T ++ [completeValue (itemSegments (stackSegments rest) arr.index) .ValueString
                 (.str content),
               completeItem (itemSegments (stackSegments rest) arr.index) .ValueString])
        .tIdle .pArrAfterValue [] [] q := by
      rw [hq, h3]
      simpa [OnToken] using hf3
    have hval : (Scalar.str raw).value = .str content := by simp [Scalar.value, hraw]
    refine ⟨q, by rw [hval]; exact hfq, ?_⟩
    intro d tail _
    have e1 : (Scalar.str raw).text ++ d :: tail = '"' :: (raw ++ ('"' :: d :: tail)) := by
      simp [Scalar.text]
    rw [e1, feedLoop_cons_of_err_none f '"' _ p (by rw [← hp1]; exact hf1.no_error), ← hp1,
      feedLoop_append_none f raw _ p1 hn2, ← hp2,
      feedLoop_cons_of_err_none f '"' _ p2 (by rw [← hq]; exact hfq.no_error), ← hq]
  | num text =>
    obtain ⟨b, h1⟩ := feedLoop_number f text hv p t ht hs he
    obtain ⟨p1, hp1⟩ : ∃ p1, p1 = (feedLoop f text p).1 := ⟨_, rfl⟩
    have hn1 : (feedLoop f text p).2 = none := by rw [h1]
    have hf1 : ArrayFrame rest arr T .tNumber .pArrExpectValue [] text p1 := by
      rw [hp1, h1]
      obtain ⟨a1, a2, a3, a4, a5, a6, a7, a8, a9, a10, a11⟩ := h
      exact ⟨a1, a2, rfl, a4, a5, a6, a7, a8, by simp [a9], a10, a11⟩
    obtain ⟨t1, ht1, hs1⟩ := hf1.tokenizer_eq
    have hfq := (hf1.setTokenizer { t1 with state := .tIdle }).numberToken
    refine ⟨_, hfq, ?_⟩
    intro d tail hd
    simp only [Scalar.text]
    rw [feedLoop_append_none f _ _ p hn1, ← hp1]
    exact feedLoop_congr_first f _ _ d tail (consumeRune_number_end f p1 t1 d ht1 hs1 hd)
  | bool b =>
    cases b with
    | true =>
      have h1 := feedLoop_true f hl p t ht hs he
      have hfq := (h.setTokenizer { state := .tIdle, buf := [] }).primitiveToken (.bool true)
        .ValueBool (by simp)
      simp only [OnToken] at h1
      rw [hfq.no_error] at h1
      refine ⟨_, hfq, ?_⟩
      intro d tail _
      simp only [Scalar.text]
      rw [feedLoop_append_none f _ _ p (by rw [h1]), h1]
    | false =>
      have h1 := feedLoop_false f hl p t ht hs he
      have hfq := (h.setTokenizer { state := .tIdle, buf := [] }).primitiveToken (.bool false)
        .ValueBool (by simp)
      simp only [OnToken] at h1
      rw [hfq.no_error] at h1
      refine ⟨_, hfq, ?_⟩
      intro d tail _
      simp only [Scalar.text]
      rw [feedLoop_append_none f _ _ p (by rw [h1]), h1]
  | null =>
    have h1 := feedLoop_null f hl p t ht hs he
    have hfq := (h.setTokenizer { state := .tIdle, buf := [] }).primitiveToken .nil
      .ValueNull (by simp)
    simp only [OnToken] at h1
    rw [hfq.no_error] at h1
    refine ⟨_, hfq, ?_⟩
    intro d tail _
    simp only [Scalar.text]
    rw [feedLoop_append_none f _ _ p (by rw [h1]), h1]

theorem scalarsRest_head (xs : List SpacedScalar) :
    ∃ d tail, scalarsRest xs = d :: tail ∧ Tokenizer.isNumberChar d = false := by
  cases xs with
  | nil => exact ⟨']', [], rfl, by decide⟩
  | cons x xs => exact ⟨',', _, rfl, by decide⟩

/-- One written item: leading whitespace, the scalar, trailing whitespace. -/
theorem ArrayFrame.spacedItem {rest arr T p} (f : Char → Bool) (hl : keywordLetters f)
    (x : SpacedScalar) (hx : x.wellFormed) (xs : List SpacedScalar)
    (h : ArrayFrame rest arr T .tIdle .pArrExpectValue [] [] p) :
    ∃ q, ArrayFrame rest { arr with index := arr.index + 1 }
        (T ++ [completeValue (itemSegments (stackSegments rest) arr.index) x.value.kind
                 x.value.value,
               completeItem (itemSegments (stackSegments rest) arr.index) x.value.kind])
        .tIdle .pArrAfterValue [] [] q ∧
      feedLoop f (x.text ++ scalarsRest xs) p = feedLoop f (scalarsRest xs) q := by
  obtain ⟨t, ht, hs⟩ := h.tokenizer_eq
  obtain ⟨q, hq, hrun⟩ := h.scalarItem f hl x.value hx.2.1
  obtain ⟨tq, htq, hsq⟩ := hq.tokenizer_eq
  refine ⟨q, hq, ?_⟩
  have e1 : x.text ++ scalarsRest xs = x.lead ++ (x.value.text ++ (x.trail ++ scalarsRest xs)) := by
    simp [SpacedScalar.text]
  rw [e1, feedLoop_spaces f p t ht hs h.no_error _ _ hx.1]
  have hd : ∃ d tail, x.trail ++ scalarsRest xs = d :: tail ∧
      Tokenizer.isNumberChar d = false := by
    cases htr : x.trail with
    | nil => simpa using scalarsRest_head xs
    | cons c cs =>
      exact ⟨c, cs ++ scalarsRest xs, rfl,
        jsonSpace_not_numberChar c (hx.2.2 c (by rw [htr]; exact List.mem_cons_self _ _))⟩
  obtain ⟨d, tail, hdt, hdn⟩ := hd
  rw [hdt, hrun d tail hdn, ← hdt, feedLoop_spaces f q tq htq hsq hq.no_error _ _ hx.2.2]

end Parser
namespace Parser

theorem ArrayFrame.scalarItems {rest} (f : Char → Bool) (hl : keywordLetters f) :
    ∀ (xs : List SpacedScalar) (x : SpacedScalar) (arr : frame) (T : List Event) (p : Parser),
    (∀ y ∈ x :: xs, y.wellFormed) →
    ArrayFrame rest arr T .tIdle .pArrExpectValue [] [] p →
    ∃ q, ArrayFrame rest { arr with index := arr.index + (xs.length + 1) }
        (T ++ scalarItemEvents (stackSegments rest) arr.index ((x :: xs).map (·.value)))
        .tIdle .pArrAfterValue [] [] q ∧
      feedLoop f (x.text ++ scalarsRest xs) p = (onArrayEnd q, (onArrayEnd q).err) := by
  intro xs
  induction xs with
  | nil =>
    intro x arr T p hv h
    obtain ⟨q, hq, h2⟩ := h.spacedItem f hl x (hv x (List.mem_cons_self _ _)) []
    refine ⟨q, by simpa [scalarItemEvents] using hq, ?_⟩
    rw [h2]
    simpa [scalarsRest] using (hq.delimiters f).2
  | cons w ws ih =>
    intro x arr T p hv h
    obtain ⟨q, hq, h1⟩ := h.spacedItem f hl x (hv x (List.mem_cons_self _ _)) (w :: ws)
    have hq' := hq.commaToken
    obtain ⟨r, hr, h3⟩ := ih w _ _ (onComma q) (fun y hy => hv y (List.mem_cons_of_mem _ hy)) hq'
    refine ⟨r, ?_, ?_⟩
    · have e1 : arr.index + 1 + (ws.length + 1) = arr.index + ((w :: ws).length + 1) := by
        simp only [List.length_cons]; omega
      simp only [e1] at hr
      simpa [scalarItemEvents] using hr
    · have hc := (hq.delimiters f).1
      rw [h1]
      simp only [scalarsRest]
      rw [show ',' :: (w.text ++ scalarsRest ws) = [','] ++ (w.text ++ scalarsRest ws) from rfl,
        feedLoop_append_none f _ _ q (by rw [hc]), hc]
      exact h3

theorem ArrayFrame.scalars {rest arr T p} (f : Char → Bool) (hl : keywordLetters f)
    (xs : List SpacedScalar) (hv : ∀ y ∈ xs, y.wellFormed)
    (h : ArrayFrame rest arr T .tIdle .pArrExpectValue [] [] p) :
    ∃ q st, ArrayFrame rest { arr with index := arr.index + xs.length }
        (T ++ scalarItemEvents (stackSegments rest) arr.index (xs.map (·.value)))
        .tIdle st [] [] q ∧
      feedLoop f (scalarsText xs) p = (onArrayEnd q, (onArrayEnd q).err) := by
  cases xs with
  | nil =>
    refine ⟨p, .pArrExpectValue, by simpa [scalarItemEvents] using h, ?_⟩
    simpa [scalarsText] using (h.delimiters f).2
  | cons x xs =>
    obtain ⟨q, hq, h1⟩ := ArrayFrame.scalarItems f hl xs x arr T p hv h
    exact ⟨q, .pArrAfterValue, by simpa using hq, by simpa [scalarsText] using h1⟩

/-- The opening bracket of an array read by a clean parser. -/
theorem Clean.arrayStart {p : Parser} (f : Char → Bool) (h : Clean p) :
    feedLoop f ['['] p = (onArrayStart p, none) ∧
    ArrayFrame p.stack { kind := .frameArray } (p.trace ++ [arrayStartEvent (stackSegments p.stack)])
      .tIdle .pArrExpectValue [] [] (onArrayStart p) := by
  obtain ⟨h1, h2, h3, h4, h5, h6⟩ := h
  have ht : ∃ t, p.tokenizer = some t ∧ t.state = .tIdle := by
    cases ht : p.tokenizer with
    | none => rw [ht] at h1; simp at h1
    | some t => rw [ht] at h1; exact ⟨t, rfl, by simpa using h1⟩
  obtain ⟨t, ht, hs⟩ := ht
  have hframe : ArrayFrame p.stack { kind := .frameArray }
      (p.trace ++ [arrayStartEvent (stackSegments p.stack)])
      .tIdle .pArrExpectValue [] [] (onArrayStart p) := by
    unfold onArrayStart
    refine ⟨by simp, rfl, by simpa using h1, by simp, by simpa using h2, by simpa using h3,
      by simpa using h4, by simpa using h5, by simpa using h6, ?_, ?_⟩
    · intro _
      simp [emitSegments]
    · simp [emitSegments, arrayStartEvent, stackSegments_append, stackSegments, itemSegments]
  refine ⟨?_, hframe⟩
  rw [feedLoop_single, consumeRune_idle_lbracket f p t ht hs]
  simp only [OnToken]
  rw [hframe.no_error]

/-- The closing bracket of a root-level array. -/
theorem ArrayFrame.rootEnd {arr T ts st cur num q} (h : ArrayFrame [] arr T ts st cur num q) :
    (onArrayEnd q).trace = T ++ [rootArrayEnd arr.index] ∧ (onArrayEnd q).err = none ∧
    (onArrayEnd q).chunkBuffer = cur ∧ (onArrayEnd q).stack = [] ∧
    (onArrayEnd q).tokenizer.isSome := by
  obtain ⟨h1, h2, h3, h4, h5, h6, h7, h8, h9, h10, h11⟩ := h
  have hseg := emitSegments_of_cacheOK q h10
  simp only [List.nil_append] at h1
  have hsome : q.tokenizer.isSome := by
    cases ht : q.tokenizer with
    | none => rw [ht] at h3; simp at h3
    | some t => rfl
  unfold onArrayEnd
  simp only [topFrame_eq, h1, List.getLast?_singleton, h2]
  simp [pop, h1, hseg, stackSegments, h2, h11, rootArrayEnd, itemSegments, h5, h8, hsome]

theorem visible_scalarItemEvents (pre : List PathSegment) (vs : List Scalar) :
    ∀ i, visible (scalarItemEvents pre i vs) = scalarItemEvents pre i vs := by
  induction vs with
  | nil => intro i; rfl
  | cons v vs ih =>
    intro i
    simp only [scalarItemEvents]
    rw [show ∀ (a b : Event) (l : List Event), a :: b :: l = [a, b] ++ l from fun _ _ _ => rfl,
      visible_append, ih]
    rfl

theorem visible_scalarArrayEvents (vs : List Scalar) :
    visible (scalarArrayEvents vs) = scalarArrayEvents vs := by
  unfold scalarArrayEvents
  rw [show ∀ (a : Event) (l : List Event), a :: l = [a] ++ l from fun _ _ => rfl,
    visible_append, visible_append, visible_scalarItemEvents]
  rfl

theorem clean_NewParser : Clean NewParser := ⟨rfl, rfl, rfl, rfl, rfl, rfl⟩

/-- A root-level array of scalars read by the feed loop of a fresh parser. -/
theorem feedLoop_scalarArray (f : Char → Bool) (hl : keywordLetters f)
    (xs : List SpacedScalar) (hv : ∀ x ∈ xs, x.wellFormed) :
    ∃ r, feedLoop f ('[' :: scalarsText xs) NewParser = (r, none) ∧
      r.trace = scalarArrayEvents (xs.map (·.value)) ∧ r.chunkBuffer = [] ∧ r.stack = [] ∧
      r.tokenizer.isSome ∧ r.err = none := by
  obtain ⟨h1, h2⟩ := clean_NewParser.arrayStart f
  obtain ⟨q, st, hq, h3⟩ := h2.scalars f hl xs hv
  obtain ⟨h4, h5, h6, h7, h8⟩ := hq.rootEnd
  refine ⟨onArrayEnd q, ?_, ?_, h6, h7, h8, h5⟩
  · rw [show '[' :: scalarsText xs = ['['] ++ scalarsText xs from rfl,
      feedLoop_append_none f _ _ _ (by rw [h1]), h1, h3, h5]
  · rw [h4]
    simp [scalarArrayEvents, NewParser, stackSegments]

theorem itemSegments_path (pre : List PathSegment) (i : Nat) (ev : Event)
    (hs : ev.pathSegments = itemSegments pre i) (hc : ev.pathCache = [])
    (ho : ev.pathOpts = {}) :
    ev.Path = '$' :: buildPathLoop {} (pre.length + 1) 0 (pre.length + 1) pre ++
      (['['] ++ Itoa i ++ [']']) := by
  have hl : ((pre ++ [({ Kind := .SegIndex, Value := Itoa i } : PathSegment)]).length = 0)
      = False := by simp
  simp only [Event.Path, hs, hc, ho, itemSegments, buildPathFromSegments, hl, if_false]
  simp only [List.length_append, List.length_singleton, gt_iff_lt, Nat.lt_add_left_iff_pos,
    Nat.lt_one_iff, pos_of_gt, and_self, if_true, Bool.false_eq_true, if_false, true_and]
  rw [if_pos (by omega)]
  rw [buildPathLoop_index _ _ rfl _ _ _ _ (by omega)]
  rfl

end Parser
namespace Parser

/-- A root-level array of scalars fed to a fresh parser, in one call or in chunks. -/
theorem scalarArray_feeds (f : Char → Bool) (hl : keywordLetters f)
    (xs : List SpacedScalar) (hv : ∀ x ∈ xs, x.wellFormed) :
    (FeedString f NewParser ('[' :: scalarsText xs)).2 = none ∧
    (FeedString f NewParser ('[' :: scalarsText xs)).1.trace =
      scalarArrayEvents (xs.map (·.value)) ∧
    ∀ chunks : List Str, chunks.flatten = '[' :: scalarsText xs →
      visible (feedChunks f NewParser chunks).1.trace = scalarArrayEvents (xs.map (·.value)) ∧
      (feedChunks f NewParser chunks).2 = none := by
  obtain ⟨r, h1, h2, h3, _, _, _⟩ := feedLoop_scalarArray f hl xs hv
  have hfin : finishFeed (feedLoop f ('[' :: scalarsText xs) NewParser) = (r, none) := by
    rw [h1]
    simp only [finishFeed, flushStringChunk_of_empty r h3]
  have hfs : FeedString f NewParser ('[' :: scalarsText xs) = (r, none) := by
    rw [FeedString_eq f NewParser _ rfl rfl, hfin]
  refine ⟨by rw [hfs], by rw [hfs]; exact h2, ?_⟩
  intro chunks hc
  have hrel : Rel NewParser NewParser := ⟨fun _ => rfl, fun _ => rfl, rfl, rfl⟩
  have := feedChunks_rel f chunks NewParser NewParser hrel rfl rfl
  rw [hc, hfin] at this
  refine ⟨?_, this.2⟩
  unfold feedChunks
  rw [this.1, h2, visible_scalarArrayEvents]

theorem itemEvents_path (pre : List PathSegment) (i : Nat) (k : ValueKind) (v : AnyVal) :
    (['['] ++ Itoa i ++ [']']) <:+ (completeValue (itemSegments pre i) k v).Path ∧
    (completeItem (itemSegments pre i) k).Path = (completeValue (itemSegments pre i) k v).Path := by
  rw [itemSegments_path pre i (completeValue (itemSegments pre i) k v) rfl rfl rfl,
    itemSegments_path pre i (completeItem (itemSegments pre i) k) rfl rfl rfl]
  exact ⟨(List.suffix_append _ _).trans (List.suffix_cons _ _), rfl⟩

end Parser

/-- C11: let the items of an array be scalars (strings, numbers, `true`,
`false`, `null`), each possibly surrounded by whitespace. (1) A parser between
two tokens with empty accumulators that reads `[`, the items separated by
commas, and `]` reaches the `]` in a state whose trace has gained the
ArrayStart and then, for item `i = 0, 1, ...` in order, the complete FieldValue
of the item immediately followed by its ArrayItem, both with the segments of
the enclosing frames followed by Index `i`, the ArrayItem with the kind of the
value and Complete set; the array frame then has index `n`. (2) For a fresh
parser the whole trace is ArrayStart, these events, ArrayEnd, also for every
split of the input into chunks once append events are removed. (3) The path of
both events of item `i` is the same and ends with `[i]`. (4) In every state a
fresh parser reaches by feeding, the index of each frame is the number of
ArrayItem events emitted for it. -/
theorem scalar_array_items (isLetter : Char → Bool) (hl : keywordLetters isLetter)
    (xs : List SpacedScalar) (hx : ∀ x ∈ xs, x.wellFormed) :
    (∀ p : Parser, p.Clean →
      ∃ q, Parser.feedLoop isLetter ('[' :: scalarsText xs) p =
          (Parser.onArrayEnd q, (Parser.onArrayEnd q).err) ∧
        q.trace = p.trace ++ arrayStartEvent (stackSegments p.stack) ::
          scalarItemEvents (stackSegments p.stack) 0 (xs.map (·.value)) ∧
        q.stack = p.stack ++ [{ kind := .frameArray, index := xs.length }]) ∧
    (Parser.FeedString isLetter NewParser ('[' :: scalarsText xs)).2 = none ∧
    (Parser.FeedString isLetter NewParser ('[' :: scalarsText xs)).1.trace =
      scalarArrayEvents (xs.map (·.value)) ∧
    (∀ chunks : List Str, chunks.flatten = '[' :: scalarsText xs →
      visible (feedChunks isLetter NewParser chunks).1.trace =
        scalarArrayEvents (xs.map (·.value)) ∧
      (feedChunks isLetter NewParser chunks).2 = none) ∧
    (∀ (pre : List PathSegment) (i : Nat) (k : ValueKind) (v : AnyVal),
      (['['] ++ Itoa i ++ [']']) <:+ (completeValue (itemSegments pre i) k v).Path ∧
      (completeItem (itemSegments pre i) k).Path =
        (completeValue (itemSegments pre i) k v).Path) ∧
    (∀ chunks : List Str, (feedAll isLetter NewParser chunks).Counted) := by
  obtain ⟨h1, h2, h3⟩ := Parser.scalarArray_feeds isLetter hl xs hx
  refine ⟨?_, h1, h2, h3, Parser.itemEvents_path, ?_⟩
  · intro p hp
    obtain ⟨a1, a2⟩ := hp.arrayStart isLetter
    obtain ⟨q, st, hq, a3⟩ := a2.scalars isLetter hl xs hx
    refine ⟨q, ?_, ?_, ?_⟩
    · rw [show '[' :: scalarsText xs = ['['] ++ scalarsText xs from rfl,
        Parser.feedLoop_append_none isLetter _ _ _ (by rw [a1]), a1, a3]
    · rw [hq.2.2.2.2.2.2.2.2.2.2]
      simp
    · rw [hq.1]
      simp
  · intro chunks
    exact Parser.Counted.feedAll (by unfold Parser.Counted; rfl) isLetter chunks

/-- Instance of the scalar array statement: `[1, "a",true,null]` read by a fresh
parser, with the rendered paths of its events. -/
theorem scalar_array_items_witness :
    keywordLetters Char.isAlpha ∧
    (Parser.FeedString Char.isAlpha NewParser
        ('[' :: scalarsText [{ value := .num "1".toList }, { lead := " ".toList, value := .str "a".toList },
                             { value := .bool true }, { value := .null }])).1.trace =
      scalarArrayEvents [.num "1".toList, .str "a".toList, .bool true, .null] ∧
    (scalarArrayEvents [.num "1".toList, .str "a".toList, .bool true, .null]).map
        (fun e => (e.Typ, e.Value.map (fun v => (v.Kind, v.Value, v.Complete)), e.Path)) =
      [(.EventArrayStart, none, "$".toList),
       (.EventFieldValue, some (.ValueNumber, .str "1".toList, true), "$[0]".toList),
       (.EventArrayItem, some (.ValueNumber, .nil, true), "$[0]".toList),
       (.EventFieldValue, some (.ValueString, .str "a".toList, true), "$[1]".toList),
       (.EventArrayItem, some (.ValueString, .nil, true), "$[1]".toList),
       (.EventFieldValue, some (.ValueBool, .bool true, true), "$[2]".toList),
       (.EventArrayItem, some (.ValueBool, .nil, true), "$[2]".toList),
       (.EventFieldValue, some (.ValueNull, .nil, true), "$[3]".toList),
       (.EventArrayItem, some (.ValueNull, .nil, true), "$[3]".toList),
       (.EventArrayEnd, none, "$".toList)] :=
  ⟨by unfold keywordLetters; decide,
   (scalar_array_items Char.isAlpha (by unfold keywordLetters; decide)
      [{ value := .num "1".toList }, { lead := " ".toList, value := .str "a".toList },
       { value := .bool true }, { value := .null }]
      (by
        intro x hx
        simp only [List.mem_cons, List.mem_singleton, List.not_mem_nil, or_false] at hx
        rcases hx with rfl | rfl | rfl | rfl
        · exact ⟨by simp, ⟨'1', [], rfl, Or.inl (by decide), by simp⟩, by simp⟩
        · exact ⟨by simp [jsonSpace], ⟨"a".toList, by decide⟩, by simp⟩
        · exact ⟨by simp, trivial, by simp⟩
        · exact ⟨by simp, trivial, by simp⟩)).2.2.1,
   by decide⟩

/-! ## Matching (C13, C17) -/

theorem matchLoop_iff (pattern path : List PathSegment) (h : pattern.length = path.length) :
    matchLoop pattern path = true ↔ List.Forall₂ segmentMatches pattern path := by
  induction pattern generalizing path with
  | nil =>
    cases path with
    | nil => simp [matchLoop]
    | cons s ss => simp at h
  | cons p ps ih =>
    cases path with
    | nil => simp at h
    | cons s ss =>
      have hl : ps.length = ss.length := by simpa using h
      obtain ⟨pk, pv⟩ := p
      obtain ⟨sk, sv⟩ := s
      rw [List.forall₂_cons, ← ih ss hl]
      cases pk <;> cases sk <;> simp [matchLoop, segmentMatches]

theorem matchSegments_iff (pattern path : List PathSegment) :
    matchSegments pattern path = true ↔ List.Forall₂ segmentMatches pattern path := by
  unfold matchSegments
  by_cases h : pattern.length = path.length
  · simp only [h, ne_eq, not_true_eq_false, if_false]
    exact matchLoop_iff pattern path h
  · simp only [ne_eq, h, not_false_eq_true, if_true, Bool.false_eq_true, false_iff]
    intro hf
    exact h hf.length_eq

/-- C13: `CompilePattern("$")` succeeds with an empty segment sequence, and a
path matches that empty pattern exactly when it is the empty segment sequence. -/
theorem root_pattern :
    CompilePattern "$".toList = .ok { Segments := [] } ∧
    ∀ path : List PathSegment, matchSegments [] path = true ↔ path = [] := by
  refine ⟨rfl, ?_⟩
  intro path
  cases path with
  | nil => simp [matchSegments, matchLoop]
  | cons s ss => simp [matchSegments]

/-- C17: `match(pattern, path)` is true exactly when the two sequences have the
same length and at every position the pattern segment is a Wildcard, or both
segments are Field with equal values, or both are Index with equal values; a
pattern that is a proper prefix of the path, or the path extended by further
segments, never matches. -/
theorem positional_matching (pattern path : List PathSegment) :
    (matchSegments pattern path = true ↔
      pattern.length = path.length ∧
      ∀ (i : Nat) (h1 : i < pattern.length) (h2 : i < path.length),
        segmentMatches (pattern.get ⟨i, h1⟩) (path.get ⟨i, h2⟩)) ∧
    (∀ (s : PathSegment) (ext : List PathSegment),
      matchSegments pattern (pattern ++ s :: ext) = false ∧
      matchSegments (path ++ s :: ext) path = false) := by
  refine ⟨?_, ?_⟩
  · rw [matchSegments_iff, List.forall₂_iff_get]
  · intro s ext
    constructor <;> simp [matchSegments]
/-! ## `strings.TrimSpace` -/

theorem dropWhile_of_noLead (r : Str) (h : NoLead r) : r.dropWhile unicodeIsSpace = r := by
  cases r with
  | nil => rfl
  | cons c cs =>
    have := h c rfl
    simp [List.dropWhile, this]

theorem dropWhile_allSpace_append (ws r : Str) (hw : allSpace ws) (hr : NoLead r) :
    (ws ++ r).dropWhile unicodeIsSpace = r := by
  induction ws with
  | nil => exact dropWhile_of_noLead r hr
  | cons c cs ih =>
    have hc := hw c (List.mem_cons_self _ _)
    simp only [List.cons_append, List.dropWhile, hc]
    exact ih (fun x hx => hw x (List.mem_cons_of_mem _ hx))

theorem noLead_reverse (s : Str) (h : NoTrail s) : NoLead s.reverse := by
  intro c hc
  apply h c
  simpa [List.head?_reverse] using hc

theorem allSpace_reverse (s : Str) (h : allSpace s) : allSpace s.reverse := by
  intro c hc
  exact h c (List.mem_reverse.mp hc)

theorem noLead_append (a b : Str) (ha : NoLead a) (hne : a ≠ []) : NoLead (a ++ b) := by
  cases a with
  | nil => exact absurd rfl hne
  | cons c cs => exact ha

/-- `TrimSpace` removes white space around a core that neither starts nor ends
in white space. -/
theorem TrimSpace_decomp (lead core trail : Str) (hl : allSpace lead) (ht : allSpace trail)
    (h1 : NoLead core) (h2 : NoTrail core) : TrimSpace (lead ++ core ++ trail) = core := by
  unfold TrimSpace
  by_cases hc : core = []
  · subst hc
    have e1 : (lead ++ [] ++ trail).dropWhile unicodeIsSpace = [] := by
      have := dropWhile_allSpace_append (lead ++ trail) [] (by
        intro c hx
        rcases List.mem_append.mp hx with hx | hx
        · exact hl c hx
        · exact ht c hx) (by intro c hx; simp at hx)
      simpa using this
    rw [e1]
    rfl
  · have e1 : (lead ++ core ++ trail).dropWhile unicodeIsSpace = core ++ trail := by
      rw [List.append_assoc]
      exact dropWhile_allSpace_append lead (core ++ trail) hl (noLead_append core trail h1 hc)
    rw [e1, List.reverse_append,
      dropWhile_allSpace_append trail.reverse core.reverse (allSpace_reverse trail ht)
        (noLead_reverse core h2), List.reverse_reverse]

theorem TrimSpace_of_noTrail (r : Str) (h : NoTrail r) :
    TrimSpace r = r.dropWhile unicodeIsSpace := by
  have hsplit : r = r.takeWhile unicodeIsSpace ++ r.dropWhile unicodeIsSpace :=
    (List.takeWhile_append_dropWhile _ r).symm
  have hw : allSpace (r.takeWhile unicodeIsSpace) := fun c hc => (List.mem_takeWhile_imp hc)
  have h1 : NoLead (r.dropWhile unicodeIsSpace) := by
    intro c hc
    have := List.head?_dropWhile_not unicodeIsSpace r
    rw [hc] at this
    simpa using this
  have h2 : NoTrail (r.dropWhile unicodeIsSpace) := by
    intro c hc
    apply h c
    by_cases hd : r.dropWhile unicodeIsSpace = []
    · rw [hd] at hc; simp at hc
    · rw [hsplit, List.getLast?_append_of_ne_nil _ hd]
      exact hc
  have := TrimSpace_decomp (r.takeWhile unicodeIsSpace) (r.dropWhile unicodeIsSpace) [] hw
    (by intro c hc; simp at hc) h1 h2
  rw [List.append_nil, ← hsplit] at this
  exact this

theorem TrimSpace_noTrail (s : Str) : NoTrail (TrimSpace s) := by
  intro c hc
  unfold TrimSpace at hc
  rw [List.getLast?_reverse] at hc
  have := List.head?_dropWhile_not unicodeIsSpace (s.dropWhile unicodeIsSpace).reverse
  rw [hc] at this
  simpa using this

theorem TrimSpace_length_le (s : Str) : (TrimSpace s).length ≤ s.length := by
  unfold TrimSpace
  rw [List.length_reverse]
  calc ((s.dropWhile unicodeIsSpace).reverse.dropWhile unicodeIsSpace).length
      ≤ (s.dropWhile unicodeIsSpace).reverse.length :=
        (List.dropWhile_suffix _).length_le
    _ = (s.dropWhile unicodeIsSpace).length := List.length_reverse _
    _ ≤ s.length := (List.dropWhile_suffix _).length_le

theorem noTrail_of_append (a b : Str) (h : NoTrail (a ++ b)) (hb : b ≠ []) : NoTrail b := by
  intro c hc
  apply h c
  rw [List.getLast?_append_of_ne_nil _ hb]
  exact hc
/-! ## `parseFieldSegment`, `parseArraySegment` and the loop of `CompilePattern` -/

theorem takeWhile_dropWhile_span (p : Char → Bool) (a b : Str) (ha : ∀ c ∈ a, p c = true)
    (hb : ∀ c, b.head? = some c → p c = false) :
    (a ++ b).takeWhile p = a ∧ (a ++ b).dropWhile p = b := by
  induction a with
  | nil =>
    cases b with
    | nil => simp
    | cons c cs =>
      have := hb c rfl
      simp [List.takeWhile, List.dropWhile, this]
  | cons c cs ih =>
    have hc := ha c (List.mem_cons_self _ _)
    have := ih (fun x hx => ha x (List.mem_cons_of_mem _ hx))
    simp [List.takeWhile, List.dropWhile, hc, this.1, this.2]

theorem atoiOk_chars (v : Str) (h : strconvAtoiOk v = true) :
    v ≠ [] ∧ ∀ c ∈ v, Tokenizer.isDigit c = true ∨ c = '-' ∨ c = '+' := by
  unfold strconvAtoiOk at h
  simp only [Bool.and_eq_true, Bool.not_eq_true', List.all_eq_true] at h
  obtain ⟨⟨h1, h2⟩, _⟩ := h
  cases v with
  | nil => simp at h1
  | cons c cs =>
    refine ⟨by simp, ?_⟩
    by_cases hs : c = '-' ∨ c = '+'
    · intro x hx
      rcases List.mem_cons.mp hx with rfl | hx
      · rcases hs with hs | hs
        · exact Or.inr (Or.inl hs)
        · exact Or.inr (Or.inr hs)
      · have : (if (c :: cs).head? = some '-' ∨ (c :: cs).head? = some '+' then
            (c :: cs).drop 1 else c :: cs) = cs := by
          simp [hs]
        rw [this] at h2
        exact Or.inl (h2 x hx)
    · intro x hx
      have : (if (c :: cs).head? = some '-' ∨ (c :: cs).head? = some '+' then
          (c :: cs).drop 1 else c :: cs) = c :: cs := by
        simp [hs]
      rw [this] at h2
      exact Or.inl (h2 x hx)

theorem segText_ne_nil (seg : PathSegment) : segText seg ≠ [] := by
  unfold segText
  split <;> simp

theorem segText_head (seg : PathSegment) :
    ∃ c rest, segText seg = c :: rest ∧ (c = '.' ∨ c = '[') := by
  unfold segText
  split
  · exact ⟨'.', _, rfl, Or.inl rfl⟩
  · exact ⟨'[', _, rfl, Or.inr rfl⟩
  · exact ⟨'[', _, rfl, Or.inr rfl⟩

theorem noLead_segText (seg : PathSegment) (rest : Str) : NoLead (segText seg ++ rest) := by
  obtain ⟨c, r, h, hc⟩ := segText_head seg
  rw [h]
  intro x hx
  simp only [List.cons_append, List.head?_cons, Option.some.injEq] at hx
  subst hx
  rcases hc with rfl | rfl <;> decide

theorem parseFieldSegment_text (name rest : Str) (hn : name ≠ [])
    (hc : ∀ c ∈ name, c ≠ '.' ∧ c ≠ '[')
    (hr : ∀ c, rest.head? = some c → c = '.' ∨ c = '[') :
    parseFieldSegment ('.' :: name ++ rest) =
      .ok ({ Kind := .SegField, Value := name }, rest) := by
  have hspan := takeWhile_dropWhile_span (fun r => !(r == '.' || r == '[')) name rest
    (by intro c h; have := hc c h; simp [this.1, this.2])
    (by intro c h; rcases hr c h with rfl | rfl <;> rfl)
  unfold parseFieldSegment
  simp only [List.cons_append, List.drop_succ_cons, List.drop_zero, hspan.1, hspan.2]
  have : name.length ≠ 0 := by simpa using hn
  simp [this]

theorem parseArraySegment_text (content rest : Str) (hc : ∀ c ∈ content, c ≠ ']') :
    parseArraySegment ('[' :: content ++ ']' :: rest) =
      if content = ['*'] then .ok ({ Kind := .SegWildcard }, rest)
      else if !strconvAtoiOk content then .error .ErrInvalidPattern
      else .ok ({ Kind := .SegIndex, Value := content }, rest) := by
  have hspan := takeWhile_dropWhile_span (fun r => !(r == ']')) content (']' :: rest)
    (by intro c h; have := hc c h; simp [this])
    (by intro c h; simp at h; subst h; rfl)
  unfold parseArraySegment
  simp only [List.cons_append, List.drop_succ_cons, List.drop_zero, hspan.1, hspan.2]
  simp

theorem compileLoop_succ (fuel : Nat) (remaining : Str) (segments : List PathSegment) :
    compileLoop (fuel + 1) remaining segments =
      if remaining.length > 0 then
        if (TrimSpace remaining).head? = some '.' then
          match parseFieldSegment (TrimSpace remaining) with
          | .error e => .error e
          | .ok (seg, rest) => compileLoop fuel rest (segments ++ [seg])
        else if (TrimSpace remaining).head? = some '[' then
          match parseArraySegment (TrimSpace remaining) with
          | .error e => .error e
          | .ok (seg, rest) => compileLoop fuel rest (segments ++ [seg])
        else .error .ErrInvalidPattern
      else .ok { Segments := segments } := by
  rw [compileLoop]
  all_goals rfl

/-- One round of the loop of `CompilePattern` on a gap and a segment text. -/
theorem compileLoop_segment (fuel : Nat) (gap : Str) (seg : PathSegment) (rest : Str)
    (segs : List PathSegment) (hg : allSpace gap) (hs : segOK seg)
    (hr : seg.Kind = .SegField → ∀ c, rest.head? = some c → c = '.' ∨ c = '[')
    (hnt : NoTrail (segText seg ++ rest)) :
    compileLoop (fuel + 1) (gap ++ segText seg ++ rest) segs =
      compileLoop fuel rest (segs ++ [seg]) := by
  have htrim : TrimSpace (gap ++ segText seg ++ rest) = segText seg ++ rest := by
    have := TrimSpace_decomp gap (segText seg ++ rest) [] hg (by intro c hc; simp at hc)
      (noLead_segText seg rest) hnt
    simpa [List.append_assoc] using this
  have hlen : (gap ++ segText seg ++ rest).length > 0 := by
    have := segText_ne_nil seg
    cases h : segText seg with
    | nil => exact absurd h this
    | cons c cs => simp
  rw [compileLoop_succ]
  simp only [hlen, if_true, htrim]
  obtain ⟨k, v⟩ := seg
  cases k with
  | SegField =>
    simp only [segOK] at hs
    simp only [segText, List.cons_append, List.head?_cons, if_true]
    have := parseFieldSegment_text v rest hs.1 hs.2 (hr rfl)
    simp only [List.cons_append] at this
    rw [this]
  | SegIndex =>
    simp only [segOK] at hs
    obtain ⟨hne, hch⟩ := atoiOk_chars v hs
    have hstar : v ≠ ['*'] := by
      intro h
      subst h
      have := hch '*' (List.mem_singleton.mpr rfl)
      revert this
      decide
    have hbr : ∀ c ∈ v, c ≠ ']' := by
      intro c hc h
      subst h
      have := hch ']' hc
      revert this
      decide
    have := parseArraySegment_text v rest hbr
    simp only [List.cons_append] at this
    simp only [segText, List.cons_append, List.append_assoc, List.singleton_append,
      List.head?_cons, List.nil_append]
    rw [this]
    simp [hstar, hs]
  | SegWildcard =>
    simp only [segOK] at hs
    subst hs
    have := parseArraySegment_text ['*'] rest (by intro c hc; simp at hc; subst hc; decide)
    simp only [List.cons_append, List.singleton_append, List.nil_append] at this
    simp only [segText, List.cons_append, List.head?_cons, List.nil_append]
    rw [this]
    simp

theorem spacedPattern_head (afterField : Bool) (items : List (Str × PathSegment))
    (hg : gapsOK afterField items) (ha : afterField = true) :
    ∀ c, (spacedPattern items).head? = some c → c = '.' ∨ c = '[' := by
  cases items with
  | nil => intro c hc; simp [spacedPattern] at hc
  | cons x rest =>
    obtain ⟨gap, seg⟩ := x
    obtain ⟨_, h2, _⟩ := hg
    have hgap := h2 ha
    subst hgap
    obtain ⟨c0, r0, h0, hc0⟩ := segText_head seg
    intro c hc
    simp only [spacedPattern, List.nil_append, h0, List.cons_append, List.head?_cons,
      Option.some.injEq] at hc
    subst hc
    exact hc0

theorem spacedPattern_ne_nil (x : Str × PathSegment) (rest : List (Str × PathSegment)) :
    spacedPattern (x :: rest) ≠ [] := by
  obtain ⟨gap, seg⟩ := x
  obtain ⟨c0, r0, h0, _⟩ := segText_head seg
  simp [spacedPattern, h0]

/-- The loop of `CompilePattern` on a sequence of gaps and segment texts. -/
theorem compileLoop_spaced : ∀ (items : List (Str × PathSegment)) (afterField : Bool)
    (fuel : Nat) (segs : List PathSegment), items.length < fuel →
    gapsOK afterField items → (∀ x ∈ items, segOK x.2) → NoTrail (spacedPattern items) →
    compileLoop fuel (spacedPattern items) segs =
      .ok { Segments := segs ++ items.map (·.2) } := by
  intro items
  induction items with
  | nil =>
    intro afterField fuel segs hf _ _ _
    cases fuel with
    | zero => simp at hf
    | succ n => simp [spacedPattern, compileLoop]
  | cons x rest ih =>
    intro afterField fuel segs hf hg hs hnt
    obtain ⟨gap, seg⟩ := x
    cases fuel with
    | zero => simp at hf
    | succ n =>
      obtain ⟨hg1, _, hg3⟩ := hg
      have hnt1 : NoTrail (segText seg ++ spacedPattern rest) := by
        have : spacedPattern ((gap, seg) :: rest) = gap ++ (segText seg ++ spacedPattern rest) := by
          simp [spacedPattern]
        rw [this] at hnt
        exact noTrail_of_append _ _ hnt (by
          have := segText_ne_nil seg
          cases h : segText seg with
          | nil => exact absurd h this
          | cons c cs => simp)
      have hnt2 : NoTrail (spacedPattern rest) := by
        cases rest with
        | nil => intro c hc; simp [spacedPattern] at hc
        | cons y ys => exact noTrail_of_append _ _ hnt1 (spacedPattern_ne_nil y ys)
      have hstep := compileLoop_segment n gap seg (spacedPattern rest) segs hg1
        (hs _ (List.mem_cons_self _ _))
        (fun hk => spacedPattern_head (seg.Kind == .SegField) rest hg3 (by simp [hk])) hnt1
      simp only [spacedPattern]
      rw [hstep, ih (seg.Kind == .SegField) n (segs ++ [seg]) (by simpa using hf) hg3
        (fun y hy => hs y (List.mem_cons_of_mem _ hy)) hnt2]
      simp

theorem spacedPattern_length (items : List (Str × PathSegment)) :
    items.length ≤ (spacedPattern items).length := by
  induction items with
  | nil => simp
  | cons x rest ih =>
    obtain ⟨gap, seg⟩ := x
    obtain ⟨c0, r0, h0, _⟩ := segText_head seg
    simp only [spacedPattern, List.length_append, List.length_cons, h0]
    omega

/-- `CompilePattern` on `$` followed by gaps and segment texts, with white
space around the whole expression. -/
theorem CompilePattern_spaced (lead trail : Str) (items : List (Str × PathSegment))
    (hl : allSpace lead) (ht : allSpace trail) (hg : gapsOK false items)
    (hs : ∀ x ∈ items, segOK x.2) (hnt : NoTrail (spacedPattern items)) :
    CompilePattern (lead ++ '$' :: spacedPattern items ++ trail) =
      .ok { Segments := items.map (·.2) } := by
  have hcore : NoTrail ('$' :: spacedPattern items) := by
    cases items with
    | nil => intro c hc; simp [spacedPattern] at hc; subst hc; decide
    | cons y ys =>
      intro c hc
      apply hnt c
      rw [← hc]
      exact (List.getLast?_append_of_ne_nil ['$'] (spacedPattern_ne_nil y ys)).symm
  have htrim : TrimSpace (lead ++ '$' :: spacedPattern items ++ trail) =
      '$' :: spacedPattern items := by
    have := TrimSpace_decomp lead ('$' :: spacedPattern items) trail hl ht
      (by intro c hc; simp at hc; subst hc; decide) hcore
    simpa [List.append_assoc] using this
  unfold CompilePattern
  simp only [htrim]
  cases items with
  | nil => simp [spacedPattern]
  | cons y ys =>
    have hne := spacedPattern_ne_nil y ys
    simp only [List.cons_ne_nil, if_false, List.head?_cons, ne_eq, not_true_eq_false,
      List.cons.injEq, true_and, hne, List.drop_succ_cons, List.drop_zero]
    have := compileLoop_spaced (y :: ys) false ((spacedPattern (y :: ys)).length + 1) []
      (by have := spacedPattern_length (y :: ys); omega) hg hs hnt
    simpa using this
/-! ## What `CompilePattern` rejects (C12) -/

theorem parseFieldSegment_ok (body : Str) (seg : PathSegment) (rest : Str)
    (h : parseFieldSegment ('.' :: body) = .ok (seg, rest)) :
    ∃ name, body = name ++ rest ∧ name ≠ [] ∧ (∀ c ∈ name, c ≠ '.' ∧ c ≠ '[') ∧
      (∀ c, rest.head? = some c → c = '.' ∨ c = '[') ∧
      seg = { Kind := .SegField, Value := name } := by
  unfold parseFieldSegment at h
  simp only [List.drop_succ_cons, List.drop_zero] at h
  split at h
  · cases h
  · rename_i hlen
    simp only [Except.ok.injEq, Prod.mk.injEq] at h
    obtain ⟨h1, h2⟩ := h
    refine ⟨body.takeWhile (fun r => !(r == '.' || r == '[')), ?_, ?_, ?_, ?_, h1.symm⟩
    · rw [← h2]; exact (List.takeWhile_append_dropWhile _ body).symm
    · intro h0; rw [h0] at hlen; simp at hlen
    · intro c hc
      have := List.mem_takeWhile_imp hc
      simpa using this
    · intro c hc
      rw [← h2] at hc
      have := List.head?_dropWhile_not (fun r => !(r == '.' || r == '[')) body
      rw [hc] at this
      simp only [Bool.not_eq_false', Bool.or_eq_true, beq_iff_eq] at this
      exact this

theorem parseFieldSegment_error (s : Str) (e : Error) (h : parseFieldSegment s = .error e) :
    e = .ErrInvalidPattern := by
  unfold parseFieldSegment at h
  simp only at h
  split at h
  · cases h; rfl
  · cases h

theorem parseArraySegment_error (s : Str) (e : Error) (h : parseArraySegment s = .error e) :
    e = .ErrInvalidPattern := by
  unfold parseArraySegment at h
  simp only at h
  repeat' split at h
  all_goals first | (cases h; rfl) | cases h

theorem parseArraySegment_ok (body : Str) (seg : PathSegment) (rest : Str)
    (h : parseArraySegment ('[' :: body) = .ok (seg, rest)) :
    ∃ content, body = content ++ ']' :: rest ∧ (∀ c ∈ content, c ≠ ']') ∧
      (content = ['*'] ∨ strconvAtoiOk content = true) := by
  have hsplit := (List.takeWhile_append_dropWhile (fun r => !(r == ']')) body).symm
  have hcontent : ∀ c ∈ body.takeWhile (fun r => !(r == ']')), c ≠ ']' := by
    intro c hc
    have := List.mem_takeWhile_imp hc
    simpa using this
  unfold parseArraySegment at h
  simp only [List.drop_succ_cons, List.drop_zero] at h
  split at h
  · cases h
  · rename_i hcont
    have hmem : ']' ∈ body := by simpa using hcont
    have hdrop : ∃ tail, body.dropWhile (fun r => !(r == ']')) = ']' :: tail := by
      cases hd : body.dropWhile (fun r => !(r == ']')) with
      | nil =>
        rw [hd, List.append_nil] at hsplit
        rw [hsplit] at hmem
        exact absurd rfl (hcontent _ hmem)
      | cons c tail =>
        have := List.head?_dropWhile_not (fun r => !(r == ']')) body
        rw [hd] at this
        simp only [List.head?_cons, Bool.not_eq_false', beq_iff_eq] at this
        exact ⟨tail, by rw [this]⟩
    obtain ⟨tail, htail⟩ := hdrop
    rw [htail] at h hsplit
    simp only [List.drop_succ_cons, List.drop_zero] at h
    refine ⟨body.takeWhile (fun r => !(r == ']')), ?_, hcontent, ?_⟩
    · split at h
      · simp only [Except.ok.injEq, Prod.mk.injEq] at h
        rw [← h.2]; exact hsplit
      · split at h
        · cases h
        · simp only [Except.ok.injEq, Prod.mk.injEq] at h
          rw [← h.2]; exact hsplit
    · split at h
      · rename_i hs; exact Or.inl hs
      · split at h
        · cases h
        · rename_i hs; exact Or.inr (by simpa using hs)

theorem cleanText_nil : cleanText [] := by
  intro s hs
  have : s = [] := List.eq_nil_of_suffix_nil hs
  subst this
  exact ⟨fun post h => (by cases h), fun post h => (by cases h)⟩

theorem cleanText_cons (c : Char) (b : Str) (h : headOK (c :: b)) (hb : cleanText b) :
    cleanText (c :: b) := by
  intro s hs
  rcases List.suffix_cons_iff.mp hs with rfl | hs
  · exact h
  · exact hb s hs

theorem headOK_other (c : Char) (b : Str) (h1 : c ≠ '.') (h2 : c ≠ '[') : headOK (c :: b) := by
  refine ⟨fun post h => ?_, fun post h => ?_⟩
  · simp only [List.cons.injEq] at h; exact absurd h.1 h1
  · simp only [List.cons.injEq] at h; exact absurd h.1 h2

theorem cleanText_skip (a b : Str) (ha : ∀ c ∈ a, c ≠ '.' ∧ c ≠ '[') (hb : cleanText b) :
    cleanText (a ++ b) := by
  induction a with
  | nil => exact hb
  | cons c cs ih =>
    have hc := ha c (List.mem_cons_self _ _)
    exact cleanText_cons c (cs ++ b) (headOK_other c _ hc.1 hc.2)
      (ih (fun x hx => ha x (List.mem_cons_of_mem _ hx)))

theorem space_not_delim (c : Char) (h : unicodeIsSpace c = true) : c ≠ '.' ∧ c ≠ '[' := by
  constructor <;> (intro hc; subst hc; revert h; decide)

theorem startOK_skip (ws r : Str) (hw : allSpace ws) (hr : startOK r) : startOK (ws ++ r) := by
  cases ws with
  | nil => exact hr
  | cons c cs =>
    intro x hx
    simp only [List.cons_append, List.head?_cons, Option.some.injEq] at hx
    subst hx
    exact Or.inr (Or.inr (hw _ (List.mem_cons_self _ _)))

theorem content_not_delim (content : Str) (h : content = ['*'] ∨ strconvAtoiOk content = true) :
    ∀ c ∈ content, c ≠ '.' ∧ c ≠ '[' := by
  intro c hc
  rcases h with rfl | h
  · simp only [List.mem_singleton] at hc
    subst hc
    decide
  · have := (atoiOk_chars content h).2 c hc
    constructor <;> (intro h0; subst h0; revert this; decide)

/-- A successful run of the loop of `CompilePattern` has met only acceptable
`.` and `[`. -/
theorem compileLoop_clean : ∀ (fuel : Nat) (r : Str) (segs : List PathSegment)
    (pat : PathPattern), compileLoop fuel r segs = .ok pat → NoTrail r →
    cleanText r ∧ startOK r := by
  intro fuel
  induction fuel with
  | zero => intro r segs pat h _; simp [compileLoop] at h
  | succ n ih =>
    intro r segs pat h hnt
    rw [compileLoop_succ] at h
    split at h
    · rename_i hlen
      have htrim := TrimSpace_of_noTrail r hnt
      have hsplit : r = r.takeWhile unicodeIsSpace ++ r.dropWhile unicodeIsSpace :=
        (List.takeWhile_append_dropWhile _ r).symm
      have hw : allSpace (r.takeWhile unicodeIsSpace) := fun c hc => List.mem_takeWhile_imp hc
      rw [htrim] at h
      generalize r.takeWhile unicodeIsSpace = ws at hsplit hw
      generalize r.dropWhile unicodeIsSpace = core at hsplit h
      subst hsplit
      have hskip : ∀ c ∈ ws, c ≠ '.' ∧ c ≠ '[' := fun c hc => space_not_delim c (hw c hc)
      split at h
      · rename_i hhead
        cases core with
        | nil => simp at hhead
        | cons c0 body =>
          simp only [List.head?_cons, Option.some.injEq] at hhead
          subst hhead
          split at h
          · cases h
          · rename_i seg rest hparse
            obtain ⟨name, hbody, hne, hname, hrest, _⟩ := parseFieldSegment_ok body seg rest hparse
            subst hbody
            have hntr : NoTrail rest := by
              by_cases hr : rest = []
              · subst hr; intro c hc; simp at hc
              · have : ws ++ '.' :: (name ++ rest) = (ws ++ '.' :: name) ++ rest := by simp
                rw [this] at hnt
                exact noTrail_of_append _ _ hnt hr
            obtain ⟨hc1, _⟩ := ih rest _ pat h hntr
            refine ⟨cleanText_skip ws _ hskip (cleanText_cons '.' _ ?_
              (cleanText_skip name rest hname hc1)), ?_⟩
            · refine ⟨fun post hp => ?_, fun post hp => (by cases hp)⟩
              simp only [List.cons.injEq, true_and] at hp
              subst hp
              cases name with
              | nil => exact absurd rfl hne
              | cons x xs =>
                exact ⟨x, xs ++ rest, rfl, hname x (List.mem_cons_self _ _)⟩
            · exact startOK_skip ws _ hw (by
                intro x hx
                simp only [List.head?_cons, Option.some.injEq] at hx
                exact Or.inl hx.symm)
      · split at h
        · rename_i hhead
          cases core with
          | nil => simp at hhead
          | cons c0 body =>
            simp only [List.head?_cons, Option.some.injEq] at hhead
            subst hhead
            split at h
            · cases h
            · rename_i seg rest hparse
              obtain ⟨content, hbody, hcontent, hkind⟩ := parseArraySegment_ok body seg rest hparse
              subst hbody
              have hntr : NoTrail rest := by
                by_cases hr : rest = []
                · subst hr; intro c hc; simp at hc
                · have : ws ++ '[' :: (content ++ ']' :: rest) =
                      (ws ++ '[' :: (content ++ [']'])) ++ rest := by simp
                  rw [this] at hnt
                  exact noTrail_of_append _ _ hnt hr
              obtain ⟨hc1, hc2⟩ := ih rest _ pat h hntr
              refine ⟨cleanText_skip ws _ hskip (cleanText_cons '[' _ ?_
                (cleanText_skip content _ (content_not_delim content hkind)
                  (cleanText_cons ']' rest (headOK_other _ _ (by decide) (by decide)) hc1))), ?_⟩
              · refine ⟨fun post hp => (by cases hp), fun post hp => ?_⟩
                simp only [List.cons.injEq, true_and] at hp
                subst hp
                exact ⟨content, rest, rfl, hcontent, hkind, hc2⟩
              · exact startOK_skip ws _ hw (by
                  intro x hx
                  simp only [List.head?_cons, Option.some.injEq] at hx
                  exact Or.inr (Or.inl hx.symm))
        · cases h
    · rename_i hlen
      have : r = [] := by
        cases r with
        | nil => rfl
        | cons c cs => simp at hlen
      subst this
      exact ⟨cleanText_nil, fun c hc => by simp at hc⟩

/-- With enough fuel the loop of `CompilePattern` fails with `ErrInvalidPattern` only. -/
theorem compileLoop_error : ∀ (fuel : Nat) (r : Str) (segs : List PathSegment) (e : Error),
    r.length < fuel → compileLoop fuel r segs = .error e → e = .ErrInvalidPattern := by
  intro fuel
  induction fuel with
  | zero => intro r segs e hf _; simp at hf
  | succ n ih =>
    intro r segs e hf h
    rw [compileLoop_succ] at h
    have hle := TrimSpace_length_le r
    split at h
    · generalize TrimSpace r = core at h hle
      split at h
      · rename_i hhead
        cases core with
        | nil => simp at hhead
        | cons c0 body =>
          simp only [List.head?_cons, Option.some.injEq] at hhead
          subst hhead
          split at h
          · rename_i e' hparse
            cases h
            exact parseFieldSegment_error _ _ hparse
          · rename_i seg rest hparse
            obtain ⟨name, hbody, _⟩ := parseFieldSegment_ok body seg rest hparse
            subst hbody
            exact ih rest _ e (by simp at hle; omega) h
      · split at h
        · rename_i hhead
          cases core with
          | nil => simp at hhead
          | cons c0 body =>
            simp only [List.head?_cons, Option.some.injEq] at hhead
            subst hhead
            split at h
            · rename_i e' hparse
              cases h
              exact parseArraySegment_error _ _ hparse
            · rename_i seg rest hparse
              obtain ⟨content, hbody, _⟩ := parseArraySegment_ok body seg rest hparse
              subst hbody
              exact ih rest _ e (by simp at hle; omega) h
        · cases h; rfl
    · cases h
theorem CompilePattern_dollar (e r : Str) (h : TrimSpace e = '$' :: r) :
    CompilePattern e = compileLoop (r.length + 1) r [] := by
  unfold CompilePattern
  simp only [h, List.cons_ne_nil, if_false, List.head?_cons, ne_eq, not_true_eq_false,
    List.cons.injEq, true_and, List.drop_succ_cons, List.drop_zero]
  split
  · rename_i hr
    subst hr
    simp [compileLoop]
  · rfl

theorem suffix_of_dollar (x : Char) (post pre r : Str) (hx : x ≠ '$')
    (h : '$' :: r = pre ++ x :: post) : (x :: post) <:+ r := by
  cases pre with
  | nil =>
    simp only [List.nil_append, List.cons.injEq] at h
    exact absurd h.1.symm hx
  | cons c cs =>
    simp only [List.cons_append, List.cons.injEq] at h
    exact ⟨cs, h.2.symm⟩

theorem first_bracket_unique (c1 c2 r1 r2 : Str) (h1 : ∀ c ∈ c1, c ≠ ']')
    (h2 : ∀ c ∈ c2, c ≠ ']') (h : c1 ++ ']' :: r1 = c2 ++ ']' :: r2) : c1 = c2 ∧ r1 = r2 := by
  have s1 := takeWhile_dropWhile_span (fun r => !(r == ']')) c1 (']' :: r1)
    (by intro c hc; have := h1 c hc; simp [this]) (by intro c hc; simp at hc; subst hc; rfl)
  have s2 := takeWhile_dropWhile_span (fun r => !(r == ']')) c2 (']' :: r2)
    (by intro c hc; have := h2 c hc; simp [this]) (by intro c hc; simp at hc; subst hc; rfl)
  rw [h] at s1
  have e1 : c1 = c2 := by rw [← s1.1, s2.1]
  have e2 : ']' :: r1 = ']' :: r2 := by rw [← s1.2, s2.2]
  exact ⟨e1, by simpa using e2⟩

theorem atoiOk_decimalInteger (v : Str) (h : strconvAtoiOk v = true) : decimalInteger v := by
  unfold strconvAtoiOk at h
  simp only [Bool.and_eq_true, Bool.not_eq_true', List.all_eq_true] at h
  obtain ⟨⟨h1, h2⟩, _⟩ := h
  by_cases hs : v.head? = some '-' ∨ v.head? = some '+'
  · simp only [hs, if_true] at h1 h2
    cases v with
    | nil => simp at hs
    | cons c cs =>
      simp only [List.head?_cons, Option.some.injEq] at hs
      simp only [List.drop_succ_cons, List.drop_zero] at h1 h2
      refine ⟨[c], cs, rfl, ?_, by simpa using h1, h2⟩
      rcases hs with rfl | rfl
      · exact Or.inr (Or.inl rfl)
      · exact Or.inr (Or.inr rfl)
  · simp only [hs, if_false] at h1 h2
    exact ⟨[], v, rfl, Or.inl rfl, by simpa using h1, h2⟩

/-- An expression that compiles is not malformed. -/
theorem not_malformed_of_ok (r : Str) (fuel : Nat) (pat : PathPattern)
    (hnt : NoTrail r) (h : compileLoop fuel r [] = .ok pat) : ¬ Malformed ('$' :: r) := by
  obtain ⟨hclean, hstart⟩ := compileLoop_clean fuel r [] pat h hnt
  intro hm
  rcases hm with h0 | h0 | ⟨pre, post, ht, hp⟩ | ⟨pre, post, ht⟩ | ⟨pre, post, ht, hp⟩ |
    ⟨pre, content, post, ht, hc, hs, hd⟩ | ⟨c, rest, ht, h1, h2, h3⟩ |
    ⟨pre, content, c, rest, ht, hc, h1, h2, h3⟩
  · cases h0
  · exact h0 rfl
  · obtain ⟨x, xs, hx, hx1, hx2⟩ :=
      (hclean _ (suffix_of_dollar '.' post pre r (by decide) ht)).1 post rfl
    subst hx
    rcases hp with hp | hp | hp
    · cases hp
    · simp only [List.head?_cons, Option.some.injEq] at hp; exact hx1 hp
    · simp only [List.head?_cons, Option.some.injEq] at hp; exact hx2 hp
  · obtain ⟨content, rest, hx, hx1, hx2, _⟩ :=
      (hclean _ (suffix_of_dollar '[' _ pre r (by decide) ht)).2 _ rfl
    have := first_bracket_unique [] content post rest (by intro c hc; simp at hc) hx1
      (by simpa using hx)
    rw [← this.1] at hx2
    rcases hx2 with hx2 | hx2
    · cases hx2
    · revert hx2; decide
  · obtain ⟨content, rest, hx, _, _, _⟩ :=
      (hclean _ (suffix_of_dollar '[' _ pre r (by decide) ht)).2 _ rfl
    apply hp
    rw [hx]
    simp
  · obtain ⟨content', rest, hx, hx1, hx2, _⟩ :=
      (hclean _ (suffix_of_dollar '[' _ pre r (by decide) ht)).2 _ rfl
    have := first_bracket_unique content content' post rest
      (fun c hcm h0 => hc (h0 ▸ hcm)) hx1 hx
    rw [← this.1] at hx2
    rcases hx2 with hx2 | hx2
    · exact hs hx2
    · exact hd (atoiOk_decimalInteger content hx2)
  · simp only [List.cons.injEq, true_and] at ht
    subst ht
    rcases hstart c rfl with h0 | h0 | h0
    · exact h1 h0
    · exact h2 h0
    · rw [h0] at h3; cases h3
  · obtain ⟨content', rest', hx, hx1, _, hx3⟩ :=
      (hclean _ (suffix_of_dollar '[' _ pre r (by decide) ht)).2 _ rfl
    have := first_bracket_unique content content' (c :: rest) rest'
      (fun c hcm h0 => hc (h0 ▸ hcm)) hx1 hx
    rcases hx3 c (by rw [← this.2]; rfl) with h0 | h0 | h0
    · exact h1 h0
    · exact h2 h0
    · rw [h0] at h3; cases h3

/-- `CompilePattern` fails with `ErrInvalidPattern` on every malformed expression. -/
theorem CompilePattern_malformed (e : Str) (h : Malformed (TrimSpace e)) :
    CompilePattern e = .error .ErrInvalidPattern := by
  by_cases h0 : TrimSpace e = []
  · unfold CompilePattern
    simp [h0]
  · by_cases h1 : (TrimSpace e).head? = some '$'
    · obtain ⟨r, hr⟩ : ∃ r, TrimSpace e = '$' :: r := by
        cases ht : TrimSpace e with
        | nil => exact absurd ht h0
        | cons c cs =>
          rw [ht] at h1
          simp only [List.head?_cons, Option.some.injEq] at h1
          exact ⟨cs, by rw [h1]⟩
      have hnt : NoTrail r := by
        by_cases hr0 : r = []
        · subst hr0; intro c hc; simp at hc
        · have := TrimSpace_noTrail e
          rw [hr] at this
          exact noTrail_of_append ['$'] r this hr0
      rw [CompilePattern_dollar e r hr]
      rw [hr] at h
      cases hres : compileLoop (r.length + 1) r [] with
      | ok pat => exact absurd h (not_malformed_of_ok r _ pat hnt hres)
      | error err => rw [compileLoop_error _ r [] err (Nat.lt_succ_self _) hres]
    · unfold CompilePattern
      simp [h0, h1]
/-! ## Compiling rendered and spaced expressions (C14, C15, C16) -/

theorem atoiOk_digits (d : Str) (hne : d ≠ []) (hd : ∀ c ∈ d, Tokenizer.isDigit c = true) :
    strconvAtoiOk d = decide (digitsValue d < 2 ^ 63) := by
  cases d with
  | nil => exact absurd rfl hne
  | cons c cs =>
    have hc := hd c (List.mem_cons_self _ _)
    have h1 : c ≠ '-' := by intro h; subst h; revert hc; decide
    have h2 : c ≠ '+' := by intro h; subst h; revert hc; decide
    have hall : (c :: cs).all Tokenizer.isDigit = true := by
      rw [List.all_eq_true]; exact hd
    unfold strconvAtoiOk
    simp only [List.head?_cons, Option.some.injEq, h1, h2, or_self, if_false, hall]
    simp

theorem CompilePattern_bracket (content : Str) (hc : ∀ c ∈ content, c ≠ ']') :
    CompilePattern ('$' :: '[' :: (content ++ [']'])) =
      if content = ['*'] then .ok { Segments := [{ Kind := .SegWildcard }] }
      else if !strconvAtoiOk content then .error .ErrInvalidPattern
      else .ok { Segments := [{ Kind := .SegIndex, Value := content }] } := by
  have hnt : NoTrail ('[' :: (content ++ [']'])) := by
    intro c h
    have : ('[' :: (content ++ [']'])).getLast? = some ']' := by
      rw [show '[' :: (content ++ [']']) = ('[' :: content) ++ [']'] from rfl,
        List.getLast?_append_of_ne_nil _ (by simp)]
      rfl
    rw [this] at h
    cases h
    decide
  have hnt' : NoTrail ('$' :: '[' :: (content ++ [']'])) := by
    intro c h
    apply hnt c
    rw [← h]
    exact (List.getLast?_append_of_ne_nil ['$'] (by simp)).symm
  have ht1 : TrimSpace ('$' :: '[' :: (content ++ [']'])) = '$' :: '[' :: (content ++ [']']) := by
    have := TrimSpace_decomp [] ('$' :: '[' :: (content ++ [']'])) []
      (by intro c h; simp at h) (by intro c h; simp at h)
      (by intro c h; simp at h; subst h; decide) hnt'
    simpa using this
  have ht2 : TrimSpace ('[' :: (content ++ [']'])) = '[' :: (content ++ [']']) := by
    have := TrimSpace_decomp [] ('[' :: (content ++ [']'])) []
      (by intro c h; simp at h) (by intro c h; simp at h)
      (by intro c h; simp at h; subst h; decide) hnt
    simpa using this
  rw [CompilePattern_dollar _ _ ht1, compileLoop_succ]
  have hp := parseArraySegment_text content [] hc
  simp only [List.cons_append] at hp
  simp only [List.length_cons, gt_iff_lt, Nat.zero_lt_succ, if_true, ht2, List.head?_cons,
    Option.some.injEq, hp]
  by_cases h1 : content = ['*']
  · simp [h1, compileLoop]
  · by_cases h2 : strconvAtoiOk content = true
    · simp [h1, h2, compileLoop_succ]
    · simp [h1, h2]

theorem buildPathLoop_spaced (n : Nat) : ∀ (segs : List PathSegment) (i stop : Nat),
    i + segs.length ≤ stop → (∀ seg ∈ segs, seg.Kind ≠ .SegWildcard) →
    buildPathLoop {} n i stop segs = spacedPattern (segs.map (fun s => ([], s))) := by
  intro segs
  induction segs with
  | nil => intro i stop _ _; rfl
  | cons s ss ih =>
    intro i stop hi hw
    have h1 : i < stop := by simp at hi; omega
    have h2 : i + 1 + ss.length ≤ stop := by simp at hi; omega
    have hk := hw s (List.mem_cons_self _ _)
    obtain ⟨k, v⟩ := s
    cases k with
    | SegField =>
      simp [buildPathLoop, h1, spacedPattern, segText,
        ih (i + 1) stop h2 (fun x hx => hw x (List.mem_cons_of_mem _ hx))]
    | SegIndex =>
      simp [buildPathLoop, h1, spacedPattern, segText,
        ih (i + 1) stop h2 (fun x hx => hw x (List.mem_cons_of_mem _ hx))]
    | SegWildcard => exact absurd rfl hk

theorem buildPath_spaced (segs : List PathSegment)
    (hw : ∀ seg ∈ segs, seg.Kind ≠ .SegWildcard) :
    buildPathFromSegments segs {} = '$' :: spacedPattern (segs.map (fun s => ([], s))) := by
  unfold buildPathFromSegments
  cases segs with
  | nil => rfl
  | cons s ss =>
    simp only [List.length_cons, Nat.add_one_ne_zero, if_false, Bool.false_eq_true]
    rw [buildPathLoop_spaced _ (s :: ss) 0 _ (by simp) hw]

theorem gapsOK_nil_gaps (segs : List PathSegment) :
    ∀ b, gapsOK b (segs.map (fun s => ([], s))) := by
  induction segs with
  | nil => intro b; trivial
  | cons s ss ih =>
    intro b
    exact ⟨fun c hc => by simp at hc, fun _ => rfl, ih _⟩

theorem spacedPattern_getLast? (g : Str × PathSegment → Str) :
    ∀ items : List (Str × PathSegment),
    (spacedPattern (items.map (fun x => (g x, x.2)))).getLast? =
      (spacedPattern items).getLast? := by
  intro items
  induction items with
  | nil => rfl
  | cons x rest ih =>
    obtain ⟨gap, seg⟩ := x
    cases rest with
    | nil =>
      simp only [List.map_cons, List.map_nil, spacedPattern, List.append_nil]
      rw [List.getLast?_append_of_ne_nil _ (segText_ne_nil seg),
        List.getLast?_append_of_ne_nil _ (segText_ne_nil seg)]
    | cons y ys =>
      have h1 := spacedPattern_ne_nil y ys
      have h2 : spacedPattern ((y :: ys).map (fun x => (g x, x.2))) ≠ [] := by
        simp only [List.map_cons]
        exact spacedPattern_ne_nil _ _
      have e1 : spacedPattern (((gap, seg) :: y :: ys).map (fun x => (g x, x.2))) =
          (g (gap, seg) ++ segText seg) ++ spacedPattern ((y :: ys).map (fun x => (g x, x.2))) :=
        rfl
      have e2 : spacedPattern ((gap, seg) :: y :: ys) =
          (gap ++ segText seg) ++ spacedPattern (y :: ys) := rfl
      rw [e1, e2, List.getLast?_append_of_ne_nil _ h2, List.getLast?_append_of_ne_nil _ h1]
      exact ih

theorem segOK_of_renderable (seg : PathSegment) (h : renderable seg) : segOK seg := by
  obtain ⟨k, v⟩ := seg
  cases k with
  | SegField => exact ⟨h.1, fun c hc => ⟨(h.2 c hc).1, (h.2 c hc).2.1⟩⟩
  | SegIndex =>
    simp only [renderable] at h
    simp only [segOK]
    rw [atoiOk_digits v h.1 h.2.1]
    simpa using h.2.2
  | SegWildcard => exact absurd h (by simp [renderable])

theorem noTrail_segText (seg : PathSegment) (h : renderable seg) : NoTrail (segText seg) := by
  obtain ⟨k, v⟩ := seg
  cases k with
  | SegField =>
    simp only [renderable] at h
    intro c hc
    simp only [segText] at hc
    have hv : ('.' :: v).getLast? = v.getLast? :=
      List.getLast?_append_of_ne_nil ['.'] h.1
    rw [hv] at hc
    exact (h.2 c (List.mem_of_getLast?_eq_some hc)).2.2
  | SegIndex =>
    intro c hc
    simp only [segText] at hc
    rw [show '[' :: v ++ [']'] = ('[' :: v) ++ [']'] from rfl,
      List.getLast?_append_of_ne_nil _ (by simp)] at hc
    cases hc
    decide
  | SegWildcard => exact absurd h (by simp [renderable])

theorem noTrail_rendered (segs : List PathSegment) (h : ∀ seg ∈ segs, renderable seg) :
    NoTrail (spacedPattern (segs.map (fun s => ([], s)))) := by
  induction segs with
  | nil => intro c hc; simp [spacedPattern] at hc
  | cons s ss ih =>
    cases ss with
    | nil =>
      simpa [spacedPattern] using noTrail_segText s (h s (List.mem_cons_self _ _))
    | cons y ys =>
      have hne : spacedPattern ((y :: ys).map (fun s => (([] : Str), s))) ≠ [] := by
        simp only [List.map_cons]
        exact spacedPattern_ne_nil _ _
      have := ih (fun x hx => h x (List.mem_cons_of_mem _ hx))
      intro c hc
      apply this c
      simp only [List.map_cons, spacedPattern, List.nil_append] at hc hne ⊢
      rw [List.getLast?_append_of_ne_nil _ hne] at hc
      exact hc

theorem CompilePattern_rendered (segs : List PathSegment) (h : ∀ seg ∈ segs, renderable seg) :
    CompilePattern (buildPathFromSegments segs {}) = .ok { Segments := segs } := by
  have hw : ∀ seg ∈ segs, seg.Kind ≠ .SegWildcard := by
    intro seg hs hk
    have := h seg hs
    simp [renderable, hk] at this
  have := CompilePattern_spaced [] [] (segs.map (fun s => ([], s)))
    (by intro c hc; simp at hc) (by intro c hc; simp at hc) (gapsOK_nil_gaps segs false)
    (by
      intro x hx
      obtain ⟨s, hs, rfl⟩ := List.mem_map.mp hx
      exact segOK_of_renderable s (h s hs))
    (noTrail_rendered segs h)
  rw [buildPath_spaced segs hw]
  simpa using this
/-- C12 as stated fails: a `]` or a `$` inside a field name is followed by any
character, and the expression compiles: `$.a]b` is the field `a]b` and `$.a$b`
the field `a$b`. -/
theorem stray_bracket_in_field_name_compiles :
    CompilePattern "$.a]b".toList =
      .ok { Segments := [{ Kind := .SegField, Value := "a]b".toList }] } ∧
    CompilePattern "$.a$b".toList =
      .ok { Segments := [{ Kind := .SegField, Value := "a$b".toList }] } :=
  ⟨rfl, rfl⟩

/-- C12 amended: `CompilePattern` returns the error `ErrInvalidPattern`, and
no pattern, for every expression that after trimming is empty, does not start
with `$`, has a `.` directly followed by `.`, `[` or the end (an empty field
name), contains `[]`, has a `[` with no later `]`, has between a `[` and the
next `]` a text that is neither `*` nor a decimal integer (an optional sign
and at least one digit), or has directly after the leading `$`, or directly
after the `]` that closes a `[`, a character that is not `.`, `[` or white
space. -/
theorem malformed_patterns_rejected (e : Str) (h : Malformed (TrimSpace e)) :
    CompilePattern e = .error .ErrInvalidPattern ∧ ∀ pat, CompilePattern e ≠ .ok pat := by
  have := CompilePattern_malformed e h
  refine ⟨this, ?_⟩
  intro pat hp
  rw [this] at hp
  cases hp

/-- Instances of the rejection statement: `  `, `items.id`, `$.`, `$..a`,
`$.[0]`, `$.items[]`, `$.a[0`, `$[x]`, `$a` and `$[0]x`. -/
theorem malformed_patterns_witness :
    CompilePattern "  ".toList = .error .ErrInvalidPattern ∧
    CompilePattern "items.id".toList = .error .ErrInvalidPattern ∧
    CompilePattern "$.".toList = .error .ErrInvalidPattern ∧
    CompilePattern "$..a".toList = .error .ErrInvalidPattern ∧
    CompilePattern "$.[0]".toList = .error .ErrInvalidPattern ∧
    CompilePattern " $.items[] ".toList = .error .ErrInvalidPattern ∧
    CompilePattern "$.a[0".toList = .error .ErrInvalidPattern ∧
    CompilePattern "$[x]".toList = .error .ErrInvalidPattern ∧
    CompilePattern "$a".toList = .error .ErrInvalidPattern ∧
    CompilePattern "$[0]x".toList = .error .ErrInvalidPattern :=
  ⟨(malformed_patterns_rejected "  ".toList (Or.inl (by decide))).1,
   (malformed_patterns_rejected "items.id".toList (Or.inr (Or.inl (by decide)))).1,
   (malformed_patterns_rejected "$.".toList
      (Or.inr (Or.inr (Or.inl ⟨"$".toList, [], by decide, Or.inl rfl⟩)))).1,
   (malformed_patterns_rejected "$..a".toList
      (Or.inr (Or.inr (Or.inl ⟨"$".toList, ".a".toList, by decide, Or.inr (Or.inl rfl)⟩)))).1,
   (malformed_patterns_rejected "$.[0]".toList
      (Or.inr (Or.inr (Or.inl ⟨"$".toList, "[0]".toList, by decide, Or.inr (Or.inr rfl)⟩)))).1,
   (malformed_patterns_rejected " $.items[] ".toList
      (Or.inr (Or.inr (Or.inr (Or.inl ⟨"$.items".toList, [], by decide⟩))))).1,
   (malformed_patterns_rejected "$.a[0".toList
      (Or.inr (Or.inr (Or.inr (Or.inr (Or.inl
        ⟨"$.a".toList, "0".toList, by decide, by decide⟩)))))).1,
   (malformed_patterns_rejected "$[x]".toList
      (Or.inr (Or.inr (Or.inr (Or.inr (Or.inr (Or.inl
        ⟨"$".toList, "x".toList, [], by decide, by decide, by decide, by
          rintro ⟨sign, digits, h1, h2, h3, h4⟩
          rcases h2 with rfl | rfl | rfl
          · simp only [List.nil_append] at h1
            subst h1
            have := h4 'x' (List.mem_singleton.mpr rfl)
            revert this
            decide
          · cases h1
          · cases h1⟩))))))).1,
   (malformed_patterns_rejected "$a".toList
      (Or.inr (Or.inr (Or.inr (Or.inr (Or.inr (Or.inr (Or.inl
        ⟨'a', [], by decide, by decide, by decide, by decide⟩)))))))).1,
   (malformed_patterns_rejected "$[0]x".toList
      (Or.inr (Or.inr (Or.inr (Or.inr (Or.inr (Or.inr (Or.inr
        ⟨"$".toList, "0".toList, 'x', [], by decide, by decide, by decide, by decide,
          by decide⟩)))))))).1⟩

/-- C14 as stated fails: the Index value `9223372036854775808` is a string of
decimal digits, but its rendered path `$[9223372036854775808]` does not
compile (`strconv.Atoi` reports a range error); and a Wildcard segment is
rendered as nothing, so `[Wildcard]` renders as `$` and compiles to no segment. -/
theorem render_then_compile_fails :
    CompilePattern (buildPathFromSegments
        [{ Kind := .SegIndex, Value := "9223372036854775808".toList }] {}) =
      .error .ErrInvalidPattern ∧
    CompilePattern (buildPathFromSegments [{ Kind := .SegWildcard }] {}) =
      .ok { Segments := [] } :=
  ⟨rfl, rfl⟩

/-- C14 amended: for every segment sequence without Wildcard whose Field
values are non-empty and contain no `.`, `[` or white space and whose Index
values are non-empty strings of decimal digits denoting a number below `2^63`,
`CompilePattern(buildPathFromSegments(segs, no options))` succeeds and returns
exactly `segs`; `$.items[0]` compiles to [Field `items`, Index `0`] and
`$.items[*].id` to [Field `items`, Wildcard, Field `id`]. -/
theorem compile_inverts_render (segs : List PathSegment)
    (h : ∀ seg ∈ segs, renderable seg) :
    CompilePattern (buildPathFromSegments segs {}) = .ok { Segments := segs } ∧
    CompilePattern "$.items[0]".toList =
      .ok { Segments := [{ Kind := .SegField, Value := "items".toList },
                         { Kind := .SegIndex, Value := "0".toList }] } ∧
    CompilePattern "$.items[*].id".toList =
      .ok { Segments := [{ Kind := .SegField, Value := "items".toList },
                         { Kind := .SegWildcard },
                         { Kind := .SegField, Value := "id".toList }] } :=
  ⟨CompilePattern_rendered segs h, rfl, rfl⟩

/-- Instance of the render statement: the segments of `$.items[10].id`. -/
theorem compile_inverts_render_witness :
    buildPathFromSegments [{ Kind := .SegField, Value := "items".toList },
        { Kind := .SegIndex, Value := "10".toList },
        { Kind := .SegField, Value := "id".toList }] {} = "$.items[10].id".toList ∧
    CompilePattern (buildPathFromSegments [{ Kind := .SegField, Value := "items".toList },
        { Kind := .SegIndex, Value := "10".toList },
        { Kind := .SegField, Value := "id".toList }] {}) =
      .ok { Segments := [{ Kind := .SegField, Value := "items".toList },
                         { Kind := .SegIndex, Value := "10".toList },
                         { Kind := .SegField, Value := "id".toList }] } :=
  ⟨by decide,
   (compile_inverts_render _ (by
      intro seg hs
      simp only [List.mem_cons, List.mem_singleton, List.not_mem_nil, or_false] at hs
      rcases hs with rfl | rfl | rfl
      · exact ⟨by decide, by decide⟩
      · exact ⟨by decide, by decide, by decide⟩
      · exact ⟨by decide, by decide⟩)).1⟩

/-- C15 as stated fails: white space after a field name belongs to the name.
`$.a [0]` compiles to [Field `a `, Index `0`], which is not the pattern
[Field `a`, Index `0`] of `$.a[0]`. -/
theorem space_after_field_name_is_kept :
    CompilePattern "$.a [0]".toList =
      .ok { Segments := [{ Kind := .SegField, Value := "a ".toList },
                         { Kind := .SegIndex, Value := "0".toList }] } ∧
    CompilePattern "$.a[0]".toList =
      .ok { Segments := [{ Kind := .SegField, Value := "a".toList },
                         { Kind := .SegIndex, Value := "0".toList }] } :=
  ⟨rfl, rfl⟩

/-- C15 amended: take an expression `$` followed by segment texts (`.name`
with a non-empty name without `.` and `[`, `[index]` with an index
`strconv.Atoi` accepts, `[*]`) whose last character is not white space.
Inserting white space at the edges of the expression, between `$` and the
first segment, or after a `]` yields an expression that compiles to the same
pattern, the segments of the texts in order; white space is not inserted after
a field name, where it would become part of the name. -/
theorem whitespace_at_segment_boundaries (lead trail : Str) (items : List (Str × PathSegment))
    (hl : allSpace lead) (ht : allSpace trail) (hg : gapsOK false items)
    (hs : ∀ x ∈ items, segOK x.2) (hnt : NoTrail (spacedPattern items)) :
    CompilePattern (lead ++ '$' :: spacedPattern items ++ trail) =
      .ok { Segments := items.map (·.2) } ∧
    CompilePattern ('$' :: spacedPattern (items.map (fun x => ([], x.2)))) =
      .ok { Segments := items.map (·.2) } := by
  refine ⟨CompilePattern_spaced lead trail items hl ht hg hs hnt, ?_⟩
  have h1 := CompilePattern_spaced [] [] (items.map (fun x => ([], x.2)))
    (by intro c hc; simp at hc) (by intro c hc; simp at hc)
    (by simpa using gapsOK_nil_gaps (items.map (·.2)) false)
    (by
      intro x hx
      obtain ⟨y, hy, rfl⟩ := List.mem_map.mp hx
      exact hs y hy)
    (by
      intro c hc
      apply hnt c
      rw [← hc]
      exact (spacedPattern_getLast? (fun _ => []) items).symm)
  simpa using h1

/-- Instance of the white space statement: ` $ .a[0] [*]\t.b \n` compiles to
the segments of `$.a[0][*].b`. -/
theorem whitespace_at_segment_boundaries_witness :
    CompilePattern " $ .a[0] [*]\t.b \n".toList =
      .ok { Segments := [{ Kind := .SegField, Value := "a".toList },
                         { Kind := .SegIndex, Value := "0".toList },
                         { Kind := .SegWildcard },
                         { Kind := .SegField, Value := "b".toList }] } :=
  (whitespace_at_segment_boundaries " ".toList " \n".toList
    [(" ".toList, { Kind := .SegField, Value := "a".toList }),
     ([], { Kind := .SegIndex, Value := "0".toList }),
     (" ".toList, { Kind := .SegWildcard }),
     ("\t".toList, { Kind := .SegField, Value := "b".toList })]
    (by unfold allSpace; decide) (by unfold allSpace; decide)
    (by simp only [gapsOK, allSpace]; decide)
    (by
      intro x hx
      simp only [List.mem_cons, List.mem_singleton, List.not_mem_nil, or_false] at hx
      rcases hx with rfl | rfl | rfl | rfl
      · exact ⟨by decide, by decide⟩
      · show strconvAtoiOk "0".toList = true
        decide
      · rfl
      · exact ⟨by decide, by decide⟩)
    (by unfold NoTrail; decide)).1

/-- C16 as stated fails: `9223372036854775808` is a string of decimal digits,
and `CompilePattern("$[9223372036854775808]")` returns an error instead of an
Index segment, because `strconv.Atoi` reports a range error. -/
theorem long_index_rejected :
    CompilePattern "$[9223372036854775808]".toList = .error .ErrInvalidPattern :=
  rfl

/-- C16 amended: for every non-empty string `d` of decimal digits,
`CompilePattern("$[" ++ d ++ "]")` returns the single Index segment whose
value is exactly `d` (zero padding included) when `d` denotes a number below
`2^63`, and the error `ErrInvalidPattern` otherwise; an Index pattern segment
matches an Index path segment only when the two texts are equal, so `$[01]`
does not match the path whose only segment is Index `1`. -/
theorem indices_kept_as_text (d : Str) (hne : d ≠ [])
    (hd : ∀ c ∈ d, Tokenizer.isDigit c = true) :
    (digitsValue d < 2 ^ 63 →
      CompilePattern ('$' :: '[' :: (d ++ [']'])) =
        .ok { Segments := [{ Kind := .SegIndex, Value := d }] }) ∧
    (2 ^ 63 ≤ digitsValue d →
      CompilePattern ('$' :: '[' :: (d ++ [']'])) = .error .ErrInvalidPattern) ∧
    (∀ d' : Str, matchSegments [{ Kind := .SegIndex, Value := d }]
      [{ Kind := .SegIndex, Value := d' }] = true ↔ d = d') ∧
    (CompilePattern "$[01]".toList =
        .ok { Segments := [{ Kind := .SegIndex, Value := "01".toList }] } ∧
      matchSegments [{ Kind := .SegIndex, Value := "01".toList }]
        [{ Kind := .SegIndex, Value := "1".toList }] = false) := by
  have hbr : ∀ c ∈ d, c ≠ ']' := by
    intro c hc h
    subst h
    have := hd ']' hc
    revert this
    decide
  have hstar : d ≠ ['*'] := by
    intro h
    subst h
    have := hd '*' (List.mem_singleton.mpr rfl)
    revert this
    decide
  have hb := CompilePattern_bracket d hbr
  rw [atoiOk_digits d hne hd] at hb
  refine ⟨?_, ?_, ?_, rfl, by decide⟩
  · intro hv
    rw [hb, if_neg hstar, if_neg (by rw [decide_eq_true hv]; simp)]
  · intro hv
    rw [hb, if_neg hstar, if_pos (by rw [decide_eq_false (Nat.not_lt.mpr hv)]; rfl)]
  · intro d'
    simp [matchSegments, matchLoop]

/-- Instance of the index statement: the zero-padded index `007`. -/
theorem indices_kept_as_text_witness :
    CompilePattern "$[007]".toList =
      .ok { Segments := [{ Kind := .SegIndex, Value := "007".toList }] } :=
  (indices_kept_as_text "007".toList (by decide) (by decide)).1 (by decide)

/-! ## Dispatch (C18) -/

namespace Parser

theorem Dispatches.same (p : Parser) : Dispatches p p := ⟨rfl, [], by simp, by simp⟩

theorem Dispatches.update {p q r : Parser} (h : Dispatches p q) (hs : r.subs = q.subs)
    (ht : r.trace = q.trace) (hc : r.calls = q.calls) : Dispatches p r := by
  obtain ⟨h1, evs, h2, h3⟩ := h
  exact ⟨hs.trans h1, evs, ht.trans h2, hc.trans h3⟩

theorem Dispatches.emitted {p q : Parser} (h : Dispatches p q) (ev : Event) :
    Dispatches p (emit q ev) := by
  obtain ⟨h1, evs, h2, h3⟩ := h
  refine ⟨by simpa using h1, evs ++ [{ ev with pathSegments := emitSegments q }], ?_, ?_⟩
  · simp [h2]
  · simp [h3, h1, dispatch]

theorem Dispatches.chain {p q r : Parser} (h1 : Dispatches p q) (h2 : Dispatches q r) :
    Dispatches p r := by
  obtain ⟨a1, evs, a2, a3⟩ := h1
  obtain ⟨b1, evs', b2, b3⟩ := h2
  refine ⟨b1.trans a1, evs ++ evs', ?_, ?_⟩
  · rw [b2, a2, List.append_assoc]
  · rw [b3, a3, a1, List.flatMap_append, List.append_assoc]

theorem Dispatches.advanced {p q : Parser} (h : Dispatches p q) :
    Dispatches p (advanceAfterValue q) := by
  unfold advanceAfterValue
  split
  · exact h.update rfl rfl rfl
  · split
    · exact h.update rfl rfl rfl
    · exact (h.emitted _).update rfl rfl rfl

theorem Dispatches.flushStep {p q : Parser} (h : Dispatches p q) :
    Dispatches p (flushStringChunk q) := by
  unfold flushStringChunk
  split
  · exact h
  · split
    · exact h
    · exact (h.emitted _).update rfl rfl rfl

theorem Dispatches.stringEndValue {p q : Parser} (h : Dispatches p q) :
    Dispatches p (onStringEndValue q) := by
  have h1 : Dispatches p (onStringEndFlush q) := by
    unfold onStringEndFlush
    split
    · split
      · exact h.flushStep
      · exact h
    · exact h
  unfold onStringEndValue onStringEndEmit
  split
  · exact h1
  · simp only
    split
    · apply Dispatches.advanced
      exact (h1.emitted _).update rfl rfl rfl
    · exact (h1.emitted _).update rfl rfl rfl

theorem Dispatches.stringEnd {p q : Parser} (h : Dispatches p q) :
    Dispatches p (onStringEnd q) := by
  unfold onStringEnd
  split
  · unfold onStringEndKey
    split
    · exact h.update rfl rfl rfl
    · exact h.update rfl rfl rfl
  · exact h.stringEndValue
  · exact h.stringEndValue
  · exact h

theorem Dispatches.numberStep {p q : Parser} (h : Dispatches p q) :
    Dispatches p (onNumberEnd q) := by
  unfold onNumberEnd
  split
  · exact h
  · simp only
    split
    · apply Dispatches.advanced
      apply Dispatches.emitted
      exact h.update rfl rfl rfl
    · apply Dispatches.emitted
      exact h.update rfl rfl rfl

theorem Dispatches.primitive {p q : Parser} (h : Dispatches p q) (v : AnyVal) :
    Dispatches p (onPrimitive q v) := by
  unfold onPrimitive
  apply Dispatches.advanced
  apply Dispatches.emitted
  exact h.update rfl rfl rfl

theorem Dispatches.commaStep {p q : Parser} (h : Dispatches p q) : Dispatches p (onComma q) := by
  unfold onComma
  repeat' split
  all_goals exact h.update rfl rfl rfl

theorem Dispatches.stringChunk {p q : Parser} (h : Dispatches p q) (s : Str) :
    Dispatches p (onStringChunk q s) := by
  unfold onStringChunk
  simp only
  split <;> exact h.update rfl rfl rfl

theorem Dispatches.containerEnd {p q : Parser} (h : Dispatches p q) :
    Dispatches p (onObjectEnd q) ∧ Dispatches p (onArrayEnd q) := by
  constructor
  · unfold onObjectEnd
    split
    · exact h.update rfl rfl rfl
    · split
      · exact h.update rfl rfl rfl
      · simp only
        split
        · exact (h.emitted _).update rfl rfl rfl
        · split
          · exact (((h.emitted _).update (r := { pop (emit q _) with segmentsDirty := true })
              rfl rfl rfl).emitted _).update rfl rfl rfl
          · split <;> exact (h.emitted _).update rfl rfl rfl
  · unfold onArrayEnd
    split
    · exact h.update rfl rfl rfl
    · split
      · exact h.update rfl rfl rfl
      · simp only
        split
        · exact (h.emitted _).update rfl rfl rfl
        · split
          · exact (((h.emitted _).update (r := { pop (emit q _) with segmentsDirty := true })
              rfl rfl rfl).emitted _).update rfl rfl rfl
          · split <;> exact (h.emitted _).update rfl rfl rfl

theorem Dispatches.containerStart {p q : Parser} (h : Dispatches p q) :
    Dispatches p (onObjectStart q) ∧ Dispatches p (onArrayStart q) := by
  constructor
  · unfold onObjectStart
    apply Dispatches.emitted
    exact h.update rfl rfl rfl
  · unfold onArrayStart
    apply Dispatches.emitted
    exact h.update rfl rfl rfl

theorem Dispatches.token {p q : Parser} (h : Dispatches p q) (tok : Token) :
    Dispatches p (OnToken q tok) := by
  unfold OnToken
  split
  · exact h.containerStart.1
  · exact h.containerEnd.1
  · exact h.containerStart.2
  · exact h.containerEnd.2
  · exact h.stringChunk _
  · exact h.stringEnd
  · exact h.update (r := onNumberChunk q _) rfl rfl rfl
  · exact h.numberStep
  · exact h.primitive _
  · exact h.primitive _
  · exact h.update (r := onColon q) rfl rfl rfl
  · exact h.commaStep

theorem Dispatches.delivered {p q : Parser} (h : Dispatches p q) (res : Tokenizer × List Token) :
    Dispatches p (deliver q res) := by
  unfold deliver
  have h0 : Dispatches p { q with tokenizer := some res.1 } := h.update rfl rfl rfl
  generalize ({ q with tokenizer := some res.1 } : Parser) = q' at h0
  generalize res.2 = toks
  induction toks generalizing q' with
  | nil => exact h0
  | cons tok toks ih => exact ih _ (h0.token tok)

theorem Dispatches.runeStep {p q : Parser} (h : Dispatches p q) (f : Char → Bool) (r : Char) :
    Dispatches p (consumeRune f q r) := by
  unfold consumeRune
  split
  · exact h
  · exact h.delivered _

theorem Dispatches.loop {p q : Parser} (h : Dispatches p q) (f : Char → Bool) (s : List Char) :
    Dispatches p (feedLoop f s q).1 := by
  induction s generalizing q with
  | nil => exact h
  | cons r rs ih =>
    simp only [feedLoop]
    split
    · exact h.runeStep f r
    · exact ih (h.runeStep f r)

theorem Dispatches.feed {p q : Parser} (h : Dispatches p q) (f : Char → Bool) (s : Str) :
    Dispatches p (FeedString f q s).1 := by
  unfold FeedString
  split
  · exact h
  · have h' := h.loop f s
    split
    · rename_i hr
      rw [hr] at h'
      exact h'
    · rename_i hr
      rw [hr] at h'
      exact h'.flushStep

theorem Dispatches.closeLoop {p : Parser} (n : Nat) :
    ∀ q : Parser, Dispatches p q → Dispatches p (closeFramesLoop n q) := by
  induction n with
  | zero => intro q h; exact h
  | succ n ih =>
    intro q h
    unfold closeFramesLoop
    split
    · exact h
    · apply ih
      split
      · exact (h.emitted _).update rfl rfl rfl
      · exact (h.emitted _).update rfl rfl rfl

theorem Dispatches.closed {p q : Parser} (h : Dispatches p q) (normal : Bool) :
    Dispatches p (Close q normal) := by
  have h0 : Dispatches p (closeTokenizer q) := by
    unfold closeTokenizer
    split
    · exact h
    · exact h.delivered _
  unfold Close closeUnfinishedFrames
  simp only
  generalize closeTokenizer q = q0 at h0 ⊢
  have h1 : Dispatches p (flushIncompleteValue { q0 with closing := true }) := by
    have ha : Dispatches p { q0 with closing := true } := h0.update rfl rfl rfl
    generalize ({ q0 with closing := true } : Parser) = qa at ha ⊢
    unfold flushIncompleteValue
    have hb : Dispatches p (if qa.curValueKind = .valString then flushStringChunk qa else qa) := by
      split
      · exact ha.flushStep
      · exact ha
    generalize (if qa.curValueKind = .valString then flushStringChunk qa else qa) = qb at hb ⊢
    unfold flushIncompleteAbort
    split
    · exact hb
    · simp only
      refine Dispatches.update ?_ rfl rfl rfl
      split
      · split
        · apply Dispatches.emitted
          exact hb.update rfl rfl rfl
        · exact hb
      · split
        · apply Dispatches.emitted
          exact hb.update rfl rfl rfl
        · exact hb
      · exact hb
  generalize flushIncompleteValue { q0 with closing := true } = q1 at h1 ⊢
  have h2 := Dispatches.closeLoop q1.stack.length q1 h1
  split
  · exact h2.emitted _
  · exact h2.emitted _

theorem Dispatches.ops {p q : Parser} (h : Dispatches p q) (f : Char → Bool) (ops : List Op) :
    Dispatches p (runOps f q ops) := by
  unfold runOps
  induction ops generalizing q with
  | nil => exact h
  | cons op ops ih =>
    apply ih
    cases op with
    | feed s => exact h.feed f s
    | close normal => exact h.closed normal

end Parser

/-- C18: (1) `emit` adds one event, with the segment vector it attaches, to the
trace and invokes the handlers of exactly the subscriptions whose pattern
matches that vector, each once, in the order of the subscription list. (2) No
sequence of Feed and Close calls changes the subscription list, and the handler
invocations it adds are, event by event in emission order, those of the events
it emits, for the subscription list of the parser. (3) `On` with a valid
expression appends one subscription at the end of the list and changes
nothing else; with an invalid expression it panics. (4) The handlers an event
invokes are those of the matching subscriptions in list order, a sublist of
the handlers of the subscription list. -/
theorem dispatch_exact_and_ordered (isLetter : Char → Bool) (p : Parser) :
    (∀ ev : Event,
      (Parser.emit p ev).trace = p.trace ++ [{ ev with pathSegments := p.emitSegments }] ∧
      (Parser.emit p ev).calls = p.calls ++
        ((p.subs.filter (fun sub =>
            matchSegments sub.Pattern.Segments p.emitSegments)).map
          (fun sub => (sub.Handler, { ev with pathSegments := p.emitSegments })))) ∧
    (∀ ops : List Op, (runOps isLetter p ops).subs = p.subs ∧
      ∃ evs, (runOps isLetter p ops).trace = p.trace ++ evs ∧
        (runOps isLetter p ops).calls = p.calls ++ evs.flatMap (dispatch p.subs)) ∧
    (∀ (expr : Str) (h : Handler),
      (∀ pat, CompilePattern expr = .ok pat →
        Parser.On p expr h =
          some { p with subs := p.subs ++ [{ Pattern := pat, Handler := h }] }) ∧
      (∀ e, CompilePattern expr = .error e → Parser.On p expr h = none)) ∧
    (∀ (subs : List Subscription) (ev : Event),
      (dispatch subs ev).map (·.1) =
        (subs.filter (fun sub => matchSegments sub.Pattern.Segments ev.pathSegments)).map
          (·.Handler) ∧
      ((dispatch subs ev).map (·.1)).Sublist (subs.map (·.Handler))) := by
  refine ⟨fun ev => ⟨Parser.emit_trace p ev, Parser.emit_calls p ev⟩,
    fun ops => (Parser.Dispatches.same p).ops isLetter ops, ?_, ?_⟩
  · intro expr h
    constructor
    · intro pat hp
      unfold Parser.On
      rw [hp]
    · intro e he
      unfold Parser.On
      rw [he]
  · intro subs ev
    have e1 : (dispatch subs ev).map (·.1) =
        (subs.filter (fun sub => matchSegments sub.Pattern.Segments ev.pathSegments)).map
          (·.Handler) := by
      simp [dispatch, List.map_map, Function.comp_def]
    exact ⟨e1, e1 ▸ (List.filter_sublist _).map _⟩
/-! ## Sticky errors (C19) and the comma at root level (C20) -/

namespace Parser

/-- When the feed loop returns an error, it has stopped right after the
character that raised it. -/
theorem feedLoop_stops (f : Char → Bool) (s : List Char) : ∀ (p : Parser) (e : Error),
    (feedLoop f s p).2 = some e →
    ∃ a c b, s = a ++ c :: b ∧ (feedLoop f a p).2 = none ∧
      (consumeRune f (feedLoop f a p).1 c).err = some e ∧
      (feedLoop f s p).1 = consumeRune f (feedLoop f a p).1 c := by
  induction s with
  | nil => intro p e h; cases h
  | cons r rs ih =>
    intro p e h
    cases hc : (consumeRune f p r).err with
    | some e' =>
      simp only [feedLoop, hc] at h ⊢
      cases h
      exact ⟨[], r, rs, rfl, rfl, hc, rfl⟩
    | none =>
      rw [feedLoop_cons_of_err_none f r rs p hc] at h ⊢
      obtain ⟨a, c, b, h1, h2, h3, h4⟩ := ih _ e h
      refine ⟨r :: a, c, b, by rw [h1]; rfl, ?_, ?_, ?_⟩
      · rw [feedLoop_cons_of_err_none f r a p hc]; exact h2
      · rw [feedLoop_cons_of_err_none f r a p hc]; exact h3
      · rw [feedLoop_cons_of_err_none f r a p hc]; exact h4

theorem feedLoop_stop_eq (f : Char → Bool) (a b : List Char) (c : Char) (p : Parser)
    (e : Error) (h2 : (feedLoop f a p).2 = none)
    (h3 : (consumeRune f (feedLoop f a p).1 c).err = some e) :
    feedLoop f (a ++ c :: b) p = (consumeRune f (feedLoop f a p).1 c, some e) := by
  rw [feedLoop_append_none f a _ p h2]
  simp only [feedLoop, h3]

/-- A `FeedString` call that returned an error leaves a parser on which every
further call returns the same error and changes nothing. -/
theorem FeedString_sticky (f : Char → Bool) (p : Parser) (s : Str) (e : Error)
    (h : (FeedString f p s).2 = some e) (s' : Str) :
    FeedString f (FeedString f p s).1 s' = ((FeedString f p s).1, some e) := by
  unfold FeedString at h ⊢
  cases hck : checkState p with
  | some e' =>
    simp only [hck] at h ⊢
    cases h
    simp only [hck]
  | none =>
    simp only [hck] at h ⊢
    obtain ⟨hsome, herr⟩ := checkState_none p hck
    cases hl : feedLoop f s p with
    | mk q r =>
      rw [hl] at h
      cases r with
      | none => simp at h
      | some e' =>
        simp only at h ⊢
        cases h
        have h1 : q.err = some e := by
          have := feedLoop_err_some f s p e (by rw [hl])
          rw [hl] at this
          exact this
        have h2 : q.tokenizer.isSome := by
          have := feedLoop_tokenizer_isSome f s p hsome
          rw [hl] at this
          exact this
        have h3 : checkState q = some e := by
          unfold checkState
          cases ht : q.tokenizer with
          | none => rw [ht] at h2; cases h2
          | some t => exact h1
        simp only [h3]

end Parser

/-- C19: once a `FeedString` call (and so a `Feed` call) has returned an error
`e`, every later call returns the same `e` and leaves the whole parser as it
was: no character consumed, no event emitted, no change of state, stack or
accumulators; this holds for any number of later calls. If the error arose in
the feed loop, the input is `a ++ c :: b` where the loop ran through `a`
without error and `c` raised `e`; the parser returned is the one right after
`c`, whatever follows `c`. -/
theorem sticky_error (isLetter : Char → Bool) (p : Parser) (s : Str) (e : Error)
    (h : (Parser.FeedString isLetter p s).2 = some e) :
    (∀ s' : Str, Parser.FeedString isLetter (Parser.FeedString isLetter p s).1 s' =
      ((Parser.FeedString isLetter p s).1, some e)) ∧
    (∀ (c : Str) (cs : List Str),
      feedChunks isLetter (Parser.FeedString isLetter p s).1 (c :: cs) =
        ((Parser.FeedString isLetter p s).1, some e)) ∧
    (Parser.checkState p = none →
      ∃ a c b, s = a ++ c :: b ∧ (Parser.feedLoop isLetter a p).2 = none ∧
        (Parser.consumeRune isLetter (Parser.feedLoop isLetter a p).1 c).err = some e ∧
        ∀ b' : Str, Parser.FeedString isLetter p (a ++ c :: b') =
          (Parser.consumeRune isLetter (Parser.feedLoop isLetter a p).1 c, some e)) := by
  have hst := Parser.FeedString_sticky isLetter p s e h
  refine ⟨hst, ?_, ?_⟩
  · intro c cs
    unfold feedChunks
    simp only [List.foldl_cons, hst c]
    generalize (Parser.FeedString isLetter p s).1 = q at hst ⊢
    induction cs with
    | nil => rfl
    | cons d ds ih => simp only [List.foldl_cons, hst d]; exact ih
  · intro hck
    have hfs : ∀ x : Str, Parser.FeedString isLetter p x =
        Parser.finishFeed (Parser.feedLoop isLetter x p) := by
      intro x
      obtain ⟨h1, h2⟩ := Parser.checkState_none p hck
      exact Parser.FeedString_eq isLetter p x h1 h2
    have hl : (Parser.feedLoop isLetter s p).2 = some e := by
      rw [hfs s] at h
      cases hr : Parser.feedLoop isLetter s p with
      | mk q r =>
        rw [hr] at h
        cases r with
        | none => simp [Parser.finishFeed] at h
        | some e' => simpa [Parser.finishFeed] using h
    obtain ⟨a, c, b, h1, h2, h3, _⟩ := Parser.feedLoop_stops isLetter s p e hl
    refine ⟨a, c, b, h1, h2, h3, ?_⟩
    intro b'
    rw [hfs, Parser.feedLoop_stop_eq isLetter a b' c p e h2 h3]
    rfl

/-- Instance of the sticky error statement: `{"a":1}}x` fed to a fresh parser
fails with `ErrMismatchedBrace` at the second `}`, and feeding `{"b":2}`
afterwards returns the same error and emits nothing. -/
theorem sticky_error_witness :
    (Parser.FeedString Char.isAlpha NewParser "\x7b\"a\":1\x7d\x7dx".toList).2 =
      some .ErrMismatchedBrace ∧
    Parser.FeedString Char.isAlpha
        (Parser.FeedString Char.isAlpha NewParser "\x7b\"a\":1\x7d\x7dx".toList).1
        "\x7b\"b\":2\x7d".toList =
      ((Parser.FeedString Char.isAlpha NewParser "\x7b\"a\":1\x7d\x7dx".toList).1,
        some .ErrMismatchedBrace) :=
  ⟨by decide,
   (sticky_error Char.isAlpha NewParser "\x7b\"a\":1\x7d\x7dx".toList .ErrMismatchedBrace
      (by decide)).1 "\x7b\"b\":2\x7d".toList⟩
namespace Parser

theorem onComma_empty (q : Parser) (h : q.stack = []) :
    onComma q = { q with err := some .ErrUnexpectedToken } := by
  unfold onComma
  simp [h]

theorem onComma_top (q : Parser) (top : frame) (h : q.stack.getLast? = some top) :
    onComma q = { q with state := match top.kind with
                                   | .frameObject => .pObjExpectKey
                                   | .frameArray => .pArrExpectValue } := by
  unfold onComma
  simp only [topFrame_eq, h]
  cases top.kind <;> rfl

theorem flushStringChunk_state (q : Parser) : (flushStringChunk q).state = q.state := by
  unfold flushStringChunk
  repeat' split
  all_goals simp

theorem idle_of_state (p : Parser) (hs : p.tokenizer.map (·.state) = some .tIdle) :
    ∃ t, p.tokenizer = some t ∧ t.state = .tIdle := by
  cases ht : p.tokenizer with
  | none => rw [ht] at hs; simp at hs
  | some t => rw [ht] at hs; exact ⟨t, rfl, by simpa using hs⟩

end Parser

/-- C20 as stated fails: after `12` has been fed to a fresh parser the frame
stack is empty, and `FeedString(",")` returns `ErrUnexpectedToken` but first
emits the FieldValue of the number; after `"ab` has been fed the stack is empty
as well, and `FeedString(",")` returns no error, the comma being read as part
of the string. -/
theorem comma_after_root_number_emits :
    (Parser.FeedString Char.isAlpha NewParser "12".toList).1.stack = [] ∧
    (Parser.FeedString Char.isAlpha
      (Parser.FeedString Char.isAlpha NewParser "12".toList).1 ",".toList).2 =
        some .ErrUnexpectedToken ∧
    (Parser.FeedString Char.isAlpha
      (Parser.FeedString Char.isAlpha NewParser "12".toList).1 ",".toList).1.trace.map
        Event.payload =
      (Parser.FeedString Char.isAlpha NewParser "12".toList).1.trace.map Event.payload ++
        [(.EventFieldValue,
          some { Kind := .ValueNumber, Value := .str "12".toList, Complete := true })] ∧
    (Parser.FeedString Char.isAlpha NewParser "\"ab".toList).1.stack = [] ∧
    (Parser.FeedString Char.isAlpha
      (Parser.FeedString Char.isAlpha NewParser "\"ab".toList).1 ",".toList).2 = none := by
  decide

/-- C20 amended: let the parser have no recorded error and its tokenizer be
between two tokens. If the frame stack is empty, `FeedString(",")` returns
`ErrUnexpectedToken`, records it, emits no event and changes nothing else. If
the stack is not empty, `FeedString(",")` returns no error, records none, and
leaves the state `pObjExpectKey` when the top frame is an Object and
`pArrExpectValue` when it is an Array. For every parser, the Comma token
records `ErrUnexpectedToken` on an empty stack and only sets the state on a
non-empty one. -/
theorem comma_at_root_level (isLetter : Char → Bool) (p : Parser)
    (hs : p.tokenizer.map (·.state) = some .tIdle) (he : p.err = none) :
    (p.stack = [] →
      Parser.FeedString isLetter p [','] =
        ({ p with err := some .ErrUnexpectedToken }, some .ErrUnexpectedToken)) ∧
    (∀ top : frame, p.stack.getLast? = some top →
      (Parser.FeedString isLetter p [',']).2 = none ∧
      (Parser.FeedString isLetter p [',']).1.err = none ∧
      (Parser.FeedString isLetter p [',']).1.state =
        (match top.kind with
          | .frameObject => .pObjExpectKey
          | .frameArray => .pArrExpectValue)) ∧
    (∀ q : Parser, q.stack = [] →
      Parser.onComma q = { q with err := some .ErrUnexpectedToken }) ∧
    (∀ (q : Parser) (top : frame), q.stack.getLast? = some top →
      Parser.onComma q = { q with state := match top.kind with
                                             | .frameObject => .pObjExpectKey
                                             | .frameArray => .pArrExpectValue }) := by
  obtain ⟨t, ht, hst⟩ := Parser.idle_of_state p hs
  have hsome : p.tokenizer.isSome := by rw [ht]; rfl
  have hrune : Parser.consumeRune isLetter p ',' = Parser.onComma p := by
    rw [Parser.consumeRune_idle_comma isLetter p t ht hst]
    rfl
  refine ⟨?_, ?_, Parser.onComma_empty, Parser.onComma_top⟩
  · intro h0
    rw [Parser.FeedString_eq isLetter p _ hsome he, Parser.feedLoop_single, hrune,
      Parser.onComma_empty p h0]
    rfl
  · intro top htop
    have hc := Parser.onComma_top p top htop
    have herr : (Parser.onComma p).err = none := by rw [hc]; exact he
    rw [Parser.FeedString_eq isLetter p _ hsome he, Parser.feedLoop_single, hrune, herr]
    refine ⟨rfl, ?_, ?_⟩
    · show (Parser.flushStringChunk (Parser.onComma p)).err = none
      rw [Parser.flushStringChunk_err]
      exact herr
    · show (Parser.flushStringChunk (Parser.onComma p)).state = _
      rw [Parser.flushStringChunk_state, hc]

/-- Instance of the comma statement: a fresh parser, and the parser that has
read `{"a": 1}`. -/
theorem comma_at_root_level_witness :
    Parser.FeedString Char.isAlpha NewParser [','] =
      ({ NewParser with err := some .ErrUnexpectedToken }, some .ErrUnexpectedToken) ∧
    (Parser.FeedString Char.isAlpha
      (Parser.FeedString Char.isAlpha NewParser "\x7b\"a\": 1\x7d".toList).1 [',']).2 =
        some .ErrUnexpectedToken ∧
    (Parser.FeedString Char.isAlpha
      (Parser.FeedString Char.isAlpha NewParser "\x7b\"a\": 1\x7d".toList).1 [',']).1.trace =
      (Parser.FeedString Char.isAlpha NewParser "\x7b\"a\": 1\x7d".toList).1.trace :=
  ⟨(comma_at_root_level Char.isAlpha NewParser rfl rfl).1 rfl,
   by
    rw [(comma_at_root_level Char.isAlpha
      (Parser.FeedString Char.isAlpha NewParser "\x7b\"a\": 1\x7d".toList).1
      (by decide) (by decide)).1 (by decide)],
   by
    rw [(comma_at_root_level Char.isAlpha
      (Parser.FeedString Char.isAlpha NewParser "\x7b\"a\": 1\x7d".toList).1
      (by decide) (by decide)).1 (by decide)]⟩

/-! ## Event values (C22 to C24) -/

theorem Event.regular_of_none {e : Event} (h1 : e.pathCache = [])
    (ho : e.pathOpts = e.Typ.pathOpts) (h2 : e.Value = none) :
    e.regular := ⟨h1, ho, fun v hv => by rw [h2] at hv; cases hv⟩

namespace Parser

theorem Regular.of_same (p : Parser) : Regular p p := ⟨[], by simp, by simp⟩

theorem Regular.of_update {p q r : Parser} (h : Regular p q) (ht : r.trace = q.trace) :
    Regular p r := by
  obtain ⟨evs, h1, h2⟩ := h
  exact ⟨evs, ht.trans h1, h2⟩

theorem Regular.of_emit {p q : Parser} (h : Regular p q) (ev : Event) (hev : ev.regular) :
    Regular p (emit q ev) := by
  obtain ⟨evs, h1, h2⟩ := h
  refine ⟨evs ++ [{ ev with pathSegments := emitSegments q }], by simp [h1], ?_⟩
  intro e he
  rcases List.mem_append.mp he with he | he
  · exact h2 e he
  · rw [List.mem_singleton.mp he]
    exact hev

theorem Regular.of_chain {p q r : Parser} (h1 : Regular p q) (h2 : Regular q r) : Regular p r := by
  obtain ⟨evs, a1, a2⟩ := h1
  obtain ⟨evs', b1, b2⟩ := h2
  refine ⟨evs ++ evs', by rw [b1, a1, List.append_assoc], ?_⟩
  intro e he
  rcases List.mem_append.mp he with he | he
  · exact a2 e he
  · exact b2 e he

theorem Regular.of_advance {p q : Parser} (h : Regular p q) : Regular p (advanceAfterValue q) := by
  unfold advanceAfterValue
  split
  · exact h.of_update rfl
  · split
    · exact h.of_update rfl
    · exact (h.of_emit _ (by simp [Event.regular, EventType.pathOpts])).of_update rfl

theorem Regular.of_flush {p q : Parser} (h : Regular p q) : Regular p (flushStringChunk q) := by
  unfold flushStringChunk
  split
  · exact h
  · split
    · exact h
    · rename_i hne
      exact (h.of_emit _ (by simp [Event.regular, EventType.pathOpts, hne])).of_update rfl

theorem Regular.of_stringEndValue {p q : Parser} (h : Regular p q) :
    Regular p (onStringEndValue q) := by
  have h1 : Regular p (onStringEndFlush q) := by
    unfold onStringEndFlush
    split
    · split
      · exact h.of_flush
      · exact h
    · exact h
  unfold onStringEndValue onStringEndEmit
  split
  · exact h1
  · simp only
    have hev : ∀ (c : Bool) (s : Str), Event.regular
        { Typ := .EventFieldValue, pathOpts := {},
          Value := some { Kind := .ValueString, Value := .str s, Complete := !c, Aborted := c } } := by
      intro c s
      cases c <;> simp [Event.regular, EventType.pathOpts]
    split
    · apply Regular.of_advance
      exact (h1.of_emit _ (hev _ _)).of_update rfl
    · exact (h1.of_emit _ (hev _ _)).of_update rfl

theorem Regular.of_stringEnd {p q : Parser} (h : Regular p q) : Regular p (onStringEnd q) := by
  unfold onStringEnd
  split
  · unfold onStringEndKey
    split
    · exact h.of_update rfl
    · exact h.of_update rfl
  · exact h.of_stringEndValue
  · exact h.of_stringEndValue
  · exact h

theorem Regular.of_numberEnd {p q : Parser} (h : Regular p q) : Regular p (onNumberEnd q) := by
  unfold onNumberEnd
  have hev : ∀ (c : Bool) (s : Str), Event.regular
      { Typ := .EventFieldValue, pathOpts := {},
        Value := some { Kind := .ValueNumber, Value := .str s, Complete := !c, Aborted := c } } := by
    intro c s
    cases c <;> simp [Event.regular, EventType.pathOpts]
  split
  · exact h
  · simp only
    split
    · apply Regular.of_advance
      apply Regular.of_emit _ _ (hev _ _)
      exact h.of_update rfl
    · apply Regular.of_emit _ _ (hev _ _)
      exact h.of_update rfl

theorem Regular.of_primitive {p q : Parser} (h : Regular p q) (v : AnyVal) :
    Regular p (onPrimitive q v) := by
  unfold onPrimitive
  apply Regular.of_advance
  apply Regular.of_emit _ _ (by simp [Event.regular, EventType.pathOpts])
  exact h.of_update rfl

theorem Regular.of_comma {p q : Parser} (h : Regular p q) : Regular p (onComma q) := by
  unfold onComma
  repeat' split
  all_goals exact h.of_update rfl

theorem Regular.of_stringChunk {p q : Parser} (h : Regular p q) (s : Str) :
    Regular p (onStringChunk q s) := by
  unfold onStringChunk
  simp only
  split <;> exact h.of_update rfl

theorem Regular.of_containerEnd {p q : Parser} (h : Regular p q) :
    Regular p (onObjectEnd q) ∧ Regular p (onArrayEnd q) := by
  constructor
  · unfold onObjectEnd
    split
    · exact h.of_update rfl
    · split
      · exact h.of_update rfl
      · simp only
        split
        · exact (h.of_emit _ (by simp [Event.regular, EventType.pathOpts])).of_update rfl
        · split
          · exact (((h.of_emit _ (by simp [Event.regular, EventType.pathOpts])).of_update
              (r := { pop (emit q _) with segmentsDirty := true }) rfl).of_emit _
                (by simp [Event.regular, EventType.pathOpts])).of_update rfl
          · split <;> exact (h.of_emit _ (by simp [Event.regular, EventType.pathOpts])).of_update rfl
  · unfold onArrayEnd
    split
    · exact h.of_update rfl
    · split
      · exact h.of_update rfl
      · simp only
        split
        · exact (h.of_emit _ (by simp [Event.regular, EventType.pathOpts])).of_update rfl
        · split
          · exact (((h.of_emit _ (by simp [Event.regular, EventType.pathOpts])).of_update
              (r := { pop (emit q _) with segmentsDirty := true }) rfl).of_emit _
                (by simp [Event.regular, EventType.pathOpts])).of_update rfl
          · split <;> exact (h.of_emit _ (by simp [Event.regular, EventType.pathOpts])).of_update rfl

theorem Regular.of_containerStart {p q : Parser} (h : Regular p q) :
    Regular p (onObjectStart q) ∧ Regular p (onArrayStart q) := by
  constructor
  · unfold onObjectStart
    apply Regular.of_emit _ _ (by simp [Event.regular, EventType.pathOpts])
    exact h.of_update rfl
  · unfold onArrayStart
    apply Regular.of_emit _ _ (by simp [Event.regular, EventType.pathOpts])
    exact h.of_update rfl

theorem Regular.of_token {p q : Parser} (h : Regular p q) (tok : Token) :
    Regular p (OnToken q tok) := by
  unfold OnToken
  split
  · exact h.of_containerStart.1
  · exact h.of_containerEnd.1
  · exact h.of_containerStart.2
  · exact h.of_containerEnd.2
  · exact h.of_stringChunk _
  · exact h.of_stringEnd
  · exact h.of_update (r := onNumberChunk q _) rfl
  · exact h.of_numberEnd
  · exact h.of_primitive _
  · exact h.of_primitive _
  · exact h.of_update (r := onColon q) rfl
  · exact h.of_comma

theorem Regular.of_deliver {p q : Parser} (h : Regular p q) (res : Tokenizer × List Token) :
    Regular p (deliver q res) := by
  unfold deliver
  have h0 : Regular p { q with tokenizer := some res.1 } := h.of_update rfl
  generalize ({ q with tokenizer := some res.1 } : Parser) = q' at h0
  generalize res.2 = toks
  induction toks generalizing q' with
  | nil => exact h0
  | cons tok toks ih => exact ih _ (h0.of_token tok)

theorem Regular.of_rune {p q : Parser} (h : Regular p q) (f : Char → Bool) (r : Char) :
    Regular p (consumeRune f q r) := by
  unfold consumeRune
  split
  · exact h
  · exact h.of_deliver _

theorem Regular.of_loop {p q : Parser} (h : Regular p q) (f : Char → Bool) (s : List Char) :
    Regular p (feedLoop f s q).1 := by
  induction s generalizing q with
  | nil => exact h
  | cons r rs ih =>
    simp only [feedLoop]
    split
    · exact h.of_rune f r
    · exact ih (h.of_rune f r)

theorem Regular.of_feed {p q : Parser} (h : Regular p q) (f : Char → Bool) (s : Str) :
    Regular p (FeedString f q s).1 := by
  unfold FeedString
  split
  · exact h
  · have h' := h.of_loop f s
    split
    · rename_i hr
      rw [hr] at h'
      exact h'
    · rename_i hr
      rw [hr] at h'
      exact h'.of_flush

theorem Regular.of_closeLoop {p : Parser} (n : Nat) :
    ∀ q : Parser, Regular p q → Regular p (closeFramesLoop n q) := by
  induction n with
  | zero => intro q h; exact h
  | succ n ih =>
    intro q h
    unfold closeFramesLoop
    split
    · exact h
    · apply ih
      split
      · exact (h.of_emit _ (by simp [Event.regular, EventType.pathOpts])).of_update rfl
      · exact (h.of_emit _ (by simp [Event.regular, EventType.pathOpts])).of_update rfl

theorem Regular.of_close {p q : Parser} (h : Regular p q) (normal : Bool) :
    Regular p (Close q normal) := by
  have h0 : Regular p (closeTokenizer q) := by
    unfold closeTokenizer
    split
    · exact h
    · exact h.of_deliver _
  unfold Close closeUnfinishedFrames
  simp only
  generalize closeTokenizer q = q0 at h0 ⊢
  have h1 : Regular p (flushIncompleteValue { q0 with closing := true }) := by
    have ha : Regular p { q0 with closing := true } := h0.of_update rfl
    generalize ({ q0 with closing := true } : Parser) = qa at ha ⊢
    unfold flushIncompleteValue
    have hb : Regular p (if qa.curValueKind = .valString then flushStringChunk qa else qa) := by
      split
      · exact ha.of_flush
      · exact ha
    generalize (if qa.curValueKind = .valString then flushStringChunk qa else qa) = qb at hb ⊢
    unfold flushIncompleteAbort
    split
    · exact hb
    · simp only
      refine Regular.of_update ?_ rfl
      split
      · split
        · apply Regular.of_emit _ _ (by simp [Event.regular, EventType.pathOpts])
          exact hb.of_update rfl
        · exact hb
      · split
        · apply Regular.of_emit _ _ (by simp [Event.regular, EventType.pathOpts])
          exact hb.of_update rfl
        · exact hb
      · exact hb
  generalize flushIncompleteValue { q0 with closing := true } = q1 at h1 ⊢
  have h2 := Regular.of_closeLoop q1.stack.length q1 h1
  split
  · exact h2.of_emit _ (by simp [Event.regular, EventType.pathOpts])
  · exact h2.of_emit _ (by simp [Event.regular, EventType.pathOpts])

theorem Regular.of_ops {p q : Parser} (h : Regular p q) (f : Char → Bool) (ops : List Op) :
    Regular p (runOps f q ops) := by
  unfold runOps
  induction ops generalizing q with
  | nil => exact h
  | cons op ops ih =>
    apply ih
    cases op with
    | feed s => exact h.of_feed f s
    | close normal => exact h.of_close normal

theorem Regular.of_chunks {p q : Parser} (h : Regular p q) (f : Char → Bool) (chunks : List Str) :
    ∀ e : Option Error,
      Regular p (chunks.foldl (fun acc c => FeedString f acc.1 c) (q, e)).1 := by
  induction chunks generalizing q with
  | nil => intro e; exact h
  | cons c cs ih =>
    intro e
    simp only [List.foldl]
    exact ih (h.of_feed f c) _

end Parser

namespace Parser

theorem topIsNot_iff (p : Parser) (k : frameKind) :
    p.topIsNot k ↔ (p.stack = [] ∨ ∃ top, p.stack.getLast? = some top ∧ top.kind ≠ k) := by
  unfold topIsNot
  rw [topFrame_eq]
  constructor
  · intro h
    cases hs : p.stack.getLast? with
    | none => exact Or.inl (List.getLast?_eq_none_iff.mp hs)
    | some top => exact Or.inr ⟨top, rfl, h top hs⟩
  · rintro (h | ⟨top, h1, h2⟩) top' ht
    · rw [h] at ht; cases ht
    · rw [h1] at ht
      cases ht
      exact h2

theorem onObjectEnd_mismatch (p : Parser) (h : p.topIsNot .frameObject) :
    onObjectEnd p = { p with err := some .ErrMismatchedBrace } := by
  unfold onObjectEnd
  split
  · rfl
  · rename_i top ht
    rw [if_pos (h top ht)]

theorem onArrayEnd_mismatch (p : Parser) (h : p.topIsNot .frameArray) :
    onArrayEnd p = { p with err := some .ErrMismatchedBracket } := by
  unfold onArrayEnd
  split
  · rfl
  · rename_i top ht
    rw [if_pos (h top ht)]

theorem onObjectEnd_match (p : Parser) (h : ¬ p.topIsNot .frameObject) :
    (onObjectEnd p).err = p.err ∧
    ∃ evs, (onObjectEnd p).trace = p.trace ++
      { Typ := .EventObjectEnd, pathOpts := { excludeTop := true },
        pathSegments := p.emitSegments } :: evs := by
  unfold topIsNot at h
  push_neg at h
  obtain ⟨top, ht, hk⟩ := h
  unfold onObjectEnd
  rw [ht]
  simp only [hk, ne_eq, not_true_eq_false, if_false]
  split
  · exact ⟨by simp [pop], [], by simp [pop]⟩
  · split
    · exact ⟨by simp [pop, setTop], [_], by simp [pop, setTop]; rfl⟩
    · split <;> exact ⟨by simp [pop], [], by simp [pop]⟩

theorem onArrayEnd_match (p : Parser) (h : ¬ p.topIsNot .frameArray) :
    (onArrayEnd p).err = p.err ∧
    ∃ evs, (onArrayEnd p).trace = p.trace ++
      { Typ := .EventArrayEnd, pathOpts := { excludeTop := true },
        pathSegments := p.emitSegments } :: evs := by
  unfold topIsNot at h
  push_neg at h
  obtain ⟨top, ht, hk⟩ := h
  unfold onArrayEnd
  rw [ht]
  simp only [hk, ne_eq, not_true_eq_false, if_false]
  split
  · exact ⟨by simp [pop], [], by simp [pop]⟩
  · split
    · exact ⟨by simp [pop, setTop], [_], by simp [pop, setTop]; rfl⟩
    · split <;> exact ⟨by simp [pop], [], by simp [pop]⟩

theorem consumeRune_idle_rbrace (f : Char → Bool) (p : Parser) (t : Tokenizer)
    (ht : p.tokenizer = some t) (hs : t.state = .tIdle) :
    consumeRune f p '\x7d' = OnToken p { Typ := .TokenRBrace } := by
  obtain ⟨st, stk, cvk, cs, cn, cl, cb, subs, tk, err, cached, dirty, lvk, tr, calls⟩ := p
  simp only at ht
  subst ht
  simp [consumeRune, deliver, Tokenizer.Consume, hs, Tokenizer.consumeIdle]

theorem FeedString_single_error (f : Char → Bool) (p q : Parser) (c : Char) (e : Error)
    (ht : p.tokenizer.isSome) (he : p.err = none) (hq : consumeRune f p c = q)
    (hqe : q.err = some e) : FeedString f p [c] = (q, some e) := by
  rw [FeedString_eq f p [c] ht he, feedLoop_single, hq, hqe]
  rfl

end Parser

/-- C21: an RBrace token on a parser whose stack is empty or whose top frame is
not an Object changes nothing but the error, which becomes ErrMismatchedBrace
(no event, same stack and state); on a parser whose top frame is an Object it
leaves the error as it was and emits the ObjectEnd event.  The same holds for
RBracket, Array frames, ErrMismatchedBracket and ArrayEnd.  Fed to a parser
between tokens and without error, a mismatched `}` or `]` makes FeedString
return that error with no other change. -/
theorem mismatched_close_rejected (isLetter : Char → Bool) (p : Parser) :
    (∀ k, p.topIsNot k ↔ (p.stack = [] ∨ ∃ top, p.stack.getLast? = some top ∧ top.kind ≠ k)) ∧
    (p.topIsNot .frameObject →
      Parser.OnToken p { Typ := .TokenRBrace } = { p with err := some .ErrMismatchedBrace }) ∧
    (¬ p.topIsNot .frameObject →
      (Parser.OnToken p { Typ := .TokenRBrace }).err = p.err ∧
      ∃ evs, (Parser.OnToken p { Typ := .TokenRBrace }).trace = p.trace ++
        { Typ := .EventObjectEnd, pathOpts := { excludeTop := true },
          pathSegments := p.emitSegments } :: evs) ∧
    (p.err = none →
      ((Parser.OnToken p { Typ := .TokenRBrace }).err = some .ErrMismatchedBrace ↔
        p.topIsNot .frameObject)) ∧
    (p.topIsNot .frameArray →
      Parser.OnToken p { Typ := .TokenRBracket } = { p with err := some .ErrMismatchedBracket }) ∧
    (¬ p.topIsNot .frameArray →
      (Parser.OnToken p { Typ := .TokenRBracket }).err = p.err ∧
      ∃ evs, (Parser.OnToken p { Typ := .TokenRBracket }).trace = p.trace ++
        { Typ := .EventArrayEnd, pathOpts := { excludeTop := true },
          pathSegments := p.emitSegments } :: evs) ∧
    (p.err = none →
      ((Parser.OnToken p { Typ := .TokenRBracket }).err = some .ErrMismatchedBracket ↔
        p.topIsNot .frameArray)) ∧
    (∀ t : Tokenizer, p.tokenizer = some t → t.state = .tIdle → p.err = none →
      (p.topIsNot .frameObject →
        Parser.FeedString isLetter p ['\x7d'] =
          ({ p with err := some .ErrMismatchedBrace }, some .ErrMismatchedBrace)) ∧
      (p.topIsNot .frameArray →
        Parser.FeedString isLetter p [']'] =
          ({ p with err := some .ErrMismatchedBracket }, some .ErrMismatchedBracket))) := by
  refine ⟨fun k => Parser.topIsNot_iff p k, Parser.onObjectEnd_mismatch p,
    Parser.onObjectEnd_match p, ?_, Parser.onArrayEnd_mismatch p, Parser.onArrayEnd_match p,
    ?_, ?_⟩
  · intro he
    constructor
    · intro h
      by_contra hn
      have := (Parser.onObjectEnd_match p hn).1
      simp only [Parser.OnToken] at h
      rw [h, he] at this
      cases this
    · intro h
      simp only [Parser.OnToken]
      rw [Parser.onObjectEnd_mismatch p h]
  · intro he
    constructor
    · intro h
      by_contra hn
      have := (Parser.onArrayEnd_match p hn).1
      simp only [Parser.OnToken] at h
      rw [h, he] at this
      cases this
    · intro h
      simp only [Parser.OnToken]
      rw [Parser.onArrayEnd_mismatch p h]
  · intro t ht hs he
    constructor
    · intro h
      exact Parser.FeedString_single_error isLetter p _ _ _ (by rw [ht]; rfl) he
        ((Parser.consumeRune_idle_rbrace isLetter p t ht hs).trans
          (Parser.onObjectEnd_mismatch p h)) rfl
    · intro h
      exact Parser.FeedString_single_error isLetter p _ _ _ (by rw [ht]; rfl) he
        ((Parser.consumeRune_idle_rbracket isLetter p t ht hs).trans
          (Parser.onArrayEnd_mismatch p h)) rfl

/-- Instance of the mismatched-close statement: `}` and `]` fed to a fresh parser. -/
theorem mismatched_close_witness :
    NewParser.topIsNot .frameObject ∧
    Parser.FeedString Char.isAlpha NewParser ['\x7d'] =
      ({ NewParser with err := some .ErrMismatchedBrace }, some .ErrMismatchedBrace) ∧
    Parser.FeedString Char.isAlpha NewParser [']'] =
      ({ NewParser with err := some .ErrMismatchedBracket }, some .ErrMismatchedBracket) :=
  ⟨fun top h => by simp [Parser.topFrame, NewParser] at h,
   ((mismatched_close_rejected Char.isAlpha NewParser).2.2.2.2.2.2.2 NewTokenizer rfl rfl rfl).1
     (fun top h => by simp [Parser.topFrame, NewParser] at h),
   ((mismatched_close_rejected Char.isAlpha NewParser).2.2.2.2.2.2.2 NewTokenizer rfl rfl rfl).2
     (fun top h => by simp [Parser.topFrame, NewParser] at h)⟩

namespace Parser

theorem buildPath_head (segs : List PathSegment) (opt : pathOptions) :
    (buildPathFromSegments segs opt).head? = some '$' := by
  unfold buildPathFromSegments
  repeat' split
  all_goals rfl

/-- What `Event.Path` returns for an event the parser built: the empty string
when the event has no segments, a string that starts with `$` otherwise. -/
theorem regular_path (e : Event) (h : e.regular) :
    (e.pathSegments = [] → e.Path = []) ∧
    (e.pathSegments ≠ [] → e.Path = buildPathFromSegments e.pathSegments e.pathOpts ∧
      e.Path.head? = some '$') := by
  unfold Event.Path
  constructor
  · intro hs
    simp [hs, h.1]
  · intro hs
    have : e.pathSegments.length > 0 := List.length_pos.mpr hs
    rw [if_pos ⟨h.1, this⟩]
    exact ⟨rfl, buildPath_head _ _⟩

/-- Every event emitted by a sequence of Feed and Close calls has the empty
string as its path when it carries no segments, and a path that starts with `$`
otherwise. -/
theorem emitted_path_shape (f : Char → Bool) (p : Parser) (ops : List Op) :
    ∃ evs, (runOps f p ops).trace = p.trace ++ evs ∧
      ∀ e ∈ evs, (e.pathSegments = [] → e.Path = []) ∧
        (e.pathSegments ≠ [] → e.Path.head? = some '$') := by
  obtain ⟨evs, h1, h2⟩ := (Regular.of_same p).of_ops f ops
  exact ⟨evs, h1, fun e he =>
    ⟨(regular_path e (h2 e he)).1, fun hs => ((regular_path e (h2 e he)).2 hs).2⟩⟩

end Parser

/-- C22, the code as it stands: after `FeedString("{\"a\":1}")` and `Close(true)`
the events are ObjectStart, FieldValue, ObjectEnd, StreamEnd; `Path()` returns
the empty string, not `$`, for the ObjectStart and the StreamEnd, whose segment
sequence is empty (`Path` never calls `buildPathFromSegments` on an empty
sequence), `$.a` for the FieldValue, and `$` for the ObjectEnd, whose single
segment the excludeTop option drops.  After `FeedString("{}")` and `Close(true)`
all three events, the ObjectEnd included, have the empty string as path. -/
theorem root_events_have_empty_path (isLetter : Char → Bool) :
    ((Parser.FeedString isLetter NewParser "\x7b\"a\":1\x7d".toList).1.Close true).trace.map
        (fun e => (e.Typ, e.pathSegments.length, e.Path)) =
      [(.EventObjectStart, 0, []),
       (.EventFieldValue, 1, "$.a".toList),
       (.EventObjectEnd, 1, "$".toList),
       (.EventStreamEnd, 0, [])] ∧
    ((Parser.FeedString isLetter NewParser "\x7b\x7d".toList).1.Close true).trace.map
        (fun e => (e.Typ, e.pathSegments.length, e.Path)) =
      [(.EventObjectStart, 0, []), (.EventObjectEnd, 0, []), (.EventStreamEnd, 0, [])] := by
  rw [Parser.FeedString_indep isLetter (fun _ => false) NewParser NewTokenizer _ rfl (by decide),
    Parser.FeedString_indep isLetter (fun _ => false) NewParser NewTokenizer _ rfl (by decide)]
  decide

/-- C23: over every sequence of Feed and Close calls, on any parser, no event
added to the trace carries a value with both Complete and Aborted set; so no
event a fresh parser emits does. -/
theorem complete_aborted_exclusive (isLetter : Char → Bool) (ops : List Op) :
    (∀ p : Parser, ∃ evs, (runOps isLetter p ops).trace = p.trace ++ evs ∧
      ∀ e ∈ evs, ∀ v, e.Value = some v → ¬ (v.Complete = true ∧ v.Aborted = true)) ∧
    (∀ e ∈ (runOps isLetter NewParser ops).trace, ∀ v, e.Value = some v →
      ¬ (v.Complete = true ∧ v.Aborted = true)) := by
  have key : ∀ p : Parser, ∃ evs, (runOps isLetter p ops).trace = p.trace ++ evs ∧
      ∀ e ∈ evs, ∀ v, e.Value = some v → ¬ (v.Complete = true ∧ v.Aborted = true) := by
    intro p
    obtain ⟨evs, h1, h2⟩ := (Parser.Regular.of_same p).of_ops isLetter ops
    refine ⟨evs, h1, fun e he v hv => ?_⟩
    rcases ((h2 e he).2.2 v hv).1 with h | h <;> simp [h]
  refine ⟨key, ?_⟩
  obtain ⟨evs, h1, h2⟩ := key NewParser
  intro e he
  rw [h1] at he
  exact h2 e (by simpa [NewParser] using he)

namespace Parser

theorem Quiet.keep_same (p : Parser) : Quiet p p := ⟨rfl, rfl, [], by simp, by simp⟩

theorem Quiet.keep_update {p q r : Parser} (h : Quiet p q) (hk : r.curValueKind = q.curValueKind)
    (htk : r.tokenizer = q.tokenizer) (ht : r.trace = q.trace) : Quiet p r := by
  obtain ⟨h1, h2, evs, h3, h4⟩ := h
  exact ⟨hk.trans h1, htk.trans h2, evs, ht.trans h3, h4⟩

theorem Quiet.keep_emit {p q : Parser} (h : Quiet p q) (ev : Event)
    (hb : (ev.Typ == .EventFieldValue) = false) : Quiet p (emit q ev) := by
  have hty : ev.Typ ≠ .EventFieldValue := by
    intro e
    rw [e] at hb
    cases hb
  obtain ⟨h1, h2, evs, h3, h4⟩ := h
  refine ⟨by simpa using h1, by simpa using h2,
    evs ++ [{ ev with pathSegments := emitSegments q }], by simp [h3], ?_⟩
  intro e he
  rcases List.mem_append.mp he with he | he
  · exact h4 e he
  · rw [List.mem_singleton.mp he]
    exact hty

theorem Quiet.keep_advance {p q : Parser} (h : Quiet p q) : Quiet p (advanceAfterValue q) := by
  unfold advanceAfterValue
  split
  · exact h.keep_update rfl rfl rfl
  · split
    · exact h.keep_update rfl rfl rfl
    · exact (h.keep_emit _ (by rfl)).keep_update rfl rfl rfl

theorem Quiet.keep_containerStart {p q : Parser} (h : Quiet p q) :
    Quiet p (onObjectStart q) ∧ Quiet p (onArrayStart q) := by
  constructor
  · unfold onObjectStart
    apply Quiet.keep_emit _ _ (by rfl)
    exact h.keep_update rfl rfl rfl
  · unfold onArrayStart
    apply Quiet.keep_emit _ _ (by rfl)
    exact h.keep_update rfl rfl rfl

theorem Quiet.keep_containerEnd {p q : Parser} (h : Quiet p q) :
    Quiet p (onObjectEnd q) ∧ Quiet p (onArrayEnd q) := by
  constructor
  · have h1 := h.keep_emit { Typ := .EventObjectEnd, pathOpts := { excludeTop := true } } rfl
    have h2 : Quiet p { pop (emit q { Typ := .EventObjectEnd, pathOpts := { excludeTop := true } }) with
        segmentsDirty := true } := h1.keep_update rfl rfl rfl
    unfold onObjectEnd
    split
    · exact h.keep_update rfl rfl rfl
    · split
      · exact h.keep_update rfl rfl rfl
      · simp only
        split
        · exact h2.keep_update rfl rfl rfl
        · split
          · have h3 := h2.keep_emit
              { Typ := .EventArrayItem, pathOpts := {},
                Value := some { Kind := .ValueObject, Complete := true } } rfl
            exact h3.keep_update rfl rfl rfl
          · split <;> exact h2.keep_update rfl rfl rfl
  · have h1 := h.keep_emit { Typ := .EventArrayEnd, pathOpts := { excludeTop := true } } rfl
    have h2 : Quiet p { pop (emit q { Typ := .EventArrayEnd, pathOpts := { excludeTop := true } }) with
        segmentsDirty := true } := h1.keep_update rfl rfl rfl
    unfold onArrayEnd
    split
    · exact h.keep_update rfl rfl rfl
    · split
      · exact h.keep_update rfl rfl rfl
      · simp only
        split
        · exact h2.keep_update rfl rfl rfl
        · split
          · have h3 := h2.keep_emit
              { Typ := .EventArrayItem, pathOpts := {},
                Value := some { Kind := .ValueArray, Complete := true } } rfl
            exact h3.keep_update rfl rfl rfl
          · split <;> exact h2.keep_update rfl rfl rfl

theorem Quiet.keep_comma {p q : Parser} (h : Quiet p q) : Quiet p (onComma q) := by
  unfold onComma
  repeat' split
  all_goals exact h.keep_update rfl rfl rfl

theorem Quiet.keep_structural {p q : Parser} (h : Quiet p q) (tok : Token)
    (hs : tok.Typ.structural = true) : Quiet p (OnToken q tok) := by
  obtain ⟨ty, v, b⟩ := tok
  cases ty <;> simp [TokenType.structural] at hs
  · exact h.keep_containerStart.1
  · exact h.keep_containerEnd.1
  · exact h.keep_containerStart.2
  · exact h.keep_containerEnd.2
  · exact h.keep_update (r := onColon q) rfl rfl rfl
  · exact h.keep_comma

theorem Quiet.keep_tokens {p : Parser} (toks : List Token)
    (hs : ∀ tok ∈ toks, tok.Typ.structural = true) :
    ∀ q : Parser, Quiet p q → Quiet p (toks.foldl OnToken q) := by
  induction toks with
  | nil => intro q h; exact h
  | cons tok toks ih =>
    intro q h
    exact ih (fun x hx => hs x (List.mem_cons_of_mem _ hx)) _
      (h.keep_structural tok (hs tok (List.mem_cons_self _ _)))

theorem consumeIdle_structural (t : Tokenizer) (c : Char)
    (hc : Tokenizer.isNumberChar c = false) :
    ∀ tok ∈ (Tokenizer.consumeIdle t c).2, tok.Typ.structural = true := by
  have hd : (Tokenizer.isDigit c || c == '-') = false := by
    simp only [Tokenizer.isNumberChar, Bool.or_eq_false_iff] at hc
    simp [hc.1.1.1.1.1, hc.2]
  by_cases h1 : c = '\x7b'
  · subst h1; simp [Tokenizer.consumeIdle, TokenType.structural]
  by_cases h2 : c = '\x7d'
  · subst h2; simp [Tokenizer.consumeIdle, TokenType.structural]
  by_cases h3 : c = '['
  · subst h3; simp [Tokenizer.consumeIdle, TokenType.structural]
  by_cases h4 : c = ']'
  · subst h4; simp [Tokenizer.consumeIdle, TokenType.structural]
  by_cases h5 : c = ':'
  · subst h5; simp [Tokenizer.consumeIdle, TokenType.structural]
  by_cases h6 : c = ','
  · subst h6; simp [Tokenizer.consumeIdle, TokenType.structural]
  by_cases h7 : c = '"'
  · subst h7; simp [Tokenizer.consumeIdle]
  by_cases h8 : c = ' ' ∨ c = '\n' ∨ c = '\r' ∨ c = '\t'
  · simp [Tokenizer.consumeIdle, h1, h2, h3, h4, h5, h6, h7, h8]
  by_cases h10 : Tokenizer.isKeywordStart c = true
  · simp [Tokenizer.consumeIdle, h1, h2, h3, h4, h5, h6, h7, h8, hd, h10]
  · simp [Tokenizer.consumeIdle, h1, h2, h3, h4, h5, h6, h7, h8, hd, h10]

/-- The end of a number, not closing: one complete FieldValue with the
accumulated text, then events that are not FieldValue. -/
theorem advanceAfterValue_quiet (r : Parser) :
    ∃ tail, (advanceAfterValue r).trace = r.trace ++ tail ∧
      (∀ e ∈ tail, e.Typ ≠ .EventFieldValue) ∧
      (advanceAfterValue r).curValueKind = r.curValueKind ∧
      (advanceAfterValue r).tokenizer = r.tokenizer := by
  obtain ⟨h1, h2, evs, h3, h4⟩ := (Quiet.keep_same r).keep_advance
  exact ⟨evs, h3, h4, h1, h2⟩

/-- The end of a number, not closing: one complete FieldValue with the
accumulated text, then events that are not FieldValue. -/
theorem onNumberEnd_trace (q : Parser) (hcl : q.closing = false) :
    ∃ tail, (onNumberEnd q).trace =
        q.trace ++ completeValue q.emitSegments .ValueNumber (.str q.curNumber) :: tail ∧
      (∀ e ∈ tail, e.Typ ≠ .EventFieldValue) ∧
      (onNumberEnd q).curValueKind = .valNone ∧ (onNumberEnd q).tokenizer = q.tokenizer := by
  unfold onNumberEnd
  rw [if_neg (by simp [hcl])]
  simp only [hcl, Bool.not_false, if_true, emit_closing]
  generalize hr : emit _ _ = r
  obtain ⟨tail, k1, k2, k3, k4⟩ := advanceAfterValue_quiet r
  refine ⟨tail, ?_, k2, ?_, ?_⟩
  · rw [k1, ← hr]
    simp [completeValue, emitSegments]
  · rw [k3, ← hr]
    simp
  · rw [k4, ← hr]
    simp

/-- The character that ends a number: the parser delivers the number by one
complete FieldValue and then handles the character as in the Idle state. -/
theorem consumeRune_number_terminator (f : Char → Bool) (q : Parser) (tn : Tokenizer) (c : Char)
    (ht : q.tokenizer = some tn) (hs : tn.state = .tNumber) (hcl : q.closing = false)
    (hc : Tokenizer.isNumberChar c = false) :
    ∃ tail, (consumeRune f q c).trace =
        q.trace ++ completeValue q.emitSegments .ValueNumber (.str q.curNumber) :: tail ∧
      (∀ e ∈ tail, e.Typ ≠ .EventFieldValue) ∧
      (consumeRune f q c).curValueKind = .valNone ∧ (consumeRune f q c).tokenizer.isSome := by
  rw [consumeRune_number_end f q tn c ht hs hc]
  obtain ⟨tail, h1, h2, h3, h4⟩ :=
    onNumberEnd_trace { q with tokenizer := some { tn with state := .tIdle } } hcl
  generalize onNumberEnd { q with tokenizer := some { tn with state := .tIdle } } = q1 at h1 h3 h4
  have hq1 : q1.tokenizer = some { tn with state := .tIdle } := h4
  unfold consumeRune
  rw [hq1]
  simp only [deliver, Tokenizer.Consume]
  have hq := Quiet.keep_tokens (Tokenizer.consumeIdle { tn with state := .tIdle } c).2
    (consumeIdle_structural _ c hc)
    { q1 with tokenizer := some (Tokenizer.consumeIdle { tn with state := .tIdle } c).1 }
    (Quiet.keep_same _)
  obtain ⟨a1, a2, evs, a3, a4⟩ := hq
  refine ⟨tail ++ evs, ?_, ?_, ?_, ?_⟩
  · rw [a3]
    simp only
    rw [h1]
    simp [emitSegments]
  · intro e he
    rcases List.mem_append.mp he with he | he
    · exact h2 e he
    · exact a4 e he
  · rw [a1]
    exact h3
  · rw [a2]
    rfl

end Parser

namespace Parser

/-- A feed of number characters inside a number only extends the accumulated text. -/
theorem FeedString_number_chars (f : Char → Bool) (q : Parser) (tn : Tokenizer) (s : Str)
    (ht : q.tokenizer = some tn) (hs : tn.state = .tNumber) (he : q.err = none)
    (hk : q.curValueKind = .valNumber) (hcs : ∀ x ∈ s, Tokenizer.isNumberChar x = true) :
    FeedString f q s = ({ q with curNumber := q.curNumber ++ s }, none) := by
  rw [FeedString_eq f q s (by rw [ht]; rfl) he, feedLoop_number_chars f s q tn ht hs he hcs]
  obtain ⟨st, stk, cvk, cs, cn, cl, cb, subs, tk, err, cached, dirty, lvk, tr, calls⟩ := q
  simp only at hk
  subst hk
  simp [finishFeed, flushStringChunk]

/-- Empty feeds after a value has been delivered change nothing. -/
theorem feed_empties_done (f : Char → Bool) (q : Parser) (hk : q.curValueKind = .valNone)
    (ht : q.tokenizer.isSome) (cs : List Str) (hcs : cs.flatten = []) :
    ∀ e : Option Error, (cs.foldl (fun acc c => FeedString f acc.1 c) (q, e)).1 = q := by
  induction cs with
  | nil => intro e; rfl
  | cons c cs ih =>
    intro e
    simp only [List.flatten_cons, List.append_eq_nil] at hcs
    obtain ⟨rfl, h2⟩ := hcs
    have h1 : (FeedString f q []).1 = q := by
      cases he : q.err with
      | some e' => rw [FeedString_errored f q [] e' ht he]
      | none =>
        rw [FeedString_eq f q [] ht he]
        simp [finishFeed, feedLoop, flushStringChunk_of_valNone q hk]
    simp only [List.foldl]
    have := ih h2 (FeedString f q []).2
    rw [show FeedString f q [] = ((FeedString f q []).1, (FeedString f q []).2) from rfl, h1]
    exact this

/-- The feed that brings the character ending a number. -/
theorem FeedString_number_terminator (f : Char → Bool) (q : Parser) (tn : Tokenizer) (v : Str)
    (c : Char) (ht : q.tokenizer = some tn) (hs : tn.state = .tNumber) (he : q.err = none)
    (hk : q.curValueKind = .valNumber) (hcl : q.closing = false)
    (hv : ∀ x ∈ v, Tokenizer.isNumberChar x = true) (hc : Tokenizer.isNumberChar c = false) :
    (FeedString f q (v ++ [c])).1 = consumeRune f { q with curNumber := q.curNumber ++ v } c := by
  have h1 := feedLoop_number_chars f v q tn ht hs he hv
  have h2 : ({ q with curNumber := q.curNumber ++ v,
                      curValueKind := if v = [] then q.curValueKind else .valNumber } : Parser) =
      { q with curNumber := q.curNumber ++ v } := by
    obtain ⟨st, stk, cvk, cs, cn, cl, cb, subs, tk, err, cached, dirty, lvk, tr, calls⟩ := q
    simp only at hk
    subst hk
    simp
  rw [h2] at h1
  obtain ⟨tail, _, _, k3, _⟩ := consumeRune_number_terminator f
    { q with curNumber := q.curNumber ++ v } tn c ht hs hcl hc
  rw [FeedString_eq f q _ (by rw [ht]; rfl) he,
    feedLoop_append_none f v [c] q (by rw [h1]), h1, feedLoop_single]
  cases hq : (consumeRune f { q with curNumber := q.curNumber ++ v } c).err with
  | some e => rfl
  | none =>
    simp only [finishFeed]
    exact flushStringChunk_of_valNone _ k3

/-- Inside a number, the chunks that bring the rest of its text and the
character after it leave the parser as the single feed of that text does. -/
theorem chunks_in_number (f : Char → Bool) (c : Char) (hc : Tokenizer.isNumberChar c = false) :
    ∀ (chunks : List Str) (v : Str) (q : Parser) (tn : Tokenizer) (e0 : Option Error),
      q.tokenizer = some tn → tn.state = .tNumber → q.err = none →
      q.curValueKind = .valNumber → q.closing = false →
      (∀ x ∈ v, Tokenizer.isNumberChar x = true) → chunks.flatten = v ++ [c] →
      (chunks.foldl (fun acc ch => FeedString f acc.1 ch) (q, e0)).1 =
        consumeRune f { q with curNumber := q.curNumber ++ v } c := by
  intro chunks
  induction chunks with
  | nil =>
    intro v q tn e0 _ _ _ _ _ _ hfl
    simp at hfl
  | cons ch rest ih =>
    intro v q tn e0 ht hs he hk hcl hv hfl
    simp only [List.flatten_cons] at hfl
    simp only [List.foldl]
    have inside : ∀ a' : Str, v = ch ++ a' → rest.flatten = a' ++ [c] →
        (rest.foldl (fun acc ch => FeedString f acc.1 ch) (FeedString f q ch)).1 =
          consumeRune f { q with curNumber := q.curNumber ++ v } c := by
      intro a' hva hrest
      have hch : ∀ x ∈ ch, Tokenizer.isNumberChar x = true :=
        fun x hx => hv x (by rw [hva]; exact List.mem_append_left _ hx)
      rw [FeedString_number_chars f q tn ch ht hs he hk hch]
      have := ih a' { q with curNumber := q.curNumber ++ ch } tn none ht hs he hk hcl
        (fun x hx => hv x (by rw [hva]; exact List.mem_append_right _ hx)) hrest
      rw [this, hva]
      simp [List.append_assoc]
    rcases List.append_eq_append_iff.mp hfl with ⟨a', hva, hrest⟩ | ⟨c', hch, hcc⟩
    · exact inside a' hva hrest
    · cases c' with
      | nil =>
        simp only [List.append_nil] at hch
        simp only [List.nil_append] at hcc
        exact inside [] (by simp [hch]) (by simp [← hcc])
      | cons x xs =>
        simp only [List.cons_append, List.cons.injEq] at hcc
        obtain ⟨rfl, hxs⟩ := hcc
        obtain ⟨rfl, hrest⟩ := List.append_eq_nil.mp hxs.symm
        subst hch
        obtain ⟨tail, _, _, k3, k4⟩ := consumeRune_number_terminator f
          { q with curNumber := q.curNumber ++ v } tn c ht hs hcl hc
        have h1 := FeedString_number_terminator f q tn v c ht hs he hk hcl hv hc
        rw [show FeedString f q (v ++ [c]) =
          ((FeedString f q (v ++ [c])).1, (FeedString f q (v ++ [c])).2) from rfl, h1]
        exact feed_empties_done f _ k3 k4 rest hrest _

/-- From a parser between tokens, the chunks that bring a number text and the
character after it leave the parser as the single feed of that text does. -/
theorem chunks_number (f : Char → Bool) (c0 : Char) (cs : Str) (c : Char)
    (hc0 : Tokenizer.isDigit c0 = true ∨ c0 = '-')
    (hcs : ∀ x ∈ cs, Tokenizer.isNumberChar x = true) (hc : Tokenizer.isNumberChar c = false)
    (p : Parser) (t : Tokenizer) (ht : p.tokenizer = some t) (hs : t.state = .tIdle)
    (he : p.err = none) (hcl : p.closing = false)
    (hb : p.curValueKind = .valString → p.chunkBuffer = []) :
    ∀ (chunks : List Str) (e0 : Option Error), chunks.flatten = c0 :: cs ++ [c] →
      (chunks.foldl (fun acc ch => FeedString f acc.1 ch) (p, e0)).1 =
        consumeRune f
          { p with tokenizer := some { t with state := .tNumber, buf := [c0] },
                   curValueKind := .valNumber, curNumber := p.curNumber ++ c0 :: cs } c := by
  intro chunks
  induction chunks with
  | nil => intro e0 hfl; simp at hfl
  | cons ch rest ih =>
    intro e0 hfl
    simp only [List.flatten_cons] at hfl
    simp only [List.foldl]
    cases ch with
    | nil =>
      have h1 : FeedString f p [] = (p, none) := by
        rw [FeedString_eq f p [] (by rw [ht]; rfl) he]
        simp only [feedLoop, finishFeed]
        unfold flushStringChunk
        split
        · rfl
        · rename_i hv
          rw [if_pos (hb (not_not.mp hv))]
      rw [h1]
      exact ih none (by simpa using hfl)
    | cons x xs =>
      simp only [List.cons_append, List.cons.injEq] at hfl
      obtain ⟨rfl, hrest⟩ := hfl
      have hstep := consumeRune_number_start f p t x ht hs hc0
      have hfeed : FeedString f p (x :: xs) = FeedString f (consumeRune f p x) xs := by
        rw [FeedString_eq f p _ (by rw [ht]; rfl) he,
          FeedString_eq f _ xs (by rw [hstep]; rfl) (by rw [hstep]; exact he),
          feedLoop_cons_of_err_none f x xs p (by rw [hstep]; exact he)]
      rw [hfeed]
      have key := chunks_in_number f c hc (xs :: rest) cs (consumeRune f p x)
        { t with state := .tNumber, buf := [x] } none (by rw [hstep]) rfl
        (by rw [hstep]; exact he) (by rw [hstep]) (by rw [hstep]; exact hcl) hcs
        (by simpa using hrest)
      simp only [List.foldl] at key
      rw [key, hstep]
      simp

end Parser

/-- C24: over every sequence of Feed and Close calls, on any parser, every event
added to the trace whose value has Append set is a FieldValue of kind String
with a non-empty string value and with Complete and Aborted unset.  And for a
parser between tokens (not closing, no error, no undelivered string chunk), a
number text `w` followed by a character `c` that ends it, split into feeds in
any way, is delivered by exactly one FieldValue, complete, carrying the whole
accumulated text: it is the first event added, and no other event added is a
FieldValue, so there is no append event. -/
theorem append_implies_string (isLetter : Char → Bool) (p : Parser) :
    (∀ ops : List Op, ∃ evs, (runOps isLetter p ops).trace = p.trace ++ evs ∧
      ∀ e ∈ evs, ∀ v, e.Value = some v → v.Append = true →
        e.Typ = .EventFieldValue ∧ v.Kind = .ValueString ∧
        (∃ s, v.Value = .str s ∧ s ≠ []) ∧ v.Complete = false ∧ v.Aborted = false) ∧
    (∀ (t : Tokenizer) (w : Str) (c : Char) (chunks : List Str),
      p.tokenizer = some t → t.state = .tIdle → p.err = none → p.closing = false →
      (p.curValueKind = .valString → p.chunkBuffer = []) →
      numberText w → Tokenizer.isNumberChar c = false → chunks.flatten = w ++ [c] →
      ∃ tail, (feedChunks isLetter p chunks).1.trace =
          p.trace ++ completeValue p.emitSegments .ValueNumber (.str (p.curNumber ++ w)) :: tail ∧
        ∀ e ∈ tail, e.Typ ≠ .EventFieldValue) := by
  constructor
  · intro ops
    obtain ⟨evs, h1, h2⟩ := (Parser.Regular.of_same p).of_ops isLetter ops
    exact ⟨evs, h1, fun e he v hv ha => ((h2 e he).2.2 v hv).2 ha⟩
  · intro t w c chunks ht hs he hcl hb hw hc hfl
    obtain ⟨c0, cs, rfl, hc0, hcs⟩ := hw
    have key := Parser.chunks_number isLetter c0 cs c hc0 hcs hc p t ht hs he hcl hb chunks none hfl
    unfold feedChunks
    rw [key]
    obtain ⟨tail, k1, k2, _, _⟩ := Parser.consumeRune_number_terminator isLetter
      { p with tokenizer := some { t with state := .tNumber, buf := [c0] },
               curValueKind := .valNumber, curNumber := p.curNumber ++ c0 :: cs }
      { t with state := .tNumber, buf := [c0] } c rfl rfl hcl hc
    exact ⟨tail, k1, k2⟩

/-- Instance of the number part of the append statement: inside a root array,
`12.5,` fed as `1`, `2.`, `5,`. -/
theorem append_implies_string_witness :
    ∃ tail,
      (feedChunks Char.isAlpha (Parser.FeedString Char.isAlpha NewParser ['[']).1
          ["1".toList, "2.".toList, "5,".toList]).1.trace =
        (Parser.FeedString Char.isAlpha NewParser ['[']).1.trace ++
          completeValue (Parser.FeedString Char.isAlpha NewParser ['[']).1.emitSegments
            .ValueNumber (.str ([] ++ "12.5".toList)) :: tail ∧
      ∀ e ∈ tail, e.Typ ≠ .EventFieldValue :=
  (append_implies_string Char.isAlpha (Parser.FeedString Char.isAlpha NewParser ['[']).1).2
    NewTokenizer "12.5".toList ',' ["1".toList, "2.".toList, "5,".toList]
    (by decide) rfl (by decide) (by decide) (by decide)
    ⟨'1', "2.5".toList, rfl, Or.inl (by decide), by decide⟩ (by decide) (by decide)

/-! ## The tokenizer (C25 to C30) -/

namespace Tokenizer

theorem run_append (f : Char → Bool) (a b : List Char) : ∀ t : Tokenizer,
    run f t (a ++ b) = ((run f (run f t a).1 b).1, (run f t a).2 ++ (run f (run f t a).1 b).2) := by
  induction a with
  | nil => intro t; simp [run]
  | cons c cs ih => intro t; simp [run, ih, List.append_assoc]

theorem run_single (f : Char → Bool) (t : Tokenizer) (c : Char) : run f t [c] = Consume f t c := by
  simp [run]

theorem runChunks_from (f : Char → Bool) (chunks : List Str) : ∀ (t : Tokenizer) (acc : List Token),
    chunks.foldl
        (fun acc c => ((run f acc.1 c).1, acc.2 ++ (run f acc.1 c).2)) (t, acc) =
      ((run f t chunks.flatten).1, acc ++ (run f t chunks.flatten).2) := by
  induction chunks with
  | nil => intro t acc; simp [run]
  | cons c cs ih =>
    intro t acc
    simp only [List.foldl_cons, List.flatten_cons, ih, run_append, List.append_assoc]

/-- Cutting the character stream between calls does not change the tokens. -/
theorem runChunks_eq (f : Char → Bool) (t : Tokenizer) (chunks : List Str) :
    runChunks f t chunks = run f t chunks.flatten := by
  unfold runChunks
  rw [runChunks_from]
  simp

theorem alike_refl (t : Tokenizer) : alike t t := ⟨rfl, fun _ => rfl⟩

theorem consumeIdle_alike (t u : Tokenizer) (r : Char) :
    (consumeIdle t r).2 = (consumeIdle u r).2 ∧
    (alike t u → alike (consumeIdle t r).1 (consumeIdle u r).1) := by
  by_cases h1 : r = '\x7b'
  · subst h1; exact ⟨by simp [consumeIdle], by simp [consumeIdle, alike]⟩
  by_cases h2 : r = '\x7d'
  · subst h2; exact ⟨by simp [consumeIdle], by simp [consumeIdle, alike]⟩
  by_cases h3 : r = '['
  · subst h3; exact ⟨by simp [consumeIdle], by simp [consumeIdle, alike]⟩
  by_cases h4 : r = ']'
  · subst h4; exact ⟨by simp [consumeIdle], by simp [consumeIdle, alike]⟩
  by_cases h5 : r = ':'
  · subst h5; exact ⟨by simp [consumeIdle], by simp [consumeIdle, alike]⟩
  by_cases h6 : r = ','
  · subst h6; exact ⟨by simp [consumeIdle], by simp [consumeIdle, alike]⟩
  by_cases h7 : r = '"'
  · subst h7; exact ⟨by simp [consumeIdle], by simp [consumeIdle, alike]⟩
  by_cases h8 : r = ' ' ∨ r = '\n' ∨ r = '\r' ∨ r = '\t'
  · exact ⟨by simp [consumeIdle, h1, h2, h3, h4, h5, h6, h7, h8],
      by simp [consumeIdle, h1, h2, h3, h4, h5, h6, h7, h8]⟩
  by_cases h9 : (isDigit r || r == '-') = true
  · exact ⟨by simp [consumeIdle, h1, h2, h3, h4, h5, h6, h7, h8, h9],
      by simp [consumeIdle, h1, h2, h3, h4, h5, h6, h7, h8, h9, alike]⟩
  by_cases h10 : isKeywordStart r = true
  · exact ⟨by simp [consumeIdle, h1, h2, h3, h4, h5, h6, h7, h8, h9, h10],
      by simp [consumeIdle, h1, h2, h3, h4, h5, h6, h7, h8, h9, h10, alike]⟩
  · exact ⟨by simp [consumeIdle, h1, h2, h3, h4, h5, h6, h7, h8, h9, h10],
      by simp [consumeIdle, h1, h2, h3, h4, h5, h6, h7, h8, h9, h10]⟩

theorem Consume_alike (f : Char → Bool) (t u : Tokenizer) (h : alike t u) (r : Char) :
    (Consume f t r).2 = (Consume f u r).2 ∧ alike (Consume f t r).1 (Consume f u r).1 := by
  obtain ⟨ts, tb⟩ := t
  obtain ⟨us, ub⟩ := u
  obtain ⟨h1, h2⟩ := h
  simp only at h1 h2
  subst h1
  cases ts with
  | tIdle => exact ⟨(consumeIdle_alike _ _ r).1, (consumeIdle_alike _ _ r).2 ⟨rfl, h2⟩⟩
  | tString =>
    simp only [Consume, consumeString]
    repeat' split
    all_goals simp [alike]
  | tStringEscape => simp [Consume, consumeStringEscape, alike]
  | tNumber =>
    simp only [Consume, consumeNumber]
    split
    · simp [alike]
    · exact ⟨by simp [(consumeIdle_alike { state := .tIdle, buf := tb }
          { state := .tIdle, buf := ub } r).1],
        (consumeIdle_alike _ _ r).2 ⟨rfl, by simp⟩⟩
  | tKeyword =>
    have hb : tb = ub := h2 rfl
    subst hb
    exact ⟨rfl, alike_refl _⟩

/-- Tokenizers that are alike emit the same tokens on every input. -/
theorem run_alike (f : Char → Bool) (s : List Char) : ∀ t u : Tokenizer, alike t u →
    (run f t s).2 = (run f u s).2 ∧ alike (run f t s).1 (run f u s).1 := by
  induction s with
  | nil => intro t u h; exact ⟨rfl, h⟩
  | cons c cs ih =>
    intro t u h
    have h1 := Consume_alike f t u h c
    have h2 := ih _ _ h1.2
    simp only [run]
    exact ⟨by rw [h1.1, h2.1], h2.2⟩

end Tokenizer

namespace Tokenizer

theorem run_string_body (f : Char → Bool) (s : Str) (hs : plainChars s) (b : List Char) :
    run f { state := .tString, buf := b } s =
      ({ state := .tString, buf := b }, stringChunkTokens s) := by
  induction s with
  | nil => simp [run, stringChunkTokens]
  | cons c cs ih =>
    have hc := hs c (List.mem_cons_self _ _)
    have ih' := ih (fun x hx => hs x (List.mem_cons_of_mem _ hx))
    have h1 : Consume f { state := .tString, buf := b } c =
        ({ state := .tString, buf := b }, [{ Typ := .TokenStringChunk, Value := [c] }]) := by
      simp [Consume, consumeString, hc.1, hc.2]
    simp only [run, h1, ih']
    simp [stringChunkTokens]

theorem run_quoted (f : Char → Bool) (s : Str) (hs : plainChars s) (b : List Char) :
    run f { state := .tIdle, buf := b } ('"' :: s ++ ['"']) =
      ({ state := .tIdle, buf := [] }, stringChunkTokens s ++ [{ Typ := .TokenStringEnd }]) := by
  have h1 : Consume f { state := .tIdle, buf := b } '"' = ({ state := .tString, buf := [] }, []) := by
    simp [Consume, consumeIdle]
  have h2 : Consume f { state := .tString, buf := [] } '"' =
      ({ state := .tIdle, buf := [] }, [{ Typ := .TokenStringEnd }]) := by
    simp [Consume, consumeString]
  rw [show '"' :: s ++ ['"'] = ['"'] ++ (s ++ ['"']) from rfl, run_append, run_single, h1,
    run_append, run_string_body f s hs, run_single, h2]
  simp

theorem run_number_chars (f : Char → Bool) (cs : Str)
    (hcs : ∀ x ∈ cs, isNumberChar x = true) (t : Tokenizer) (ht : t.state = .tNumber) :
    run f t cs = (t, numberChunkTokens cs) := by
  induction cs with
  | nil => simp [run, numberChunkTokens]
  | cons c cs ih =>
    have hc := hcs c (List.mem_cons_self _ _)
    have ih' := ih (fun x hx => hcs x (List.mem_cons_of_mem _ hx))
    have h1 : Consume f t c = (t, [{ Typ := .TokenNumberChunk, Value := [c] }]) := by
      simp [Consume, ht, consumeNumber, hc]
    simp only [run, h1, ih']
    simp [numberChunkTokens]

theorem run_number (f : Char → Bool) (w : Str) (hw : numberText w) (b : List Char) :
    ∃ b', run f { state := .tIdle, buf := b } w =
      ({ state := .tNumber, buf := b' }, numberChunkTokens w) := by
  obtain ⟨c, cs, rfl, hc, hcs⟩ := hw
  refine ⟨[c], ?_⟩
  have h1 : Consume f { state := .tIdle, buf := b } c =
      ({ state := .tNumber, buf := [c] }, [{ Typ := .TokenNumberChunk, Value := [c] }]) := by
    simp [Consume, Parser.consumeIdle_numberStart _ c hc]
  simp only [run, h1, run_number_chars f cs hcs { state := .tNumber, buf := [c] } rfl]
  simp [numberChunkTokens]

theorem Consume_number_end (f : Char → Bool) (b b' : List Char) (c : Char)
    (hc : isNumberChar c = false) :
    (Consume f { state := .tNumber, buf := b' } c).2 =
      { Typ := .TokenNumberEnd } :: (Consume f { state := .tIdle, buf := b } c).2 ∧
    alike (Consume f { state := .tNumber, buf := b' } c).1
      (Consume f { state := .tIdle, buf := b } c).1 := by
  have h := consumeIdle_alike { state := .tIdle, buf := b' } { state := .tIdle, buf := b } c
  constructor
  · simp only [Consume, consumeNumber, hc, Bool.false_eq_true, if_false]
    rw [h.1]
  · simp only [Consume, consumeNumber, hc, Bool.false_eq_true, if_false]
    exact h.2 ⟨rfl, by simp⟩

end Tokenizer

/-- C25: in the Idle state (whatever the scratch buffer holds), each of the six
structural characters emits exactly one token, of the type of the character,
and leaves the tokenizer as it was; a space, newline, carriage return or tab,
and every character that is neither structural nor the quote, the minus sign,
a digit, `t`, `f` or `n`, emits no token and leaves the tokenizer as it was. -/
theorem idle_state_tokens (isLetter : Char → Bool) (b : List Char) :
    Tokenizer.Consume isLetter { state := .tIdle, buf := b } '\x7b' =
      ({ state := .tIdle, buf := b }, [{ Typ := .TokenLBrace }]) ∧
    Tokenizer.Consume isLetter { state := .tIdle, buf := b } '\x7d' =
      ({ state := .tIdle, buf := b }, [{ Typ := .TokenRBrace }]) ∧
    Tokenizer.Consume isLetter { state := .tIdle, buf := b } '[' =
      ({ state := .tIdle, buf := b }, [{ Typ := .TokenLBracket }]) ∧
    Tokenizer.Consume isLetter { state := .tIdle, buf := b } ']' =
      ({ state := .tIdle, buf := b }, [{ Typ := .TokenRBracket }]) ∧
    Tokenizer.Consume isLetter { state := .tIdle, buf := b } ':' =
      ({ state := .tIdle, buf := b }, [{ Typ := .TokenColon }]) ∧
    Tokenizer.Consume isLetter { state := .tIdle, buf := b } ',' =
      ({ state := .tIdle, buf := b }, [{ Typ := .TokenComma }]) ∧
    (∀ r : Char, jsonSpace r →
      Tokenizer.Consume isLetter { state := .tIdle, buf := b } r =
        ({ state := .tIdle, buf := b }, [])) ∧
    (∀ r : Char, r ∉ ['\x7b', '\x7d', '[', ']', ':', ',', '"', '-', 't', 'f', 'n'] →
      Tokenizer.isDigit r = false →
      Tokenizer.Consume isLetter { state := .tIdle, buf := b } r =
        ({ state := .tIdle, buf := b }, [])) := by
  refine ⟨by simp [Tokenizer.Consume, Tokenizer.consumeIdle],
    by simp [Tokenizer.Consume, Tokenizer.consumeIdle],
    by simp [Tokenizer.Consume, Tokenizer.consumeIdle],
    by simp [Tokenizer.Consume, Tokenizer.consumeIdle],
    by simp [Tokenizer.Consume, Tokenizer.consumeIdle],
    by simp [Tokenizer.Consume, Tokenizer.consumeIdle], ?_, ?_⟩
  · intro r hr
    have h8 : r = ' ' ∨ r = '\n' ∨ r = '\r' ∨ r = '\t' := hr
    have h1 : r ≠ '\x7b' := by rintro rfl; revert h8; decide
    have h2 : r ≠ '\x7d' := by rintro rfl; revert h8; decide
    have h3 : r ≠ '[' := by rintro rfl; revert h8; decide
    have h4 : r ≠ ']' := by rintro rfl; revert h8; decide
    have h5 : r ≠ ':' := by rintro rfl; revert h8; decide
    have h6 : r ≠ ',' := by rintro rfl; revert h8; decide
    have h7 : r ≠ '"' := by rintro rfl; revert h8; decide
    simp [Tokenizer.Consume, Tokenizer.consumeIdle, h1, h2, h3, h4, h5, h6, h7, h8]
  · intro r hr hd
    simp only [List.mem_cons, List.mem_singleton, List.not_mem_nil, or_false, not_or] at hr
    obtain ⟨h1, h2, h3, h4, h5, h6, h7, h8, h9, h10, h11⟩ := hr
    by_cases hsp : r = ' ' ∨ r = '\n' ∨ r = '\r' ∨ r = '\t'
    · simp [Tokenizer.Consume, Tokenizer.consumeIdle, h1, h2, h3, h4, h5, h6, h7, hsp]
    · simp [Tokenizer.Consume, Tokenizer.consumeIdle, h1, h2, h3, h4, h5, h6, h7, hsp, hd, h8,
        Tokenizer.isKeywordStart, h9, h10, h11]

/-- C26: for a string body `s` without quote and backslash, consuming the quote,
the characters of `s` and the closing quote from Idle emits one StringChunk
token per character of `s`, each holding that character, in order, then one
StringEnd, and ends in Idle; the tokens and the final tokenizer are the same
however the character stream is cut into pieces between calls. -/
theorem string_one_token_per_character (isLetter : Char → Bool) (b : List Char) (s : Str)
    (hs : plainChars s) :
    Tokenizer.run isLetter { state := .tIdle, buf := b } ('"' :: s ++ ['"']) =
      ({ state := .tIdle, buf := [] }, stringChunkTokens s ++ [{ Typ := .TokenStringEnd }]) ∧
    (stringChunkTokens s).length = s.length ∧
    (∀ chunks : List Str, chunks.flatten = '"' :: s ++ ['"'] →
      Tokenizer.runChunks isLetter { state := .tIdle, buf := b } chunks =
        ({ state := .tIdle, buf := [] },
          stringChunkTokens s ++ [{ Typ := .TokenStringEnd }])) := by
  refine ⟨Tokenizer.run_quoted isLetter s hs b, by simp [stringChunkTokens], ?_⟩
  intro chunks hc
  rw [Tokenizer.runChunks_eq, hc, Tokenizer.run_quoted isLetter s hs b]

/-- Instance of the one-token-per-character statement: the string `"ab"` cut after its first two
characters. -/
theorem string_one_token_per_character_witness :
    plainChars "ab".toList ∧
    Tokenizer.run Char.isAlpha NewTokenizer "\"ab\"".toList =
      ({ state := .tIdle, buf := [] },
        [{ Typ := .TokenStringChunk, Value := ['a'] }, { Typ := .TokenStringChunk, Value := ['b'] },
         { Typ := .TokenStringEnd }]) ∧
    Tokenizer.runChunks Char.isAlpha NewTokenizer ["\"a".toList, "b\"".toList] =
      ({ state := .tIdle, buf := [] },
        [{ Typ := .TokenStringChunk, Value := ['a'] }, { Typ := .TokenStringChunk, Value := ['b'] },
         { Typ := .TokenStringEnd }]) :=
  ⟨by unfold plainChars; decide,
   (string_one_token_per_character Char.isAlpha [] "ab".toList (by unfold plainChars; decide)).1,
   (string_one_token_per_character Char.isAlpha [] "ab".toList (by unfold plainChars; decide)).2.2
     ["\"a".toList, "b\"".toList] rfl⟩

/-- C27: in the String state a backslash emits no token and moves to the escape
state; there, every character `c` (quote and backslash included) emits exactly
StringChunk(c) and returns to the String state, so the string does not end;
`"a\bc"` yields StringChunk(a), StringChunk(b), StringChunk(c), StringEnd. -/
theorem escape_pass_through (isLetter : Char → Bool) (b : List Char) :
    Tokenizer.Consume isLetter { state := .tString, buf := b } '\\' =
      ({ state := .tStringEscape, buf := b }, []) ∧
    (∀ c : Char, Tokenizer.Consume isLetter { state := .tStringEscape, buf := b } c =
      ({ state := .tString, buf := b }, [{ Typ := .TokenStringChunk, Value := [c] }])) ∧
    Tokenizer.run isLetter { state := .tIdle, buf := b } "\"a\\bc\"".toList =
      ({ state := .tIdle, buf := [] },
        [{ Typ := .TokenStringChunk, Value := ['a'] }, { Typ := .TokenStringChunk, Value := ['b'] },
         { Typ := .TokenStringChunk, Value := ['c'] }, { Typ := .TokenStringEnd }]) := by
  refine ⟨by simp [Tokenizer.Consume, Tokenizer.consumeString],
    fun c => by simp [Tokenizer.Consume, Tokenizer.consumeStringEscape], ?_⟩
  simp [Tokenizer.run, Tokenizer.Consume, Tokenizer.consumeIdle, Tokenizer.consumeString,
    Tokenizer.consumeStringEscape]

/-- C28: from Idle, a number text `w` (a digit or `-`, then digits, `.`, `e`,
`E`, `+`, `-`) followed by a character `c` outside that set emits one
NumberChunk per character of `w`, in order, then NumberEnd, then exactly the
tokens consuming `c` in Idle emits; the tokenizer is left in the state consuming
`c` from Idle produces (with the same scratch buffer where the state reads it),
and emits the same tokens on every further input. -/
theorem number_termination_refeeds (isLetter : Char → Bool) (b : List Char) (w : Str) (c : Char)
    (hw : numberText w) (hc : Tokenizer.isNumberChar c = false) :
    (Tokenizer.run isLetter { state := .tIdle, buf := b } (w ++ [c])).2 =
      numberChunkTokens w ++ { Typ := .TokenNumberEnd } ::
        (Tokenizer.Consume isLetter { state := .tIdle, buf := b } c).2 ∧
    (numberChunkTokens w).length = w.length ∧
    (Tokenizer.run isLetter { state := .tIdle, buf := b } (w ++ [c])).1.state =
      (Tokenizer.Consume isLetter { state := .tIdle, buf := b } c).1.state ∧
    Tokenizer.alike (Tokenizer.run isLetter { state := .tIdle, buf := b } (w ++ [c])).1
      (Tokenizer.Consume isLetter { state := .tIdle, buf := b } c).1 ∧
    (∀ s : List Char,
      (Tokenizer.run isLetter
          (Tokenizer.run isLetter { state := .tIdle, buf := b } (w ++ [c])).1 s).2 =
        (Tokenizer.run isLetter
          (Tokenizer.Consume isLetter { state := .tIdle, buf := b } c).1 s).2) := by
  obtain ⟨b', h1⟩ := Tokenizer.run_number isLetter w hw b
  have h2 := Tokenizer.Consume_number_end isLetter b b' c hc
  have e1 : Tokenizer.run isLetter { state := .tIdle, buf := b } (w ++ [c]) =
      ((Tokenizer.Consume isLetter { state := .tNumber, buf := b' } c).1,
        numberChunkTokens w ++ (Tokenizer.Consume isLetter { state := .tNumber, buf := b' } c).2) := by
    rw [Tokenizer.run_append, h1, Tokenizer.run_single]
  rw [e1]
  refine ⟨by simp [h2.1], by simp [numberChunkTokens], h2.2.1, h2.2, ?_⟩
  intro s
  exact (Tokenizer.run_alike isLetter s _ _ h2.2).1

/-- Instance of the number-termination statement: `-12.5e3` followed by a comma. -/
theorem number_termination_witness :
    numberText "-12.5e3".toList ∧ Tokenizer.isNumberChar ',' = false ∧
    (Tokenizer.run Char.isAlpha NewTokenizer "-12.5e3,".toList).2 =
      numberChunkTokens "-12.5e3".toList ++ [{ Typ := .TokenNumberEnd }, { Typ := .TokenComma }] ∧
    (Tokenizer.run Char.isAlpha NewTokenizer "-12.5e3,".toList).1.state = .tIdle :=
  ⟨⟨'-', "12.5e3".toList, rfl, Or.inr rfl, by decide⟩, by decide,
   (number_termination_refeeds Char.isAlpha [] "-12.5e3".toList ','
     ⟨'-', "12.5e3".toList, rfl, Or.inr rfl, by decide⟩ (by decide)).1,
   (number_termination_refeeds Char.isAlpha [] "-12.5e3".toList ','
     ⟨'-', "12.5e3".toList, rfl, Or.inr rfl, by decide⟩ (by decide)).2.2.1⟩

/-- C29: from Idle, the letters of `true` emit exactly one token, Bool(true), those
of `false` exactly one Bool(false), those of `null` exactly one Null; no proper
prefix of the word emits a token; afterwards the tokenizer is in Idle with an
empty scratch buffer, and a following comma emits just Comma. -/
theorem keyword_recognition (isLetter : Char → Bool) (hl : keywordLetters isLetter)
    (b : List Char) :
    Tokenizer.run isLetter { state := .tIdle, buf := b } "true".toList =
      ({ state := .tIdle, buf := [] }, [{ Typ := .TokenBool, BoolV := true }]) ∧
    Tokenizer.run isLetter { state := .tIdle, buf := b } "false".toList =
      ({ state := .tIdle, buf := [] }, [{ Typ := .TokenBool, BoolV := false }]) ∧
    Tokenizer.run isLetter { state := .tIdle, buf := b } "null".toList =
      ({ state := .tIdle, buf := [] }, [{ Typ := .TokenNull }]) ∧
    (∀ n, n < 4 →
      (Tokenizer.run isLetter { state := .tIdle, buf := b } ("true".toList.take n)).2 = []) ∧
    (∀ n, n < 5 →
      (Tokenizer.run isLetter { state := .tIdle, buf := b } ("false".toList.take n)).2 = []) ∧
    (∀ n, n < 4 →
      (Tokenizer.run isLetter { state := .tIdle, buf := b } ("null".toList.take n)).2 = []) ∧
    Tokenizer.run isLetter { state := .tIdle, buf := b } "true,".toList =
      ({ state := .tIdle, buf := [] },
        [{ Typ := .TokenBool, BoolV := true }, { Typ := .TokenComma }]) ∧
    Tokenizer.run isLetter { state := .tIdle, buf := b } "false,".toList =
      ({ state := .tIdle, buf := [] },
        [{ Typ := .TokenBool, BoolV := false }, { Typ := .TokenComma }]) ∧
    Tokenizer.run isLetter { state := .tIdle, buf := b } "null,".toList =
      ({ state := .tIdle, buf := [] }, [{ Typ := .TokenNull }, { Typ := .TokenComma }]) := by
  have h1 : isLetter 'r' = true := hl 'r' (by decide)
  have h2 : isLetter 'u' = true := hl 'u' (by decide)
  have h3 : isLetter 'e' = true := hl 'e' (by decide)
  have h4 : isLetter 'a' = true := hl 'a' (by decide)
  have h5 : isLetter 'l' = true := hl 'l' (by decide)
  have h6 : isLetter 's' = true := hl 's' (by decide)
  refine ⟨?_, ?_, ?_, ?_, ?_, ?_, ?_, ?_, ?_⟩
  · simp [Tokenizer.run, Tokenizer.Consume, Tokenizer.consumeIdle, Tokenizer.consumeKeyword,
      Tokenizer.isDigit, Tokenizer.isKeywordStart, h1, h2, h3]
  · simp [Tokenizer.run, Tokenizer.Consume, Tokenizer.consumeIdle, Tokenizer.consumeKeyword,
      Tokenizer.isDigit, Tokenizer.isKeywordStart, h4, h5, h6, h3]
  · simp [Tokenizer.run, Tokenizer.Consume, Tokenizer.consumeIdle, Tokenizer.consumeKeyword,
      Tokenizer.isDigit, Tokenizer.isKeywordStart, h2, h5]
  · intro n hn
    interval_cases n <;>
      simp [Tokenizer.run, Tokenizer.Consume, Tokenizer.consumeIdle, Tokenizer.consumeKeyword,
        Tokenizer.isDigit, Tokenizer.isKeywordStart, h1, h2, h3]
  · intro n hn
    interval_cases n <;>
      simp [Tokenizer.run, Tokenizer.Consume, Tokenizer.consumeIdle, Tokenizer.consumeKeyword,
        Tokenizer.isDigit, Tokenizer.isKeywordStart, h4, h5, h6, h3]
  · intro n hn
    interval_cases n <;>
      simp [Tokenizer.run, Tokenizer.Consume, Tokenizer.consumeIdle, Tokenizer.consumeKeyword,
        Tokenizer.isDigit, Tokenizer.isKeywordStart, h2, h5]
  · simp [Tokenizer.run, Tokenizer.Consume, Tokenizer.consumeIdle, Tokenizer.consumeKeyword,
      Tokenizer.isDigit, Tokenizer.isKeywordStart, h1, h2, h3]
  · simp [Tokenizer.run, Tokenizer.Consume, Tokenizer.consumeIdle, Tokenizer.consumeKeyword,
      Tokenizer.isDigit, Tokenizer.isKeywordStart, h4, h5, h6, h3]
  · simp [Tokenizer.run, Tokenizer.Consume, Tokenizer.consumeIdle, Tokenizer.consumeKeyword,
      Tokenizer.isDigit, Tokenizer.isKeywordStart, h2, h5]

/-- Instance of the keyword statement for a tokenizer that has just been created. -/
theorem keyword_recognition_witness :
    keywordLetters Char.isAlpha ∧
    Tokenizer.run Char.isAlpha NewTokenizer "true".toList =
      ({ state := .tIdle, buf := [] }, [{ Typ := .TokenBool, BoolV := true }]) ∧
    Tokenizer.run Char.isAlpha NewTokenizer "null,".toList =
      ({ state := .tIdle, buf := [] }, [{ Typ := .TokenNull }, { Typ := .TokenComma }]) :=
  ⟨by unfold keywordLetters; decide,
   (keyword_recognition Char.isAlpha (by unfold keywordLetters; decide) []).1,
   (keyword_recognition Char.isAlpha (by unfold keywordLetters; decide) []).2.2.2.2.2.2.2.2⟩

namespace Tokenizer

theorem consumeIdle_not_keyword (t : Tokenizer) (r : Char) :
    ∀ tok ∈ (consumeIdle t r).2, tok.isKeyword = false := by
  by_cases h1 : r = '\x7b'
  · subst h1; simp [consumeIdle, Token.isKeyword]
  by_cases h2 : r = '\x7d'
  · subst h2; simp [consumeIdle, Token.isKeyword]
  by_cases h3 : r = '['
  · subst h3; simp [consumeIdle, Token.isKeyword]
  by_cases h4 : r = ']'
  · subst h4; simp [consumeIdle, Token.isKeyword]
  by_cases h5 : r = ':'
  · subst h5; simp [consumeIdle, Token.isKeyword]
  by_cases h6 : r = ','
  · subst h6; simp [consumeIdle, Token.isKeyword]
  by_cases h7 : r = '"'
  · subst h7; simp [consumeIdle, Token.isKeyword]
  by_cases h8 : r = ' ' ∨ r = '\n' ∨ r = '\r' ∨ r = '\t'
  · simp [consumeIdle, h1, h2, h3, h4, h5, h6, h7, h8]
  by_cases h9 : (isDigit r || r == '-') = true
  · simp [consumeIdle, h1, h2, h3, h4, h5, h6, h7, h8, h9, Token.isKeyword]
  by_cases h10 : isKeywordStart r = true
  · simp [consumeIdle, h1, h2, h3, h4, h5, h6, h7, h8, h9, h10]
  · simp [consumeIdle, h1, h2, h3, h4, h5, h6, h7, h8, h9, h10]

/-- A letter in the Idle state: no token, and the tokenizer stays as it is or
starts a keyword with that letter. -/
theorem consumeIdle_letter (f : Char → Bool) (hi : lettersInert f) (t : Tokenizer) (r : Char)
    (hr : f r = true) :
    (consumeIdle t r).2 = [] ∧
    ((consumeIdle t r).1 = t ∨ (consumeIdle t r).1 = { t with state := .tKeyword, buf := [r] }) := by
  obtain ⟨hm, hd⟩ := hi r hr
  simp only [List.mem_cons, List.mem_singleton, List.not_mem_nil, or_false, not_or] at hm
  obtain ⟨h1, h2, h3, h4, h5, h6, h7, h8⟩ := hm
  by_cases hsp : r = ' ' ∨ r = '\n' ∨ r = '\r' ∨ r = '\t'
  · simp [consumeIdle, h1, h2, h3, h4, h5, h6, h7, hsp]
  by_cases hk : isKeywordStart r = true
  · simp [consumeIdle, h1, h2, h3, h4, h5, h6, h7, h8, hsp, hd, hk]
  · simp [consumeIdle, h1, h2, h3, h4, h5, h6, h7, h8, hsp, hd, hk]

/-- One letter of a word without keywords: no token, and the scratch buffer of
the keyword state stays a suffix of what has been consumed. -/
theorem Consume_letter (f : Char → Bool) (hi : lettersInert f) (t : Tokenizer) (u : List Char)
    (r : Char) (hr : f r = true)
    (ht : t.state = .tIdle ∨ (t.state = .tKeyword ∧ t.buf <:+ u))
    (h1 : ¬ "true".toList <:+ u ++ [r]) (h2 : ¬ "false".toList <:+ u ++ [r])
    (h3 : ¬ "null".toList <:+ u ++ [r]) :
    (Consume f t r).2 = [] ∧
    ((Consume f t r).1.state = .tIdle ∨
      ((Consume f t r).1.state = .tKeyword ∧ (Consume f t r).1.buf <:+ u ++ [r])) := by
  have idle : ∀ t' : Tokenizer, t'.state = .tIdle →
      (consumeIdle t' r).2 = [] ∧
      ((consumeIdle t' r).1.state = .tIdle ∨
        ((consumeIdle t' r).1.state = .tKeyword ∧ (consumeIdle t' r).1.buf <:+ u ++ [r])) := by
    intro t' ht'
    obtain ⟨e1, e2⟩ := consumeIdle_letter f hi t' r hr
    refine ⟨e1, ?_⟩
    rcases e2 with e2 | e2
    · left; rw [e2]; exact ht'
    · right; rw [e2]; exact ⟨rfl, List.suffix_append _ _⟩
  obtain ⟨ts, tb⟩ := t
  rcases ht with ht | ⟨ht, hb⟩
  · simp only at ht
    subst ht
    simpa [Consume] using idle { state := .tIdle, buf := tb } rfl
  · simp only at ht hb
    subst ht
    have hsuf : tb ++ [r] <:+ u ++ [r] := by
      obtain ⟨pre, rfl⟩ := hb
      exact ⟨pre, by simp⟩
    have n1 : tb ++ [r] ≠ "true".toList := fun e => h1 (e ▸ hsuf)
    have n2 : tb ++ [r] ≠ "false".toList := fun e => h2 (e ▸ hsuf)
    have n3 : tb ++ [r] ≠ "null".toList := fun e => h3 (e ▸ hsuf)
    have n1' : tb ++ [r] ≠ ['t', 'r', 'u', 'e'] := n1
    have n2' : tb ++ [r] ≠ ['f', 'a', 'l', 's', 'e'] := n2
    have n3' : tb ++ [r] ≠ ['n', 'u', 'l', 'l'] := n3
    have i1 := idle { state := .tIdle, buf := [] } rfl
    simp only [Consume, consumeKeyword, hr, Bool.not_true, Bool.false_eq_true, if_false, n1', n2',
      n3']
    split_ifs <;> first
      | exact ⟨rfl, Or.inr ⟨rfl, hsuf⟩⟩
      | exact i1

end Tokenizer

namespace Tokenizer

/-- A word of letters in which no keyword occurs emits no token. -/
theorem run_letters (f : Char → Bool) (hi : lettersInert f) (w : Str) (hk : keywordAbsent w) :
    ∀ (v u : List Char) (t : Tokenizer), u ++ v = w → (∀ x ∈ v, f x = true) →
      (t.state = .tIdle ∨ (t.state = .tKeyword ∧ t.buf <:+ u)) →
      (run f t v).2 = [] ∧
      ((run f t v).1.state = .tIdle ∨
        ((run f t v).1.state = .tKeyword ∧ (run f t v).1.buf <:+ w)) := by
  intro v
  induction v with
  | nil =>
    intro u t hu _ ht
    simp only [List.append_nil] at hu
    subst hu
    exact ⟨rfl, ht⟩
  | cons r v ih =>
    intro u t hu hv ht
    have hinf : ∀ k : List Char, k <:+ u ++ [r] → k <:+: w := by
      rintro k ⟨pre, hpre⟩
      refine ⟨pre, v, ?_⟩
      rw [hpre, ← hu]
      simp
    have step := Consume_letter f hi t u r (hv r (List.mem_cons_self _ _)) ht
      (fun h => hk.1 (hinf _ h)) (fun h => hk.2.1 (hinf _ h)) (fun h => hk.2.2 (hinf _ h))
    have rest := ih (u ++ [r]) (Consume f t r).1 (by rw [← hu]; simp)
      (fun x hx => hv x (List.mem_cons_of_mem _ hx)) step.2
    simp only [run]
    exact ⟨by rw [step.1, rest.1]; rfl, rest.2⟩

/-- A Bool or Null token comes out of the keyword state only, at the moment the
scratch buffer with the new letter is exactly `true`, `false` or `null`. -/
theorem keyword_token_exact (f : Char → Bool) (t : Tokenizer) (r : Char) (tok : Token)
    (hm : tok ∈ (Consume f t r).2) (hk : tok.isKeyword = true) :
    t.state = .tKeyword ∧
    ((t.buf ++ [r] = "true".toList ∧ tok = { Typ := .TokenBool, BoolV := true }) ∨
     (t.buf ++ [r] = "false".toList ∧ tok = { Typ := .TokenBool, BoolV := false }) ∨
     (t.buf ++ [r] = "null".toList ∧ tok = { Typ := .TokenNull })) := by
  obtain ⟨ts, tb⟩ := t
  cases ts with
  | tIdle =>
    have := consumeIdle_not_keyword { state := .tIdle, buf := tb } r tok (by simpa [Consume] using hm)
    rw [this] at hk
    cases hk
  | tString =>
    exfalso
    revert hm
    simp only [Consume, consumeString]
    split_ifs <;> simp <;> rintro rfl <;> simp [Token.isKeyword] at hk
  | tStringEscape =>
    exfalso
    revert hm
    simp only [Consume, consumeStringEscape]
    simp
    rintro rfl
    simp [Token.isKeyword] at hk
  | tNumber =>
    exfalso
    revert hm
    simp only [Consume, consumeNumber]
    split_ifs
    · simp
      rintro rfl
      simp [Token.isKeyword] at hk
    · simp only [List.mem_cons]
      rintro (rfl | hm)
      · simp [Token.isKeyword] at hk
      · have := consumeIdle_not_keyword _ r tok hm
        rw [this] at hk
        cases hk
  | tKeyword =>
    refine ⟨rfl, ?_⟩
    revert hm
    simp only [Consume, consumeKeyword]
    split_ifs with c1 c2 c3 c4 c5 c6 c7 c8 c9 c10
    all_goals first
      | (intro hm
         have := consumeIdle_not_keyword _ r tok hm
         rw [this] at hk
         cases hk)
      | (simp only [List.mem_singleton]
         rintro rfl
         first
           | exact Or.inl ⟨by assumption, rfl⟩
           | exact Or.inr (Or.inl ⟨by assumption, rfl⟩)
           | exact Or.inr (Or.inr ⟨by assumption, rfl⟩))
      | simp

end Tokenizer

/-- C30 as stated fails: `truxtrue` is a word of letters that starts with `t`
and is not and does not start with `true`, `false` or `null`; when its fifth
letter arrives the scratch buffer is dropped and that letter, a `t`, is fed
again through Idle and starts a new keyword, so the word followed by a comma
emits Bool(true) before the Comma. -/
theorem restarted_keyword_emits_bool :
    (∀ x ∈ "truxtrue".toList, Char.isAlpha x = true) ∧
    "truxtrue".toList.head? = some 't' ∧
    ¬ "true".toList <+: "truxtrue".toList ∧ ¬ "false".toList <+: "truxtrue".toList ∧
    ¬ "null".toList <+: "truxtrue".toList ∧
    Char.isAlpha ',' = false ∧
    (Tokenizer.Consume Char.isAlpha NewTokenizer ',').2 = [{ Typ := .TokenComma }] ∧
    (Tokenizer.run Char.isAlpha NewTokenizer "truxtrue,".toList).2 =
      [{ Typ := .TokenBool, BoolV := true }, { Typ := .TokenComma }] := by
  decide

/-- C30 amended: for every word `w` of letters in which none of `true`, `false`,
`null` occurs as a run of consecutive letters, followed by a non-letter `c`,
consuming `w` then `c` from Idle emits exactly the tokens consuming `c` in Idle
emits (so no Bool and no Null for the word), leaves the tokenizer as consuming
`c` from Idle does, and no prefix of `w` emits a token; and for every tokenizer
state, a Bool or Null token is emitted only from the keyword state at the
moment the scratch buffer, with the letter just read, is exactly `true`,
`false` or `null`.  (The tokenizer has no error channel.) -/
theorem bad_keywords_dropped (isLetter : Char → Bool) (hi : lettersInert isLetter)
    (b : List Char) (w : Str) (c : Char) (hw : ∀ x ∈ w, isLetter x = true)
    (hk : keywordAbsent w) (hc : isLetter c = false) :
    (Tokenizer.run isLetter { state := .tIdle, buf := b } (w ++ [c])).2 =
      (Tokenizer.Consume isLetter { state := .tIdle, buf := b } c).2 ∧
    Tokenizer.alike (Tokenizer.run isLetter { state := .tIdle, buf := b } (w ++ [c])).1
      (Tokenizer.Consume isLetter { state := .tIdle, buf := b } c).1 ∧
    (∀ pre : Str, pre <+: w →
      (Tokenizer.run isLetter { state := .tIdle, buf := b } pre).2 = []) ∧
    (∀ (t : Tokenizer) (r : Char) (tok : Token),
      tok ∈ (Tokenizer.Consume isLetter t r).2 → tok.isKeyword = true →
      t.state = .tKeyword ∧
      ((t.buf ++ [r] = "true".toList ∧ tok = { Typ := .TokenBool, BoolV := true }) ∨
       (t.buf ++ [r] = "false".toList ∧ tok = { Typ := .TokenBool, BoolV := false }) ∨
       (t.buf ++ [r] = "null".toList ∧ tok = { Typ := .TokenNull }))) := by
  have hrun := Tokenizer.run_letters isLetter hi w hk w [] { state := .tIdle, buf := b } rfl hw
    (Or.inl rfl)
  have hlast : (Tokenizer.Consume isLetter
        (Tokenizer.run isLetter { state := .tIdle, buf := b } w).1 c).2 =
      (Tokenizer.Consume isLetter { state := .tIdle, buf := b } c).2 ∧
      Tokenizer.alike (Tokenizer.Consume isLetter
        (Tokenizer.run isLetter { state := .tIdle, buf := b } w).1 c).1
        (Tokenizer.Consume isLetter { state := .tIdle, buf := b } c).1 := by
    generalize (Tokenizer.run isLetter { state := .tIdle, buf := b } w).1 = t at hrun
    obtain ⟨ts, tb⟩ := t
    rcases hrun.2 with h | ⟨h, _⟩
    · simp only at h
      subst h
      exact Tokenizer.Consume_alike isLetter { state := .tIdle, buf := tb }
        { state := .tIdle, buf := b } ⟨rfl, by simp⟩ c
    · simp only at h
      subst h
      have := Tokenizer.consumeIdle_alike { state := .tIdle, buf := tb }
        { state := .tIdle, buf := b } c
      simp only [Tokenizer.Consume, Tokenizer.consumeKeyword, hc, Bool.not_false, if_true]
      exact ⟨this.1, this.2 ⟨rfl, by simp⟩⟩
  refine ⟨?_, ?_, ?_, fun t r tok => Tokenizer.keyword_token_exact isLetter t r tok⟩
  · rw [Tokenizer.run_append, Tokenizer.run_single, hrun.1, hlast.1]
    rfl
  · rw [Tokenizer.run_append, Tokenizer.run_single]
    exact hlast.2
  · rintro pre ⟨suf, hsuf⟩
    have := hrun.1
    rw [← hsuf, Tokenizer.run_append] at this
    exact (List.append_eq_nil.mp this).1

theorem lettersInert_isAlpha : lettersInert Char.isAlpha := by
  intro c hc
  constructor
  · simp only [List.mem_cons, List.mem_singleton, List.not_mem_nil, or_false, not_or]
    refine ⟨?_, ?_, ?_, ?_, ?_, ?_, ?_, ?_⟩ <;> (rintro rfl; revert hc; decide)
  · simp only [Char.isAlpha, Char.isUpper, Char.isLower, Bool.or_eq_true, Bool.and_eq_true,
      decide_eq_true_eq, ge_iff_le] at hc
    simp only [Tokenizer.isDigit, Bool.and_eq_false_imp, decide_eq_true_eq, decide_eq_false_iff_not]
    intro _
    rw [Char.le_def]
    have h9 : ('9' : Char).val = 57 := rfl
    rw [h9]
    rcases hc with ⟨h1, _⟩ | ⟨h1, _⟩
    · intro h2
      have := UInt32.le_trans h1 h2
      revert this
      decide
    · intro h2
      have := UInt32.le_trans h1 h2
      revert this
      decide

/-- Instance of the amended bad-keyword statement: `trux` followed by a comma. -/
theorem bad_keywords_dropped_witness :
    lettersInert Char.isAlpha ∧ (∀ x ∈ "trux".toList, Char.isAlpha x = true) ∧
    keywordAbsent "trux".toList ∧ Char.isAlpha ',' = false ∧
    (Tokenizer.run Char.isAlpha NewTokenizer "trux,".toList).2 = [{ Typ := .TokenComma }] :=
  ⟨lettersInert_isAlpha, by decide, by unfold keywordAbsent; decide, by decide,
   (bad_keywords_dropped Char.isAlpha lettersInert_isAlpha [] "trux".toList ',' (by decide)
     (by unfold keywordAbsent; decide) (by decide)).1⟩

/-! ## Tokenizer Close and the bound on Consume (C31, C40) -/

/-- C31: `Close` emits exactly one StringEnd from the String state, exactly one
NumberEnd from the Number state and nothing from any other state; it leaves the
tokenizer in Idle with its scratch buffer untouched; a second `Close` emits no
token and changes nothing. -/
theorem tokenizer_close (t : Tokenizer) :
    (t.state = .tString → (Tokenizer.Close t).2 = [{ Typ := .TokenStringEnd }]) ∧
    (t.state = .tNumber → (Tokenizer.Close t).2 = [{ Typ := .TokenNumberEnd }]) ∧
    (t.state ≠ .tString → t.state ≠ .tNumber → (Tokenizer.Close t).2 = []) ∧
    (Tokenizer.Close t).1 = { t with state := .tIdle } ∧
    Tokenizer.Close (Tokenizer.Close t).1 = ((Tokenizer.Close t).1, []) := by
  obtain ⟨ts, tb⟩ := t
  cases ts <;> simp [Tokenizer.Close]

namespace Tokenizer

theorem consumeIdle_length (t : Tokenizer) (r : Char) : (consumeIdle t r).2.length ≤ 1 := by
  by_cases h1 : r = '\x7b'
  · subst h1; simp [consumeIdle]
  by_cases h2 : r = '\x7d'
  · subst h2; simp [consumeIdle]
  by_cases h3 : r = '['
  · subst h3; simp [consumeIdle]
  by_cases h4 : r = ']'
  · subst h4; simp [consumeIdle]
  by_cases h5 : r = ':'
  · subst h5; simp [consumeIdle]
  by_cases h6 : r = ','
  · subst h6; simp [consumeIdle]
  by_cases h7 : r = '"'
  · subst h7; simp [consumeIdle]
  by_cases h8 : r = ' ' ∨ r = '\n' ∨ r = '\r' ∨ r = '\t'
  · simp [consumeIdle, h1, h2, h3, h4, h5, h6, h7, h8]
  by_cases h9 : (isDigit r || r == '-') = true
  · simp [consumeIdle, h1, h2, h3, h4, h5, h6, h7, h8, h9]
  by_cases h10 : isKeywordStart r = true
  · simp [consumeIdle, h1, h2, h3, h4, h5, h6, h7, h8, h9, h10]
  · simp [consumeIdle, h1, h2, h3, h4, h5, h6, h7, h8, h9, h10]

theorem consumeKeyword_length (f : Char → Bool) (t : Tokenizer) (r : Char) :
    (consumeKeyword f t r).2.length ≤ 1 := by
  simp only [consumeKeyword]
  split_ifs
  all_goals first | exact consumeIdle_length _ r | simp

end Tokenizer

/-- C40: `Consume` is a total function: the handlers of the Number and Keyword
states feed a character again only through the Idle handler, which calls no
handler.  One call emits at most two tokens; the Idle handler emits at most
one, and so does every state but Number; two tokens are emitted only from the
Number state on a character that ends the number, and then they are NumberEnd
followed by the one token the Idle handler emits for that character. -/
theorem consume_bounded (isLetter : Char → Bool) (t : Tokenizer) (r : Char) :
    (Tokenizer.Consume isLetter t r).2.length ≤ 2 ∧
    (Tokenizer.consumeIdle t r).2.length ≤ 1 ∧
    (t.state ≠ .tNumber → (Tokenizer.Consume isLetter t r).2.length ≤ 1) ∧
    (t.state = .tNumber → Tokenizer.isNumberChar r = false →
      Tokenizer.Consume isLetter t r =
        ((Tokenizer.consumeIdle { t with state := .tIdle } r).1,
          { Typ := .TokenNumberEnd } :: (Tokenizer.consumeIdle { t with state := .tIdle } r).2)) ∧
    (t.state = .tKeyword → isLetter r = false →
      Tokenizer.Consume isLetter t r = Tokenizer.consumeIdle { t with state := .tIdle } r) ∧
    ((Tokenizer.Consume isLetter t r).2.length = 2 →
      t.state = .tNumber ∧ Tokenizer.isNumberChar r = false ∧
      ∃ tok, (Tokenizer.consumeIdle { t with state := .tIdle } r).2 = [tok] ∧
        (Tokenizer.Consume isLetter t r).2 = [{ Typ := .TokenNumberEnd }, tok]) := by
  have hidle := Tokenizer.consumeIdle_length
  have hone : t.state ≠ .tNumber → (Tokenizer.Consume isLetter t r).2.length ≤ 1 := by
    intro hn
    obtain ⟨ts, tb⟩ := t
    cases ts with
    | tIdle => exact hidle _ r
    | tString =>
      simp only [Tokenizer.Consume, Tokenizer.consumeString]
      split_ifs <;> simp
    | tStringEscape => simp [Tokenizer.Consume, Tokenizer.consumeStringEscape]
    | tNumber => exact absurd rfl hn
    | tKeyword => exact Tokenizer.consumeKeyword_length isLetter _ r
  have hnum : t.state = .tNumber → Tokenizer.isNumberChar r = false →
      Tokenizer.Consume isLetter t r =
        ((Tokenizer.consumeIdle { t with state := .tIdle } r).1,
          { Typ := .TokenNumberEnd } :: (Tokenizer.consumeIdle { t with state := .tIdle } r).2) := by
    intro hs hc
    simp [Tokenizer.Consume, hs, Tokenizer.consumeNumber, hc]
  have hnumc : t.state = .tNumber → Tokenizer.isNumberChar r = true →
      (Tokenizer.Consume isLetter t r).2.length = 1 := by
    intro hs hc
    simp [Tokenizer.Consume, hs, Tokenizer.consumeNumber, hc]
  refine ⟨?_, hidle t r, hone, hnum, ?_, ?_⟩
  · by_cases hs : t.state = .tNumber
    · cases hc : Tokenizer.isNumberChar r with
      | true => rw [hnumc hs hc]; decide
      | false =>
        rw [hnum hs hc]
        have := hidle { t with state := .tIdle } r
        simp only [List.length_cons]
        omega
    · exact le_trans (hone hs) (by decide)
  · intro hs hl
    simp [Tokenizer.Consume, hs, Tokenizer.consumeKeyword, hl]
  · intro h2
    by_cases hs : t.state = .tNumber
    · cases hc : Tokenizer.isNumberChar r with
      | true =>
        rw [hnumc hs hc] at h2
        cases h2
      | false =>
        refine ⟨hs, rfl, ?_⟩
        rw [hnum hs hc] at h2 ⊢
        simp only [List.length_cons, Nat.add_right_cancel_iff] at h2
        have hlen : (Tokenizer.consumeIdle { t with state := .tIdle } r).2.length = 1 := by omega
        obtain ⟨tok, htok⟩ := List.length_eq_one.mp hlen
        exact ⟨tok, htok, by rw [htok]⟩
    · have := hone hs
      omega

/-! ## Path options (C34) -/

theorem buildPathLoop_render (n : Nat) (opt : pathOptions) : ∀ (segs : List PathSegment)
    (i stop : Nat), i + segs.length ≤ stop →
    (opt.excludeTopIndex = true → i + segs.length < n) →
    (∀ seg ∈ segs, seg.Kind ≠ .SegWildcard) →
    buildPathLoop opt n i stop segs = renderSegments segs := by
  intro segs
  induction segs with
  | nil => intro i stop _ _ _; rfl
  | cons s ss ih =>
    intro i stop hi hn hw
    have h1 : i < stop := by simp at hi; omega
    have h2 : i + 1 + ss.length ≤ stop := by simp at hi; omega
    have h3 : opt.excludeTopIndex = true → i + 1 + ss.length < n := by
      intro h; have := hn h; simp at this; omega
    have hk := hw s (List.mem_cons_self _ _)
    have ih' := ih (i + 1) stop h2 h3 (fun x hx => hw x (List.mem_cons_of_mem _ hx))
    obtain ⟨k, v⟩ := s
    cases k with
    | SegField => simp [buildPathLoop, h1, renderSegments, ih']
    | SegIndex =>
      have h4 : (opt.excludeTopIndex && i == n - 1) = false := by
        cases ho : opt.excludeTopIndex with
        | false => rfl
        | true =>
          have := hn ho
          simp only [List.length_cons] at this
          simp only [Bool.true_and, beq_eq_false_iff_ne, ne_eq]
          omega
      simp [buildPathLoop, h1, renderSegments, ih', h4]
    | SegWildcard => exact absurd rfl hk

/-- The loop stops at `stop`: later segments are not written. -/
theorem buildPathLoop_stop (n : Nat) (opt : pathOptions) : ∀ (segs rest : List PathSegment)
    (i : Nat), buildPathLoop opt n i (i + segs.length) (segs ++ rest) =
      buildPathLoop opt n i (i + segs.length) segs := by
  intro segs
  induction segs with
  | nil =>
    intro rest i
    cases rest with
    | nil => rfl
    | cons r rs => simp [buildPathLoop]
  | cons s ss ih =>
    intro rest i
    have := ih rest (i + 1)
    have e : i + (s :: ss).length = i + 1 + ss.length := by simp; omega
    rw [e]
    have this' : buildPathLoop opt n (i + 1) (i + 1 + ss.length) (ss.append rest) =
        buildPathLoop opt n (i + 1) (i + 1 + ss.length) ss := this
    have hlt : i < i + 1 + ss.length := by omega
    simp only [List.cons_append, buildPathLoop, hlt, if_true]
    exact congrArg _ this'

theorem renderSegments_append (a b : List PathSegment) :
    renderSegments (a ++ b) = renderSegments a ++ renderSegments b := by
  induction a with
  | nil => rfl
  | cons s ss ih => simp [renderSegments, ih]

theorem buildPathLoop_append (n : Nat) (opt : pathOptions) : ∀ (a b : List PathSegment)
    (i stop : Nat), i + a.length ≤ stop →
    buildPathLoop opt n i stop (a ++ b) =
      buildPathLoop opt n i stop a ++ buildPathLoop opt n (i + a.length) stop b := by
  intro a
  induction a with
  | nil => intro b i stop _; simp [buildPathLoop]
  | cons s ss ih =>
    intro b i stop hi
    have hlt : i < stop := by simp at hi; omega
    have h2 : i + 1 + ss.length ≤ stop := by simp at hi; omega
    have := ih b (i + 1) stop h2
    have this' : buildPathLoop opt n (i + 1) stop (ss.append b) =
        buildPathLoop opt n (i + 1) stop ss ++ buildPathLoop opt n (i + 1 + ss.length) stop b :=
      this
    have e : i + (s :: ss).length = i + 1 + ss.length := by simp; omega
    simp only [List.cons_append, buildPathLoop, hlt, if_true, e]
    rw [this', ← List.append_assoc]

theorem buildPath_plain (segs : List PathSegment) (hw : ∀ seg ∈ segs, seg.Kind ≠ .SegWildcard) :
    buildPathFromSegments segs {} = '$' :: renderSegments segs := by
  unfold buildPathFromSegments
  cases segs with
  | nil => rfl
  | cons s ss =>
    simp only [List.length_cons, Nat.add_one_ne_zero, if_false, Bool.false_eq_true]
    rw [buildPathLoop_render _ {} (s :: ss) 0 _ (by simp) (by intro h; cases h) hw]

theorem buildPath_excludeTop (segs : List PathSegment) (b : Bool)
    (hw : ∀ seg ∈ segs, seg.Kind ≠ .SegWildcard) :
    buildPathFromSegments segs { excludeTop := true, excludeTopIndex := b } =
      '$' :: renderSegments segs.dropLast := by
  rcases List.eq_nil_or_concat segs with h0 | ⟨init, last, rfl⟩
  · subst h0; rfl
  · simp only [List.concat_eq_append] at hw ⊢
    have hw' : ∀ seg ∈ init, seg.Kind ≠ .SegWildcard :=
      fun seg hs => hw seg (by simp [hs])
    unfold buildPathFromSegments
    simp only [List.length_append, List.length_singleton, Nat.add_one_ne_zero, if_false, if_true,
      List.dropLast_concat]
    split
    · rename_i h1
      have : init = [] := List.length_eq_zero.mp (by omega)
      subst this
      rfl
    · have e : init.length + 1 - 1 = 0 + init.length := by omega
      rw [e, buildPathLoop_stop, buildPathLoop_render _ _ init 0 _ (by simp)
        (by intro _; omega) hw']

theorem buildPath_excludeTopIndex (init : List PathSegment) (last : PathSegment)
    (hw : ∀ seg ∈ init, seg.Kind ≠ .SegWildcard) :
    buildPathFromSegments (init ++ [last]) { excludeTopIndex := true } =
      '$' :: renderSegments init ++
        (match last.Kind with
          | .SegField => '.' :: last.Value
          | _ => []) := by
  unfold buildPathFromSegments
  simp only [List.length_append, List.length_singleton, Nat.add_one_ne_zero, if_false,
    Bool.false_eq_true]
  rw [buildPathLoop_append _ _ init [last] 0 _ (by omega),
    buildPathLoop_render _ _ init 0 _ (by omega) (by intro _; omega) hw]
  obtain ⟨k, v⟩ := last
  cases k <;> simp [buildPathLoop]

/-- C34: for a sequence of Field and Index segments, with no option the path is
`$` followed by `.v` for each Field `v` and `[v]` for each Index `v`, in order;
with `excludeTop` it is the path, without options, of the sequence without its
last segment; with `excludeTopIndex` it is that same shortened path when the
last segment is an Index, and the full path when the last segment is a
Field. -/
theorem path_options_drop_segments (segs : List PathSegment)
    (hw : ∀ seg ∈ segs, seg.Kind ≠ .SegWildcard) :
    buildPathFromSegments segs {} = '$' :: renderSegments segs ∧
    buildPathFromSegments segs { excludeTop := true } =
      buildPathFromSegments segs.dropLast {} ∧
    (∀ last, segs.getLast? = some last → last.Kind = .SegIndex →
      buildPathFromSegments segs { excludeTopIndex := true } =
        buildPathFromSegments segs.dropLast {}) ∧
    (∀ last, segs.getLast? = some last → last.Kind = .SegField →
      buildPathFromSegments segs { excludeTopIndex := true } =
        buildPathFromSegments segs {}) := by
  have hd : ∀ seg ∈ segs.dropLast, seg.Kind ≠ .SegWildcard :=
    fun seg hs => hw seg (List.mem_of_mem_dropLast hs)
  refine ⟨buildPath_plain segs hw, ?_, ?_, ?_⟩
  · rw [buildPath_excludeTop segs false hw, buildPath_plain _ hd]
  · intro last hl hk
    have e := Parser.eq_dropLast_append_of_getLast? segs last hl
    rw [buildPath_plain _ hd]
    conv_lhs => rw [e]
    rw [buildPath_excludeTopIndex _ _ hd, hk]
    simp
  · intro last hl hk
    have e := Parser.eq_dropLast_append_of_getLast? segs last hl
    rw [buildPath_plain _ hw]
    conv_lhs => rw [e]
    conv_rhs => rw [e]
    rw [buildPath_excludeTopIndex _ _ hd, hk, renderSegments_append]
    simp [renderSegments, hk]

/-- Instance of the path-option statement for the segments of `$.items[3]`. -/
theorem path_options_witness :
    (∀ seg ∈ [({ Kind := .SegField, Value := "items".toList } : PathSegment),
        { Kind := .SegIndex, Value := "3".toList }], seg.Kind ≠ .SegWildcard) ∧
    buildPathFromSegments [{ Kind := .SegField, Value := "items".toList },
        { Kind := .SegIndex, Value := "3".toList }] {} = "$.items[3]".toList ∧
    buildPathFromSegments [{ Kind := .SegField, Value := "items".toList },
        { Kind := .SegIndex, Value := "3".toList }] { excludeTop := true } =
      buildPathFromSegments [{ Kind := .SegField, Value := "items".toList }] {} :=
  ⟨by decide,
   (path_options_drop_segments [{ Kind := .SegField, Value := "items".toList },
      { Kind := .SegIndex, Value := "3".toList }] (by decide)).1,
   (path_options_drop_segments [{ Kind := .SegField, Value := "items".toList },
      { Kind := .SegIndex, Value := "3".toList }] (by decide)).2.1⟩

/-! ## Coercions of values (C32, C33) -/

theorem digitChar_digit (k : Nat) (hk : k < 10) :
    Tokenizer.isDigit (Nat.digitChar k) = true ∧
    (Nat.digitChar k).toNat - '0'.toNat = k := by
  interval_cases k <;> exact ⟨by decide, by decide⟩

theorem digitsValue_append (a : Str) (c : Char) :
    digitsValue (a ++ [c]) = 10 * digitsValue a + (c.toNat - '0'.toNat) := by
  simp [digitsValue, List.foldl_append]

theorem toDigitsCore_spec : ∀ (fuel n : Nat) (ds : List Char), n < fuel →
    ∃ pre, Nat.toDigitsCore 10 fuel n ds = pre ++ ds ∧ pre ≠ [] ∧
      (∀ c ∈ pre, Tokenizer.isDigit c = true) ∧ digitsValue pre = n := by
  intro fuel
  induction fuel with
  | zero => intro n ds h; omega
  | succ fuel ih =>
    intro n ds h
    have hd := digitChar_digit (n % 10) (Nat.mod_lt _ (by decide))
    simp only [Nat.toDigitsCore]
    split
    · rename_i h0
      refine ⟨[Nat.digitChar (n % 10)], rfl, by simp, ?_, ?_⟩
      · intro c hc
        rw [List.mem_singleton.mp hc]
        exact hd.1
      · have : n % 10 = n := by omega
        have h2 := hd.2
        have h48 : '0'.toNat = 48 := rfl
        rw [h48] at h2
        simp only [digitsValue, List.foldl, h48]
        omega
    · rename_i h0
      obtain ⟨pre, h1, _, h3, h4⟩ := ih (n / 10) (Nat.digitChar (n % 10) :: ds) (by omega)
      refine ⟨pre ++ [Nat.digitChar (n % 10)], by rw [h1]; simp, by simp, ?_, ?_⟩
      · intro c hc
        rcases List.mem_append.mp hc with hc | hc
        · exact h3 c hc
        · rw [List.mem_singleton.mp hc]
          exact hd.1
      · rw [digitsValue_append, h4, hd.2]
        omega

/-- The decimal digits of a natural number: a non-empty run of digits that
denotes the number. -/
theorem toDigits_spec (n : Nat) :
    Nat.toDigits 10 n ≠ [] ∧ (∀ c ∈ Nat.toDigits 10 n, Tokenizer.isDigit c = true) ∧
    digitsValue (Nat.toDigits 10 n) = n := by
  obtain ⟨pre, h1, h2, h3, h4⟩ := toDigitsCore_spec (n + 1) n [] (by omega)
  have : Nat.toDigits 10 n = pre := by
    unfold Nat.toDigits
    rw [h1]
    simp
  rw [this]
  exact ⟨h2, h3, h4⟩

theorem digit_not_sign (c : Char) (h : Tokenizer.isDigit c = true) : c ≠ '-' ∧ c ≠ '+' := by
  constructor <;> (rintro rfl; revert h; decide)

theorem strconvParseInt_digits (d : Str) (h1 : d ≠ [])
    (h2 : ∀ c ∈ d, Tokenizer.isDigit c = true) (h3 : digitsValue d < 2 ^ 63) :
    strconvParseInt d = some (digitsValue d : Int) := by
  cases d with
  | nil => exact absurd rfl h1
  | cons c cs =>
    have hc := digit_not_sign c (h2 c (List.mem_cons_self _ _))
    have hall : (c :: cs).all Tokenizer.isDigit = true := List.all_eq_true.mpr h2
    have hall' : cs.all Tokenizer.isDigit = true := by
      simp only [List.all_cons, Bool.and_eq_true] at hall
      exact hall.2
    have hc0 := h2 c (List.mem_cons_self _ _)
    simp [strconvParseInt, hc.1, hc.2, hc0, hall']
    exact h3

theorem strconvParseInt_minus (d : Str) (h1 : d ≠ [])
    (h2 : ∀ c ∈ d, Tokenizer.isDigit c = true) (h3 : digitsValue d ≤ 2 ^ 63) :
    strconvParseInt ('-' :: d) = some (-(digitsValue d : Int)) := by
  have hall : d.all Tokenizer.isDigit = true := List.all_eq_true.mpr h2
  have hne : d.isEmpty = false := by
    cases d with
    | nil => exact absurd rfl h1
    | cons c cs => rfl
  simp [strconvParseInt, hne, hall]
  exact h3

/-- Parsing the decimal text of a 64-bit integer gives the integer back. -/
theorem strconvParseInt_FormatInt (n : Int) (hlo : -2 ^ 63 ≤ n) (hhi : n < 2 ^ 63) :
    strconvParseInt (FormatInt n) = some n := by
  unfold FormatInt
  split
  · rename_i hneg
    obtain ⟨h1, h2, h3⟩ := toDigits_spec n.natAbs
    rw [strconvParseInt_minus _ h1 h2 (by rw [h3]; omega), h3]
    congr 1
    omega
  · rename_i hpos
    obtain ⟨h1, h2, h3⟩ := toDigits_spec n.toNat
    rw [strconvParseInt_digits _ h1 h2 (by rw [h3]; omega), h3]
    congr 1
    omega

theorem numberText_FormatInt (n : Int) : numberText (FormatInt n) := by
  have hnum : ∀ m : Nat, ∀ x ∈ Nat.toDigits 10 m, Tokenizer.isNumberChar x = true := by
    intro m x hx
    simp [Tokenizer.isNumberChar, (toDigits_spec m).2.1 x hx]
  unfold FormatInt
  split
  · exact ⟨'-', _, rfl, Or.inr rfl, hnum _⟩
  · obtain ⟨h1, h2, _⟩ := toDigits_spec n.toNat
    cases hd : Nat.toDigits 10 n.toNat with
    | nil => exact absurd hd h1
    | cons c cs =>
      rw [hd] at h2
      refine ⟨c, cs, rfl, Or.inl (h2 c (List.mem_cons_self _ _)), ?_⟩
      intro x hx
      have := hnum n.toNat x (by rw [hd]; exact List.mem_cons_of_mem _ hx)
      exact this

/-- C32: for every 64-bit signed integer `n`, the decimal text of `n` is a number
text as the parser delivers it, `ParseInt` reads it back as `n`, and `Int64`
returns `n` for a value holding that text and for a value holding the int64
`n` itself; for a nil receiver, a nil value, and a string that parses neither
as an integer nor as a float, `Int` and `Int64` return 0.  (The functions are
total: no input makes them fail.) -/
theorem int64_round_trip {F : Type} (ops : FloatOps F) (n : Int) (hlo : -2 ^ 63 ≤ n)
    (hhi : n < 2 ^ 63) :
    numberText (FormatInt n) ∧
    strconvParseInt (FormatInt n) = some n ∧
    PartialValue.Int64 ops (some (.string (FormatInt n))) = n ∧
    (∀ pv : PartialValue, pv.Value = .str (FormatInt n) →
      PartialValue.Int64 ops (some pv.Value.toGo) = n) ∧
    PartialValue.Int64 ops (some (.int64 n)) = n ∧
    PartialValue.Int64 ops none = 0 ∧ PartialValue.Int ops none = 0 ∧
    PartialValue.Int64 ops (some .nil) = 0 ∧ PartialValue.Int ops (some .nil) = 0 ∧
    (∀ s : Str, strconvParseInt s = none → ops.ParseFloat s = none →
      PartialValue.Int64 ops (some (.string s)) = 0 ∧
      PartialValue.Int ops (some (.string s)) = 0) := by
  have h := strconvParseInt_FormatInt n hlo hhi
  have h1 : PartialValue.Int64 ops (some (.string (FormatInt n))) = n := by
    simp [PartialValue.Int64, PartialValue.convertToInt64, h]
  refine ⟨numberText_FormatInt n, h, h1, ?_, rfl, rfl, rfl, rfl, rfl, ?_⟩
  · intro pv hpv
    rw [hpv]
    exact h1
  · intro s hs hf
    simp [PartialValue.Int64, PartialValue.Int, PartialValue.convertToInt64, hs, hf]

/-- Instance of the integer round trip: the text and the int64 `1234567890123`,
and the smallest 64-bit integer. -/
theorem int64_round_trip_witness :
    (-2 ^ 63 : Int) ≤ 1234567890123 ∧ (1234567890123 : Int) < 2 ^ 63 ∧
    PartialValue.Int64 FloatOps.rejecting (some (.string (FormatInt 1234567890123))) =
      1234567890123 ∧
    PartialValue.Int64 FloatOps.rejecting (some (.string (FormatInt (-2 ^ 63)))) = -2 ^ 63 :=
  ⟨by decide, by decide,
   (int64_round_trip FloatOps.rejecting 1234567890123 (by decide) (by decide)).2.2.1,
   (int64_round_trip FloatOps.rejecting (-2 ^ 63) (by decide) (by decide)).2.2.1⟩

theorem strconvParseBool_true (s : Str) :
    strconvParseBool s = some true ↔
      s ∈ ["1".toList, "t".toList, "T".toList, "TRUE".toList, "true".toList, "True".toList] := by
  unfold strconvParseBool
  split
  · simp_all
  · split <;> simp_all

theorem strconvParseBool_false (s : Str) :
    strconvParseBool s = some false ↔
      s ∈ ["0".toList, "f".toList, "F".toList, "FALSE".toList, "false".toList,
        "False".toList] := by
  unfold strconvParseBool
  split
  · rename_i h
    simp only [Option.some.injEq, Bool.true_eq_false, false_iff]
    intro h2
    simp only [List.mem_cons, List.mem_singleton, List.not_mem_nil, or_false] at h h2
    rcases h2 with rfl | rfl | rfl | rfl | rfl | rfl <;> revert h <;> decide
  · split <;> simp_all

/-- A string `ParseBool` accepts is an integer only when it is `1` or `0`, and
then the integer agrees with the boolean. -/
theorem strconvParseBool_int (s : Str) (b : Bool) (i : Int) (hb : strconvParseBool s = some b)
    (hi : strconvParseInt s = some i) : b = (i != 0) := by
  cases b with
  | true =>
    have := (strconvParseBool_true s).mp hb
    simp only [List.mem_cons, List.mem_singleton, List.not_mem_nil, or_false] at this
    rcases this with rfl | rfl | rfl | rfl | rfl | rfl <;> revert hi <;> revert i <;> decide
  | false =>
    have := (strconvParseBool_false s).mp hb
    simp only [List.mem_cons, List.mem_singleton, List.not_mem_nil, or_false] at this
    rcases this with rfl | rfl | rfl | rfl | rfl | rfl <;> revert hi <;> revert i <;> decide

/-- C33 as stated fails: `strconv.ParseBool` is consulted first and accepts `t`
and `T`, which are not numbers, as true. -/
theorem bool_of_t_is_true :
    strconvParseInt "t".toList = none ∧ strconvParseInt "T".toList = none ∧
    PartialValue.Bool FloatOps.rejecting (some (.string "t".toList)) = true ∧
    PartialValue.Bool FloatOps.rejecting (some (.string "T".toList)) = true := by
  decide

/-- C33 amended: `Bool` on a string first asks `strconv.ParseBool`, which gives
true for `1`, `t`, `T`, `TRUE`, `true`, `True` and false for `0`, `f`, `F`,
`FALSE`, `false`, `False`.  So for a string that is not a number (neither an
integer nor a float) `Bool` returns true if and only if it is one of `true`,
`True`, `TRUE`, `t`, `T`; for a string that parses as an integer it returns
true if and only if the integer is not zero; and for any other string that
parses as a float it returns whether the float is not zero. -/
theorem bool_of_string {F : Type} (ops : FloatOps F) (s : Str) :
    (∀ b, strconvParseBool s = some b → PartialValue.Bool ops (some (.string s)) = b) ∧
    (strconvParseBool s = some true ↔
      s ∈ ["1".toList, "t".toList, "T".toList, "TRUE".toList, "true".toList,
        "True".toList]) ∧
    (strconvParseBool s = some false ↔
      s ∈ ["0".toList, "f".toList, "F".toList, "FALSE".toList, "false".toList,
        "False".toList]) ∧
    (strconvParseInt s = none → ops.ParseFloat s = none →
      (PartialValue.Bool ops (some (.string s)) = true ↔
        s ∈ ["true".toList, "True".toList, "TRUE".toList, "t".toList, "T".toList])) ∧
    (∀ i, strconvParseInt s = some i →
      PartialValue.Bool ops (some (.string s)) = (i != 0)) ∧
    (∀ x, strconvParseBool s = none → strconvParseInt s = none →
      ops.ParseFloat s = some x → PartialValue.Bool ops (some (.string s)) = ops.nonZero x) := by
  have hnone : strconvParseBool s = none →
      ¬ (s = "true".toList ∨ s = "True".toList ∨ s = "TRUE".toList) ∧
      ¬ (s = "false".toList ∨ s = "False".toList ∨ s = "FALSE".toList) := by
    intro h
    constructor
    · intro hs
      have : strconvParseBool s = some true :=
        (strconvParseBool_true s).mpr (by
          simp only [List.mem_cons, List.mem_singleton, List.not_mem_nil, or_false]
          tauto)
      rw [h] at this
      cases this
    · intro hs
      have : strconvParseBool s = some false :=
        (strconvParseBool_false s).mpr (by
          simp only [List.mem_cons, List.mem_singleton, List.not_mem_nil, or_false]
          tauto)
      rw [h] at this
      cases this
  refine ⟨?_, strconvParseBool_true s, strconvParseBool_false s, ?_, ?_, ?_⟩
  · intro b hb
    simp [PartialValue.Bool, hb]
  · intro hi hf
    cases hb : strconvParseBool s with
    | none =>
      obtain ⟨n1, n2⟩ := hnone hb
      have hl : PartialValue.Bool ops (some (.string s)) = false := by
        simp only [PartialValue.Bool, hb, n1, n2, if_false, hi, hf]
      rw [hl]
      simp only [Bool.false_eq_true, false_iff, List.mem_cons, List.mem_singleton,
        List.not_mem_nil, or_false]
      intro hs
      have : strconvParseBool s = some true :=
        (strconvParseBool_true s).mpr (by
          simp only [List.mem_cons, List.mem_singleton, List.not_mem_nil, or_false]
          tauto)
      rw [hb] at this
      cases this
    | some b =>
      have hl : PartialValue.Bool ops (some (.string s)) = b := by
        simp [PartialValue.Bool, hb]
      rw [hl]
      cases b with
      | true =>
        have := (strconvParseBool_true s).mp hb
        simp only [List.mem_cons, List.mem_singleton, List.not_mem_nil, or_false] at this ⊢
        rcases this with rfl | h | h | h | h | h
        · revert hi; decide
        all_goals simp [h]
      | false =>
        have := (strconvParseBool_false s).mp hb
        simp only [List.mem_cons, List.mem_singleton, List.not_mem_nil, or_false] at this ⊢
        simp only [Bool.false_eq_true, false_iff]
        rcases this with rfl | rfl | rfl | rfl | rfl | rfl <;> decide
  · intro i hi
    cases hb : strconvParseBool s with
    | none =>
      obtain ⟨n1, n2⟩ := hnone hb
      simp only [PartialValue.Bool, hb, n1, n2, if_false, hi]
    | some b =>
      have hl : PartialValue.Bool ops (some (.string s)) = b := by
        simp [PartialValue.Bool, hb]
      rw [hl]
      exact strconvParseBool_int s b i hb hi
  · intro x hb hi hf
    obtain ⟨n1, n2⟩ := hnone hb
    simp only [PartialValue.Bool, hb, n1, n2, if_false, hi, hf]

/-- Instance of the amended string-of-bool statement for the words the tests
and the claim name. -/
theorem bool_of_string_witness :
    PartialValue.Bool FloatOps.rejecting (some (.string "true".toList)) = true ∧
    PartialValue.Bool FloatOps.rejecting (some (.string "false".toList)) = false ∧
    PartialValue.Bool FloatOps.rejecting (some (.string "42".toList)) = true ∧
    PartialValue.Bool FloatOps.rejecting (some (.string "0".toList)) = false ∧
    (PartialValue.Bool FloatOps.rejecting (some (.string "yes".toList)) = true ↔
      "yes".toList ∈ ["true".toList, "True".toList, "TRUE".toList, "t".toList, "T".toList]) :=
  ⟨(bool_of_string FloatOps.rejecting "true".toList).1 true (by decide),
   (bool_of_string FloatOps.rejecting "false".toList).1 false (by decide),
   (bool_of_string FloatOps.rejecting "42".toList).2.2.2.2.1 42 (by decide),
   (bool_of_string FloatOps.rejecting "0".toList).2.2.2.2.1 0 (by decide),
   (bool_of_string FloatOps.rejecting "yes".toList).2.2.2.1 (by decide) rfl⟩

/-- The model of `strconv.Atoi` used for pattern indices succeeds exactly when
`ParseInt` does. -/
theorem strconvAtoiOk_iff (s : Str) : strconvAtoiOk s = (strconvParseInt s).isSome := by
  unfold strconvAtoiOk strconvParseInt
  simp only
  generalize (if s.head? = some '-' ∨ s.head? = some '+' then List.drop 1 s else s) = digits
  cases h : (!digits.isEmpty && digits.all Tokenizer.isDigit) with
  | false => simp
  | true =>
    simp only [Bool.true_and, if_true]
    split <;> split <;> simp_all

/-! ## The state that expects a key (C39) -/

namespace Parser

theorem KeyOK.by_eq {p q : Parser} (h : KeyOK p) (hs : q.state = p.state)
    (hk : q.stack = p.stack) : KeyOK q := by
  intro hq
  obtain ⟨top, h1, h2⟩ := h (hs ▸ hq)
  exact ⟨top, by simpa [hk] using h1, h2⟩

theorem KeyOK.by_state {q : Parser} (h : q.state ≠ .pObjExpectKey) : KeyOK q :=
  fun hq => absurd hq h

theorem advanceAfterValue_state (p : Parser) : (advanceAfterValue p).state ≠ .pObjExpectKey := by
  unfold advanceAfterValue
  repeat' split
  all_goals simp

theorem KeyOK.by_flush {p : Parser} (h : KeyOK p) : KeyOK (flushStringChunk p) := by
  unfold flushStringChunk
  repeat' split
  · exact h
  · exact h
  · exact h.by_eq (by simp) (by simp)

theorem KeyOK.by_stringEnd {p : Parser} (h : KeyOK p) : KeyOK (onStringEnd p) := by
  have hv : KeyOK (onStringEndValue p) := by
    have h1 : KeyOK (onStringEndFlush p) := by
      unfold onStringEndFlush
      repeat' split
      · exact h.by_flush
      · exact h
      · exact h
    unfold onStringEndValue onStringEndEmit
    split
    · exact h1
    · simp only
      split
      · exact KeyOK.by_state (advanceAfterValue_state _)
      · exact h1.by_eq (by simp) (by simp)
  unfold onStringEnd
  split
  · unfold onStringEndKey
    split
    · exact h.by_eq rfl rfl
    · exact KeyOK.by_state (by simp)
  · exact hv
  · exact hv
  · exact h

theorem KeyOK.by_numberEnd {p : Parser} (h : KeyOK p) : KeyOK (onNumberEnd p) := by
  unfold onNumberEnd
  split
  · exact h
  · simp only
    split
    · exact KeyOK.by_state (advanceAfterValue_state _)
    · exact h.by_eq (by simp) (by simp)

theorem KeyOK.by_containerEnd {p : Parser} (h : KeyOK p) :
    KeyOK (onObjectEnd p) ∧ KeyOK (onArrayEnd p) := by
  constructor
  · unfold onObjectEnd
    split
    · exact h.by_eq rfl rfl
    · split
      · exact h.by_eq rfl rfl
      · simp only
        repeat' split
        all_goals exact KeyOK.by_state (by simp)
  · unfold onArrayEnd
    split
    · exact h.by_eq rfl rfl
    · split
      · exact h.by_eq rfl rfl
      · simp only
        repeat' split
        all_goals exact KeyOK.by_state (by simp)

theorem KeyOK.by_comma {p : Parser} (h : KeyOK p) : KeyOK (onComma p) := by
  unfold onComma
  split
  · exact h.by_eq rfl rfl
  · rename_i top ht
    split
    · rename_i hk
      intro _
      exact ⟨top, by simpa using ht, hk⟩
    · exact KeyOK.by_state (by simp)

theorem KeyOK.by_token {p : Parser} (h : KeyOK p) (tok : Token) : KeyOK (OnToken p tok) := by
  unfold OnToken
  split
  · unfold onObjectStart
    intro _
    exact ⟨{ kind := .frameObject }, by simp, rfl⟩
  · exact h.by_containerEnd.1
  · unfold onArrayStart
    exact KeyOK.by_state (by simp)
  · exact h.by_containerEnd.2
  · unfold onStringChunk
    simp only
    split
    · exact h.by_eq rfl rfl
    · exact h.by_eq rfl rfl
  · exact h.by_stringEnd
  · exact h.by_eq (q := onNumberChunk p _) rfl rfl
  · exact h.by_numberEnd
  · unfold onPrimitive
    exact KeyOK.by_state (advanceAfterValue_state _)
  · unfold onPrimitive
    exact KeyOK.by_state (advanceAfterValue_state _)
  · exact KeyOK.by_state (q := onColon p) (by simp [onColon])
  · exact h.by_comma

theorem KeyOK.by_deliver {p : Parser} (h : KeyOK p) (res : Tokenizer × List Token) :
    KeyOK (deliver p res) := by
  unfold deliver
  have h0 : KeyOK { p with tokenizer := some res.1 } := h.by_eq rfl rfl
  generalize ({ p with tokenizer := some res.1 } : Parser) = q at h0
  generalize res.2 = toks
  induction toks generalizing q with
  | nil => exact h0
  | cons tok toks ih => exact ih _ (h0.by_token tok)

theorem KeyOK.by_rune {p : Parser} (h : KeyOK p) (f : Char → Bool) (r : Char) :
    KeyOK (consumeRune f p r) := by
  unfold consumeRune
  split
  · exact h
  · exact h.by_deliver _

theorem KeyOK.by_loop {p : Parser} (h : KeyOK p) (f : Char → Bool) (s : List Char) :
    KeyOK (feedLoop f s p).1 := by
  induction s generalizing p with
  | nil => exact h
  | cons r rs ih =>
    simp only [feedLoop]
    split
    · exact h.by_rune f r
    · exact ih (h.by_rune f r)

theorem KeyOK.by_feed {p : Parser} (h : KeyOK p) (f : Char → Bool) (s : Str) :
    KeyOK (FeedString f p s).1 := by
  unfold FeedString
  split
  · exact h
  · have h' := h.by_loop f s
    split
    · rename_i hr
      rw [hr] at h'
      exact h'
    · rename_i hr
      rw [hr] at h'
      exact h'.by_flush

theorem KeyOK.by_feedAll {p : Parser} (h : KeyOK p) (f : Char → Bool) (chunks : List Str) :
    KeyOK (feedAll f p chunks) := by
  induction chunks generalizing p with
  | nil => exact h
  | cons c cs ih => exact ih (h.by_feed f c)

theorem KeyOK.by_steps {p : Parser} (h : KeyOK p) (l : List ParserStep) : KeyOK (p.steps l) := by
  unfold Parser.steps
  induction l generalizing p with
  | nil => exact h
  | cons s l ih =>
    apply ih
    cases s
    · exact h.by_token _
    · exact h.by_flush
    · simp only [Parser.step, On]
      split
      · exact h
      · exact h.by_eq rfl rfl

theorem keyOK_new : KeyOK NewParser := KeyOK.by_state (by simp [NewParser])

/-- With an Object on top, the end of a key sets the key and reports no error. -/
theorem onStringEnd_key (p : Parser) (hs : p.state = .pObjExpectKey) (top : frame)
    (ht : topFrame p = some top) :
    onStringEnd p =
      { setTop p { top with key := p.curString } with
        segmentsDirty := true, curString := [], state := .pObjAfterKey } := by
  unfold onStringEnd
  rw [hs]
  simp only [onStringEndKey, ht]

end Parser

/-- C39: in every state a fresh parser reaches by Feed calls alone, and more
generally by any sequence of tokens handed to `OnToken`, end-of-feed flushes
and subscriptions, if the parser state is ObjExpectKey then the frame stack is
non-empty and its top frame is an Object; so a StringEnd token in that state
takes the branch that sets the key of the top frame, and the
ErrUnexpectedToken branch of the key case is not taken. -/
theorem key_state_has_object (isLetter : Char → Bool) :
    (∀ chunks : List Str, (feedAll isLetter NewParser chunks).state = .pObjExpectKey →
      ∃ top, (feedAll isLetter NewParser chunks).stack.getLast? = some top ∧
        top.kind = .frameObject) ∧
    (∀ steps : List ParserStep, (NewParser.steps steps).state = .pObjExpectKey →
      ∃ top, (NewParser.steps steps).stack.getLast? = some top ∧ top.kind = .frameObject ∧
        Parser.onStringEnd (NewParser.steps steps) =
          { Parser.setTop (NewParser.steps steps)
              { top with key := (NewParser.steps steps).curString } with
            segmentsDirty := true, curString := [], state := .pObjAfterKey } ∧
        (Parser.onStringEnd (NewParser.steps steps)).err = (NewParser.steps steps).err) := by
  constructor
  · intro chunks hs
    obtain ⟨top, h1, h2⟩ := Parser.keyOK_new.by_feedAll isLetter chunks hs
    exact ⟨top, by simpa using h1, h2⟩
  · intro steps hs
    obtain ⟨top, h1, h2⟩ := Parser.keyOK_new.by_steps steps hs
    have h3 := Parser.onStringEnd_key _ hs top h1
    refine ⟨top, by simpa using h1, h2, h3, ?_⟩
    rw [h3]
    simp [Parser.setTop]

/-! ## Segment vectors and paths of events (C35 to C38) -/

namespace Parser

/-- While feeding, the cache is usable: feeds keep it so. -/
theorem cacheOK_FeedString (f : Char → Bool) (p : Parser) (s : Str) (h : p.CacheOK) :
    (FeedString f p s).1.CacheOK := by
  have hl : (feedLoop f s p).1.CacheOK := (feedLoop_rel f s p p ⟨h, h, rfl, rfl⟩).1.1
  unfold FeedString
  split
  · exact h
  · split
    · rename_i hr
      rw [hr] at hl
      exact hl
    · rename_i hr
      rw [hr] at hl
      exact (stable_flushStringChunk _ hl).2.2

theorem cacheOK_feedAll (f : Char → Bool) (chunks : List Str) :
    ∀ p : Parser, p.CacheOK → (feedAll f p chunks).CacheOK := by
  induction chunks with
  | nil => intro p h; exact h
  | cons c cs ih => intro p h; exact ih _ (cacheOK_FeedString f p c h)

end Parser

/-- C35, the code as it stands.  While feeding, the cache is usable and `emit`
attaches the vector computed from the stack.  `closeUnfinishedFrames` pops
without marking the cache dirty, and `emit` then trusts the cache whenever
its length equals the stack depth: after `FeedString("{[")`, `Close(false)`
emits ArrayEnd, pops the Array frame, and emits the ObjectEnd of the root object
with the segment vector `[0]` of the popped Array frame, although the stack at
that moment holds only the Object frame without key, whose vector is empty. -/
theorem close_attaches_stale_segments (isLetter : Char → Bool) :
    (∀ (p : Parser) (ev : Event), p.CacheOK →
      (Parser.emit p ev).trace = p.trace ++ [{ ev with pathSegments := stackSegments p.stack }]) ∧
    (∀ chunks : List Str, (feedAll isLetter NewParser chunks).CacheOK) ∧
    ((Parser.FeedString isLetter NewParser "\x7b[".toList).1.Close false).trace.map
        (fun e => (e.Typ, e.pathSegments)) =
      [(.EventObjectStart, []),
       (.EventArrayStart, [{ Kind := .SegIndex, Value := "0".toList }]),
       (.EventArrayEnd, [{ Kind := .SegIndex, Value := "0".toList }]),
       (.EventObjectEnd, [{ Kind := .SegIndex, Value := "0".toList }]),
       (.EventStreamAbort, [])] ∧
    (Parser.closeFramesLoop 1 (Parser.flushIncompleteValue
        { Parser.closeTokenizer (Parser.FeedString isLetter NewParser "\x7b[".toList).1 with
          closing := true })).stack = [{ kind := .frameObject }] ∧
    stackSegments [{ kind := .frameObject }] = [] := by
  refine ⟨fun p ev h => by rw [Parser.emit_trace, Parser.emitSegments_of_cacheOK p h],
    fun chunks => Parser.cacheOK_feedAll isLetter chunks NewParser (fun _ => rfl), ?_, ?_, rfl⟩
  · rw [Parser.FeedString_indep isLetter (fun _ => false) NewParser NewTokenizer _ rfl
      (by decide)]
    decide
  · rw [Parser.FeedString_indep isLetter (fun _ => false) NewParser NewTokenizer _ rfl
      (by decide)]
    decide

/-- C37, the code as it stands: for `{"a":{}}` the inner object starts with the
path `$.a` and ends with the path `$` (its frame has no key and so no segment,
and the excludeTop option of the ObjectEnd drops the segment `a` of the parent);
the outer object starts with the empty path and ends with `$`.  For `[{}]` the
object starts with `$[0]` and ends with `$`. -/
theorem empty_object_ends_at_parent_path (isLetter : Char → Bool) :
    (Parser.FeedString isLetter NewParser "\x7b\"a\":\x7b\x7d\x7d".toList).1.trace.map
        (fun e => (e.Typ, e.Path)) =
      [(.EventObjectStart, []), (.EventObjectStart, "$.a".toList),
       (.EventObjectEnd, "$".toList), (.EventObjectEnd, "$".toList)] ∧
    (Parser.FeedString isLetter NewParser "[\x7b\x7d]".toList).1.trace.map
        (fun e => (e.Typ, e.Path)) =
      [(.EventArrayStart, "$".toList), (.EventObjectStart, "$[0]".toList),
       (.EventObjectEnd, "$".toList), (.EventArrayItem, "$[0]".toList),
       (.EventArrayEnd, "$".toList)] := by
  rw [Parser.FeedString_indep isLetter (fun _ => false) NewParser NewTokenizer _ rfl (by decide),
    Parser.FeedString_indep isLetter (fun _ => false) NewParser NewTokenizer _ rfl (by decide)]
  decide

/-- C38, the code as it stands: a string that ends where no string is expected
is not discarded; its characters stay in the accumulator and are joined to the
next key.  After `"x"{"a"` the key of the top frame is `xa`, and `"x"{"a":1}`
reports the value at `$.xa`; `{"a":1 "b","c":2}` reports the second value at
`$.bc`. -/
theorem earlier_string_leaks_into_key (isLetter : Char → Bool) :
    (Parser.FeedString isLetter NewParser "\"x\"\x7b\"a\"".toList).1.stack =
      [{ kind := .frameObject, key := "xa".toList }] ∧
    (Parser.FeedString isLetter NewParser "\"x\"\x7b\"a\":1\x7d".toList).1.trace.map
        (fun e => (e.Typ, e.Path)) =
      [(.EventObjectStart, []), (.EventFieldValue, "$.xa".toList),
       (.EventObjectEnd, "$".toList)] ∧
    (Parser.FeedString isLetter NewParser
        "\x7b\"a\":1 \"b\",\"c\":2\x7d".toList).1.trace.map (fun e => (e.Typ, e.Path)) =
      [(.EventObjectStart, []), (.EventFieldValue, "$.a".toList),
       (.EventFieldValue, "$.bc".toList), (.EventObjectEnd, "$".toList)] := by
  rw [Parser.FeedString_indep isLetter (fun _ => false) NewParser NewTokenizer _ rfl (by decide),
    Parser.FeedString_indep isLetter (fun _ => false) NewParser NewTokenizer _ rfl (by decide),
    Parser.FeedString_indep isLetter (fun _ => false) NewParser NewTokenizer _ rfl (by decide)]
  decide

theorem forall2_segmentMatches_eq : ∀ (pattern path : List PathSegment),
    List.Forall₂ segmentMatches pattern path →
    (∀ seg ∈ pattern, seg.Kind ≠ .SegWildcard) → path = pattern := by
  intro pattern path h
  induction h with
  | nil => intro _; rfl
  | @cons p s ps ss hps _ ih =>
    intro hw
    have hk := hw p (List.mem_cons_self _ _)
    have hrest := ih (fun x hx => hw x (List.mem_cons_of_mem _ hx))
    obtain ⟨pk, pv⟩ := p
    obtain ⟨sk, sv⟩ := s
    rcases hps with h1 | ⟨h1, h2, h3⟩ | ⟨h1, h2, h3⟩
    · exact absurd h1 hk
    · simp only at h1 h2 h3
      rw [hrest, h1, h2, h3]
    · simp only at h1 h2 h3
      rw [hrest, h1, h2, h3]

/-- C36 as stated fails: a handler subscribed with `$.a` and fed `{"a":1}`
receives, after the FieldValue with path `$.a`, the ObjectEnd of the root
object, whose segment vector is still `a` and whose path is `$`. -/
theorem handler_receives_parent_end :
    ((NewParser.On "$.a".toList 7).map (fun p =>
      (Parser.FeedString Char.isAlpha p "\x7b\"a\":1\x7d".toList).1.calls.map
        (fun c => (c.1, c.2.Typ, c.2.pathSegments, c.2.Path)))) =
      some [(7, .EventFieldValue, [{ Kind := .SegField, Value := "a".toList }], "$.a".toList),
            (7, .EventObjectEnd, [{ Kind := .SegField, Value := "a".toList }], "$".toList)] := by
  decide

/-- C36 amended: over every sequence of Feed and Close calls, the handler
invocations added are those of the events added, for the subscriptions whose
pattern matches the segment vector of the event; an event delivered for a
wildcard-free pattern carries exactly the segments of the pattern, and for a
pattern with at least one segment its path is the rendering of those segments
under the path options of its type: the rendering of the pattern for every
event type but ObjectEnd, ArrayEnd and ArrayStart, and the rendering of the
pattern without its last segment for ObjectEnd and ArrayEnd. -/
theorem delivered_events_carry_pattern (isLetter : Char → Bool) (p : Parser) (ops : List Op) :
    ∃ evs, (runOps isLetter p ops).trace = p.trace ++ evs ∧
      (runOps isLetter p ops).calls = p.calls ++ evs.flatMap (dispatch p.subs) ∧
      ∀ ev ∈ evs, ∀ sub ∈ p.subs,
        matchSegments sub.Pattern.Segments ev.pathSegments = true →
        (∀ seg ∈ sub.Pattern.Segments, seg.Kind ≠ .SegWildcard) →
        ev.pathSegments = sub.Pattern.Segments ∧
        (sub.Pattern.Segments ≠ [] →
          ev.Path = buildPathFromSegments sub.Pattern.Segments ev.Typ.pathOpts ∧
          (ev.Typ ≠ .EventObjectEnd → ev.Typ ≠ .EventArrayEnd → ev.Typ ≠ .EventArrayStart →
            ev.Path = '$' :: renderSegments sub.Pattern.Segments) ∧
          (ev.Typ = .EventObjectEnd ∨ ev.Typ = .EventArrayEnd →
            ev.Path = '$' :: renderSegments sub.Pattern.Segments.dropLast)) := by
  obtain ⟨_, evs, h1, h2⟩ := (Parser.Dispatches.same p).ops isLetter ops
  obtain ⟨evs', h3, h4⟩ := (Parser.Regular.of_same p).of_ops isLetter ops
  have he : evs' = evs := List.append_cancel_left (h3.symm.trans h1)
  subst he
  refine ⟨evs', h1, h2, ?_⟩
  intro ev hev sub _ hm hw
  have hseg : ev.pathSegments = sub.Pattern.Segments :=
    forall2_segmentMatches_eq _ _ ((matchSegments_iff _ _).mp hm) hw
  refine ⟨hseg, fun hne => ?_⟩
  obtain ⟨hc, ho, _⟩ := h4 ev hev
  have hp : ev.Path = buildPathFromSegments sub.Pattern.Segments ev.Typ.pathOpts := by
    have := ((Parser.regular_path ev (h4 ev hev)).2 (by rw [hseg]; exact hne)).1
    rw [this, hseg, ho]
  refine ⟨hp, ?_, ?_⟩
  · intro n1 n2 n3
    rw [hp, ← buildPath_plain _ hw]
    cases ht : ev.Typ <;> simp_all [EventType.pathOpts]
  · intro ht
    rw [hp, ← buildPath_excludeTop _ false hw]
    rcases ht with ht | ht <;> rw [ht] <;> rfl

/-! ## String values across feeds: every split (C7, C8), and all calls of the
wildcard handler (C9) -/

namespace Parser

theorem strOpenAfter_append (a : List Char) : ∀ (esc : Bool) (b : List Char) (e : Bool)
    (added : Str), strOpenAfter esc (a ++ b) = some (e, added) →
    ∃ e1 a1 a2, strOpenAfter esc a = some (e1, a1) ∧ strOpenAfter e1 b = some (e, a2) ∧
      added = a1 ++ a2 := by
  induction a with
  | nil =>
    intro esc b e added h
    exact ⟨esc, [], added, by simp [strOpenAfter], by simpa using h, rfl⟩
  | cons c cs ih =>
    intro esc b e added h
    cases esc with
    | true =>
      simp only [List.cons_append, strOpenAfter, Option.map_eq_some'] at h
      obtain ⟨⟨e0, a0⟩, h1, h2⟩ := h
      simp only [Prod.mk.injEq] at h2
      obtain ⟨rfl, rfl⟩ := h2
      obtain ⟨e1, a1, a2, h3, h4, rfl⟩ := ih false b _ _ h1
      exact ⟨e1, c :: a1, a2, by simp [strOpenAfter, h3], h4, rfl⟩
    | false =>
      simp only [List.cons_append, strOpenAfter] at h
      by_cases hq : c = '"'
      · simp [hq] at h
      · by_cases hb : c = '\\'
        · subst hb
          simp only [hq, if_false, if_true] at h
          obtain ⟨e1, a1, a2, h3, h4, rfl⟩ := ih true b _ _ h
          exact ⟨e1, a1, a2, by simp [strOpenAfter, h3], h4, rfl⟩
        · simp only [hq, hb, if_false, Option.map_eq_some'] at h
          obtain ⟨⟨e0, a0⟩, h1, h2⟩ := h
          simp only [Prod.mk.injEq] at h2
          obtain ⟨rfl, rfl⟩ := h2
          obtain ⟨e1, a1, a2, h3, h4, rfl⟩ := ih false b _ _ h1
          exact ⟨e1, c :: a1, a2, by simp [strOpenAfter, h3, hq, hb], h4, rfl⟩

/-- Feeds that stay inside a string value: the rest `x` of the current feed and
the whole feeds `xs`.  At the feed boundary reached, the chunk buffer is empty
and the content read so far has been delivered by the append chunks. -/
theorem InString.open_feeds (f : Char → Bool) (T : List Event) : ∀ (xs : List Str) (x : Str)
    (esc : Bool) (p : Parser) (A : List Str) (cur buf : Str) (e : Bool) (added : Str),
    InString T A cur buf esc p → strOpenAfter esc (x ++ xs.flatten) = some (e, added) →
    (xs.foldl (fun acc c => FeedString f acc.1 c) (finishFeed (feedLoop f x p))).2 = none ∧
    ∃ A', InString T A' (cur ++ added) [] e
      (xs.foldl (fun acc c => FeedString f acc.1 c) (finishFeed (feedLoop f x p))).1 := by
  intro xs
  induction xs with
  | nil =>
    intro x esc p A cur buf e added hin h
    simp only [List.flatten_nil, List.append_nil] at h
    obtain ⟨h1, h2⟩ := feedLoop_open f T A x esc p cur buf e added h hin
    simp only [List.foldl, finishFeed_of_none _ h1]
    exact ⟨trivial, _, h2.flushed⟩
  | cons c2 cs ih =>
    intro x esc p A cur buf e added hin h
    simp only [List.flatten_cons] at h
    obtain ⟨e1, a1, a2, h3, h4, rfl⟩ := strOpenAfter_append x esc _ e added h
    obtain ⟨h1, h2⟩ := feedLoop_open f T A x esc p cur buf e1 a1 h3 hin
    have hfl := h2.flushed
    simp only [List.foldl, finishFeed_of_none _ h1,
      FeedString_eq f _ c2 hfl.tokenizer_isSome hfl.err]
    have := ih c2 e1 _ _ _ _ e a2 hfl h4
    simpa [List.append_assoc] using this

/-- Feeds only add events. -/
theorem feeds_extend_trace (f : Char → Bool) (more : List Str) :
    ∀ r : Parser × Option Error,
    ∃ evs, (more.foldl (fun acc c => FeedString f acc.1 c) r).1.trace = r.1.trace ++ evs := by
  induction more with
  | nil => intro r; exact ⟨[], by simp⟩
  | cons c cs ih =>
    intro r
    obtain ⟨evs, h⟩ := ih (FeedString f r.1 c)
    obtain ⟨_, evs0, h0, _⟩ := (Dispatches.same r.1).feed f c
    exact ⟨evs0 ++ evs, by simp only [List.foldl, h, h0, List.append_assoc]⟩

/-- The rest of a feed only adds events. -/
theorem finishFeed_extends_trace (f : Char → Bool) (s : Str) (q : Parser) :
    ∃ evs, (finishFeed (feedLoop f s q)).1.trace = q.trace ++ evs := by
  have h := (Dispatches.same q).loop f s
  cases hr : feedLoop f s q with
  | mk q1 e =>
    rw [hr] at h
    cases e with
    | some e => obtain ⟨_, evs, h1, _⟩ := h; exact ⟨evs, h1⟩
    | none => obtain ⟨_, evs, h1, _⟩ := h.flushStep; exact ⟨evs, h1⟩

/-- The closing quote of a string value, the rest `post` of its feed and the
feeds `more` after it: the append chunk of the closing feed is emitted only when
an append chunk has been emitted before, then comes the complete value. -/
theorem InString.close_feeds {T A cur buf esc q} (f : Char → Bool)
    (h : InString T A cur buf esc q) (c post v2 : Str) (more : List Str)
    (hc : strCloseContent esc c = some v2) :
    ∃ later,
      (more.foldl (fun acc c => FeedString f acc.1 c)
        (finishFeed (feedLoop f (c ++ post) q))).1.trace.map Event.payload =
      T.map Event.payload ++
        (if buf ++ v2 ≠ [] ∧ A ≠ [] then A ++ [buf ++ v2] else A).map appendPayload ++
        [completePayload (cur ++ v2)] ++ later := by
  obtain ⟨h1, tail, h2, _⟩ := feedLoop_close f T A c esc q cur buf v2 hc h
  obtain ⟨evs1, h3⟩ := finishFeed_extends_trace f post (feedLoop f c q).1
  obtain ⟨evs2, h4⟩ := feeds_extend_trace f more (finishFeed (feedLoop f (c ++ post) q))
  rw [feedLoop_append_none f c post q h1] at h4 ⊢
  refine ⟨tail ++ evs1.map Event.payload ++ evs2.map Event.payload, ?_⟩
  rw [h4, h3, List.map_append, List.map_append, h2]
  simp only [List.append_assoc]

/-- The feed that brings the opening quote of a string value, after `pre`. -/
theorem FeedString_open (f : Char → Bool) (p0 : Parser) (pre s : Str)
    (hck : checkState p0 = none) (hpre : (feedLoop f pre p0).2 = none)
    (hs : (feedLoop f pre p0).1.ValueStart) :
    FeedString f p0 (pre ++ '"' :: s) =
      finishFeed (feedLoop f s (consumeRune f (feedLoop f pre p0).1 '"')) := by
  obtain ⟨hk, he⟩ := checkState_none p0 hck
  rw [FeedString_eq f p0 _ hk he, feedLoop_append]
  simp only [contLoop, hpre, feedLoop_cons_of_err_none f '"' s _ (hs.openString f).err]

end Parser

/-- C8 as stated fails outside the value-expecting states and after a stray
string.  A string at the root, fed as `"he` and `llo"`, gets the append events
`he` and `llo` and no complete event, because a StringEnd token is acted on
only in the key state and in the value-expecting states.  And for the string
`ab` of `"x"["a` and `b"]` the events are Append `xa`, Append `b`, Complete
`xab`: the characters of the stray string `x` are still in the accumulators. -/
theorem root_string_has_no_complete :
    (feedChunks Char.isAlpha NewParser ["\"he".toList, "llo\"".toList]).2 = none ∧
    (feedChunks Char.isAlpha NewParser ["\"he".toList, "llo\"".toList]).1.trace.map
        Event.payload =
      [appendPayload "he".toList, appendPayload "llo".toList] ∧
    (feedChunks Char.isAlpha NewParser ["\"x\"[\"a".toList, "b\"]".toList]).1.trace.map
        Event.payload =
      [(.EventArrayStart, none), appendPayload "xa".toList, appendPayload "b".toList,
       completePayload "xab".toList,
       (.EventArrayItem, some { Kind := .ValueString, Complete := true }),
       (.EventArrayEnd, none)] := by
  decide

/-- C7 amended: for a string value whose opening quote is read by a parser
about to read a value with empty accumulators, and for every way of splitting
the input into feeds (`pre` before the opening quote, `post` and the feeds
`more` after the closing quote), the events from the opening quote on are the
append chunks `A`, each non-empty, and then the FieldValue with Complete=true
carrying the whole content.  When the closing quote comes in a later Feed call
than the opening quote, `A` is empty exactly when no character of the content
arrived before the call that brings the closing quote, and otherwise the
chunks of `A` concatenate to the content; when the whole string arrives within
one Feed call, no append chunk is emitted. -/
theorem append_chunks_reconstruct_or_absent (isLetter : Char → Bool) (p0 : Parser) (pre : Str)
    (hck : Parser.checkState p0 = none) (hpre : (Parser.feedLoop isLetter pre p0).2 = none)
    (hs : (Parser.feedLoop isLetter pre p0).1.ValueStart) :
    (∀ (x : Str) (xs : List Str) (esc : Bool) (added c v2 post : Str) (more : List Str),
      strOpenAfter false (x ++ xs.flatten) = some (esc, added) →
      strCloseContent esc c = some v2 →
      ∃ A later,
        (feedChunks isLetter p0
            ((pre ++ '"' :: x) :: xs ++ [c ++ post] ++ more)).1.trace.map Event.payload =
          (Parser.feedLoop isLetter pre p0).1.trace.map Event.payload ++ A.map appendPayload ++
            [completePayload (added ++ v2)] ++ later ∧
        (∀ a ∈ A, a ≠ []) ∧ (A = [] ↔ added = []) ∧
        (added ≠ [] → A.flatten = added ++ v2)) ∧
    (∀ (c v post : Str) (more : List Str), strCloseContent false c = some v →
      ∃ later,
        (feedChunks isLetter p0 ((pre ++ '"' :: (c ++ post)) :: more)).1.trace.map
            Event.payload =
          (Parser.feedLoop isLetter pre p0).1.trace.map Event.payload ++
            [completePayload v] ++ later) := by
  have hin := hs.openString isLetter
  constructor
  · intro x xs esc added c v2 post more hopen hclose
    obtain ⟨_, A', hin'⟩ :=
      Parser.InString.open_feeds isLetter _ xs x false _ [] [] [] esc added hin hopen
    obtain ⟨later, hl⟩ := Parser.InString.close_feeds isLetter hin' c post v2 more hclose
    have hrun : feedChunks isLetter p0 ((pre ++ '"' :: x) :: xs ++ [c ++ post] ++ more) =
        more.foldl (fun acc c => Parser.FeedString isLetter acc.1 c)
          (Parser.finishFeed (Parser.feedLoop isLetter (c ++ post)
            (xs.foldl (fun acc c => Parser.FeedString isLetter acc.1 c)
              (Parser.finishFeed (Parser.feedLoop isLetter x
                (Parser.consumeRune isLetter (Parser.feedLoop isLetter pre p0).1 '"')))).1)) := by
      simp only [feedChunks, List.foldl_append, List.foldl_cons, List.foldl_nil,
        Parser.FeedString_open isLetter p0 pre x hck hpre hs,
        Parser.FeedString_eq isLetter _ (c ++ post) hin'.tokenizer_isSome hin'.err]
    obtain ⟨_, _, _, _, _, _, _, _, hcat, hne⟩ := id hin'
    simp only [List.append_nil, List.nil_append] at hcat hl
    have hA : A' = [] ↔ added = [] := by
      constructor
      · intro h0; rw [h0] at hcat; exact hcat.symm
      · intro h0; exact Parser.flatten_eq_nil_of_nonempty A' hne (hcat.trans h0)
    refine ⟨if v2 ≠ [] ∧ A' ≠ [] then A' ++ [v2] else A', later, ?_, ?_, ?_, ?_⟩
    · rw [hrun]; exact hl
    · intro a ha
      split at ha
      · rename_i hc2
        rcases List.mem_append.mp ha with h | h
        · exact hne a h
        · simp only [List.mem_singleton] at h
          rw [h]; exact hc2.1
      · exact hne a ha
    · by_cases h0 : A' = []
      · simp [h0, hA.mp h0]
      · have h1 : added ≠ [] := fun h => h0 (hA.mpr h)
        by_cases h2 : v2 = []
        · simp [h0, h1, h2]
        · simp [h0, h1, h2]
    · intro h1
      have h0 : A' ≠ [] := fun h => h1 (hA.mp h)
      by_cases h2 : v2 = []
      · simp [h0, h2, hcat]
      · simp [h0, h2, hcat]
  · intro c v post more hclose
    obtain ⟨later, hl⟩ := Parser.InString.close_feeds isLetter hin c post v more hclose
    refine ⟨later, ?_⟩
    simp only [feedChunks, List.foldl_cons,
      Parser.FeedString_open isLetter p0 pre (c ++ post) hck hpre hs]
    simpa using hl

/-- Instance of the string chunk statement: `{"s":"he` followed by `llo"}`, where
the append chunks concatenate to `hello`, and `{"s":"hello"}` in one call. -/
theorem append_chunks_witness :
    (∃ A later,
      (feedChunks Char.isAlpha NewParser
          ["\x7b\"s\":\"he".toList, "llo\"\x7d".toList]).1.trace.map Event.payload =
        (Parser.feedLoop Char.isAlpha "\x7b\"s\":".toList NewParser).1.trace.map Event.payload ++
          A.map appendPayload ++ [completePayload "hello".toList] ++ later ∧
      (∀ a ∈ A, a ≠ []) ∧ (A = [] ↔ "he".toList = []) ∧
      ("he".toList ≠ [] → A.flatten = "hello".toList)) ∧
    (∃ later,
      (feedChunks Char.isAlpha NewParser ["\x7b\"s\":\"hello\"\x7d".toList]).1.trace.map
          Event.payload =
        (Parser.feedLoop Char.isAlpha "\x7b\"s\":".toList NewParser).1.trace.map Event.payload ++
          [completePayload "hello".toList] ++ later) :=
  ⟨(append_chunks_reconstruct_or_absent Char.isAlpha NewParser "\x7b\"s\":".toList (by decide)
      (by decide) (by unfold Parser.ValueStart; decide)).1 "he".toList [] false "he".toList
      "llo\"".toList "llo".toList "\x7d".toList [] (by decide) (by decide),
   (append_chunks_reconstruct_or_absent Char.isAlpha NewParser "\x7b\"s\":".toList (by decide)
      (by decide) (by unfold Parser.ValueStart; decide)).2 "hello\"".toList "hello".toList
      "\x7d".toList [] (by decide)⟩

/-- C8 amended: for a string value whose opening quote is read by a parser about
to read a value (state ObjExpectValue or ArrExpectValue) with empty
accumulators: (1) when that Feed call ends right after the non-empty plain part
`a` and the next call is the non-empty plain rest `b` with the closing quote,
the events of the value are exactly Append `a` (after the first call) and then
Append `b`, Complete `a ++ b`, followed at most by ArrayItem events; (2) after
any number of Feed calls inside the string, a further call that adds characters
without ending the string emits exactly one event, the append event carrying
exactly the characters added in that call; (3) in every state other than the
key state, a Feed call of non-empty plain characters inside a string emits
exactly one event, the append event carrying the chunk buffer followed by
those characters, and leaves the string in flight. -/
theorem string_split_across_two_feeds (isLetter : Char → Bool) :
    (∀ (p0 : Parser) (pre a b : Str),
      Parser.checkState p0 = none → (Parser.feedLoop isLetter pre p0).2 = none →
      (Parser.feedLoop isLetter pre p0).1.ValueStart →
      a ≠ [] → b ≠ [] → plainChars a → plainChars b →
      (Parser.FeedString isLetter p0 (pre ++ '"' :: a)).2 = none ∧
      (Parser.FeedString isLetter p0 (pre ++ '"' :: a)).1.trace.map Event.payload =
        (Parser.feedLoop isLetter pre p0).1.trace.map Event.payload ++ [appendPayload a] ∧
      (Parser.FeedString isLetter
        (Parser.FeedString isLetter p0 (pre ++ '"' :: a)).1 (b ++ ['"'])).2 = none ∧
      ∃ tail,
        (Parser.FeedString isLetter
          (Parser.FeedString isLetter p0 (pre ++ '"' :: a)).1 (b ++ ['"'])).1.trace.map
            Event.payload =
          (Parser.feedLoop isLetter pre p0).1.trace.map Event.payload ++
            [appendPayload a, appendPayload b, completePayload (a ++ b)] ++ tail ∧
        ∀ x ∈ tail, x.1 = EventType.EventArrayItem) ∧
    (∀ (p0 : Parser) (pre x : Str) (xs : List Str) (esc : Bool) (added c : Str) (esc' : Bool)
        (addedc : Str),
      Parser.checkState p0 = none → (Parser.feedLoop isLetter pre p0).2 = none →
      (Parser.feedLoop isLetter pre p0).1.ValueStart →
      strOpenAfter false (x ++ xs.flatten) = some (esc, added) →
      strOpenAfter esc c = some (esc', addedc) → addedc ≠ [] →
      (feedChunks isLetter p0 ((pre ++ '"' :: x) :: xs ++ [c])).2 = none ∧
      (feedChunks isLetter p0 ((pre ++ '"' :: x) :: xs ++ [c])).1.trace.map Event.payload =
        (feedChunks isLetter p0 ((pre ++ '"' :: x) :: xs)).1.trace.map Event.payload ++
          [appendPayload addedc]) ∧
    (∀ (p : Parser) (t : Tokenizer) (c : Str),
      p.tokenizer = some t → t.state = .tString → p.err = none →
      p.state ≠ .pObjExpectKey → c ≠ [] → plainChars c →
      (Parser.FeedString isLetter p c).2 = none ∧
      (Parser.FeedString isLetter p c).1.trace = p.trace ++
        [{ Typ := .EventFieldValue, pathSegments := p.emitSegments,
           Value := some { Kind := .ValueString, Value := .str (p.chunkBuffer ++ c),
                           Append := true } }] ∧
      (Parser.FeedString isLetter p c).1.curString = p.curString ++ c ∧
      (Parser.FeedString isLetter p c).1.chunkBuffer = [] ∧
      (Parser.FeedString isLetter p c).1.tokenizer = some t) := by
  refine ⟨?_, ?_, ?_⟩
  · intro p0 pre a b hck hpre hs ha hb hpa hpb
    have hin := hs.openString isLetter
    obtain ⟨h1, h2⟩ := Parser.feedLoop_open isLetter _ [] a false _ [] [] false a
      (Parser.strOpenAfter_plain a hpa) hin
    rw [Parser.FeedString_open isLetter p0 pre a hck hpre hs, Parser.finishFeed_of_none _ h1]
    have h3 := h2.flushed
    simp only [List.nil_append, ha, if_false] at h3
    obtain ⟨h4, h5⟩ := h3.feed_close isLetter (b ++ ['"']) b (Parser.strCloseContent_plain b hpb)
    simp only [List.nil_append, ne_eq, hb, not_false_eq_true, List.cons_ne_self, and_self,
      if_true, List.singleton_append] at h5
    obtain ⟨tail, h6, h7, _⟩ := h5
    refine ⟨rfl, ?_, h4, tail, ?_, h7⟩
    · simpa using h3.2.2.2.2.2.1
    · simpa using h6
  · intro p0 pre x xs esc added c esc' addedc hck hpre hs hopen hc hne
    have hin := hs.openString isLetter
    obtain ⟨_, A', hin'⟩ :=
      Parser.InString.open_feeds isLetter _ xs x false _ [] [] [] esc added hin hopen
    obtain ⟨h1, h2⟩ := hin'.feed_open isLetter c esc' addedc hc
    have htr := hin'.2.2.2.2.2.1
    have htr2 := h2.2.2.2.2.2.1
    simp only [List.nil_append, hne, if_false, List.map_append, List.map_cons, List.map_nil]
      at htr2
    simp only [feedChunks, List.foldl_append, List.foldl_cons, List.foldl_nil,
      Parser.FeedString_open isLetter p0 pre x hck hpre hs]
    refine ⟨h1, ?_⟩
    rw [htr2, htr, List.append_assoc]
  · intro p t c ht hst he hkey hc hpc
    have hk : p.tokenizer.isSome := by rw [ht]; rfl
    rw [Parser.FeedString_eq isLetter p c hk he,
      Parser.feedLoop_plain isLetter c p t ht hst he hkey hpc]
    simp [Parser.finishFeed, Parser.flushStringChunk, hc, ht, Parser.emitSegments]

/-- Instance of the two-feed statement: `{"s":"he` followed by `llo"`, and the
in-flight string after `{"s":"he` fed `llo`. -/
theorem string_split_witness :
    ((Parser.FeedString Char.isAlpha NewParser ("\x7b\"s\":".toList ++ '"' :: "he".toList)).1.trace.map
        Event.payload =
      (Parser.feedLoop Char.isAlpha "\x7b\"s\":".toList NewParser).1.trace.map Event.payload ++
        [appendPayload "he".toList]) ∧
    ((feedChunks Char.isAlpha NewParser
        ["\x7b\"s\":\"he".toList, "l\\\"".toList, "lo".toList]).1.trace.map Event.payload =
      (feedChunks Char.isAlpha NewParser
        ["\x7b\"s\":\"he".toList, "l\\\"".toList]).1.trace.map Event.payload ++
        [appendPayload "lo".toList]) ∧
    (Parser.FeedString Char.isAlpha
        (Parser.FeedString Char.isAlpha NewParser "\x7b\"s\":\"he".toList).1 "llo".toList).1.curString =
      "hello".toList :=
  ⟨((string_split_across_two_feeds Char.isAlpha).1 NewParser "\x7b\"s\":".toList "he".toList
      "llo".toList (by decide) (by decide) (by unfold Parser.ValueStart; decide) (by decide)
      (by decide) (by unfold plainChars; decide) (by unfold plainChars; decide)).2.1,
   ((string_split_across_two_feeds Char.isAlpha).2.1 NewParser "\x7b\"s\":".toList "he".toList
      ["l\\\"".toList] false "hel\"".toList "lo".toList false "lo".toList (by decide) (by decide)
      (by unfold Parser.ValueStart; decide) (by decide) (by decide) (by decide)).2,
   ((string_split_across_two_feeds Char.isAlpha).2.2
      (Parser.FeedString Char.isAlpha NewParser "\x7b\"s\":\"he".toList).1
      { state := .tString, buf := [] } "llo".toList (by decide) (by decide) (by decide)
      (by decide) (by decide) (by unfold plainChars; decide)).2.2.1⟩

/-- The calls for the elements from index `k` on, by position: call `2 * i` is
the FieldValue of element `k + i`, call `2 * i + 1` its ObjectEnd. -/
theorem itemCalls_getElem (h : Handler) (vs : List Str) : ∀ (k i : Nat) (v : Str),
    vs[i]? = some v →
    (itemCalls h k vs)[2 * i]? = some (h, itemIdValue (k + i) v) ∧
    (itemCalls h k vs)[2 * i + 1]? = some (h, itemEnd (k + i)) := by
  induction vs with
  | nil => intro k i v hv; simp at hv
  | cons w ws ih =>
    intro k i v hv
    cases i with
    | zero =>
      simp only [List.getElem?_cons_zero, Option.some.injEq] at hv
      subst hv
      simp [itemCalls]
    | succ i =>
      simp only [List.getElem?_cons_succ] at hv
      obtain ⟨h1, h2⟩ := ih (k + 1) i v hv
      have e1 : 2 * (i + 1) = (2 * i + 1) + 1 := by omega
      have e2 : k + (i + 1) = k + 1 + i := by omega
      rw [e1, e2]
      simp only [itemCalls, List.getElem?_cons_succ]
      exact ⟨h1, h2⟩

theorem itemCalls_length (h : Handler) (vs : List Str) : ∀ k : Nat,
    (itemCalls h k vs).length = 2 * vs.length := by
  induction vs with
  | nil => intro k; rfl
  | cons v vs ih =>
    intro k
    simp only [itemCalls, List.length_cons, ih (k + 1)]
    omega

/-- C9 amended: for every input `{"items":[{"id":v0},...,{"id":v(n-1)}]}` with
number texts `vi`, a handler subscribed with `$.items[*].id` is invoked exactly
2n times: for each element in order, first with the FieldValue of its `id`
(path `$.items[i].id`, the complete Number value `vi`) and then with the
ObjectEnd of the element (segment vector `items`, `i`, `id`; path
`$.items[i]`).  So the invocations that carry a FieldValue event are exactly n,
the i-th being the one for `$.items[i].id` with value `vi`. -/
theorem wildcard_handler_calls (isLetter : Char → Bool) (h : Handler) (vs : List Str)
    (hv : ∀ v ∈ vs, numberText v) :
    (NewParser.On "$.items[*].id".toList h).map (fun p =>
      (Parser.FeedString isLetter p (itemsInput vs)).1.calls) = some (itemCalls h 0 vs) ∧
    (itemCalls h 0 vs).length = 2 * vs.length ∧
    (∀ (i : Nat) (v : Str), vs[i]? = some v →
      (itemCalls h 0 vs)[2 * i]? = some (h, itemIdValue i v) ∧
      (itemCalls h 0 vs)[2 * i + 1]? = some (h, itemEnd i)) ∧
    (NewParser.On "$.items[*].id".toList h).map (fun p =>
      (Parser.FeedString isLetter p (itemsInput vs)).1.calls.filter
        (fun c => c.2.Typ == .EventFieldValue)) = some (itemValueCalls h 0 vs) ∧
    (itemValueCalls h 0 vs).length = vs.length ∧
    ∀ (i : Nat) (v : Str),
      (itemIdValue i v).Typ = .EventFieldValue ∧
      (itemIdValue i v).Path = "$.items[".toList ++ Itoa i ++ "].id".toList ∧
      (itemIdValue i v).Value =
        some { Kind := .ValueNumber, Value := .str v, Complete := true } ∧
      (itemEnd i).Typ = .EventObjectEnd ∧ (itemEnd i).Value = none ∧
      (itemEnd i).pathSegments = (itemIdValue i v).pathSegments ∧
      (itemEnd i).Path = "$.items[".toList ++ Itoa i ++ "]".toList := by
  refine ⟨?_, itemCalls_length h vs 0, ?_, ?_, ?_, ?_⟩
  · rw [Parser.On_itemsId, Option.map_some', Parser.itemsInput_calls isLetter h vs hv]
  · intro i v hi
    simpa using itemCalls_getElem h vs 0 i v hi
  · rw [Parser.On_itemsId, Option.map_some', Parser.itemsInput_calls isLetter h vs hv,
      Parser.itemCalls_fieldValues]
  · generalize 0 = i
    induction vs generalizing i with
    | nil => rfl
    | cons v vs ih =>
      simp only [itemValueCalls, List.length_cons]
      rw [ih (fun x hx => hv x (List.mem_cons_of_mem _ hx))]
  · intro i v
    refine ⟨rfl, ?_, rfl, rfl, rfl, rfl, ?_⟩
    · simp [Event.Path, buildPathFromSegments, buildPathLoop, itemIdValue, itemIdSegments]
    · simp [Event.Path, buildPathFromSegments, buildPathLoop, itemEnd, itemIdSegments]

/-- Instance of the wildcard handler statement for the values `1`, `2`: four
calls, two of them with a FieldValue. -/
theorem wildcard_handler_witness :
    (∀ v ∈ ["1".toList, "2".toList], numberText v) ∧
    (NewParser.On "$.items[*].id".toList 7).map (fun p =>
      (Parser.FeedString Char.isAlpha p (itemsInput ["1".toList, "2".toList])).1.calls) =
      some [(7, itemIdValue 0 "1".toList), (7, itemEnd 0),
            (7, itemIdValue 1 "2".toList), (7, itemEnd 1)] :=
  have hv : ∀ v ∈ ["1".toList, "2".toList], numberText v := by
    intro v hv
    simp only [List.mem_cons, List.mem_singleton, List.not_mem_nil, or_false] at hv
    rcases hv with rfl | rfl
    · exact ⟨'1', [], rfl, Or.inl (by decide), by simp⟩
    · exact ⟨'2', [], rfl, Or.inl (by decide), by simp⟩
  ⟨hv, (wildcard_handler_calls Char.isAlpha 7 _ hv).1⟩

end Stream
